import Mathlib

/-!
# libvips: subtract, quadratic and Radiance kernels

A shallow embedding of the line kernels of `arithmetic/subtract.c`,
`resample/quadratic.c` and `foreign/radiance.c`, and the properties proved
about them.

Conventions.
* C integers are `Int`/`Nat`; a conversion to a `w`-bit signed type is the
  explicit wrap `wrapS w`.
* Floating-point values are kept abstract (`FloatOps`); the geometry of
  `vips_quadratic_gen` is stated in exact arithmetic over `ℚ` where a property
  is about exact arithmetic, and in an abstract arithmetic of `double`
  (`DoubleOps`) where it is not.
* A pointer into an array is the array together with an offset; a store
  outside the array is the distinguished outcome `oob`, a load outside it the
  outcome `oob_load`. The scanline generator is also given in the memory of a
  region (`rad2vips_generate_mem`), where the load before a row is served.
* A text handed over as `const char *` is a C string: it ends at its first
  NUL (`c_string`).
-/

namespace Vips

/-! ## arithmetic/subtract.c -/

/-- Band formats, in the order of the C enumeration
(`UC C US S UI I F X D DX`, the index order of the format tables). -/
inductive VipsBandFormat
  | UCHAR | CHAR | USHORT | SHORT | UINT | INT | FLOAT | COMPLEX | DOUBLE | DPCOMPLEX
  deriving DecidableEq, Repr

namespace VipsBandFormat

/-- Numeric value of the enumeration constant. -/
def toNat : VipsBandFormat → Nat
  | UCHAR => 0 | CHAR => 1 | USHORT => 2 | SHORT => 3 | UINT => 4
  | INT => 5 | FLOAT => 6 | COMPLEX => 7 | DOUBLE => 8 | DPCOMPLEX => 9

end VipsBandFormat

open VipsBandFormat

/-- The predicate `vips_band_format_iscomplex`. -/
def vips_band_format_iscomplex : VipsBandFormat → Bool
  | COMPLEX | DPCOMPLEX => true
  | _ => false

/-- Abstract floating point: the carrier of `float`, the carrier of `double`
and their subtraction. Nothing is assumed about rounding. -/
structure FloatOps where
  F : Type
  D : Type
  fsub : F → F → F
  dsub : D → D → D

/-- An instance of `FloatOps` with exact rational arithmetic. It is only used
to instantiate statements about integer formats, which never touch it. -/
def FloatOps.exact : FloatOps where
  F := ℚ
  D := ℚ
  fsub := fun a b => a - b
  dsub := fun a b => a - b

/-- C type of one input element of a line of the given format (the `IN` type of
`LOOP`; complex formats are pairs of floating-point elements). -/
@[reducible] def InT (M : FloatOps) : VipsBandFormat → Type
  | FLOAT | COMPLEX => M.F
  | DOUBLE | DPCOMPLEX => M.D
  | _ => Int

/-- C type of one output element (the `OUT` type of `LOOP`). -/
@[reducible] def OutT (M : FloatOps) : VipsBandFormat → Type
  | FLOAT | COMPLEX => M.F
  | DOUBLE | DPCOMPLEX => M.D
  | _ => Int

/-- Conversion of an integer to a `w`-bit two's complement signed type. -/
def wrapS (w : Nat) (v : Int) : Int :=
  (v + 2 ^ (w - 1)) % 2 ^ w - 2 ^ (w - 1)

/-- Range of the values of an integer format (`none` for the floating-point
formats). -/
def formatRange : VipsBandFormat → Option (Int × Int)
  | UCHAR => some (0, 255)
  | CHAR => some (-128, 127)
  | USHORT => some (0, 65535)
  | SHORT => some (-32768, 32767)
  | UINT => some (0, 4294967295)
  | INT => some (-2147483648, 2147483647)
  | _ => none

/-- A value lies in the range of an integer format. -/
def inFormat (f : VipsBandFormat) (v : Int) : Prop :=
  match formatRange f with
  | some (lo, hi) => lo ≤ v ∧ v ≤ hi
  | none => False

/-- The `LOOP(IN, OUT)` macro: `for (x = 0; x < sz; x++) q[x] = left[x] - right[x]`.
`op` is the subtraction followed by the conversion to `OUT`; `q` is the output
memory before the loop, the result the output memory after `sz` iterations. -/
def LOOP {α β : Type} (op : α → α → β) (left right : Nat → α) (q : Nat → β) :
    Nat → Nat → β
  | 0 => q
  | x + 1 => Function.update (LOOP op left right q x) x (op (left x) (right x))

/-- The size `sz` of `vips_subtract_buffer`: complex just doubles the size. -/
def subtract_sz (fmt : VipsBandFormat) (bands width : Nat) : Nat :=
  width * bands * (if vips_band_format_iscomplex fmt then 2 else 1)

/-- The function `vips_subtract_buffer`: one line of `in[0] - in[1]`, by format.

* 8 and 16 bit inputs are promoted to `int`, subtracted exactly and converted
  to the output type;
* `signed int` is subtracted in `int` (overflow modelled as wrap-around);
* `unsigned int` is subtracted modulo `2^32` and converted to `signed int`. -/
def vips_subtract_buffer (M : FloatOps) (bands width : Nat) :
    (fmt : VipsBandFormat) → (out : Nat → OutT M fmt) →
    (in0 in1 : Nat → InT M fmt) → Nat → OutT M fmt
  | CHAR, out, in0, in1 =>
    LOOP (fun l r : Int => wrapS 16 (l - r)) in0 in1 out (subtract_sz CHAR bands width)
  | UCHAR, out, in0, in1 =>
    LOOP (fun l r : Int => wrapS 16 (l - r)) in0 in1 out (subtract_sz UCHAR bands width)
  | SHORT, out, in0, in1 =>
    LOOP (fun l r : Int => wrapS 32 (l - r)) in0 in1 out (subtract_sz SHORT bands width)
  | USHORT, out, in0, in1 =>
    LOOP (fun l r : Int => wrapS 32 (l - r)) in0 in1 out (subtract_sz USHORT bands width)
  | INT, out, in0, in1 =>
    LOOP (fun l r : Int => wrapS 32 (l - r)) in0 in1 out (subtract_sz INT bands width)
  | UINT, out, in0, in1 =>
    LOOP (fun l r : Int => wrapS 32 ((l - r) % 2 ^ 32)) in0 in1 out
      (subtract_sz UINT bands width)
  | FLOAT, out, in0, in1 => LOOP M.fsub in0 in1 out (subtract_sz FLOAT bands width)
  | COMPLEX, out, in0, in1 => LOOP M.fsub in0 in1 out (subtract_sz COMPLEX bands width)
  | DOUBLE, out, in0, in1 => LOOP M.dsub in0 in1 out (subtract_sz DOUBLE bands width)
  | DPCOMPLEX, out, in0, in1 =>
    LOOP M.dsub in0 in1 out (subtract_sz DPCOMPLEX bands width)

/-- The table `vips_subtract_format_table[10]`, indexed by the input band format. -/
def vips_subtract_format_table : List VipsBandFormat :=
  [SHORT, SHORT, INT, INT, INT, INT, FLOAT, COMPLEX, DOUBLE, DPCOMPLEX]

/-- The type promotion table of the `vips_subtract` documentation, row by
row (written from the documentation, to be compared with the C table). -/
def subtract_documented_output : VipsBandFormat → VipsBandFormat
  | UCHAR => SHORT
  | CHAR => SHORT
  | USHORT => INT
  | SHORT => INT
  | UINT => INT
  | INT => INT
  | FLOAT => FLOAT
  | DOUBLE => DOUBLE
  | COMPLEX => COMPLEX
  | DPCOMPLEX => DPCOMPLEX

instance (f : VipsBandFormat) (v : Int) : Decidable (inFormat f v) := by
  unfold inFormat
  cases formatRange f with
  | none => exact instDecidableFalse
  | some p => exact instDecidableAnd

/-! ## resample/quadratic.c -/

/-- The structure `VipsRect`. -/
structure VipsRect where
  left : Int
  top : Int
  width : Int
  height : Int
  deriving DecidableEq, Repr

/-- The macro `VIPS_RECT_RIGHT`. -/
def VIPS_RECT_RIGHT (r : VipsRect) : Int := r.left + r.width

/-- The macro `VIPS_RECT_BOTTOM`. -/
def VIPS_RECT_BOTTOM (r : VipsRect) : Int := r.top + r.height

/-- The C conversion `int xi = fxi`: truncation toward zero. -/
def trunc (q : ℚ) : Int := Int.tdiv q.num q.den

/-- What `vips_quadratic_gen` stores in one output pel: `ps` zero bytes, or
the result of `interpolate_fn` called with the coordinates `(fxi, fyi)`. -/
inductive Pel
  | zero
  | interpolate (fxi fyi : ℚ)
  deriving DecidableEq, Repr

/-- Ways `vips_quadratic_gen` can fail to produce pixels: `vips_region_image`
fails (the function returns -1), a coefficient is read past the end of the
matrix, or the `g_assert_not_reached` of the `switch` is reached. -/
inductive GenFault
  | region_image
  | oob
  | not_reached
  deriving DecidableEq, Repr

/-- The per-row variables `fxi, fyi, dx, dy, ddx, ddy`. -/
structure Step where
  fxi : ℚ
  fyi : ℚ
  dx : ℚ
  dy : ℚ
  ddx : ℚ
  ddy : ℚ
  deriving DecidableEq, Repr

/-- Read `vec[i]`, where `vec = VIPS_MATRIX(quadratic->mat, 0, 0)` is the
row-major array of the matrix coefficients. -/
def vec_read (vec : List ℚ) (i : Nat) : Except GenFault ℚ :=
  match vec[i]? with
  | some v => .ok v
  | none => .error .oob

/-- The `order 0` initialisation at the top of the row loop. -/
def quadratic_case0 (vec : List ℚ) (xlow yo : Int) : Except GenFault Step := do
  let v0 ← vec_read vec 0
  let v1 ← vec_read vec 1
  pure { fxi := xlow + v0, fyi := yo + v1, dx := 1, dy := 0, ddx := 0, ddy := 0 }

/-- The statements of `case 3:`. -/
def quadratic_case3 (vec : List ℚ) (xlow yo : Int) (s : Step) : Except GenFault Step := do
  let v10 ← vec_read vec 10
  let v8 ← vec_read vec 8
  let v11 ← vec_read vec 11
  let v9 ← vec_read vec 9
  pure { fxi := s.fxi + (v10 * yo * yo + v8 * xlow * xlow),
         fyi := s.fyi + (v11 * yo * yo + v9 * xlow * xlow),
         dx := s.dx + v8,
         ddx := v8 * 2,
         dy := s.dy + v9,
         ddy := v9 * 2 }

/-- The statements of `case 2:`. -/
def quadratic_case2 (vec : List ℚ) (xlow yo : Int) (s : Step) : Except GenFault Step := do
  let v6 ← vec_read vec 6
  let v7 ← vec_read vec 7
  pure { s with fxi := s.fxi + v6 * xlow * yo,
                fyi := s.fyi + v7 * xlow * yo,
                dx := s.dx + v6 * yo,
                dy := s.dy + v7 * yo }

/-- The statements of `case 1:`. -/
def quadratic_case1 (vec : List ℚ) (xlow yo : Int) (s : Step) : Except GenFault Step := do
  let v4 ← vec_read vec 4
  let v2 ← vec_read vec 2
  let v5 ← vec_read vec 5
  let v3 ← vec_read vec 3
  pure { s with fxi := s.fxi + (v4 * yo + v2 * xlow),
                fyi := s.fyi + (v5 * yo + v3 * xlow),
                dx := s.dx + v2,
                dy := s.dy + v3 }

/-- The start of one row: the initialisation followed by the fall-through
`switch (quadratic->order)`. -/
def quadratic_row_start (vec : List ℚ) (order : Int) (xlow yo : Int) :
    Except GenFault Step := do
  let s0 ← quadratic_case0 vec xlow yo
  if order = 3 then
    let s3 ← quadratic_case3 vec xlow yo s0
    let s2 ← quadratic_case2 vec xlow yo s3
    quadratic_case1 vec xlow yo s2
  else if order = 2 then
    let s2 ← quadratic_case2 vec xlow yo s0
    quadratic_case1 vec xlow yo s2
  else if order = 1 then
    quadratic_case1 vec xlow yo s0
  else if order = 0 then
    pure s0
  else
    .error .not_reached

/-- The pel written for the current coordinates: the clipping test. -/
def quadratic_pel (clip_width clip_height : Int) (s : Step) : Pel :=
  let xi := trunc s.fxi
  let yi := trunc s.fyi
  if xi < 0 ∨ yi < 0 ∨ xi ≥ clip_width ∨ yi ≥ clip_height then Pel.zero
  else Pel.interpolate s.fxi s.fyi

/-- The updates at the end of the body of the `xo` loop. -/
def quadratic_advance (order : Int) (s : Step) : Step :=
  let s1 := { s with fxi := s.fxi + s.dx, fyi := s.fyi + s.dy }
  if order > 2 then { s1 with dx := s1.dx + s1.ddx, dy := s1.dy + s1.ddy } else s1

/-- The loop `for (xo = xlow; xo < xhigh; xo++)`, with `n` iterations left. -/
def quadratic_row (order clip_width clip_height : Int) : Nat → Step → List Pel
  | 0, _ => []
  | n + 1, s =>
    quadratic_pel clip_width clip_height s ::
      quadratic_row order clip_width clip_height n (quadratic_advance order s)

/-- The loop `for (yo = ylow; yo < yhigh; yo++)`, with `n` iterations left. -/
def quadratic_rows (vec : List ℚ) (order clip_width clip_height xlow xhigh : Int) :
    Nat → Int → Except GenFault (List (List Pel))
  | 0, _ => .ok []
  | n + 1, yo => do
    let s ← quadratic_row_start vec order xlow yo
    let row := quadratic_row order clip_width clip_height (xhigh - xlow).toNat s
    let rest ← quadratic_rows vec order clip_width clip_height xlow xhigh n (yo + 1)
    pure (row :: rest)

/-- The function `vips_quadratic_gen` on the output rectangle `valid`: the rows of pels it
writes. `clip_width`, `clip_height` are the size of the original input
(`resample->in`), `region_image_fails` the outcome of `vips_region_image`. -/
def vips_quadratic_gen (region_image_fails : Bool) (vec : List ℚ) (order : Int)
    (clip_width clip_height : Int) (valid : VipsRect) :
    Except GenFault (List (List Pel)) :=
  let xlow := valid.left
  let ylow := valid.top
  let xhigh := VIPS_RECT_RIGHT valid
  let yhigh := VIPS_RECT_BOTTOM valid
  if region_image_fails then .error .region_image
  else quadratic_rows vec order clip_width clip_height xlow xhigh (yhigh - ylow).toNat ylow

/-- Coefficient at (`row`, `col`) of the width-2 coefficient matrix stored
row-major in `vec`; absent coefficients count as 0. -/
def quadratic_coeff (vec : List ℚ) (row col : Nat) : ℚ := vec.getD (2 * row + col) 0

/-- The horizontal transform as the `vips_quadratic` documentation writes it:
`x = x' + a`, `+ b x' + c y'` (order 1), `+ d x' y'` (order 2),
`+ e x' x' + f y' y'` (order 3), with `a; b, c; d; e, f` the first column of
the matrix. Written from the documentation. -/
def quadratic_documented_x (vec : List ℚ) (order : Int) (x' y' : ℚ) : ℚ :=
  let a := quadratic_coeff vec 0 0
  let b := quadratic_coeff vec 1 0
  let c := quadratic_coeff vec 2 0
  let d := quadratic_coeff vec 3 0
  let e := quadratic_coeff vec 4 0
  let f := quadratic_coeff vec 5 0
  x' + a
    + (if order ≥ 1 then b * x' + c * y' else 0)
    + (if order ≥ 2 then d * x' * y' else 0)
    + (if order = 3 then e * x' * x' + f * y' * y' else 0)

/-- The vertical transform as the `vips_quadratic` documentation writes it:
`y = y' + g`, `+ h y' + i x'` (order 1), `+ j y' x'` (order 2),
`+ k y' y' + l x' x'` (order 3), with `g; h, i; j; k, l` the second column of
the matrix. Written from the documentation. -/
def quadratic_documented_y (vec : List ℚ) (order : Int) (x' y' : ℚ) : ℚ :=
  let g := quadratic_coeff vec 0 1
  let h := quadratic_coeff vec 1 1
  let i := quadratic_coeff vec 2 1
  let j := quadratic_coeff vec 3 1
  let k := quadratic_coeff vec 4 1
  let l := quadratic_coeff vec 5 1
  y' + g
    + (if order ≥ 1 then h * y' + i * x' else 0)
    + (if order ≥ 2 then j * y' * x' else 0)
    + (if order = 3 then k * y' * y' + l * x' * x' else 0)

/-- Outcomes of the steps of `vips_quadratic_build` that are implemented
outside `quadratic.c`: whether each one fails, and for `vips_check_matrix` the
width and height of the matrix `quadratic->mat` it produces (`none` when it
fails). -/
structure QuadraticBuildEnv where
  parent_build_fails : Bool
  pipeline_fails : Bool
  check_uncoded_fails : Bool
  check_noncomplex_fails : Bool
  check_matrix : Option (Int × Int)
  embed_fails : Bool
  copy_memory_fails : Bool
  generate_fails : Bool

/-- Ways `vips_quadratic_build` returns -1: one of the outside steps failed,
"coefficient matrix must have width 2", or "coefficient matrix must have
height 1, 3, 4 or 6". -/
inductive BuildErr
  | failed
  | width
  | height
  deriving DecidableEq, Repr

/-- The `switch (quadratic->mat->Ysize)` of `vips_quadratic_build`: the order
for a matrix height, `none` for the `default:` branch. -/
def quadratic_order_of_height (ysize : Int) : Option Int :=
  if ysize = 1 then some 0
  else if ysize = 3 then some 1
  else if ysize = 4 then some 2
  else if ysize = 6 then some 3
  else none

/-- The function `vips_quadratic_build`: the transform order it sets when it
returns 0, or the way it fails. `vips_quadratic_gen` is registered (by
`vips_image_generate`) only on the path that returns 0. -/
def vips_quadratic_build (env : QuadraticBuildEnv) : Except BuildErr Int :=
  if env.parent_build_fails then .error .failed
  else if env.pipeline_fails then .error .failed
  else if env.check_uncoded_fails || env.check_noncomplex_fails then .error .failed
  else
    match env.check_matrix with
    | none => .error .failed
    | some (xsize, ysize) =>
      if xsize ≠ 2 then .error .width
      else
        match quadratic_order_of_height ysize with
        | none => .error .height
        | some order =>
          if env.embed_fails then .error .failed
          else if env.copy_memory_fails then .error .failed
          else if env.generate_fails then .error .failed
          else .ok order

/-! ## resample/quadratic.c: closed form and interpolation window -/

/-- The closed-form polynomial for the source position of the output position
`(xo, yo)`, keeping only the terms of the active order:
`fx = xo + v0 + v2*xo + v4*yo + v6*xo*yo + v8*xo*xo + v10*yo*yo` and
`fy = yo + v1 + v3*xo + v5*yo + v7*xo*yo + v9*xo*xo + v11*yo*yo`, with
`v0 .. v11` the entries of `vec`. Written from the description of the
transform, to be compared with the stepping of `vips_quadratic_gen`. -/
def quadratic_closed_form (vec : List ℚ) (order : Int) (xo yo : ℚ) : ℚ × ℚ :=
  (xo + vec.getD 0 0
    + (if order ≥ 1 then vec.getD 2 0 * xo + vec.getD 4 0 * yo else 0)
    + (if order ≥ 2 then vec.getD 6 0 * xo * yo else 0)
    + (if order ≥ 3 then vec.getD 8 0 * xo * xo + vec.getD 10 0 * yo * yo else 0),
   yo + vec.getD 1 0
    + (if order ≥ 1 then vec.getD 3 0 * xo + vec.getD 5 0 * yo else 0)
    + (if order ≥ 2 then vec.getD 7 0 * xo * yo else 0)
    + (if order ≥ 3 then vec.getD 9 0 * xo * xo + vec.getD 11 0 * yo * yo else 0))

/-- The window of input pixels an interpolator reads for the position
`(x, y)`: the `window_size` by `window_size` block whose top-left pixel is
`(trunc x - window_offset, trunc y - window_offset)`. The interpolators are
outside the files here; `window_size` and `window_offset` are what
`vips_interpolate_get_window_size` and `vips_interpolate_get_window_offset`
return. -/
def interpolate_window (window_size window_offset : Int) (x y : ℚ) : VipsRect :=
  { left := trunc x - window_offset, top := trunc y - window_offset,
    width := window_size, height := window_size }

/-- The image that `vips_quadratic_build` hands to `vips_quadratic_gen`: the
output of `vips_embed (in, &t, window_offset, window_offset,
in->Xsize + window_size, in->Ysize + window_size)`, as the rectangle `image`
that `vips_quadratic_gen` sets up (`left = top = 0`, the size of the enlarged
image). The input sits at `(window_offset, window_offset)` inside it. -/
def quadratic_embedded_image (Xsize Ysize window_size : Int) : VipsRect :=
  { left := 0, top := 0, width := Xsize + window_size, height := Ysize + window_size }

/-- The function `vips_rect_includesrect (r1, r2)`: `r2` lies inside `r1`. -/
def vips_rect_includesrect (r1 r2 : VipsRect) : Bool :=
  decide (r1.left ≤ r2.left) && decide (r1.top ≤ r2.top) &&
    decide (VIPS_RECT_RIGHT r1 ≥ VIPS_RECT_RIGHT r2) &&
    decide (VIPS_RECT_BOTTOM r1 ≥ VIPS_RECT_BOTTOM r2)

/-- The windows that the interpolator reads during one call of
`vips_quadratic_gen`: one for every pel that is not clipped. -/
def quadratic_windows (window_size window_offset : Int) (rows : List (List Pel)) :
    List VipsRect :=
  rows.flatten.filterMap (fun p =>
    match p with
    | Pel.zero => none
    | Pel.interpolate fxi fyi => some (interpolate_window window_size window_offset fxi fyi))

/-! ## resample/quadratic.c in the arithmetic of `double`

The definitions above step in exact rationals. Here the coordinates are
values of the C type `double`, whose sums and products are rounded; the
arithmetic is a parameter. -/

/-- The arithmetic of the C type `double`: the carrier, the conversion of an
`int`, the sum and the product as the machine rounds them, and the rational
number a finite value stands for (`none` for an infinity or a NaN).
`int_undefined` is what the conversion to `int` gives where C leaves it
undefined. -/
structure DoubleOps where
  D : Type
  of_int : Int → D
  add : D → D → D
  mul : D → D → D
  value : D → Option ℚ
  int_undefined : D → Int

/-- The C conversion `int xi = fxi` of a `double`: the value truncated toward
zero when that is in the range of `int`; otherwise (also for an infinity or a
NaN) the behaviour is undefined in C, and the result is `int_undefined`. -/
def double_to_int (A : DoubleOps) (x : A.D) : Int :=
  match A.value x with
  | some q =>
    if -(2 ^ 31) ≤ trunc q ∧ trunc q < 2 ^ 31 then trunc q else A.int_undefined x
  | none => A.int_undefined x

/-- What `vips_quadratic_gen` stores in one output pel: `ps` zero bytes, or
the result of `interpolate_fn` called with the coordinates `(fxi, fyi)`. -/
inductive DoubleOps.Pel (A : DoubleOps)
  | zero
  | interpolate (fxi fyi : A.D)

/-- The per-row variables `fxi, fyi, dx, dy, ddx, ddy`. -/
structure DoubleOps.Step (A : DoubleOps) where
  fxi : A.D
  fyi : A.D
  dx : A.D
  dy : A.D
  ddx : A.D
  ddy : A.D

/-- Read `vec[i]`. -/
def DoubleOps.vec_read (A : DoubleOps) (vec : List A.D) (i : Nat) : Except GenFault A.D :=
  match vec[i]? with
  | some v => .ok v
  | none => .error .oob

/-- The `order 0` initialisation at the top of the row loop. -/
def DoubleOps.quadratic_case0 (A : DoubleOps) (vec : List A.D) (xlow yo : Int) :
    Except GenFault A.Step := do
  let v0 ← A.vec_read vec 0
  let v1 ← A.vec_read vec 1
  pure { fxi := A.add (A.of_int xlow) v0, fyi := A.add (A.of_int yo) v1,
         dx := A.of_int 1, dy := A.of_int 0, ddx := A.of_int 0, ddy := A.of_int 0 }

/-- The statements of `case 3:`. -/
def DoubleOps.quadratic_case3 (A : DoubleOps) (vec : List A.D) (xlow yo : Int) (s : A.Step) :
    Except GenFault A.Step := do
  let v10 ← A.vec_read vec 10
  let v8 ← A.vec_read vec 8
  let v11 ← A.vec_read vec 11
  let v9 ← A.vec_read vec 9
  pure { fxi := A.add s.fxi (A.add (A.mul (A.mul v10 (A.of_int yo)) (A.of_int yo))
           (A.mul (A.mul v8 (A.of_int xlow)) (A.of_int xlow))),
         fyi := A.add s.fyi (A.add (A.mul (A.mul v11 (A.of_int yo)) (A.of_int yo))
           (A.mul (A.mul v9 (A.of_int xlow)) (A.of_int xlow))),
         dx := A.add s.dx v8,
         ddx := A.mul v8 (A.of_int 2),
         dy := A.add s.dy v9,
         ddy := A.mul v9 (A.of_int 2) }

/-- The statements of `case 2:`. -/
def DoubleOps.quadratic_case2 (A : DoubleOps) (vec : List A.D) (xlow yo : Int) (s : A.Step) :
    Except GenFault A.Step := do
  let v6 ← A.vec_read vec 6
  let v7 ← A.vec_read vec 7
  pure { s with fxi := A.add s.fxi (A.mul (A.mul v6 (A.of_int xlow)) (A.of_int yo)),
                fyi := A.add s.fyi (A.mul (A.mul v7 (A.of_int xlow)) (A.of_int yo)),
                dx := A.add s.dx (A.mul v6 (A.of_int yo)),
                dy := A.add s.dy (A.mul v7 (A.of_int yo)) }

/-- The statements of `case 1:`. -/
def DoubleOps.quadratic_case1 (A : DoubleOps) (vec : List A.D) (xlow yo : Int) (s : A.Step) :
    Except GenFault A.Step := do
  let v4 ← A.vec_read vec 4
  let v2 ← A.vec_read vec 2
  let v5 ← A.vec_read vec 5
  let v3 ← A.vec_read vec 3
  pure { s with fxi := A.add s.fxi (A.add (A.mul v4 (A.of_int yo)) (A.mul v2 (A.of_int xlow))),
                fyi := A.add s.fyi (A.add (A.mul v5 (A.of_int yo)) (A.mul v3 (A.of_int xlow))),
                dx := A.add s.dx v2,
                dy := A.add s.dy v3 }

/-- The start of one row: the initialisation followed by the fall-through
`switch (quadratic->order)`. -/
def DoubleOps.quadratic_row_start (A : DoubleOps) (vec : List A.D) (order : Int)
    (xlow yo : Int) : Except GenFault A.Step := do
  let s0 ← A.quadratic_case0 vec xlow yo
  if order = 3 then
    let s3 ← A.quadratic_case3 vec xlow yo s0
    let s2 ← A.quadratic_case2 vec xlow yo s3
    A.quadratic_case1 vec xlow yo s2
  else if order = 2 then
    let s2 ← A.quadratic_case2 vec xlow yo s0
    A.quadratic_case1 vec xlow yo s2
  else if order = 1 then
    A.quadratic_case1 vec xlow yo s0
  else if order = 0 then
    pure s0
  else
    .error .not_reached

/-- The pel written for the current coordinates: the clipping test on
`int xi = fxi; int yi = fyi`. -/
def DoubleOps.quadratic_pel (A : DoubleOps) (clip_width clip_height : Int) (s : A.Step) :
    A.Pel :=
  let xi := double_to_int A s.fxi
  let yi := double_to_int A s.fyi
  if xi < 0 ∨ yi < 0 ∨ xi ≥ clip_width ∨ yi ≥ clip_height then .zero
  else .interpolate s.fxi s.fyi

/-- The updates at the end of the body of the `xo` loop. -/
def DoubleOps.quadratic_advance (A : DoubleOps) (order : Int) (s : A.Step) : A.Step :=
  let s1 := { s with fxi := A.add s.fxi s.dx, fyi := A.add s.fyi s.dy }
  if order > 2 then { s1 with dx := A.add s1.dx s1.ddx, dy := A.add s1.dy s1.ddy } else s1

/-- The loop `for (xo = xlow; xo < xhigh; xo++)`, with `n` iterations left. -/
def DoubleOps.quadratic_row (A : DoubleOps) (order clip_width clip_height : Int) :
    Nat → A.Step → List A.Pel
  | 0, _ => []
  | n + 1, s =>
    A.quadratic_pel clip_width clip_height s ::
      DoubleOps.quadratic_row A order clip_width clip_height n (A.quadratic_advance order s)

/-- The loop `for (yo = ylow; yo < yhigh; yo++)`, with `n` iterations left. -/
def DoubleOps.quadratic_rows (A : DoubleOps) (vec : List A.D)
    (order clip_width clip_height xlow xhigh : Int) :
    Nat → Int → Except GenFault (List (List A.Pel))
  | 0, _ => .ok []
  | n + 1, yo => do
    let s ← A.quadratic_row_start vec order xlow yo
    let row := A.quadratic_row order clip_width clip_height (xhigh - xlow).toNat s
    let rest ← DoubleOps.quadratic_rows A vec order clip_width clip_height xlow xhigh n (yo + 1)
    pure (row :: rest)

/-- The function `vips_quadratic_gen` on the output rectangle `valid`, in the
arithmetic `A`: the rows of pels it writes. `clip_width`, `clip_height` are
the size of the original input (`resample->in`), `region_image_fails` the
outcome of `vips_region_image`. -/
def DoubleOps.vips_quadratic_gen (A : DoubleOps) (region_image_fails : Bool) (vec : List A.D)
    (order : Int) (clip_width clip_height : Int) (valid : VipsRect) :
    Except GenFault (List (List A.Pel)) :=
  let xlow := valid.left
  let ylow := valid.top
  let xhigh := VIPS_RECT_RIGHT valid
  let yhigh := VIPS_RECT_BOTTOM valid
  if region_image_fails then .error .region_image
  else A.quadratic_rows vec order clip_width clip_height xlow xhigh (yhigh - ylow).toNat ylow

/-- An arithmetic without rounding: the values are the rationals. -/
def DoubleOps.exact : DoubleOps where
  D := ℚ
  of_int := fun n => (n : ℚ)
  add := fun a b => a + b
  mul := fun a b => a * b
  value := fun a => some a
  int_undefined := fun _ => -(2 ^ 31)

/-- An arithmetic that rounds every sum to the nearest integer below it, to
show a result that depends on the rounding. -/
def DoubleOps.floor_sums : DoubleOps where
  D := ℚ
  of_int := fun n => (n : ℚ)
  add := fun a b => (⌊a + b⌋ : Int)
  mul := fun a b => a * b
  value := fun a => some a
  int_undefined := fun _ => -(2 ^ 31)

/-! ## foreign/radiance.c: scanlines

The `VipsSbuf` a scanline is read from is the list of the bytes not yet read:
`VIPS_SBUF_REQUIRE(sbuf, n)` succeeds iff at least `n` bytes remain,
`VIPS_SBUF_PEEK` looks at the next bytes and `VIPS_SBUF_FETCH` takes the next
one. The scanline array `COLR *scanline` is a list of pixels and an offset;
stores and loads are bound-checked against the list. -/

/-- Minimum scanline length for encoding. -/
def MINELEN : Nat := 8

/-- Maximum scanline length for encoding, `0x7fff`. -/
def MAXELEN : Nat := 32767

/-- Minimum run length. -/
def MINRUN : Nat := 4

/-- The `COLR` type, `unsigned char[4]`: red, green, blue (or X, Y, Z) and
exponent, at the indexes `RED = 0`, `GRN = 1`, `BLU = 2`, `EXP = 3`. -/
structure COLR where
  red : Nat
  grn : Nat
  blu : Nat
  exp : Nat
  deriving DecidableEq, Repr

namespace COLR

/-- Component `c[i]`. -/
def get (c : COLR) (i : Nat) : Nat :=
  match i with
  | 0 => c.red
  | 1 => c.grn
  | 2 => c.blu
  | _ => c.exp

/-- The pixel after `c[i] = v`. -/
def set (c : COLR) (i v : Nat) : COLR :=
  match i with
  | 0 => { c with red := v }
  | 1 => { c with grn := v }
  | 2 => { c with blu := v }
  | _ => { c with exp := v }

/-- Every component is a byte. -/
def isByte (c : COLR) : Prop := c.red < 256 ∧ c.grn < 256 ∧ c.blu < 256 ∧ c.exp < 256

instance (c : COLR) : Decidable c.isByte := by unfold isByte; exact instDecidableAnd

end COLR

/-- Outcomes of a scanline read other than success. `eof`, `mismatch`,
`overrun` and `badrepeat` are the four ways the C code returns -1 (input
exhausted in `VIPS_SBUF_REQUIRE`, "scanline length mismatch", "overrun",
`rshift > 24`). `oob` marks a store outside the scanline array and `oob_load`
a load outside it, which the C code would perform without noticing; the model
stops there. `fuel` marks an exhausted iteration budget of the model;
`rle_read_component_safe` shows it never occurs. -/
inductive RadErr
  | eof
  | mismatch
  | overrun
  | badrepeat
  | oob
  | fuel
  | oob_load
  deriving DecidableEq, Repr

/-- The store `scanline[j][i] = v` into the array `buf`. -/
def put_comp (buf : List COLR) (j i v : Nat) : Except RadErr (List COLR) :=
  match buf[j]? with
  | some c => .ok (buf.set j (c.set i v))
  | none => .error .oob

/-- The store of a whole pixel, `scanline[j] = c`. -/
def put_colr (buf : List COLR) (j : Nat) (c : COLR) : Except RadErr (List COLR) :=
  if j < buf.length then .ok (buf.set j c) else .error .oob

/-- The loop `while (len--) scanline[j++][i] = val` of a run. -/
def fill_run (i val : Nat) : Nat → Nat → List COLR → Except RadErr (List COLR)
  | 0, _, buf => .ok buf
  | len + 1, j, buf =>
    match put_comp buf j i val with
    | .error e => .error e
    | .ok buf1 => fill_run i val len (j + 1) buf1

/-- The loop `while (len--) scanline[j++][i] = VIPS_SBUF_FETCH(sbuf)` of a
literal block; `bytes` are the `len` bytes fetched. -/
def copy_literal (i : Nat) : List Nat → Nat → List COLR → Except RadErr (List COLR)
  | [], _, buf => .ok buf
  | v :: bytes, j, buf =>
    match put_comp buf j i v with
    | .error e => .error e
    | .ok buf1 => copy_literal i bytes (j + 1) buf1

/-- The loop `for (j = 0; j < width;)` of `scanline_read` for component `i`,
started at column `j`. `inp` is the unread input: `VIPS_SBUF_REQUIRE(sbuf, n)`
succeeds iff at least `n` bytes remain and `VIPS_SBUF_FETCH` takes the next
one. Every iteration takes at least one byte, so `fuel > inp.length` is
enough. -/
def rle_read_component (i width : Nat) :
    Nat → List Nat → List COLR → Nat → Except RadErr (List COLR × List Nat)
  | 0, _, _, _ => .error .fuel
  | fuel + 1, inp, buf, j =>
    if j < width then
      match inp with
      | code :: val :: rest =>
        let run := decide (code > 128)
        let len := if run then code &&& 127 else code
        if j + len > width then .error .overrun
        else if run then
          match fill_run i val len j buf with
          | .error e => .error e
          | .ok buf1 => rle_read_component i width fuel rest buf1 (j + len)
        else if len ≤ (val :: rest).length then
          match copy_literal i ((val :: rest).take len) j buf with
          | .error e => .error e
          | .ok buf1 =>
            rle_read_component i width fuel ((val :: rest).drop len) buf1 (j + len)
        else .error .eof
      | _ => .error .eof
    else .ok (buf, inp)

/-- The loop `for (i = 0; i < 4; i++)` of `scanline_read`, with `n`
iterations left. -/
def rle_read_components (width : Nat) :
    Nat → Nat → List Nat → List COLR → Except RadErr (List COLR × List Nat)
  | 0, _, inp, buf => .ok (buf, inp)
  | n + 1, i, inp, buf =>
    match rle_read_component i width (inp.length + 1) inp buf 0 with
    | .error e => .error e
    | .ok (buf1, inp1) => rle_read_components width n (i + 1) inp1 buf1

/-- The inner loop of `scanline_read_old`,
`for (i = ...; i > 0 && width > 0; i--) { copycolr(scanline[0], scanline[-1]); ... }`.
`pos` is the offset of the pointer `scanline` in the array `buf`, so that the
load of `scanline[-1]` is the load of `buf[pos - 1]`: with the pointer at the
start of the array it is a load before the array, the outcome `oob_load`.
Returns the array, the pointer and the remaining width. -/
def copy_previous : Nat → Nat → Nat → List COLR → Except RadErr (List COLR × Nat × Nat)
  | 0, width, pos, buf => .ok (buf, pos, width)
  | i + 1, width, pos, buf =>
    if width > 0 then
      if pos = 0 then .error .oob_load
      else
        match buf[pos - 1]? with
        | none => .error .oob_load
        | some c =>
          match put_colr buf pos c with
          | .error e => .error e
          | .ok buf1 => copy_previous i (width - 1) (pos + 1) buf1
    else .ok (buf, pos, width)

/-- The function `scanline_read_old`: read a scanline encoded in the old style into the
array `buf`, from the pointer offset `pos`, with `width` pixels to go and the
current `rshift`. A negative C `width` behaves as 0. -/
def scanline_read_old :
    List Nat → List COLR → Nat → Nat → Nat → Except RadErr (List COLR × List Nat)
  | inp, buf, _, 0, _ => .ok (buf, inp)
  | r :: g :: b :: e :: rest, buf, pos, width + 1, rshift =>
    match put_colr buf pos ⟨r, g, b, e⟩ with
    | .error x => .error x
    | .ok buf1 =>
      if r = 1 ∧ g = 1 ∧ b = 1 then
        match copy_previous ((e <<< rshift) % 2 ^ 32) (width + 1) pos buf1 with
        | .error x => .error x
        | .ok (buf2, pos2, width2) =>
          if rshift + 8 > 24 then .error .badrepeat
          else scanline_read_old rest buf2 pos2 width2 (rshift + 8)
      else scanline_read_old rest buf1 (pos + 1) width 0
  | _, _, _, _ + 1, _ => .error .eof

/-- The function `scanline_read`: read a single encoded scanline of `width` pixels into the
array `buf`. Returns the array and the unread input. -/
def scanline_read (inp : List Nat) (buf : List COLR) (width : Nat) :
    Except RadErr (List COLR × List Nat) :=
  if width < MINELEN ∨ width > MAXELEN then scanline_read_old inp buf 0 width 0
  else
    match inp with
    | b0 :: b1 :: b2 :: b3 :: rest =>
      if b0 ≠ 2 then scanline_read_old inp buf 0 width 0
      else
        match put_colr buf 0 ⟨b0, b1, b2, b3⟩ with
        | .error x => .error x
        | .ok buf1 =>
          if b1 ≠ 2 ∨ b2 &&& 128 ≠ 0 then scanline_read_old rest buf1 1 (width - 1) 0
          else if (b2 <<< 8) ||| b3 ≠ width then .error .mismatch
          else rle_read_components width 4 0 rest buf1
    | _ => .error .eof

/-- The size `MAX_LINE` of the line buffer, `2 * MAXELEN * sizeof(COLR)`: an
encoded scanline can't be larger than this. -/
def MAX_LINE : Nat := 2 * MAXELEN * 4

/-- The `PUTC` macro of `rle_scanline_write`: the byte stored in the line
buffer, `(unsigned char) CH`. -/
def PUTC (ch : Nat) : Nat := ch % 256

/-- Component `i` of pixel `k` of the scanline being written. -/
def comp (scanline : List COLR) (k i : Nat) : Nat :=
  match scanline[k]? with
  | some c => c.get i
  | none => 0

/-- The loop
`for (cnt = 1; cnt < 127 && beg + cnt < width && scanline[beg + cnt][i] == scanline[beg][i]; cnt++)`,
started at the given `cnt`; the condition `cnt < 127` bounds the number of
iterations by 127. -/
def run_length (scanline : List COLR) (i width beg : Nat) : Nat → Nat → Nat
  | 0, cnt => cnt
  | fuel + 1, cnt =>
    if cnt < 127 ∧ beg + cnt < width ∧ comp scanline (beg + cnt) i = comp scanline beg i then
      run_length scanline i width beg fuel (cnt + 1)
    else cnt

/-- The loop `for (beg = j; beg < width; beg += cnt)` that looks for the next
run of at least `MINRUN`; returns the final `beg` and `cnt`. `beg` grows in
every iteration, so `width` iterations are enough. -/
def find_run (scanline : List COLR) (i width : Nat) : Nat → Nat → Nat → Nat × Nat
  | 0, beg, cnt => (beg, cnt)
  | fuel + 1, beg, cnt =>
    if beg < width then
      let cnt1 := run_length scanline i width beg 127 1
      if cnt1 ≥ MINRUN then (beg, cnt1)
      else find_run scanline i width fuel (beg + cnt1) cnt1
    else (beg, cnt)

/-- The loop `while (j < beg)` coding the pixels leading up to the run as
non-runs of at most 128; returns the bytes written and the final `j`. -/
def put_literals (scanline : List COLR) (i beg : Nat) : Nat → Nat → List Nat × Nat
  | 0, j => ([], j)
  | fuel + 1, j =>
    if j < beg then
      let len := min 128 (beg - j)
      let block := PUTC len :: (List.range len).map (fun k => PUTC (comp scanline (j + k) i))
      let r := put_literals scanline i beg fuel (j + len)
      (block ++ r.1, r.2)
    else ([], j)

/-- The loop `for (j = 0; j < width;)` of `rle_scanline_write` for component
`i`, started at column `j`: the bytes written. `j` grows in every iteration,
so `width` iterations are enough. -/
def rle_write_component (scanline : List COLR) (i width : Nat) : Nat → Nat → List Nat
  | 0, _ => []
  | fuel + 1, j =>
    if j < width then
      let bc := find_run scanline i width width j 1
      let beg := bc.1
      let cnt := bc.2
      let lits := put_literals scanline i beg width j
      let j1 := lits.2
      if cnt ≥ MINRUN then
        lits.1 ++ [PUTC (128 + cnt), PUTC (comp scanline j1 i)] ++
          rle_write_component scanline i width fuel (j1 + cnt)
      else lits.1 ++ rle_write_component scanline i width fuel j1
    else []

/-- The function `rle_scanline_write`: the bytes written to `buffer` (`*length` is their
number): the magic header, then the four components. -/
def rle_scanline_write (scanline : List COLR) (width : Nat) : List Nat :=
  [PUTC 2, PUTC 2, PUTC (width >>> 8), PUTC (width &&& 255)] ++
    rle_write_component scanline 0 width width 0 ++
    rle_write_component scanline 1 width width 0 ++
    rle_write_component scanline 2 width width 0 ++
    rle_write_component scanline 3 width width 0

/-- The memory of `width` pixels of the scanline as bytes,
`sizeof(COLR) * width` of them. -/
def colr_bytes (scanline : List COLR) (width : Nat) : List Nat :=
  (scanline.take width).flatMap (fun c => [c.red, c.grn, c.blu, c.exp])

/-- The function `scanline_write`: the bytes handed to `vips_target_write` (a failure of
the target itself is not modelled). -/
def scanline_write (scanline : List COLR) (width : Nat) : List Nat :=
  if width < MINELEN ∨ width > MAXELEN then colr_bytes scanline width
  else rle_scanline_write scanline width

/-- The scanline array `buf` after the columns before `j` of component `i` have
received the values of `scanline`: the state of the decoder at column `j`. -/
def decoded_upto (i j : Nat) (scanline buf : List COLR) : List COLR :=
  buf.mapIdx (fun k c => if k < j then c.set i (comp scanline k i) else c)

deriving instance DecidableEq for Except

/-! ## foreign/radiance.c: header

C strings are lists of characters. The stream a header is read from is the
list of the lines `vips_sbuf_get_line` returns, in order; the end of the list
is the end of the file. -/

/-- The picture format identifier `COLRFMT`. -/
def COLRFMT : List Char := String.toList "32-bit_rle_rgbe"

/-- The picture format identifier `CIEFMT`. -/
def CIEFMT : List Char := String.toList "32-bit_rle_xyze"

/-- The format identifier `FMTSTR`. -/
def FMTSTR : List Char := String.toList "FORMAT="

/-- The exposure identifier `EXPOSSTR`, of length `LEXPOSSTR = 9`. -/
def EXPOSSTR : List Char := String.toList "EXPOSURE="

/-- The pixel aspect identifier `ASPECTSTR`, of length `LASPECTSTR = 10`. -/
def ASPECTSTR : List Char := String.toList "PIXASPECT="

/-- The primaries identifier `PRIMARYSTR`, of length `LPRIMARYSTR = 10`. -/
def PRIMARYSTR : List Char := String.toList "PRIMARIES="

/-- The colour correction identifier `COLCORSTR`, of length `LCOLCORSTR = 10`. -/
def COLCORSTR : List Char := String.toList "COLORCORR="

/-- Maximum length of a format value, `MAXFMTLEN`. -/
def MAXFMTLEN : Nat := 64

/-- Scanline ordering flag `XDECR`. -/
def XDECR : Nat := 1

/-- Scanline ordering flag `YDECR`. -/
def YDECR : Nat := 2

/-- Scanline ordering flag `YMAJOR`. -/
def YMAJOR : Nat := 4

/-- The constant `VIPS_MAX_COORD` of the vips headers (10000000), which is not
among the sources given. -/
def VIPS_MAX_COORD : Int := 10000000

/-- The structure for image dimensions, `RESOLU`. -/
structure RESOLU where
  rt : Nat
  xr : Int
  yr : Int
  deriving DecidableEq, Repr

/-- The macro `scanlen`. -/
def scanlen (rs : RESOLU) : Int := if rs.rt &&& YMAJOR ≠ 0 then rs.xr else rs.yr

/-- The macro `numscans`. -/
def numscans (rs : RESOLU) : Int := if rs.rt &&& YMAJOR ≠ 0 then rs.yr else rs.xr

/-- The glib predicate `g_ascii_isspace`: space, tab, line feed, form feed
and carriage return. -/
def g_ascii_isspace (c : Char) : Bool :=
  c = ' ' || c = '\t' || c = '\n' || c = Char.ofNat 12 || c = '\r'

/-- The C library predicate `isspace` in the C locale, which also accepts the
vertical tab. -/
def c_isspace (c : Char) : Bool :=
  c = ' ' || c = '\t' || c = '\n' || c = Char.ofNat 11 || c = Char.ofNat 12 || c = '\r'

/-- The digits read by `atoi`, accumulated in `acc`. -/
def atoi_digits : List Char → Int → Int
  | [], acc => acc
  | c :: cs, acc =>
    if c.isDigit then atoi_digits cs (acc * 10 + ((c.toNat : Int) - 48)) else acc

/-- The C library function `strtol` in base 10 with a 64-bit `long`: white
space, an optional sign, then decimal digits; a value outside the range of
`long` is replaced by `LONG_MAX` or `LONG_MIN`. -/
def strtol (s : List Char) : Int :=
  let v : Int :=
    match s.dropWhile c_isspace with
    | '-' :: r => - atoi_digits r 0
    | '+' :: r => atoi_digits r 0
    | r => atoi_digits r 0
  if v > 2 ^ 63 - 1 then 2 ^ 63 - 1 else if v < -(2 ^ 63) then -(2 ^ 63) else v

/-- The C library function `atoi`, computed as glibc does,
`(int) strtol (nptr, NULL, 10)`: the conversion to the 32-bit `int` keeps the
low 32 bits, so that `4294967301` reads as `5`. (C leaves the result undefined
when the number is outside the range of `int`.) -/
def atoi (s : List Char) : Int := wrapS 32 (strtol s)

/-- The scan `for (cp = buf; *cp; cp++)` of `str2resolu`: the index of the
last `X` and of the last `Y`; `k` is the index of the head of the list. -/
def scan_XY : List Char → Nat → Option Nat → Option Nat → Option Nat × Option Nat
  | [], _, xndx, yndx => (xndx, yndx)
  | c :: cs, k, xndx, yndx =>
    if c = 'X' then scan_XY cs (k + 1) (some k) yndx
    else if c = 'Y' then scan_XY cs (k + 1) xndx (some k)
    else scan_XY cs (k + 1) xndx yndx

/-- The character `p[-1]` for the pointer `p = buf + k`; `pre` is the byte
stored just before the line buffer, read when `k = 0`. -/
def char_before (pre : Char) (buf : List Char) (k : Nat) : Char :=
  if k = 0 then pre else buf.getD (k - 1) pre

/-- The function `str2resolu`: convert a resolution line to a `RESOLU`;
`none` is the return value 0. The line is never `NULL` where it is called. -/
def str2resolu (pre : Char) (buf : List Char) : Option RESOLU :=
  match scan_XY buf 0 none none with
  | (some xndx, some yndx) =>
    let rt0 := if xndx > yndx then YMAJOR else 0
    let rt1 := if char_before pre buf xndx = '-' then rt0 ||| XDECR else rt0
    let rt2 := if char_before pre buf yndx = '-' then rt1 ||| YDECR else rt1
    let xr := atoi (buf.drop (xndx + 1))
    if xr ≤ 0 then none
    else
      let yr := atoi (buf.drop (yndx + 1))
      if yr ≤ 0 then none
      else some { rt := rt2, xr := xr, yr := yr }
  | _ => none

/-- The tail of `formatval`, `do *r-- = 0; while (r > fmt && g_ascii_isspace(*r))`:
trailing white space is removed, the first character always stays. -/
def format_trim : List Char → List Char
  | [] => []
  | c :: cs => c :: cs.rdropWhile g_ascii_isspace

/-- The function `formatval(fmt, s)`: whether `s` is a format line, and the
string left in `fmt` when it is one and `fmt` is not `NULL` (`copy`). At most
`MAXFMTLEN - 1` characters are copied. -/
def formatval (copy : Bool) (s : List Char) : Bool × Option (List Char) :=
  if FMTSTR.isPrefixOf s then
    let s1 := (s.drop FMTSTR.length).dropWhile g_ascii_isspace
    if s1 = [] then (false, none)
    else if copy then (true, some (format_trim (s1.take (MAXFMTLEN - 1))))
    else (true, none)
  else (false, none)

/-- The macro `isformat(s)`, `formatval(NULL, s)`. -/
def isformat (s : List Char) : Bool := (formatval false s).1

/-- The macro `isexpos`. -/
def isexpos (hl : List Char) : Bool := EXPOSSTR.isPrefixOf hl

/-- The macro `iscolcor`. -/
def iscolcor (hl : List Char) : Bool := COLCORSTR.isPrefixOf hl

/-- The macro `isaspect`. -/
def isaspect (hl : List Char) : Bool := ASPECTSTR.isPrefixOf hl

/-- The macro `isprims`. -/
def isprims (hl : List Char) : Bool := PRIMARYSTR.isPrefixOf hl

/-- The floating-point side of header parsing, kept abstract: the carrier,
multiplication, `atof`, the two `sscanf` calls (`none` when fewer values than
asked were converted) and the constants `1.0` and the nominal primaries. -/
structure RadFloat where
  R : Type
  one : R
  mul : R → R → R
  atof : List Char → R
  scan_colcor : List Char → Option (R × R × R)
  scan_prims : List Char → Option (List R)
  nominal_prims : List R

/-- What is tracked during a Radiance file read (the `Read` struct, without
the stream and the image). -/
structure Read (E : RadFloat) where
  format : List Char
  expos : E.R
  colcor : E.R × E.R × E.R
  aspect : E.R
  prims : List E.R
  rs : RESOLU

/-- The initial state set by `read_new`. -/
def read_new (E : RadFloat) : Read E where
  format := COLRFMT
  expos := E.one
  colcor := (E.one, E.one, E.one)
  aspect := E.one
  prims := E.nominal_prims
  rs := { rt := 0, xr := 0, yr := 0 }

/-- The function `rad2vips_process_line`; `none` is the return value -1. In the
format branch the C code calls `formatval(line, read->format)`: the buffer
written is `line` and the string examined is `read->format`, so
`read->format` is only read. -/
def rad2vips_process_line (E : RadFloat) (line : List Char) (read : Read E) :
    Option (Read E) :=
  if isformat line then
    if (formatval true read.format).1 then none else some read
  else if isexpos line then
    some { read with expos := E.mul read.expos (E.atof (line.drop 9)) }
  else if iscolcor line then
    match E.scan_colcor (line.drop 10) with
    | none => none
    | some (r, g, b) =>
      some { read with
        colcor := (E.mul read.colcor.1 r, E.mul read.colcor.2.1 g, E.mul read.colcor.2.2 b) }
  else if isaspect line then
    some { read with aspect := E.mul read.aspect (E.atof (line.drop 10)) }
  else if isprims line then
    match E.scan_prims (line.drop 10) with
    | none => none
    | some p => some { read with prims := p }
  else some read

/-- The function `getheader` with the callback `f`. Modelled from the spec:
`vips_sbuf_get_line` is not among the sources, so the stream is given as the
lines it yields, the end of the list being the end of the file. Returns the
state and the lines after the blank line; `none` is the return value -1. -/
def getheader {σ : Type} (f : List Char → σ → Option σ) :
    List (List Char) → σ → Option (σ × List (List Char))
  | [], _ => none
  | line :: rest, p =>
    if line = [] then some (p, rest)
    else
      match f line p with
      | none => none
      | some p1 => getheader f rest p1

/-- The values of `VipsInterpretation` used by the reader. -/
inductive VipsInterpretation
  | MULTIBAND
  | XYZ
  | scRGB
  deriving DecidableEq, Repr

/-- The values of `VipsCoding`. -/
inductive VipsCoding
  | NONE
  | LABQ
  | RAD
  deriving DecidableEq, Repr

/-- The image fields and metadata that `rad2vips_get_header` declares
(`interpretation` is the C field `Type`). -/
structure RadImage (E : RadFloat) where
  Xsize : Int
  Ysize : Int
  Bands : Int
  BandFmt : VipsBandFormat
  Coding : VipsCoding
  interpretation : VipsInterpretation
  Xres : E.R
  Yres : E.R
  rad_format : List Char
  rad_expos : E.R
  rad_colcor : E.R × E.R × E.R
  rad_aspect : E.R
  rad_prims : List E.R

/-- The function `rad2vips_get_header` on the lines of the stream: the final
`Read` state, the declared image and the lines left; `none` is the return
value -1. `pre` is the byte before the line buffer (see `char_before`);
`vips_image_pipelinev` is taken to succeed. -/
def rad2vips_get_header (E : RadFloat) (pre : Char) (lines : List (List Char))
    (read : Read E) : Option (Read E × RadImage E × List (List Char)) :=
  match getheader (rad2vips_process_line E) lines read with
  | none => none
  | some (read1, rest) =>
    match rest with
    | [] => none
    | line :: rest1 =>
      match str2resolu pre line with
      | none => none
      | some rs =>
        let read2 : Read E := { read1 with rs := rs }
        let interpretation :=
          if read2.format = COLRFMT then VipsInterpretation.scRGB
          else if read2.format = CIEFMT then VipsInterpretation.XYZ
          else VipsInterpretation.MULTIBAND
        let width := scanlen read2.rs
        let height := numscans read2.rs
        if width ≤ 0 ∨ width ≥ VIPS_MAX_COORD ∨ height ≤ 0 ∨ height ≥ VIPS_MAX_COORD then
          none
        else
          some (read2,
            { Xsize := width, Ysize := height, Bands := 4,
              BandFmt := VipsBandFormat.UCHAR, Coding := VipsCoding.RAD,
              interpretation := interpretation, Xres := E.one, Yres := read2.aspect,
              rad_format := read2.format, rad_expos := read2.expos,
              rad_colcor := read2.colcor, rad_aspect := read2.aspect,
              rad_prims := read2.prims },
            rest1)

/-- The format and interpretation parts of a header result. -/
def header_format {E : RadFloat} (r : Option (Read E × RadImage E × List (List Char))) :
    Option (List Char × VipsInterpretation × List Char × Int × Int) :=
  r.map (fun x => (x.1.format, x.2.1.interpretation, x.2.1.rad_format, x.2.1.Xsize, x.2.1.Ysize))

/-- A float interface with a single value: enough to run the header
functions on concrete text, where only the dimensions are looked at. -/
def RadFloat.unit : RadFloat where
  R := Unit
  one := ()
  mul := fun _ _ => ()
  atof := fun _ => ()
  scan_colcor := fun _ => some ((), (), ())
  scan_prims := fun _ => some (List.replicate 8 ())
  nominal_prims := List.replicate 8 ()

/-! ## The conversion `%f` of `sscanf`

`colcorval` and `primsval` are calls of the C library function `sscanf` with
the formats `"%f %f %f"` and eight times `%f`. The text that a conversion
`%f` accepts is modelled as the C standard defines it: white space is
skipped, the input item is the longest run of characters that is the start
of a number (decimal or hexadecimal, `inf`, `infinity`, `nan`, in any case),
and the conversion succeeds iff the item is a whole number. The value of the
item is left to the float interface. -/

/-- How far the scan of one number has come. -/
inductive ScanState
  | start | sign
  | zero | int | dot | frac | exp | exp_sign | exp_digits
  | hex | hex_int | hex_dot | hex_frac | bin_exp | bin_exp_sign | bin_exp_digits
  | i | in_ | inf | infi | infin | infini | infinit | infinity
  | n | na | nan | nan_open | nan_close
  deriving DecidableEq, Repr

/-- A hexadecimal digit. -/
def is_xdigit (c : Char) : Bool :=
  c.isDigit || (decide ('a' ≤ c.toLower) && decide (c.toLower ≤ 'f'))

/-- The state after the first character of a number, its sign apart. -/
def scan_first (c : Char) : Option ScanState :=
  if c = '0' then some .zero
  else if c.isDigit then some .int
  else if c = '.' then some .dot
  else if c.toLower = 'i' then some .i
  else if c.toLower = 'n' then some .n
  else none

/-- The state after one more character, `none` when the character cannot
continue a number. -/
def ScanState.next : ScanState → Char → Option ScanState
  | .start, c => if c = '+' ∨ c = '-' then some .sign else scan_first c
  | .sign, c => scan_first c
  | .zero, c =>
    if c.isDigit then some .int
    else if c = '.' then some .frac
    else if c.toLower = 'e' then some .exp
    else if c.toLower = 'x' then some .hex
    else none
  | .int, c =>
    if c.isDigit then some .int
    else if c = '.' then some .frac
    else if c.toLower = 'e' then some .exp
    else none
  | .dot, c => if c.isDigit then some .frac else none
  | .frac, c =>
    if c.isDigit then some .frac
    else if c.toLower = 'e' then some .exp
    else none
  | .exp, c =>
    if c.isDigit then some .exp_digits
    else if c = '+' ∨ c = '-' then some .exp_sign
    else none
  | .exp_sign, c => if c.isDigit then some .exp_digits else none
  | .exp_digits, c => if c.isDigit then some .exp_digits else none
  | .hex, c =>
    if is_xdigit c then some .hex_int
    else if c = '.' then some .hex_dot
    else none
  | .hex_int, c =>
    if is_xdigit c then some .hex_int
    else if c = '.' then some .hex_frac
    else if c.toLower = 'p' then some .bin_exp
    else none
  | .hex_dot, c => if is_xdigit c then some .hex_frac else none
  | .hex_frac, c =>
    if is_xdigit c then some .hex_frac
    else if c.toLower = 'p' then some .bin_exp
    else none
  | .bin_exp, c =>
    if c.isDigit then some .bin_exp_digits
    else if c = '+' ∨ c = '-' then some .bin_exp_sign
    else none
  | .bin_exp_sign, c => if c.isDigit then some .bin_exp_digits else none
  | .bin_exp_digits, c => if c.isDigit then some .bin_exp_digits else none
  | .i, c => if c.toLower = 'n' then some .in_ else none
  | .in_, c => if c.toLower = 'f' then some .inf else none
  | .inf, c => if c.toLower = 'i' then some .infi else none
  | .infi, c => if c.toLower = 'n' then some .infin else none
  | .infin, c => if c.toLower = 'i' then some .infini else none
  | .infini, c => if c.toLower = 't' then some .infinit else none
  | .infinit, c => if c.toLower = 'y' then some .infinity else none
  | .infinity, _ => none
  | .n, c => if c.toLower = 'a' then some .na else none
  | .na, c => if c.toLower = 'n' then some .nan else none
  | .nan, c => if c = '(' then some .nan_open else none
  | .nan_open, c =>
    if c = ')' then some .nan_close
    else if c.isAlphanum ∨ c = '_' then some .nan_open
    else none
  | .nan_close, _ => none

/-- Whether the characters read so far are a whole number. -/
def ScanState.final : ScanState → Bool
  | .zero | .int | .frac | .exp_digits => true
  | .hex_int | .hex_frac | .bin_exp_digits => true
  | .inf | .infinity | .nan | .nan_close => true
  | _ => false

/-- The input item of a conversion `%f`: characters are read as long as they
continue a number. Returns the state reached and the characters left. -/
def scan_item : ScanState → List Char → ScanState × List Char
  | st, [] => (st, [])
  | st, c :: cs =>
    match st.next c with
    | some st1 => scan_item st1 cs
    | none => (st, c :: cs)

/-- One conversion `%f` of `sscanf` on the string `s`: the item converted and
the rest of the string, `none` when nothing is converted. -/
def sscanf_f (s : List Char) : Option (List Char × List Char) :=
  let s1 := s.dropWhile c_isspace
  let r := scan_item .start s1
  if r.1.final then some (s1.take (s1.length - r.2.length), r.2) else none

/-- The first `n` conversions of `sscanf (s, "%f %f ...")`: the items
converted, `none` when fewer than `n` conversions succeed. The white space in
the format between two conversions skips white space, as `%f` does. -/
def sscanf_floats : Nat → List Char → Option (List (List Char))
  | 0, _ => some []
  | n + 1, s =>
    match sscanf_f s with
    | none => none
    | some (t, rest) => (sscanf_floats n rest).map (fun ts => t :: ts)

/-- The floating-point side of header reading with `sscanf` as above: the
carrier, the constants, the product, `atof`, and `strtof` for the value of an
item converted by `%f`. -/
structure RadArith where
  R : Type
  one : R
  mul : R → R → R
  atof : List Char → R
  strtof : List Char → R
  nominal_prims : List R

/-- The float interface of the reader with `colcorval` and `primsval` as the
calls `sscanf (..., "%f %f %f", ...) == 3` and
`sscanf (..., "%f %f %f %f %f %f %f %f", ...) == 8`. -/
def RadFloat.libc (M : RadArith) : RadFloat where
  R := M.R
  one := M.one
  mul := M.mul
  atof := M.atof
  scan_colcor := fun s =>
    match sscanf_floats 3 s with
    | some [a, b, c] => some (M.strtof a, M.strtof b, M.strtof c)
    | _ => none
  scan_prims := fun s => (sscanf_floats 8 s).map (fun ts => ts.map M.strtof)
  nominal_prims := M.nominal_prims

/-- A reader arithmetic with a single value, to run the header functions on
concrete text. -/
def RadArith.unit : RadArith where
  R := Unit
  one := ()
  mul := fun _ _ => ()
  atof := fun _ => ()
  strtof := fun _ => ()
  nominal_prims := List.replicate 8 ()

/-! ## foreign/radiance.c: writing the header -/

/-- The size of the line buffer of a `VipsSbuf`, `VIPS_SBUF_BUFFER_SIZE`. -/
def VIPS_SBUF_BUFFER_SIZE : Nat := 4096

/-- The C string that starts at the beginning of a buffer of characters: the
characters before the first NUL. -/
def c_string (l : List Char) : List Char := l.takeWhile (fun c => c ≠ Char.ofNat 0)

/-- The line buffer that `vips_sbuf_get_line` fills for the characters `l`
standing before the line feed (or the end of the stream): at most
`VIPS_SBUF_BUFFER_SIZE` characters are kept, and a final carriage return is
removed. -/
def sbuf_buffer (l : List Char) : List Char :=
  let line := l.take VIPS_SBUF_BUFFER_SIZE
  if line.getLast? = some '\r' then line.dropLast else line

/-- What `vips_sbuf_get_line` returns for the characters `l` standing before
the line feed (or the end of the stream): a pointer to the line buffer, read
by the callers as a C string, which ends at the first NUL the line holds. -/
def sbuf_line (l : List Char) : List Char := c_string (sbuf_buffer l)

/-- The lines that repeated calls of `vips_sbuf_get_line` yield on a stream
of characters, up to the end of the stream (where the call returns `NULL`);
`cur` holds, last first, the characters of the current line read so far. The
helper lives in iostream/sbuf.c, outside the files here. -/
def sbuf_lines_from : List Char → List Char → List (List Char)
  | [], cur => if cur = [] then [] else [sbuf_line cur.reverse]
  | c :: cs, cur =>
    if c = '\n' then sbuf_line cur.reverse :: sbuf_lines_from cs []
    else sbuf_lines_from cs (c :: cur)

/-- The lines of a stream of characters. -/
def sbuf_lines (s : List Char) : List (List Char) := sbuf_lines_from s []

/-- The function `vips__rad_israd` on the characters of the source: the first
line is fetched and compared, as a C string (`strcmp`), with the magic
string. -/
def vips__rad_israd (s : List Char) : Bool :=
  match sbuf_lines s with
  | [] => false
  | line :: _ => line = String.toList "#?RADIANCE"

/-- The decimal digit `d` as a character. -/
def digit_char (d : Nat) : Char := Char.ofNat (48 + d)

/-- The decimal digits of `n`, most significant first; `fuel` bounds the
number of digits. -/
def printf_u_digits : Nat → Nat → List Char
  | 0, _ => []
  | fuel + 1, n =>
    if n < 10 then [digit_char n]
    else printf_u_digits fuel (n / 10) ++ [digit_char (n % 10)]

/-- The conversion `%d` of `printf`. -/
def printf_d (n : Int) : List Char :=
  if n < 0 then '-' :: printf_u_digits (n.natAbs + 1) n.natAbs
  else printf_u_digits (n.natAbs + 1) n.natAbs

/-- The conversion `%8d` of `printf`: padded with spaces on the left to a
width of 8. -/
def printf_8d (n : Int) : List Char :=
  List.replicate (8 - (printf_d n).length) ' ' ++ printf_d n

/-- The function `resolu2str`: convert a resolution struct to a line. -/
def resolu2str (rp : RESOLU) : List Char :=
  if rp.rt &&& YMAJOR ≠ 0 then
    [if rp.rt &&& YDECR ≠ 0 then '-' else '+', 'Y', ' '] ++ printf_8d rp.yr ++
      [' ', if rp.rt &&& XDECR ≠ 0 then '-' else '+', 'X', ' '] ++ printf_8d rp.xr ++ ['\n']
  else
    [if rp.rt &&& XDECR ≠ 0 then '-' else '+', 'X', ' '] ++ printf_8d rp.xr ++
      [' ', if rp.rt &&& YDECR ≠ 0 then '-' else '+', 'Y', ' '] ++ printf_8d rp.yr ++ ['\n']

/-- The floating-point side of header writing, kept abstract: the carrier,
the constants `1.0` and the nominal primaries, the conversion of a `double`
to `float`, the `printf` conversions `%e`, `%f` and `%.4f`, and the text of
`vips_version_string()`. -/
structure RadPrint where
  R : Type
  one : R
  nominal_prims : List R
  to_float : R → R
  fmt_e : R → List Char
  fmt_f : R → List Char
  fmt_4f : R → List Char
  version : List Char

/-- The fields and metadata of the image to save that the header writer looks
at. A metadata item is `none` when the image does not have it (or has it with
another type); `interpretation` is the C field `Type`. -/
structure SaveImage (P : RadPrint) where
  Xsize : Int
  Ysize : Int
  interpretation : VipsInterpretation
  rad_expos : Option P.R
  rad_aspect : Option P.R
  rad_format : Option (List Char)
  rad_colcor : Option P.R × Option P.R × Option P.R
  rad_prims : List (Option P.R)

/-- What is tracked during a Radiance write (the `Write` struct, without the
image, the target and the line buffer). -/
structure Write (P : RadPrint) where
  format : List Char
  expos : P.R
  colcor : P.R × P.R × P.R
  aspect : P.R
  prims : List P.R
  rs : RESOLU

/-- The initial state set by `write_new`. -/
def write_new (P : RadPrint) : Write P where
  format := COLRFMT
  expos := P.one
  colcor := (P.one, P.one, P.one)
  aspect := P.one
  prims := P.nominal_prims
  rs := { rt := 0, xr := 0, yr := 0 }

/-- The function `vips2rad_make_header`. `g_strlcpy (write->format, str, 256)`
keeps at most 255 characters of the C string `str`; the colour correction and
the primaries are stored as `float`. -/
def vips2rad_make_header (P : RadPrint) (img : SaveImage P) (write : Write P) : Write P :=
  let expos := img.rad_expos.getD write.expos
  let aspect := img.rad_aspect.getD write.aspect
  let format0 :=
    match img.rad_format with
    | some str => (c_string str).take 255
    | none => write.format
  let format1 := if img.interpretation = VipsInterpretation.scRGB then COLRFMT else format0
  let format2 := if img.interpretation = VipsInterpretation.XYZ then CIEFMT else format1
  let colcor := ((img.rad_colcor.1.map P.to_float).getD write.colcor.1,
    (img.rad_colcor.2.1.map P.to_float).getD write.colcor.2.1,
    (img.rad_colcor.2.2.map P.to_float).getD write.colcor.2.2)
  let prims := write.prims.mapIdx
    (fun k p => (((img.rad_prims.getD k none).map P.to_float).getD p))
  { format := format2, expos := expos, colcor := colcor, aspect := aspect, prims := prims,
    rs := { rt := YDECR ||| YMAJOR, xr := img.Xsize, yr := img.Ysize } }

/-- The text `"%s %f %f %f"` of the colour correction line written by
`vips2rad_put_header`. -/
def colcor_line (P : RadPrint) (write : Write P) : List Char :=
  COLCORSTR ++ ' ' :: P.fmt_f write.colcor.1 ++ ' ' :: P.fmt_f write.colcor.2.1 ++
    ' ' :: P.fmt_f write.colcor.2.2

/-- The text `"%s %.4f %.4f %.4f %.4f %.4f %.4f %.4f %.4f"` of the primaries
line written by `vips2rad_put_header`. -/
def prims_line (P : RadPrint) (write : Write P) : List Char :=
  PRIMARYSTR ++ (write.prims.map (fun p => ' ' :: P.fmt_4f p)).flatten

/-- The texts that `vips2rad_put_header` prints for the `%s`, `%e`, `%f` and
`%.4f` conversions of its format strings. -/
def header_texts (P : RadPrint) (write : Write P) : List (List Char) :=
  [write.format, P.fmt_e write.expos, P.fmt_f write.colcor.1, P.fmt_f write.colcor.2.1,
    P.fmt_f write.colcor.2.2, P.version, P.fmt_f write.aspect] ++ write.prims.map P.fmt_4f

/-- The function `vips2rad_put_header`: the characters written to the target,
one line per write. -/
def vips2rad_put_header (P : RadPrint) (img : SaveImage P) (write0 : Write P) : List Char :=
  let write := vips2rad_make_header P img write0
  String.toList "#?RADIANCE\n" ++
  (FMTSTR ++ write.format ++ ['\n']) ++
  (EXPOSSTR ++ P.fmt_e write.expos ++ ['\n']) ++
  (colcor_line P write ++ ['\n']) ++
  (String.toList "SOFTWARE=vips " ++ P.version ++ ['\n']) ++
  (ASPECTSTR ++ P.fmt_f write.aspect ++ ['\n']) ++
  (prims_line P write ++ ['\n']) ++
  ['\n'] ++
  resolu2str write.rs

/-- A writer interface in which a value is the triple of its `%e`, `%f` and
`%.4f` texts, with the texts of `1.0` and of the nominal primaries. -/
def RadPrint.text : RadPrint where
  R := List Char × List Char × List Char
  one := (String.toList "1.000000e+00", String.toList "1.000000", String.toList "1.0000")
  nominal_prims := [
    (String.toList "6.400000e-01", String.toList "0.640000", String.toList "0.6400"),
    (String.toList "3.300000e-01", String.toList "0.330000", String.toList "0.3300"),
    (String.toList "2.900000e-01", String.toList "0.290000", String.toList "0.2900"),
    (String.toList "6.000000e-01", String.toList "0.600000", String.toList "0.6000"),
    (String.toList "1.500000e-01", String.toList "0.150000", String.toList "0.1500"),
    (String.toList "6.000000e-02", String.toList "0.060000", String.toList "0.0600"),
    (String.toList "3.333333e-01", String.toList "0.333333", String.toList "0.3333"),
    (String.toList "3.333333e-01", String.toList "0.333333", String.toList "0.3333")]
  to_float := fun x => x
  fmt_e := fun x => x.1
  fmt_f := fun x => x.2.1
  fmt_4f := fun x => x.2.2
  version := String.toList "8.17.0"

/-- Whether a floating-point number is finite, an infinity or a NaN. -/
inductive FloatClass where
  | finite
  | infinite
  | nan
  deriving DecidableEq, Repr

/-- The digits `printf` prints with exactly `k` digits: the `k` low decimal
digits of `n`, most significant first, zeros included. -/
def printf_0digits : Nat → Nat → List Char
  | 0, _ => []
  | k + 1, n => printf_0digits k (n / 10) ++ [digit_char (n % 10)]

/-- What the conversions `%f` and `%.4f` of `printf` print of a number: the
sign, the class, and for a finite number the integer part and the digits
after the point of the decimal rounded to the precision. The integer part of
a `double` is below `10 ^ 309`. -/
structure PrintfFixed where
  neg : Bool
  cls : FloatClass
  ipart : Fin (10 ^ 309)
  frac : Nat

/-- The conversion `%.<prec>f` of `printf` in the C locale (`%f` is
`%.6f`): `-` for a negative number, then `inf`, `nan`, or the integer part, a
point and `prec` digits. -/
def printf_f (prec : Nat) (x : PrintfFixed) : List Char :=
  (if x.neg then ['-'] else []) ++
    match x.cls with
    | .infinite => String.toList "inf"
    | .nan => String.toList "nan"
    | .finite =>
      printf_u_digits (x.ipart.val + 1) x.ipart.val ++ '.' :: printf_0digits prec x.frac

/-- What the conversion `%e` of `printf` prints of a number: the sign, the
class, and for a finite number the leading digit, the six digits after the
point and the exponent with its sign. -/
structure PrintfExp where
  neg : Bool
  cls : FloatClass
  lead : Fin 10
  frac : Nat
  eneg : Bool
  exp : Nat

/-- The conversion `%e` of `printf` in the C locale: one digit, a point, six
digits, `e`, the sign of the exponent and at least two digits of exponent. -/
def printf_e (x : PrintfExp) : List Char :=
  (if x.neg then ['-'] else []) ++
    match x.cls with
    | .infinite => String.toList "inf"
    | .nan => String.toList "nan"
    | .finite =>
      digit_char x.lead.val :: '.' :: printf_0digits 6 x.frac ++
        'e' :: (if x.eneg then '-' else '+') ::
          (if x.exp < 10 then ['0', digit_char x.exp] else printf_u_digits (x.exp + 1) x.exp)

/-- The floating-point side of header writing with the numbers printed in
decimal: the carrier, the constants, the conversion to `float`, what `printf`
prints of a value with each of the three conversions (the rounding to decimal
digits is left open), and the three numbers of the version of the library. -/
structure RadDecimal where
  R : Type
  one : R
  nominal_prims : Fin 8 → R
  to_float : R → R
  dec_e : R → PrintfExp
  dec_f : R → PrintfFixed
  dec_4f : R → PrintfFixed
  version : Nat × Nat × Nat

/-- The text of `vips_version_string()`, which lives outside the files here:
the numbers of the major, minor and micro version separated by points. -/
def vips_version_string (v : Nat × Nat × Nat) : List Char :=
  printf_d v.1 ++ '.' :: printf_d v.2.1 ++ '.' :: printf_d v.2.2

/-- The writer interface of a decimal floating-point side: the three
conversions print with `printf_e` and `printf_f`. -/
def RadPrint.decimal (V : RadDecimal) : RadPrint where
  R := V.R
  one := V.one
  nominal_prims := List.ofFn V.nominal_prims
  to_float := V.to_float
  fmt_e := fun x => printf_e (V.dec_e x)
  fmt_f := fun x => printf_f 6 (V.dec_f x)
  fmt_4f := fun x => printf_f 4 (V.dec_4f x)
  version := vips_version_string V.version

/-- What the header round trip takes from the C library function `sscanf`,
which the reader keeps abstract: the three conversions `%f` of `colcorval`
succeed on three numbers printed by `%f`, and the eight of `primsval` on
eight numbers printed by `%.4f`, each number after one space. -/
def sscanf_reads_printf (E : RadFloat) : Prop :=
  (∀ a b c : PrintfFixed,
    E.scan_colcor (' ' :: printf_f 6 a ++ ' ' :: printf_f 6 b ++ ' ' :: printf_f 6 c) ≠ none) ∧
  (∀ ps : List PrintfFixed, ps.length = 8 →
    E.scan_prims ((ps.map (fun p => ' ' :: printf_f 4 p)).flatten) ≠ none)

/-- A decimal floating-point side in which a value is the triple of what
`%e`, `%f` and `%.4f` print of it, with `1.0` and the nominal primaries. -/
def RadDecimal.digits : RadDecimal where
  R := PrintfExp × PrintfFixed × PrintfFixed
  one := (⟨false, .finite, 1, 0, false, 0⟩, ⟨false, .finite, 1, 0⟩, ⟨false, .finite, 1, 0⟩)
  nominal_prims := ![
    (⟨false, .finite, 6, 400000, true, 1⟩, ⟨false, .finite, 0, 640000⟩,
      ⟨false, .finite, 0, 6400⟩),
    (⟨false, .finite, 3, 300000, true, 1⟩, ⟨false, .finite, 0, 330000⟩,
      ⟨false, .finite, 0, 3300⟩),
    (⟨false, .finite, 2, 900000, true, 1⟩, ⟨false, .finite, 0, 290000⟩,
      ⟨false, .finite, 0, 2900⟩),
    (⟨false, .finite, 6, 0, true, 1⟩, ⟨false, .finite, 0, 600000⟩, ⟨false, .finite, 0, 6000⟩),
    (⟨false, .finite, 1, 500000, true, 1⟩, ⟨false, .finite, 0, 150000⟩,
      ⟨false, .finite, 0, 1500⟩),
    (⟨false, .finite, 6, 0, true, 2⟩, ⟨false, .finite, 0, 60000⟩, ⟨false, .finite, 0, 600⟩),
    (⟨false, .finite, 3, 333333, true, 1⟩, ⟨false, .finite, 0, 333333⟩,
      ⟨false, .finite, 0, 3333⟩),
    (⟨false, .finite, 3, 333333, true, 1⟩, ⟨false, .finite, 0, 333333⟩,
      ⟨false, .finite, 0, 3333⟩)]
  to_float := fun x => x
  dec_e := fun x => x.1
  dec_f := fun x => x.2.1
  dec_4f := fun x => x.2.2
  version := (8, 17, 0)

/-! ## foreign/radiance.c: generating scanlines -/

/-- The part of a `VipsRegion` that `rad2vips_generate` uses: the rectangle
`valid`, the width `im->Xsize` of the image, and the pixel storage, one array
of `valid.width` pixels for each of the rows `valid.top ..` of the rectangle.
The rectangle lies inside the image, so `valid.left >= 0`. -/
structure RadRegion where
  valid : VipsRect
  Xsize : Nat
  rows : List (List COLR)
  deriving DecidableEq, Repr

/-- The array that starts at `VIPS_REGION_ADDR(out_region, 0, r->top + y)`,
the address of column 0 in row `y` of the rectangle. The storage of the row
begins at column `valid.left`: when that is column 0 the array is the row,
otherwise the address is to the left of the row and the pixel stored there is
not one of the rectangle, which the empty array stands for (any store to it
is out of bounds). -/
def region_scanline (reg : RadRegion) (y : Nat) : List COLR :=
  if reg.valid.left = 0 then reg.rows.getD y [] else []

/-- The loop `for (y = 0; y < r->height; y++)` of `rad2vips_generate`, with
`n` rows to go from row `y`: each row is read with `scanline_read` in the
width of the image. Returns the region and the unread input; an error is the
return value -1. Each row is an array of its own here, so that a load before
a row is the outcome `oob_load`; `rad2vips_generate_rows_mem` is the same
loop with the rows in the memory of the region, where the load is served. -/
def rad2vips_generate_rows :
    Nat → Nat → List Nat → RadRegion → Except RadErr (RadRegion × List Nat)
  | 0, _, inp, reg => .ok (reg, inp)
  | n + 1, y, inp, reg =>
    match scanline_read inp (region_scanline reg y) reg.Xsize with
    | .error e => .error e
    | .ok (buf, rest) =>
      rad2vips_generate_rows n (y + 1) rest
        (if reg.valid.left = 0 then { reg with rows := reg.rows.set y buf } else reg)

/-- The function `rad2vips_generate` on the output region and the unread
bytes of the stream. -/
def rad2vips_generate (inp : List Nat) (reg : RadRegion) :
    Except RadErr (RadRegion × List Nat) :=
  rad2vips_generate_rows reg.valid.height.toNat 0 inp reg

/-! ## foreign/radiance.c: scanlines in the memory of a region

`scanline_read_old` loads `scanline[-1]` when a scanline starts with a repeat
marker. The functions above count that load as the fault `oob_load`; here the
memory before the array is part of the model, and the load is served from it,
as the compiled code does. -/

/-- The function `scanline_read` with the pointer `scanline` at the offset
`pos` of the array `mem`, so that `scanline[j]` is `mem[pos + j]` and
`scanline[-1]` is `mem[pos - 1]`; `scanline_read` is the case `pos = 0`. -/
def scanline_read_at (inp : List Nat) (mem : List COLR) (pos width : Nat) :
    Except RadErr (List COLR × List Nat) :=
  if width < MINELEN ∨ width > MAXELEN then scanline_read_old inp mem pos width 0
  else
    match inp with
    | b0 :: b1 :: b2 :: b3 :: rest =>
      if b0 ≠ 2 then scanline_read_old inp mem pos width 0
      else
        match put_colr mem pos ⟨b0, b1, b2, b3⟩ with
        | .error x => .error x
        | .ok mem1 =>
          if b1 ≠ 2 ∨ b2 &&& 128 ≠ 0 then scanline_read_old rest mem1 (pos + 1) (width - 1) 0
          else if (b2 <<< 8) ||| b3 ≠ width then .error .mismatch
          else
            match rle_read_components width 4 0 rest (mem1.drop pos) with
            | .error x => .error x
            | .ok (line, rest1) => .ok (mem1.take pos ++ line, rest1)
    | _ => .error .eof

/-- The pixel stored in memory just before row `y` of the region, the one
that `scanline[-1]` names when `scanline` is the start of the row: the rows
of a region with its own buffer lie one after the other, so it is the last
pixel of row `y - 1`, and for the first row it is `before`, whatever the
memory holds in front of the buffer. -/
def region_before (before : COLR) (reg : RadRegion) (y : Nat) : COLR :=
  if y = 0 then before else ((reg.rows.getD (y - 1) []).getLast?).getD before

/-- The loop `for (y = 0; y < r->height; y++)` of `rad2vips_generate` in the
memory of the region, with `n` rows to go from row `y`: the array of a row is
taken with the pixel stored before it, and `scanline_read` gets the pointer
to its second element. -/
def rad2vips_generate_rows_mem (before : COLR) :
    Nat → Nat → List Nat → RadRegion → Except RadErr (RadRegion × List Nat)
  | 0, _, inp, reg => .ok (reg, inp)
  | n + 1, y, inp, reg =>
    match scanline_read_at inp (region_before before reg y :: region_scanline reg y) 1
        reg.Xsize with
    | .error e => .error e
    | .ok (mem, rest) =>
      rad2vips_generate_rows_mem before n (y + 1) rest
        (if reg.valid.left = 0 then { reg with rows := reg.rows.set y mem.tail } else reg)

/-- The function `rad2vips_generate` in the memory of the region: on the
output region, the pixel `before` stored in front of its buffer, and the
unread bytes of the stream. -/
def rad2vips_generate_mem (before : COLR) (inp : List Nat) (reg : RadRegion) :
    Except RadErr (RadRegion × List Nat) :=
  rad2vips_generate_rows_mem before reg.valid.height.toNat 0 inp reg

/-! ## foreign/radiance.c: scanlines of the stream, strip by strip -/

/-- The first `n` scanlines of `width` pixels decoded from the stream, one
after the other, each into a cleared array: the rows in order and the unread
input, or the error of the first scanline that fails to decode. Written from
the description of the streaming read, to be compared with
`rad2vips_generate`. -/
def decode_scanlines (width : Nat) :
    Nat → List Nat → Except RadErr (List (List COLR) × List Nat)
  | 0, inp => .ok ([], inp)
  | n + 1, inp =>
    match scanline_read inp (List.replicate width ⟨0, 0, 0, 0⟩) width with
    | .error e => .error e
    | .ok (row, rest) =>
      match decode_scanlines width n rest with
      | .error e => .error e
      | .ok (rows, rest2) => .ok (row :: rows, rest2)

/-- Successive calls of `rad2vips_generate` for full-width strips of the
heights given, in gapless top-to-bottom order from row `top`, each on a
cleared region: the rows of the strips one under the other and the unread
input, or the error of the first call that fails. -/
def rad2vips_generate_strips (Xsize : Nat) :
    List Nat → Nat → List Nat → Except RadErr (List (List COLR) × List Nat)
  | [], _, inp => .ok ([], inp)
  | h :: hs, top, inp =>
    match rad2vips_generate inp
        ⟨⟨0, top, Xsize, h⟩, Xsize, List.replicate h (List.replicate Xsize ⟨0, 0, 0, 0⟩)⟩ with
    | .error e => .error e
    | .ok (reg, rest) =>
      match rad2vips_generate_strips Xsize hs (top + h) rest with
      | .error e => .error e
      | .ok (rows, rest2) => .ok (reg.rows ++ rows, rest2)

/-! ## colour/XYZ2Lab.c -/

/-- Lookup table size, `QUANT_ELEMENTS`. -/
def QUANT_ELEMENTS : Nat := 100000

/-- The macro `VIPS_CLIP(A, V, B)`, `VIPS_MAX((A), VIPS_MIN((B), (V)))`. -/
def VIPS_CLIP (a v b : Int) : Int := max a (min b v)

/-- The floating-point side of XYZ2Lab, kept abstract: the carriers of `float`
and `double` and the operations the code uses, each a function of its
operands.

* `zero` is `0.0F`, the initial content of the static table;
* `table_Y i` is `(double) i / QUANT_ELEMENTS` stored in a `float`;
* `below Y` is `Y < 0.008856`, `linear Y` is `7.787F * Y + (16.0F / 116.0F)`;
* `normalise X X0` is `QUANT_ELEMENTS * X / X0`;
* `to_int` is the cast `(int)`, `sub_int nX i` is `nX - i`;
* `lit n` is the constant `n.0F`. -/
structure LabFloat where
  F : Type
  D : Type
  zero : F
  table_Y : Nat → F
  below : F → Bool
  linear : F → F
  cbrtf : F → F
  normalise : F → D → F
  to_int : F → Int
  sub_int : F → Int → F
  add : F → F → F
  sub : F → F → F
  mul : F → F → F
  lit : Nat → F

/-- The loop of `table_init` after `i` iterations, on the table `tbl`. -/
def table_init_loop (M : LabFloat) : Nat → (Nat → M.F) → Nat → M.F
  | 0, tbl => tbl
  | i + 1, tbl =>
    let Y := M.table_Y i
    Function.update (table_init_loop M i tbl) i (if M.below Y then M.linear Y else M.cbrtf Y)

/-- The function `table_init`: fill `cbrt_table`. -/
def table_init (M : LabFloat) (tbl : Nat → M.F) : Nat → M.F :=
  table_init_loop M QUANT_ELEMENTS tbl

/-- The statics of XYZ2Lab.c: the once flag `table_init_once` and the array
`cbrt_table`. -/
structure XYZ2LabStatics (M : LabFloat) where
  table_init_once : Bool
  cbrt_table : Nat → M.F

/-- The statics when the program starts: `G_ONCE_INIT` and a zeroed array. -/
def XYZ2LabStatics.start (M : LabFloat) : XYZ2LabStatics M where
  table_init_once := false
  cbrt_table := fun _ => M.zero

/-- The call `VIPS_ONCE(&table_init_once, table_init, NULL)`: `table_init`
runs if it has not run yet. -/
def VIPS_ONCE_table_init (M : LabFloat) (s : XYZ2LabStatics M) : XYZ2LabStatics M :=
  if s.table_init_once then s
  else { table_init_once := true, cbrt_table := table_init M s.cbrt_table }

/-- One table lookup with interpolation in `vips_col_XYZ2Lab_helper`:
`i = VIPS_CLIP(0, (int) nX, QUANT_ELEMENTS - 2); f = nX - i;
cbrt_table[i] + f * (cbrt_table[i + 1] - cbrt_table[i])`. -/
def cbrt_lookup (M : LabFloat) (tbl : Nat → M.F) (nX : M.F) : M.F :=
  let i := VIPS_CLIP 0 (M.to_int nX) (QUANT_ELEMENTS - 2)
  let f := M.sub_int nX i
  M.add (tbl i.toNat) (M.mul f (M.sub (tbl (i.toNat + 1)) (tbl i.toNat)))

/-- The function `vips_col_XYZ2Lab_helper`: the values stored in `L`, `a`, `b`. -/
def vips_col_XYZ2Lab_helper (M : LabFloat) (tbl : Nat → M.F) (X0 Y0 Z0 : M.D)
    (X Y Z : M.F) : M.F × M.F × M.F :=
  let nX := M.normalise X X0
  let nY := M.normalise Y Y0
  let nZ := M.normalise Z Z0
  let cbx := cbrt_lookup M tbl nX
  let cby := cbrt_lookup M tbl nY
  let cbz := cbrt_lookup M tbl nZ
  (M.sub (M.mul (M.lit 116) cby) (M.lit 16),
   M.mul (M.lit 500) (M.sub cbx cby),
   M.mul (M.lit 200) (M.sub cby cbz))

/-- The loop `for (x = 0; x < width; x++)` of `vips_XYZ2Lab_line` after `x`
iterations: `p` is the input line, `q` the output memory before the loop. -/
def XYZ2Lab_line_loop (M : LabFloat) (tbl : Nat → M.F) (X0 Y0 Z0 : M.D) (p : Nat → M.F) :
    Nat → (Nat → M.F) → Nat → M.F
  | 0, q => q
  | x + 1, q =>
    let r := vips_col_XYZ2Lab_helper M tbl X0 Y0 Z0 (p (3 * x)) (p (3 * x + 1)) (p (3 * x + 2))
    Function.update
      (Function.update
        (Function.update (XYZ2Lab_line_loop M tbl X0 Y0 Z0 p x q) (3 * x) r.1)
        (3 * x + 1) r.2.1)
      (3 * x + 2) r.2.2

/-- The arguments of one call of `vips_XYZ2Lab_line`: the white point of the
operation, the output memory, the input line and the width. -/
structure XYZ2LabCall (M : LabFloat) where
  X0 : M.D
  Y0 : M.D
  Z0 : M.D
  out : Nat → M.F
  inp : Nat → M.F
  width : Nat

/-- The function `vips_XYZ2Lab_line`: the statics and the output memory after
the call. -/
def vips_XYZ2Lab_line (M : LabFloat) (s : XYZ2LabStatics M) (c : XYZ2LabCall M) :
    XYZ2LabStatics M × (Nat → M.F) :=
  let s1 := VIPS_ONCE_table_init M s
  (s1, XYZ2Lab_line_loop M s1.cbrt_table c.X0 c.Y0 c.Z0 c.inp c.width c.out)

/-- The statics after a sequence of calls of `vips_XYZ2Lab_line`, the first
call made when the program starts. -/
def XYZ2Lab_after (M : LabFloat) (calls : List (XYZ2LabCall M)) : XYZ2LabStatics M :=
  calls.foldl (fun s c => (vips_XYZ2Lab_line M s c).1) (XYZ2LabStatics.start M)

/-! ## foreign/radiance.c: the sequential load pipeline -/

/-- Modelled from the spec: the Sequential Buffer state of a pipeline, here
the stage that `vips__rad_load` puts in front of the scanline generator
(`vips_sequential`, whose code is not among the sources). `y_pos` is the
cursor, the next row to be generated; `window` holds the trailing rows
`y_pos - window.length .. y_pos - 1` that are still buffered; `inp` is the
state of the generator, the unread bytes of the stream. -/
structure SeqBuffer where
  y_pos : Nat
  window : List (List COLR)
  inp : List Nat
  deriving DecidableEq, Repr

/-- Modelled from the spec: the error kinds of a request to the sequential
stage: a rectangle outside the image, a sequential-order violation, and an
error reported by the generator. -/
inductive SeqErr
  | out_of_range
  | order_violation
  | generate (e : RadErr)
  deriving DecidableEq, Repr

/-- Modelled from the spec: the state before the first request, with the
stream positioned after the header. -/
def SeqBuffer.start (inp : List Nat) : SeqBuffer := { y_pos := 0, window := [], inp := inp }

/-- Modelled from the spec: a request for the rows `top .. top + height - 1`
of an image `Xsize` by `Ysize` from the sequential stage, which keeps at most
`keep` trailing rows.

* A request outside the image is out of range.
* A request that starts before the first buffered row is a sequential-order
  violation.
* Otherwise the rows from the cursor up to the end of the request are
  generated by `rad2vips_generate` as one strip of the full width, the
  requested rows are served from the buffered and the new rows, the cursor
  moves to the end of the new rows and the window keeps the last `keep` rows.

Returns the rows served and the next state. -/
def seq_request (Xsize Ysize keep : Nat) (s : SeqBuffer) (top height : Nat) :
    Except SeqErr (List (List COLR) × SeqBuffer) :=
  if top + height > Ysize then .error .out_of_range
  else if top < s.y_pos - s.window.length then .error .order_violation
  else
    let need := (top + height) - s.y_pos
    match rad2vips_generate s.inp
        ⟨⟨0, s.y_pos, Xsize, need⟩, Xsize,
          List.replicate need (List.replicate Xsize ⟨0, 0, 0, 0⟩)⟩ with
    | .error e => .error (.generate e)
    | .ok (reg, rest) =>
      let all := s.window ++ reg.rows
      let first := s.y_pos - s.window.length
      .ok ((all.drop (top - first)).take height,
        { y_pos := s.y_pos + need, window := all.drop (all.length - keep), inp := rest })

/-- Modelled from the spec: the window holds a bounded number of trailing
rows: at most `keep` rows, all of them before the cursor. -/
def SeqBuffer.inv (keep : Nat) (s : SeqBuffer) : Prop :=
  s.window.length ≤ keep ∧ s.window.length ≤ s.y_pos

instance (keep : Nat) (s : SeqBuffer) : Decidable (SeqBuffer.inv keep s) := by
  unfold SeqBuffer.inv; exact inferInstance

/-! # Theorems -/


/-! ## arithmetic/subtract.c -/

theorem LOOP_apply {α β : Type} (op : α → α → β) (left right : Nat → α) (q : Nat → β)
    (sz x : Nat) :
    LOOP op left right q sz x = if x < sz then op (left x) (right x) else q x := by
  induction sz with
  | zero => simp [LOOP]
  | succ n ih =>
    simp only [LOOP, Function.update_apply]
    by_cases hx : x = n
    · subst hx; simp
    · rw [if_neg hx, ih]
      by_cases h1 : x < n
      · have : x < n + 1 := by omega
        simp [h1, this]
      · have : ¬ x < n + 1 := by omega
        simp [h1, this]

theorem wrapS_of_range (w : Nat) (hw : 0 < w) (v : Int)
    (h1 : -(2 : Int) ^ (w - 1) ≤ v) (h2 : v < 2 ^ (w - 1)) : wrapS w v = v := by
  unfold wrapS
  have hp : (2 : Int) ^ w = 2 * 2 ^ (w - 1) := by
    obtain ⟨k, rfl⟩ : ∃ k, w = k + 1 := ⟨w - 1, by omega⟩
    simp [pow_succ, mul_comm]
  rw [Int.emod_eq_of_lt (by omega) (by omega)]
  omega

/-- C1. For 8-bit unsigned input lines, `vips_subtract_buffer` writes at every
element index `x < width * bands` the 16-bit signed value `left[x] - right[x]`
exactly; that value lies in `-255..255` and is negative when `left[x] < right[x]`. -/
theorem subtract_uchar_exact (M : FloatOps) (bands width : Nat)
    (out left right : Nat → Int)
    (hl : ∀ x, x < width * bands → 0 ≤ left x ∧ left x ≤ 255)
    (hr : ∀ x, x < width * bands → 0 ≤ right x ∧ right x ≤ 255)
    (x : Nat) (hx : x < width * bands) :
    vips_subtract_buffer M bands width UCHAR out left right x = left x - right x ∧
    -255 ≤ left x - right x ∧ left x - right x ≤ 255 ∧
    (left x < right x → left x - right x < 0) := by
  have h1 := hl x hx
  have h2 := hr x hx
  have hsz : x < subtract_sz UCHAR bands width := by
    simpa [subtract_sz, vips_band_format_iscomplex] using hx
  refine ⟨?_, by omega, by omega, by omega⟩
  simp only [vips_subtract_buffer, LOOP_apply, if_pos hsz]
  exact wrapS_of_range 16 (by norm_num) _ (by norm_num; omega) (by norm_num; omega)

/-- Witness for C1: two constant lines of 200 and 50 (2 pixels of 3 bands) give
150 at element 5. -/
theorem subtract_uchar_exact_witness :
    vips_subtract_buffer FloatOps.exact 3 2 UCHAR (fun _ => 0) (fun _ => 200)
      (fun _ => 50) 5 = 200 - 50 ∧
    -255 ≤ (200 : Int) - 50 ∧ (200 : Int) - 50 ≤ 255 ∧
    ((200 : Int) < 50 → (200 : Int) - 50 < 0) :=
  subtract_uchar_exact FloatOps.exact 3 2 (fun _ => 0) (fun _ => 200) (fun _ => 50)
    (fun _ _ => by norm_num) (fun _ _ => by norm_num) 5 (by decide)

/-- C7. `vips_subtract_format_table`, looked up by the input format alone, gives
the documented output type for each of the ten band formats. -/
theorem subtract_format_table_documented :
    vips_subtract_format_table.length = 10 ∧
    vips_subtract_format_table[UCHAR.toNat]? = some SHORT ∧
    vips_subtract_format_table[CHAR.toNat]? = some SHORT ∧
    vips_subtract_format_table[USHORT.toNat]? = some INT ∧
    vips_subtract_format_table[SHORT.toNat]? = some INT ∧
    vips_subtract_format_table[UINT.toNat]? = some INT ∧
    vips_subtract_format_table[INT.toNat]? = some INT ∧
    vips_subtract_format_table[FLOAT.toNat]? = some FLOAT ∧
    vips_subtract_format_table[COMPLEX.toNat]? = some COMPLEX ∧
    vips_subtract_format_table[DOUBLE.toNat]? = some DOUBLE ∧
    vips_subtract_format_table[DPCOMPLEX.toNat]? = some DPCOMPLEX ∧
    ∀ f : VipsBandFormat,
      vips_subtract_format_table[f.toNat]? = some (subtract_documented_output f) := by
  refine ⟨rfl, rfl, rfl, rfl, rfl, rfl, rfl, rfl, rfl, rfl, rfl, ?_⟩
  intro f
  cases f <;> rfl

theorem wrapS_uint_max : wrapS 32 ((4294967295 - 0) % 2 ^ 32) = -1 := by decide

/-- C6, as stated, fails: for `unsigned int` inputs 4294967295 and 0 (both in
range) the output element is -1, not the difference 4294967295. -/
theorem subtract_uint_not_exact :
    inFormat UINT 4294967295 ∧ inFormat UINT 0 ∧
    vips_subtract_buffer FloatOps.exact 1 1 UINT (fun _ => 0) (fun _ => 4294967295)
      (fun _ => 0) 0 = (-1 : Int) ∧
    vips_subtract_buffer FloatOps.exact 1 1 UINT (fun _ => 0) (fun _ => 4294967295)
      (fun _ => 0) 0 ≠ (4294967295 - 0 : Int) := by
  refine ⟨by decide, by decide, by decide, by decide⟩

/-- C6, amended. For `uchar`, `char`, `ushort` and `short` inputs the output
element is the exact difference `left - right` for every pair of input values
of the format; for `uint` and `int` inputs it is the exact difference whenever
that difference lies in the range of `int`, `-2^31 .. 2^31 - 1`. -/
theorem subtract_integer_exact (M : FloatOps) (bands width : Nat)
    (out left right : Nat → Int) (x : Nat) (hx : x < width * bands) :
    (inFormat UCHAR (left x) → inFormat UCHAR (right x) →
      vips_subtract_buffer M bands width UCHAR out left right x = left x - right x) ∧
    (inFormat CHAR (left x) → inFormat CHAR (right x) →
      vips_subtract_buffer M bands width CHAR out left right x = left x - right x) ∧
    (inFormat USHORT (left x) → inFormat USHORT (right x) →
      vips_subtract_buffer M bands width USHORT out left right x = left x - right x) ∧
    (inFormat SHORT (left x) → inFormat SHORT (right x) →
      vips_subtract_buffer M bands width SHORT out left right x = left x - right x) ∧
    (inFormat UINT (left x) → inFormat UINT (right x) →
      -2147483648 ≤ left x - right x → left x - right x ≤ 2147483647 →
      vips_subtract_buffer M bands width UINT out left right x = left x - right x) ∧
    (inFormat INT (left x) → inFormat INT (right x) →
      -2147483648 ≤ left x - right x → left x - right x ≤ 2147483647 →
      vips_subtract_buffer M bands width INT out left right x = left x - right x) := by
  have hsz : ∀ f, vips_band_format_iscomplex f = false → x < subtract_sz f bands width := by
    intro f hf
    simpa [subtract_sz, hf] using hx
  refine ⟨?_, ?_, ?_, ?_, ?_, ?_⟩
  · intro h1 h2
    simp only [inFormat, formatRange] at h1 h2
    simp only [vips_subtract_buffer, LOOP_apply, if_pos (hsz UCHAR rfl)]
    exact wrapS_of_range 16 (by norm_num) _ (by norm_num; omega) (by norm_num; omega)
  · intro h1 h2
    simp only [inFormat, formatRange] at h1 h2
    simp only [vips_subtract_buffer, LOOP_apply, if_pos (hsz CHAR rfl)]
    exact wrapS_of_range 16 (by norm_num) _ (by norm_num; omega) (by norm_num; omega)
  · intro h1 h2
    simp only [inFormat, formatRange] at h1 h2
    simp only [vips_subtract_buffer, LOOP_apply, if_pos (hsz USHORT rfl)]
    exact wrapS_of_range 32 (by norm_num) _ (by norm_num; omega) (by norm_num; omega)
  · intro h1 h2
    simp only [inFormat, formatRange] at h1 h2
    simp only [vips_subtract_buffer, LOOP_apply, if_pos (hsz SHORT rfl)]
    exact wrapS_of_range 32 (by norm_num) _ (by norm_num; omega) (by norm_num; omega)
  · intro _ _ h3 h4
    simp only [vips_subtract_buffer, LOOP_apply, if_pos (hsz UINT rfl)]
    have hw : wrapS 32 ((left x - right x) % 2 ^ 32) = wrapS 32 (left x - right x) := by
      unfold wrapS
      norm_num
    rw [hw]
    exact wrapS_of_range 32 (by norm_num) _ (by norm_num; omega) (by norm_num; omega)
  · intro _ _ h3 h4
    simp only [vips_subtract_buffer, LOOP_apply, if_pos (hsz INT rfl)]
    exact wrapS_of_range 32 (by norm_num) _ (by norm_num; omega) (by norm_num; omega)

/-- Witness for the amended C6: the values 100 and 27 lie in every integer
format and give 73 in each of them. -/
theorem subtract_integer_exact_witness :
    vips_subtract_buffer FloatOps.exact 1 1 UCHAR (fun _ => 0) (fun _ => 100)
      (fun _ => 27) 0 = (100 : Int) - 27 ∧
    vips_subtract_buffer FloatOps.exact 1 1 CHAR (fun _ => 0) (fun _ => 100)
      (fun _ => 27) 0 = (100 : Int) - 27 ∧
    vips_subtract_buffer FloatOps.exact 1 1 USHORT (fun _ => 0) (fun _ => 100)
      (fun _ => 27) 0 = (100 : Int) - 27 ∧
    vips_subtract_buffer FloatOps.exact 1 1 SHORT (fun _ => 0) (fun _ => 100)
      (fun _ => 27) 0 = (100 : Int) - 27 ∧
    vips_subtract_buffer FloatOps.exact 1 1 UINT (fun _ => 0) (fun _ => 100)
      (fun _ => 27) 0 = (100 : Int) - 27 ∧
    vips_subtract_buffer FloatOps.exact 1 1 INT (fun _ => 0) (fun _ => 100)
      (fun _ => 27) 0 = (100 : Int) - 27 :=
  have h := subtract_integer_exact FloatOps.exact 1 1 (fun _ => 0) (fun _ => 100)
    (fun _ => 27) 0 (by decide)
  ⟨h.1 (by decide) (by decide),
   h.2.1 (by decide) (by decide),
   h.2.2.1 (by decide) (by decide),
   h.2.2.2.1 (by decide) (by decide),
   h.2.2.2.2.1 (by decide) (by decide) (by decide) (by decide),
   h.2.2.2.2.2 (by decide) (by decide) (by decide) (by decide)⟩

/-! ## resample/quadratic.c -/

theorem trunc_intCast (n : Int) : trunc (n : ℚ) = n := by
  simp [trunc]

/-- C3. Tiling is visible for order 3: with the single non-zero coefficient
`e = vec[8] = 1`, the 3 x 1 rectangle at (0, 0) generated in one call samples
column 2 at `x = 6`, but generated as the two adjacent rectangles of widths 1
and 2 it samples column 2 at `x = 4`; with a 5 x 5 input the pel is clipped
in the first case and interpolated in the second, so the row generated whole
is not the concatenation of the rows of the two tiles. -/
theorem quadratic_order3_tiling_visible :
    vips_quadratic_gen false [0, 0, 0, 0, 0, 0, 0, 0, 1, 0, 0, 0] 3 5 5 ⟨0, 0, 3, 1⟩
      = .ok [[.interpolate 0 0, .interpolate 2 0, .zero]] ∧
    vips_quadratic_gen false [0, 0, 0, 0, 0, 0, 0, 0, 1, 0, 0, 0] 3 5 5 ⟨0, 0, 1, 1⟩
      = .ok [[.interpolate 0 0]] ∧
    vips_quadratic_gen false [0, 0, 0, 0, 0, 0, 0, 0, 1, 0, 0, 0] 3 5 5 ⟨1, 0, 2, 1⟩
      = .ok [[.interpolate 2 0, .interpolate 4 0]] ∧
    vips_quadratic_gen false [0, 0, 0, 0, 0, 0, 0, 0, 1, 0, 0, 0] 3 100 100 ⟨0, 0, 3, 1⟩
      = .ok [[.interpolate 0 0, .interpolate 2 0, .interpolate 6 0]] ∧
    vips_quadratic_gen false [0, 0, 0, 0, 0, 0, 0, 0, 1, 0, 0, 0] 3 100 100 ⟨1, 0, 2, 1⟩
      = .ok [[.interpolate 2 0, .interpolate 4 0]] ∧
    ([[.interpolate 0 0, .interpolate 2 0, .zero]] : List (List Pel))
      ≠ List.zipWith (fun a b => a ++ b) [[.interpolate 0 0]]
          [[.interpolate 2 0, .interpolate 4 0]] := by
  have h0 : trunc 0 = 0 := by simpa using trunc_intCast 0
  have h2 : trunc 2 = 2 := by simpa using trunc_intCast 2
  have h4 : trunc 4 = 4 := by simpa using trunc_intCast 4
  have h6 : trunc 6 = 6 := by simpa using trunc_intCast 6
  refine ⟨?_, ?_, ?_, ?_, ?_, by simp⟩ <;>
  · simp [vips_quadratic_gen, VIPS_RECT_RIGHT, VIPS_RECT_BOTTOM, quadratic_rows,
      quadratic_row_start, quadratic_case0, quadratic_case1, quadratic_case2,
      quadratic_case3, vec_read, quadratic_row, quadratic_pel, quadratic_advance, bind,
      Except.bind, pure, Except.pure]
    norm_num [h0, h2, h4, h6]

/-- C4. The horizontal position departs from the documented polynomial for
order 3 when the rectangle does not start at column 0: with `e = vec[8] = 1`
and the 2 x 1 rectangle at (1, 0), output pixel (2, 0) is sampled at `x = 4`,
while the documented transform gives `x = 2 + 2 * 2 = 6`. -/
theorem quadratic_order3_x_off_polynomial :
    vips_quadratic_gen false [0, 0, 0, 0, 0, 0, 0, 0, 1, 0, 0, 0] 3 100 100 ⟨1, 0, 2, 1⟩
      = .ok [[.interpolate 2 0, .interpolate 4 0]] ∧
    quadratic_documented_x [0, 0, 0, 0, 0, 0, 0, 0, 1, 0, 0, 0] 3 2 0 = 6 := by
  have h0 : trunc 0 = 0 := by simpa using trunc_intCast 0
  have h2 : trunc 2 = 2 := by simpa using trunc_intCast 2
  have h4 : trunc 4 = 4 := by simpa using trunc_intCast 4
  constructor
  · simp [vips_quadratic_gen, VIPS_RECT_RIGHT, VIPS_RECT_BOTTOM, quadratic_rows,
      quadratic_row_start, quadratic_case0, quadratic_case1, quadratic_case2,
      quadratic_case3, vec_read, quadratic_row, quadratic_pel, quadratic_advance, bind,
      Except.bind, pure, Except.pure]
    norm_num [h0, h2, h4]
  · norm_num [quadratic_documented_x, quadratic_coeff]

/-- C5. The vertical position departs from the documented polynomial already
for order 1: with the single non-zero coefficient `h = 1` (second column,
second row, `vec[3]`), output pixel (0, 1) is sampled at `y = 1`, because the
code multiplies `vec[3]` by `x'` and `vec[5]` by `y'`, while the documented
transform `y = y' + g + h y' + i x'` gives `y = 2`. -/
theorem quadratic_order1_y_off_documentation :
    vips_quadratic_gen false [0, 0, 0, 1, 0, 0] 1 100 100 ⟨0, 1, 1, 1⟩
      = .ok [[.interpolate 0 1]] ∧
    quadratic_documented_y [0, 0, 0, 1, 0, 0] 1 0 1 = 2 := by
  have h0 : trunc 0 = 0 := by simpa using trunc_intCast 0
  have h1 : trunc 1 = 1 := by simpa using trunc_intCast 1
  constructor
  · simp [vips_quadratic_gen, VIPS_RECT_RIGHT, VIPS_RECT_BOTTOM, quadratic_rows,
      quadratic_row_start, quadratic_case0, quadratic_case1, quadratic_case2,
      quadratic_case3, vec_read, quadratic_row, quadratic_pel, quadratic_advance, bind,
      Except.bind, pure, Except.pure, h0, h1]
  · norm_num [quadratic_documented_y, quadratic_coeff]

/-! ### The coordinates reached by stepping -/

theorem quadratic_advance_iterate_low (order : Int) (h : ¬ order > 2) (s : Step) (k : Nat) :
    (quadratic_advance order)^[k] s
      = { s with fxi := s.fxi + k * s.dx, fyi := s.fyi + k * s.dy } := by
  induction k generalizing s with
  | zero => simp
  | succ n ih =>
    rw [Function.iterate_succ_apply, ih]
    simp only [quadratic_advance, if_neg h]
    congr 1 <;> push_cast <;> ring

theorem quadratic_advance_iterate_high (order : Int) (h : order > 2) (s : Step) (k : Nat) :
    (quadratic_advance order)^[k] s
      = { fxi := s.fxi + k * s.dx + s.ddx * (k * (k - 1) / 2),
          fyi := s.fyi + k * s.dy + s.ddy * (k * (k - 1) / 2),
          dx := s.dx + k * s.ddx,
          dy := s.dy + k * s.ddy,
          ddx := s.ddx,
          ddy := s.ddy } := by
  induction k generalizing s with
  | zero => simp
  | succ n ih =>
    rw [Function.iterate_succ_apply, ih]
    simp only [quadratic_advance, if_pos h]
    congr 1 <;> push_cast <;> ring

theorem quadratic_row_getElem (order cw ch : Int) :
    ∀ (n : Nat) (s : Step) (k : Nat), k < n →
      (quadratic_row order cw ch n s)[k]?
        = some (quadratic_pel cw ch ((quadratic_advance order)^[k] s)) := by
  intro n
  induction n with
  | zero => intro s k hk; omega
  | succ m ih =>
    intro s k hk
    cases k with
    | zero => simp [quadratic_row]
    | succ j =>
      simp only [quadratic_row, List.getElem?_cons_succ, Function.iterate_succ_apply]
      exact ih (quadratic_advance order s) j (by omega)

theorem quadratic_row_length (order cw ch : Int) :
    ∀ (n : Nat) (s : Step), (quadratic_row order cw ch n s).length = n := by
  intro n
  induction n with
  | zero => intro s; rfl
  | succ m ih => intro s; simp [quadratic_row, ih]

theorem quadratic_rows_getElem (vec : List ℚ) (order cw ch xlow xhigh : Int) :
    ∀ (n : Nat) (yo : Int) (rows : List (List Pel)),
      quadratic_rows vec order cw ch xlow xhigh n yo = .ok rows →
      rows.length = n ∧
      ∀ r, r < n → ∃ s, quadratic_row_start vec order xlow (yo + r) = .ok s ∧
        rows[r]? = some (quadratic_row order cw ch (xhigh - xlow).toNat s) := by
  intro n
  induction n with
  | zero =>
    intro yo rows h
    simp only [quadratic_rows, Except.ok.injEq] at h
    subst h
    exact ⟨rfl, fun r hr => by omega⟩
  | succ m ih =>
    intro yo rows h
    simp only [quadratic_rows, bind, Except.bind, pure, Except.pure] at h
    cases hs : quadratic_row_start vec order xlow yo with
    | error e => simp [hs] at h
    | ok s =>
      simp only [hs] at h
      cases hr : quadratic_rows vec order cw ch xlow xhigh m (yo + 1) with
      | error e => simp [hr] at h
      | ok rest =>
        simp only [hr, Except.ok.injEq] at h
        subst h
        obtain ⟨l1, l2⟩ := ih (yo + 1) rest hr
        refine ⟨by simp [l1], ?_⟩
        intro r hlt
        cases r with
        | zero => exact ⟨s, by simpa using hs, by simp⟩
        | succ j =>
          obtain ⟨s', h1, h2⟩ := l2 j (by omega)
          refine ⟨s', ?_, by simpa using h2⟩
          rw [← h1]
          congr 1
          push_cast
          ring

theorem vec_read_ok (vec : List ℚ) (i : Nat) (h : i < vec.length) :
    vec_read vec i = .ok (vec.getD i 0) := by
  simp [vec_read, List.getElem?_eq_getElem h, List.getD_eq_getElem?_getD]

/-- The horizontal position reached by stepping, for orders 0, 1 and 2 (with a
matrix of the matching height 1, 3 or 4): at column `xlow + k` of row `yo` it
is the documented polynomial, whatever the left edge `xlow` of the rectangle. -/
theorem quadratic_x_low_orders (vec : List ℚ) (order xlow yo : Int) (s : Step) (k : Nat)
    (ho : (order = 0 ∧ 2 ≤ vec.length) ∨ (order = 1 ∧ 6 ≤ vec.length) ∨
      (order = 2 ∧ 8 ≤ vec.length))
    (hs : quadratic_row_start vec order xlow yo = .ok s) :
    ((quadratic_advance order)^[k] s).fxi
      = quadratic_documented_x vec order ((xlow + k : Int) : ℚ) (yo : ℚ) := by
  have hlow : ¬ order > 2 := by omega
  rw [quadratic_advance_iterate_low order hlow]
  rcases ho with ⟨h, hv⟩ | ⟨h, hv⟩ | ⟨h, hv⟩
  · subst h
    have r0 := vec_read_ok vec 0 (by omega)
    have r1 := vec_read_ok vec 1 (by omega)
    simp only [quadratic_row_start, quadratic_case0, r0, r1, bind, Except.bind, pure,
      Except.pure] at hs
    norm_num at hs
    subst hs
    simp only [quadratic_documented_x, quadratic_coeff]
    norm_num
    ring
  · subst h
    have r0 := vec_read_ok vec 0 (by omega)
    have r1 := vec_read_ok vec 1 (by omega)
    have r2 := vec_read_ok vec 2 (by omega)
    have r3 := vec_read_ok vec 3 (by omega)
    have r4 := vec_read_ok vec 4 (by omega)
    have r5 := vec_read_ok vec 5 (by omega)
    simp only [quadratic_row_start, quadratic_case0, quadratic_case1, r0, r1, r2, r3, r4, r5,
      bind, Except.bind, pure, Except.pure] at hs
    norm_num at hs
    subst hs
    simp only [quadratic_documented_x, quadratic_coeff]
    norm_num
    ring
  · subst h
    have r0 := vec_read_ok vec 0 (by omega)
    have r1 := vec_read_ok vec 1 (by omega)
    have r2 := vec_read_ok vec 2 (by omega)
    have r3 := vec_read_ok vec 3 (by omega)
    have r4 := vec_read_ok vec 4 (by omega)
    have r5 := vec_read_ok vec 5 (by omega)
    have r6 := vec_read_ok vec 6 (by omega)
    have r7 := vec_read_ok vec 7 (by omega)
    simp only [quadratic_row_start, quadratic_case0, quadratic_case1, quadratic_case2, r0, r1,
      r2, r3, r4, r5, r6, r7, bind, Except.bind, pure, Except.pure] at hs
    norm_num at hs
    subst hs
    simp only [quadratic_documented_x, quadratic_coeff]
    norm_num
    ring

/-- The horizontal position reached by stepping for order 3: at column
`xlow + k` it is the documented polynomial less `2 * vec[8] * xlow * k`, so it
is the documented one exactly in the first column and in rectangles whose
left edge is 0. -/
theorem quadratic_x_order3 (vec : List ℚ) (xlow yo : Int) (s : Step) (k : Nat)
    (hs : quadratic_row_start vec 3 xlow yo = .ok s) (hv : 12 ≤ vec.length) :
    ((quadratic_advance 3)^[k] s).fxi
      = quadratic_documented_x vec 3 ((xlow + k : Int) : ℚ) (yo : ℚ)
        - 2 * vec.getD 8 0 * xlow * k := by
  have r0 := vec_read_ok vec 0 (by omega)
  have r1 := vec_read_ok vec 1 (by omega)
  have r2 := vec_read_ok vec 2 (by omega)
  have r3 := vec_read_ok vec 3 (by omega)
  have r4 := vec_read_ok vec 4 (by omega)
  have r5 := vec_read_ok vec 5 (by omega)
  have r6 := vec_read_ok vec 6 (by omega)
  have r7 := vec_read_ok vec 7 (by omega)
  have r8 := vec_read_ok vec 8 (by omega)
  have r9 := vec_read_ok vec 9 (by omega)
  have r10 := vec_read_ok vec 10 (by omega)
  have r11 := vec_read_ok vec 11 (by omega)
  rw [quadratic_advance_iterate_high 3 (by decide)]
  simp only [quadratic_row_start, quadratic_case0, quadratic_case1, quadratic_case2,
    quadratic_case3, r0, r1, r2, r3, r4, r5, r6, r7, r8, r9, r10, r11, bind, Except.bind, pure,
    Except.pure] at hs
  norm_num at hs
  subst hs
  simp only [quadratic_documented_x, quadratic_coeff]
  norm_num
  ring
/-- A row generated in one call is the row of its first `n1` columns followed
by the row generated from the state reached after `n1` steps (every order). -/
theorem quadratic_row_append (order cw ch : Int) (n2 : Nat) :
    ∀ (n1 : Nat) (s : Step),
      quadratic_row order cw ch (n1 + n2) s
        = quadratic_row order cw ch n1 s ++
          quadratic_row order cw ch n2 ((quadratic_advance order)^[n1] s) := by
  intro n1
  induction n1 with
  | zero => intro s; simp [quadratic_row]
  | succ m ih =>
    intro s
    rw [show m + 1 + n2 = (m + n2) + 1 by omega]
    simp only [quadratic_row, ih, List.cons_append, Function.iterate_succ_apply]

/-- Stacked tiles: the rows generated in one call are the rows of the upper
part followed by the rows of the lower part (every order). -/
theorem quadratic_rows_append (vec : List ℚ) (order cw ch xlow xhigh : Int) (n2 : Nat) :
    ∀ (n1 : Nat) (yo : Int),
      quadratic_rows vec order cw ch xlow xhigh (n1 + n2) yo
        = (match quadratic_rows vec order cw ch xlow xhigh n1 yo with
          | .error e => .error e
          | .ok upper =>
            match quadratic_rows vec order cw ch xlow xhigh n2 (yo + n1) with
            | .error e => .error e
            | .ok lower => .ok (upper ++ lower)) := by
  intro n1
  induction n1 with
  | zero =>
    intro yo
    simp only [Nat.zero_add, quadratic_rows, Nat.cast_zero, add_zero, List.nil_append]
    cases quadratic_rows vec order cw ch xlow xhigh n2 yo <;> rfl
  | succ m ih =>
    intro yo
    rw [show m + 1 + n2 = (m + n2) + 1 by omega]
    simp only [quadratic_rows, bind, Except.bind, pure, Except.pure, ih]
    cases quadratic_row_start vec order xlow yo with
    | error e => rfl
    | ok s =>
      simp only []
      cases quadratic_rows vec order cw ch xlow xhigh m (yo + 1) with
      | error e => rfl
      | ok upper =>
        have : yo + 1 + (m : Int) = yo + ((m + 1 : Nat) : Int) := by push_cast; ring
        simp only [this]
        cases quadratic_rows vec order cw ch xlow xhigh n2 (yo + ((m + 1 : Nat) : Int)) with
        | error e => rfl
        | ok lower => simp

/-- Side-by-side tiles, orders 0, 1 and 2: the state reached after `a` steps
from the left edge `xlow` is the state a tile starts with at `xlow + a`. -/
theorem quadratic_restart_low (vec : List ℚ) (order xlow yo : Int) (a : Nat) (s s' : Step)
    (ho : order = 0 ∨ order = 1 ∨ order = 2)
    (hs : quadratic_row_start vec order xlow yo = .ok s)
    (hs' : quadratic_row_start vec order (xlow + a) yo = .ok s') :
    (quadratic_advance order)^[a] s = s' := by
  have hlow : ¬ order > 2 := by omega
  rw [quadratic_advance_iterate_low order hlow]
  have hrd : ∀ i, (∃ v, vec_read vec i = .ok v) ∨ vec_read vec i = .error .oob := by
    intro i
    unfold vec_read
    cases vec[i]? with
    | none => exact Or.inr rfl
    | some v => exact Or.inl ⟨v, rfl⟩
  rcases ho with h | h | h
  · subst h
    simp only [quadratic_row_start, quadratic_case0, bind, Except.bind, pure, Except.pure]
      at hs hs'
    norm_num at hs hs'
    obtain ⟨v0, r0⟩ : ∃ v, vec_read vec 0 = .ok v := by
      rcases hrd 0 with h | h
      · exact h
      · rw [h] at hs; simp at hs
    simp only [r0] at hs hs'
    obtain ⟨v1, r1⟩ : ∃ v, vec_read vec 1 = .ok v := by
      rcases hrd 1 with h | h
      · exact h
      · rw [h] at hs; simp at hs
    simp only [r1] at hs hs'
    simp only [Except.ok.injEq] at hs hs'
    subst hs; subst hs'
    simp only [Step.mk.injEq]
    refine ⟨?_, ?_, ?_, ?_, ?_, ?_⟩ <;> push_cast <;> ring
  · subst h
    simp only [quadratic_row_start, quadratic_case0, quadratic_case1, bind, Except.bind, pure,
      Except.pure] at hs hs'
    norm_num at hs hs'
    obtain ⟨v0, r0⟩ : ∃ v, vec_read vec 0 = .ok v := by
      rcases hrd 0 with h | h
      · exact h
      · rw [h] at hs; simp at hs
    simp only [r0] at hs hs'
    obtain ⟨v1, r1⟩ : ∃ v, vec_read vec 1 = .ok v := by
      rcases hrd 1 with h | h
      · exact h
      · rw [h] at hs; simp at hs
    simp only [r1] at hs hs'
    obtain ⟨v4, r4⟩ : ∃ v, vec_read vec 4 = .ok v := by
      rcases hrd 4 with h | h
      · exact h
      · rw [h] at hs; simp at hs
    simp only [r4] at hs hs'
    obtain ⟨v2, r2⟩ : ∃ v, vec_read vec 2 = .ok v := by
      rcases hrd 2 with h | h
      · exact h
      · rw [h] at hs; simp at hs
    simp only [r2] at hs hs'
    obtain ⟨v5, r5⟩ : ∃ v, vec_read vec 5 = .ok v := by
      rcases hrd 5 with h | h
      · exact h
      · rw [h] at hs; simp at hs
    simp only [r5] at hs hs'
    obtain ⟨v3, r3⟩ : ∃ v, vec_read vec 3 = .ok v := by
      rcases hrd 3 with h | h
      · exact h
      · rw [h] at hs; simp at hs
    simp only [r3] at hs hs'
    simp only [Except.ok.injEq] at hs hs'
    subst hs; subst hs'
    simp only [Step.mk.injEq]
    refine ⟨?_, ?_, ?_, ?_, ?_, ?_⟩ <;> push_cast <;> ring
  · subst h
    simp only [quadratic_row_start, quadratic_case0, quadratic_case1, quadratic_case2, bind,
      Except.bind, pure, Except.pure] at hs hs'
    norm_num at hs hs'
    obtain ⟨v0, r0⟩ : ∃ v, vec_read vec 0 = .ok v := by
      rcases hrd 0 with h | h
      · exact h
      · rw [h] at hs; simp at hs
    simp only [r0] at hs hs'
    obtain ⟨v1, r1⟩ : ∃ v, vec_read vec 1 = .ok v := by
      rcases hrd 1 with h | h
      · exact h
      · rw [h] at hs; simp at hs
    simp only [r1] at hs hs'
    obtain ⟨v6, r6⟩ : ∃ v, vec_read vec 6 = .ok v := by
      rcases hrd 6 with h | h
      · exact h
      · rw [h] at hs; simp at hs
    simp only [r6] at hs hs'
    obtain ⟨v7, r7⟩ : ∃ v, vec_read vec 7 = .ok v := by
      rcases hrd 7 with h | h
      · exact h
      · rw [h] at hs; simp at hs
    simp only [r7] at hs hs'
    obtain ⟨v4, r4⟩ : ∃ v, vec_read vec 4 = .ok v := by
      rcases hrd 4 with h | h
      · exact h
      · rw [h] at hs; simp at hs
    simp only [r4] at hs hs'
    obtain ⟨v2, r2⟩ : ∃ v, vec_read vec 2 = .ok v := by
      rcases hrd 2 with h | h
      · exact h
      · rw [h] at hs; simp at hs
    simp only [r2] at hs hs'
    obtain ⟨v5, r5⟩ : ∃ v, vec_read vec 5 = .ok v := by
      rcases hrd 5 with h | h
      · exact h
      · rw [h] at hs; simp at hs
    simp only [r5] at hs hs'
    obtain ⟨v3, r3⟩ : ∃ v, vec_read vec 3 = .ok v := by
      rcases hrd 3 with h | h
      · exact h
      · rw [h] at hs; simp at hs
    simp only [r3] at hs hs'
    simp only [Except.ok.injEq] at hs hs'
    subst hs; subst hs'
    simp only [Step.mk.injEq]
    refine ⟨?_, ?_, ?_, ?_, ?_, ?_⟩ <;> push_cast <;> ring

/-! ## resample/quadratic.c: build -/

theorem vec_read_cases (vec : List ℚ) (i : Nat) :
    (∃ v, vec_read vec i = .ok v) ∨ vec_read vec i = .error .oob := by
  unfold vec_read
  cases vec[i]? with
  | none => exact Or.inr rfl
  | some v => exact Or.inl ⟨v, rfl⟩

theorem quadratic_case0_cases (vec : List ℚ) (xlow yo : Int) :
    (∃ s, quadratic_case0 vec xlow yo = .ok s) ∨ quadratic_case0 vec xlow yo = .error .oob := by
  simp only [quadratic_case0, bind, Except.bind, pure, Except.pure]
  rcases vec_read_cases vec 0 with ⟨v, h⟩ | h <;> simp only [h]
  rcases vec_read_cases vec 1 with ⟨v, h⟩ | h <;> simp only [h]
  all_goals simp

theorem quadratic_case1_cases (vec : List ℚ) (xlow yo : Int) (s : Step) :
    (∃ t, quadratic_case1 vec xlow yo s = .ok t) ∨
      quadratic_case1 vec xlow yo s = .error .oob := by
  simp only [quadratic_case1, bind, Except.bind, pure, Except.pure]
  rcases vec_read_cases vec 4 with ⟨v, h⟩ | h <;> simp only [h]
  rcases vec_read_cases vec 2 with ⟨v, h⟩ | h <;> simp only [h]
  rcases vec_read_cases vec 5 with ⟨v, h⟩ | h <;> simp only [h]
  rcases vec_read_cases vec 3 with ⟨v, h⟩ | h <;> simp only [h]
  all_goals simp

theorem quadratic_case2_cases (vec : List ℚ) (xlow yo : Int) (s : Step) :
    (∃ t, quadratic_case2 vec xlow yo s = .ok t) ∨
      quadratic_case2 vec xlow yo s = .error .oob := by
  simp only [quadratic_case2, bind, Except.bind, pure, Except.pure]
  rcases vec_read_cases vec 6 with ⟨v, h⟩ | h <;> simp only [h]
  rcases vec_read_cases vec 7 with ⟨v, h⟩ | h <;> simp only [h]
  all_goals simp

theorem quadratic_case3_cases (vec : List ℚ) (xlow yo : Int) (s : Step) :
    (∃ t, quadratic_case3 vec xlow yo s = .ok t) ∨
      quadratic_case3 vec xlow yo s = .error .oob := by
  simp only [quadratic_case3, bind, Except.bind, pure, Except.pure]
  rcases vec_read_cases vec 10 with ⟨v, h⟩ | h <;> simp only [h]
  rcases vec_read_cases vec 8 with ⟨v, h⟩ | h <;> simp only [h]
  rcases vec_read_cases vec 11 with ⟨v, h⟩ | h <;> simp only [h]
  rcases vec_read_cases vec 9 with ⟨v, h⟩ | h <;> simp only [h]
  all_goals simp

/-- With an order in 0..3 the start of a row never reaches the
`g_assert_not_reached` of the `switch`. -/
theorem quadratic_row_start_reached (vec : List ℚ) (order xlow yo : Int)
    (ho : order = 0 ∨ order = 1 ∨ order = 2 ∨ order = 3) :
    quadratic_row_start vec order xlow yo ≠ .error .not_reached := by
  simp only [quadratic_row_start, bind, Except.bind, pure, Except.pure]
  rcases quadratic_case0_cases vec xlow yo with ⟨s0, h0⟩ | h0 <;> simp only [h0]
  swap
  · simp
  rcases ho with h | h | h | h <;> subst h
  · simp
  · norm_num
    rcases quadratic_case1_cases vec xlow yo s0 with ⟨t, h⟩ | h <;> simp [h]
  · norm_num
    rcases quadratic_case2_cases vec xlow yo s0 with ⟨s2, h2⟩ | h2 <;> simp only [h2]
    · rcases quadratic_case1_cases vec xlow yo s2 with ⟨t, h⟩ | h <;> simp [h]
    · simp
  · norm_num
    rcases quadratic_case3_cases vec xlow yo s0 with ⟨s3, h3⟩ | h3 <;> simp only [h3]
    · rcases quadratic_case2_cases vec xlow yo s3 with ⟨s2, h2⟩ | h2 <;> simp only [h2]
      · rcases quadratic_case1_cases vec xlow yo s2 with ⟨t, h⟩ | h <;> simp [h]
      · simp
    · simp

theorem quadratic_rows_reached (vec : List ℚ) (order cw ch xlow xhigh : Int)
    (ho : order = 0 ∨ order = 1 ∨ order = 2 ∨ order = 3) :
    ∀ (n : Nat) (yo : Int),
      quadratic_rows vec order cw ch xlow xhigh n yo ≠ .error .not_reached := by
  intro n
  induction n with
  | zero => intro yo; simp [quadratic_rows]
  | succ m ih =>
    intro yo
    simp only [quadratic_rows, bind, Except.bind, pure, Except.pure]
    cases hs : quadratic_row_start vec order xlow yo with
    | error e =>
      simp only [ne_eq, Except.error.injEq]
      intro he
      exact quadratic_row_start_reached vec order xlow yo ho (by rw [hs, he])
    | ok s =>
      simp only []
      cases hr : quadratic_rows vec order cw ch xlow xhigh m (yo + 1) with
      | error e =>
        simp only [ne_eq, Except.error.injEq]
        intro he
        exact ih (yo + 1) (by rw [hr, he])
      | ok rest => simp

/-- C14. `vips_quadratic_build` accepts a coefficient matrix iff its width is
2 and its height is 1, 3, 4 or 6, and then sets the order to 0, 1, 2 or 3:
* if the build succeeds, the matrix has width 2 and one of those heights, and
  the order is the matching one;
* when the steps implemented elsewhere succeed, the build succeeds with that
  order for such a matrix, fails with the width error for any other width and
  with the height error for width 2 and any other height;
* any other width or height makes the build fail, whatever the other steps do;
* hence `vips_quadratic_gen` runs only with an order in 0..3 and never reaches
  `g_assert_not_reached`. -/
theorem quadratic_build_accepts (env : QuadraticBuildEnv) :
    (∀ order, vips_quadratic_build env = .ok order →
      ∃ xsize ysize, env.check_matrix = some (xsize, ysize) ∧ xsize = 2 ∧
        ((ysize = 1 ∧ order = 0) ∨ (ysize = 3 ∧ order = 1) ∨ (ysize = 4 ∧ order = 2) ∨
          (ysize = 6 ∧ order = 3))) ∧
    (∀ xsize ysize, env.parent_build_fails = false → env.pipeline_fails = false →
      env.check_uncoded_fails = false → env.check_noncomplex_fails = false →
      env.check_matrix = some (xsize, ysize) → env.embed_fails = false →
      env.copy_memory_fails = false → env.generate_fails = false →
      (xsize = 2 ∧ ysize = 1 → vips_quadratic_build env = .ok 0) ∧
      (xsize = 2 ∧ ysize = 3 → vips_quadratic_build env = .ok 1) ∧
      (xsize = 2 ∧ ysize = 4 → vips_quadratic_build env = .ok 2) ∧
      (xsize = 2 ∧ ysize = 6 → vips_quadratic_build env = .ok 3) ∧
      (xsize ≠ 2 → vips_quadratic_build env = .error .width) ∧
      (xsize = 2 → ysize ≠ 1 → ysize ≠ 3 → ysize ≠ 4 → ysize ≠ 6 →
        vips_quadratic_build env = .error .height)) ∧
    (∀ xsize ysize, env.check_matrix = some (xsize, ysize) →
      (xsize ≠ 2 ∨ (ysize ≠ 1 ∧ ysize ≠ 3 ∧ ysize ≠ 4 ∧ ysize ≠ 6)) →
      ∃ e, vips_quadratic_build env = .error e) ∧
    (∀ order, vips_quadratic_build env = .ok order →
      (order = 0 ∨ order = 1 ∨ order = 2 ∨ order = 3) ∧
      ∀ (fails : Bool) (vec : List ℚ) (cw ch : Int) (valid : VipsRect),
        vips_quadratic_gen fails vec order cw ch valid ≠ .error .not_reached) := by
  have hsucc : ∀ order, vips_quadratic_build env = .ok order →
      ∃ xsize ysize, env.check_matrix = some (xsize, ysize) ∧ xsize = 2 ∧
        ((ysize = 1 ∧ order = 0) ∨ (ysize = 3 ∧ order = 1) ∨ (ysize = 4 ∧ order = 2) ∨
          (ysize = 6 ∧ order = 3)) := by
    intro order h
    by_cases p1 : env.parent_build_fails = true
    · simp [vips_quadratic_build, p1] at h
    by_cases p2 : env.pipeline_fails = true
    · simp [vips_quadratic_build, p1, p2] at h
    by_cases p3 : (env.check_uncoded_fails || env.check_noncomplex_fails) = true
    · simp only [vips_quadratic_build, p1, p2, p3, if_true, if_false] at h
      simp at h
    cases hm : env.check_matrix with
    | none => simp [vips_quadratic_build, p1, p2, p3, hm] at h
    | some p =>
      obtain ⟨xsize, ysize⟩ := p
      by_cases hx : xsize = 2
      swap
      · simp [vips_quadratic_build, p1, p2, p3, hm, hx] at h
      cases ho : quadratic_order_of_height ysize with
      | none => simp [vips_quadratic_build, p1, p2, p3, hm, hx, ho] at h
      | some o =>
        by_cases p6 : env.embed_fails = true
        · simp [vips_quadratic_build, p1, p2, p3, hm, hx, ho, p6] at h
        by_cases p7 : env.copy_memory_fails = true
        · simp [vips_quadratic_build, p1, p2, p3, hm, hx, ho, p6, p7] at h
        by_cases p8 : env.generate_fails = true
        · simp [vips_quadratic_build, p1, p2, p3, hm, hx, ho, p6, p7, p8] at h
        simp [vips_quadratic_build, p1, p2, p3, hm, hx, ho, p6, p7, p8] at h
        subst h
        refine ⟨xsize, ysize, rfl, hx, ?_⟩
        unfold quadratic_order_of_height at ho
        split_ifs at ho with h1 h3 h4 h6 <;> simp only [Option.some.injEq] at ho <;>
          subst ho <;> simp [*]
  refine ⟨hsucc, ?_, ?_, ?_⟩
  · intro xsize ysize e1 e2 e3 e4 e5 e6 e7 e8
    refine ⟨?_, ?_, ?_, ?_, ?_, ?_⟩
    · rintro ⟨rfl, rfl⟩
      simp [vips_quadratic_build, quadratic_order_of_height, e1, e2, e3, e4, e5, e6, e7, e8]
    · rintro ⟨rfl, rfl⟩
      simp [vips_quadratic_build, quadratic_order_of_height, e1, e2, e3, e4, e5, e6, e7, e8]
    · rintro ⟨rfl, rfl⟩
      simp [vips_quadratic_build, quadratic_order_of_height, e1, e2, e3, e4, e5, e6, e7, e8]
    · rintro ⟨rfl, rfl⟩
      simp [vips_quadratic_build, quadratic_order_of_height, e1, e2, e3, e4, e5, e6, e7, e8]
    · intro hx
      simp [vips_quadratic_build, e1, e2, e3, e4, e5, hx]
    · rintro rfl h1 h3 h4 h6
      simp [vips_quadratic_build, quadratic_order_of_height, e1, e2, e3, e4, e5, h1, h3, h4, h6]
  · intro xsize ysize hm hbad
    cases hb : vips_quadratic_build env with
    | error e => exact ⟨e, rfl⟩
    | ok order =>
      obtain ⟨xs, ys, h1, h2, h3⟩ := hsucc order hb
      rw [hm] at h1
      simp only [Option.some.injEq, Prod.mk.injEq] at h1
      obtain ⟨rfl, rfl⟩ := h1
      rcases hbad with h | h
      · exact absurd h2 h
      · rcases h3 with ⟨h', _⟩ | ⟨h', _⟩ | ⟨h', _⟩ | ⟨h', _⟩
        · exact absurd h' h.1
        · exact absurd h' h.2.1
        · exact absurd h' h.2.2.1
        · exact absurd h' h.2.2.2
  · intro order h
    obtain ⟨xs, ys, _, _, h3⟩ := hsucc order h
    have ho : order = 0 ∨ order = 1 ∨ order = 2 ∨ order = 3 := by
      rcases h3 with ⟨_, h⟩ | ⟨_, h⟩ | ⟨_, h⟩ | ⟨_, h⟩ <;> simp [h]
    refine ⟨ho, ?_⟩
    intro fails vec cw ch valid
    simp only [vips_quadratic_gen]
    split_ifs
    · simp
    · exact quadratic_rows_reached vec order cw ch _ _ ho _ _

/-- Witness for C14: a 2 x 4 matrix with every other step succeeding is
accepted with order 2. -/
theorem quadratic_build_accepts_witness :
    vips_quadratic_build
      { parent_build_fails := false, pipeline_fails := false, check_uncoded_fails := false,
        check_noncomplex_fails := false, check_matrix := some (2, 4), embed_fails := false,
        copy_memory_fails := false, generate_fails := false } = .ok 2 :=
  ((quadratic_build_accepts
      { parent_build_fails := false, pipeline_fails := false, check_uncoded_fails := false,
        check_noncomplex_fails := false, check_matrix := some (2, 4), embed_fails := false,
        copy_memory_fails := false, generate_fails := false }).2.1 2 4
    rfl rfl rfl rfl rfl rfl rfl rfl).2.2.1 ⟨rfl, rfl⟩

/-! ## foreign/radiance.c: header -/

theorem process_line_format (E : RadFloat) (line : List Char) (read r : Read E)
    (h : rad2vips_process_line E line read = some r) : r.format = read.format := by
  unfold rad2vips_process_line at h
  split_ifs at h
  · cases h; rfl
  · cases h; rfl
  · cases hc : E.scan_colcor (line.drop 10) with
    | none => simp [hc] at h
    | some v => obtain ⟨a, b, c⟩ := v; simp [hc] at h; cases h; rfl
  · cases h; rfl
  · cases hc : E.scan_prims (line.drop 10) with
    | none => simp [hc] at h
    | some v => simp [hc] at h; cases h; rfl
  · cases h; rfl

theorem getheader_format (E : RadFloat) (lines rest : List (List Char)) (read r : Read E)
    (h : getheader (rad2vips_process_line E) lines read = some (r, rest)) :
    r.format = read.format := by
  induction lines generalizing read with
  | nil => simp [getheader] at h
  | cons line ls ih =>
    simp only [getheader] at h
    split_ifs at h with h0
    · cases h; rfl
    · cases hp : rad2vips_process_line E line read with
      | none => simp [hp] at h
      | some p1 =>
        simp only [hp] at h
        rw [ih p1 h, process_line_format E line read p1 hp]

/-- Whatever the header lines are, a header read that starts from `read_new`
and succeeds declares the interpretation scRGB and the format `COLRFMT`. -/
theorem get_header_format_fixed (E : RadFloat) (pre : Char) (lines rest : List (List Char))
    (r : Read E) (img : RadImage E)
    (h : rad2vips_get_header E pre lines (read_new E) = some (r, img, rest)) :
    r.format = COLRFMT ∧ img.rad_format = COLRFMT ∧
      img.interpretation = VipsInterpretation.scRGB := by
  unfold rad2vips_get_header at h
  cases hg : getheader (rad2vips_process_line E) lines (read_new E) with
  | none => simp [hg] at h
  | some v =>
    obtain ⟨read1, rest0⟩ := v
    have hf : read1.format = COLRFMT := getheader_format E lines rest0 (read_new E) read1 hg
    simp only [hg] at h
    cases rest0 with
    | nil => simp at h
    | cons line rest1 =>
      simp only [] at h
      cases hs : str2resolu pre line with
      | none => simp [hs] at h
      | some rs =>
        simp only [hs] at h
        split_ifs at h
        all_goals
          simp only [Option.some.injEq, Prod.mk.injEq] at h
          obtain ⟨h1, h2, _⟩ := h
          subst h1; subst h2
          simp_all

/-- C8. The picture format of the stream is not taken: for the header
`#?RADIANCE`, `FORMAT=32-bit_rle_xyze`, blank line, `-Y 3 +X 5`, the header
read succeeds with a 5 x 3 image but leaves `read->format` at
`32-bit_rle_rgbe`, declares the interpretation scRGB (not XYZ) and sets the
rad-format metadata to `32-bit_rle_rgbe`. -/
theorem get_header_ignores_format_line (E : RadFloat) (pre : Char) :
    header_format (rad2vips_get_header E pre
      [String.toList "#?RADIANCE", String.toList "FORMAT=32-bit_rle_xyze", [],
        String.toList "-Y 3 +X 5"] (read_new E))
      = some (String.toList "32-bit_rle_rgbe", VipsInterpretation.scRGB,
          String.toList "32-bit_rle_rgbe", 5, 3) := by
  have h1 : getheader (rad2vips_process_line E)
      [String.toList "#?RADIANCE", String.toList "FORMAT=32-bit_rle_xyze", [],
        String.toList "-Y 3 +X 5"] (read_new E)
      = some (read_new E, [String.toList "-Y 3 +X 5"]) := rfl
  have h2 : str2resolu pre (String.toList "-Y 3 +X 5") = some ⟨6, 5, 3⟩ := by
    have hs : scan_XY (String.toList "-Y 3 +X 5") 0 none none = (some 6, some 1) := by
      decide
    have c1 : char_before pre (String.toList "-Y 3 +X 5") 6 = '+' := rfl
    have c2 : char_before pre (String.toList "-Y 3 +X 5") 1 = '-' := rfl
    have a1 : atoi (List.drop (6 + 1) (String.toList "-Y 3 +X 5")) = 5 := by decide
    have a2 : atoi (List.drop (1 + 1) (String.toList "-Y 3 +X 5")) = 3 := by decide
    simp only [str2resolu, hs, c1, c2, a1, a2]
    decide
  have h3 : scanlen ⟨6, 5, 3⟩ = 5 := by decide
  have h4 : numscans ⟨6, 5, 3⟩ = 3 := by decide
  have h5 : ¬ ((5 : Int) ≤ 0 ∨ (5 : Int) ≥ VIPS_MAX_COORD ∨ (3 : Int) ≤ 0 ∨
      (3 : Int) ≥ VIPS_MAX_COORD) := by decide
  have h6 : (read_new E).format = COLRFMT := rfl
  simp only [rad2vips_get_header, h1, h2, h3, h4, h5, h6, header_format, if_true, if_false,
    Option.map]
  rfl

/-! ## foreign/radiance.c: old-style scanlines -/

theorem set_append_length (done : List COLR) (j c : COLR) (js : List COLR) :
    (done ++ j :: js).set done.length c = done ++ c :: js := by
  induction done with
  | nil => rfl
  | cons d ds ih => simp [List.set, ih]

theorem put_colr_append (done : List COLR) (j c : COLR) (js : List COLR) :
    put_colr (done ++ j :: js) done.length c = .ok (done ++ c :: js) := by
  have hlt : done.length < (done ++ j :: js).length := by simp
  simp only [put_colr, if_pos hlt, set_append_length]

theorem colr_bytes_cons (c : COLR) (cs : List COLR) (n : Nat) :
    colr_bytes (c :: cs) (n + 1) = c.red :: c.grn :: c.blu :: c.exp :: colr_bytes cs n := by
  simp [colr_bytes]

theorem colr_bytes_length (scanline : List COLR) :
    (colr_bytes scanline scanline.length).length = 4 * scanline.length := by
  induction scanline with
  | nil => rfl
  | cons c cs ih =>
    simp only [List.length_cons, colr_bytes_cons, ih]
    omega

/-- The old-style reader copies a flat scanline that holds no repeat marker. -/
theorem scanline_read_old_flat (todo : List COLR) :
    ∀ (done junk : List COLR) (tail : List Nat), junk.length = todo.length →
      (∀ c ∈ todo, ¬ (c.red = 1 ∧ c.grn = 1 ∧ c.blu = 1)) →
      scanline_read_old (colr_bytes todo todo.length ++ tail) (done ++ junk) done.length
        todo.length 0 = .ok (done ++ todo, tail) := by
  induction todo with
  | nil =>
    intro done junk tail hj _
    have : junk = [] := List.length_eq_zero.mp hj
    subst this
    simp [colr_bytes, scanline_read_old]
  | cons c cs ih =>
    intro done junk tail hj hm
    cases junk with
    | nil => simp at hj
    | cons j js =>
      have hc : ¬ (c.red = 1 ∧ c.grn = 1 ∧ c.blu = 1) := hm c (List.mem_cons_self _ _)
      have hjs : js.length = cs.length := by simpa using hj
      have ih1 := ih (done ++ [c]) js tail hjs (fun x hx => hm x (List.mem_cons_of_mem _ hx))
      simp only [List.length_cons, colr_bytes_cons, List.cons_append]
      rw [scanline_read_old]
      simp only [put_colr_append, if_neg hc]
      simpa using ih1

/-- C9, as stated, fails: the flat scanline `(5,5,5,5) (1,1,1,1)` of width 2 is
written as its 8 raw bytes, and reading them back succeeds but returns
`(5,5,5,5) (5,5,5,5)`: the second pixel is taken for a repeat marker. -/
theorem flat_scanline_marker_not_restored :
    scanline_write [⟨5, 5, 5, 5⟩, ⟨1, 1, 1, 1⟩] 2 = [5, 5, 5, 5, 1, 1, 1, 1] ∧
    scanline_read (scanline_write [⟨5, 5, 5, 5⟩, ⟨1, 1, 1, 1⟩] 2)
      [⟨0, 0, 0, 0⟩, ⟨0, 0, 0, 0⟩] 2 = .ok ([⟨5, 5, 5, 5⟩, ⟨5, 5, 5, 5⟩], []) ∧
    scanline_read (scanline_write [⟨5, 5, 5, 5⟩, ⟨1, 1, 1, 1⟩] 2)
      [⟨0, 0, 0, 0⟩, ⟨0, 0, 0, 0⟩] 2 ≠ .ok ([⟨5, 5, 5, 5⟩, ⟨1, 1, 1, 1⟩], []) := by
  decide

/-- C9, amended. For every scanline of width `w < 8` or `w > 32767` in which no
pixel has red = green = blue = 1, `scanline_read` called with width `w` on the
`4 * w` raw bytes written by `scanline_write` (followed by any further input
`tail`) succeeds, returns the original scanline and leaves `tail` unread. -/
theorem flat_scanline_roundtrip (scanline buf : List COLR) (width : Nat) (tail : List Nat)
    (hlen : scanline.length = width) (hbuf : buf.length = width)
    (hw : width < MINELEN ∨ width > MAXELEN)
    (hm : ∀ c ∈ scanline, ¬ (c.red = 1 ∧ c.grn = 1 ∧ c.blu = 1)) :
    (scanline_write scanline width).length = 4 * width ∧
    scanline_read (scanline_write scanline width ++ tail) buf width = .ok (scanline, tail) := by
  subst hlen
  have hwr : scanline_write scanline scanline.length = colr_bytes scanline scanline.length := by
    simp only [scanline_write, if_pos hw]
  constructor
  · rw [hwr, colr_bytes_length]
  · simp only [scanline_read, if_pos hw, hwr]
    have := scanline_read_old_flat scanline [] buf tail hbuf hm
    simpa using this

/-- Witness for the amended C9: a scanline of width 2. -/
theorem flat_scanline_roundtrip_witness :
    (scanline_write [⟨5, 5, 5, 5⟩, ⟨1, 2, 1, 1⟩] 2).length = 4 * 2 ∧
    scanline_read (scanline_write [⟨5, 5, 5, 5⟩, ⟨1, 2, 1, 1⟩] 2 ++ [7])
      [⟨0, 0, 0, 0⟩, ⟨0, 0, 0, 0⟩] 2 = .ok ([⟨5, 5, 5, 5⟩, ⟨1, 2, 1, 1⟩], [7]) :=
  flat_scanline_roundtrip [⟨5, 5, 5, 5⟩, ⟨1, 2, 1, 1⟩] [⟨0, 0, 0, 0⟩, ⟨0, 0, 0, 0⟩] 2 [7]
    rfl rfl (Or.inl (by decide)) (by decide)

/-! ## foreign/radiance.c: run-length encoded scanlines -/

theorem decoded_upto_length (i j : Nat) (S B : List COLR) :
    (decoded_upto i j S B).length = B.length := by
  simp [decoded_upto]

theorem decoded_upto_zero (i : Nat) (S B : List COLR) : decoded_upto i 0 S B = B := by
  apply List.ext_getElem?
  intro n
  simp [decoded_upto]

theorem put_comp_decoded (i j : Nat) (S B : List COLR) (hj : j < B.length) :
    put_comp (decoded_upto i j S B) j i (comp S j i) = .ok (decoded_upto i (j + 1) S B) := by
  have h1 : (decoded_upto i j S B)[j]? = some B[j] := by
    simp [decoded_upto, List.getElem?_eq_getElem hj]
  simp only [put_comp, h1]
  congr 1
  apply List.ext_getElem?
  intro n
  rw [List.getElem?_set]
  by_cases hn : j = n
  · subst hn
    simp [decoded_upto, List.getElem?_eq_getElem hj, hj]
  · simp only [if_neg hn, decoded_upto, List.getElem?_mapIdx]
    cases hB : B[n]? with
    | none => simp
    | some c =>
      simp only [Option.map_some']
      by_cases h2 : n < j
      · have : n < j + 1 := by omega
        simp [h2, this]
      · have : ¬ n < j + 1 := by omega
        simp [h2, this]

theorem fill_run_decoded (i v : Nat) (S B : List COLR) (len : Nat) :
    ∀ j, j + len ≤ B.length → (∀ k, k < len → comp S (j + k) i = v) →
      fill_run i v len j (decoded_upto i j S B) = .ok (decoded_upto i (j + len) S B) := by
  induction len with
  | zero => intro j _ _; simp [fill_run]
  | succ n ih =>
    intro j hj hv
    have h0 : comp S j i = v := by simpa using hv 0 (by omega)
    have hstep := put_comp_decoded i j S B (by omega)
    rw [h0] at hstep
    simp only [fill_run, hstep]
    have := ih (j + 1) (by omega) (fun k hk => by
      have := hv (k + 1) (by omega)
      rwa [show j + (k + 1) = j + 1 + k by omega] at this)
    rw [this]
    congr 2
    omega

theorem copy_literal_decoded (i : Nat) (S B : List COLR) (len : Nat) :
    ∀ j, j + len ≤ B.length →
      copy_literal i ((List.range len).map (fun k => comp S (j + k) i)) j
        (decoded_upto i j S B) = .ok (decoded_upto i (j + len) S B) := by
  induction len with
  | zero => intro j _; simp [copy_literal]
  | succ n ih =>
    intro j hj
    have hstep := put_comp_decoded i j S B (by omega)
    rw [List.range_succ_eq_map]
    simp only [List.map_cons, List.map_map, Nat.add_zero, copy_literal, hstep]
    have := ih (j + 1) (by omega)
    have he : (fun k => comp S (j + k) i) ∘ Nat.succ = fun k => comp S (j + 1 + k) i := by
      funext k
      simp only [Function.comp, Nat.succ_eq_add_one]
      congr 1
      omega
    rw [he, this]
    congr 2
    omega

theorem colr_set_all (c s : COLR) :
    (((c.set 0 (s.get 0)).set 1 (s.get 1)).set 2 (s.get 2)).set 3 (s.get 3) = s := by
  cases s; rfl

theorem decoded_all (S B : List COLR) (h : S.length = B.length) :
    decoded_upto 3 B.length S (decoded_upto 2 B.length S (decoded_upto 1 B.length S
      (decoded_upto 0 B.length S B))) = S := by
  apply List.ext_getElem
  · simp [decoded_upto, h]
  · intro n h1 h2
    have hn : n < B.length := by simpa [decoded_upto] using h1
    have hc : ∀ i, comp S n i = S[n].get i := by
      intro i
      simp [comp, List.getElem?_eq_getElem h2]
    simp [decoded_upto, hn, hc, colr_set_all]

theorem colr_get_lt (c : COLR) (hc : c.isByte) (i : Nat) : c.get i < 256 := by
  obtain ⟨h0, h1, h2, h3⟩ := hc
  unfold COLR.get
  split <;> assumption

theorem comp_lt (S : List COLR) (hb : ∀ c ∈ S, c.isByte) (k i : Nat) : comp S k i < 256 := by
  unfold comp
  cases h : S[k]? with
  | none => simp
  | some c => exact colr_get_lt c (hb c (List.getElem?_mem h)) i

theorem PUTC_comp (S : List COLR) (hb : ∀ c ∈ S, c.isByte) (k i : Nat) :
    PUTC (comp S k i) = comp S k i := by
  unfold PUTC
  exact Nat.mod_eq_of_lt (comp_lt S hb k i)

/-- One literal block read by the decoder. -/
theorem read_literal_step (i w f : Nat) (bytes tail : List Nat) (buf : List COLR) (j : Nat)
    (hj : j < w) (hl1 : 1 ≤ bytes.length) (hl2 : bytes.length ≤ 128)
    (hw : j + bytes.length ≤ w) :
    rle_read_component i w (f + 1) (bytes.length :: (bytes ++ tail)) buf j =
      match copy_literal i bytes j buf with
      | .error e => .error e
      | .ok buf1 => rle_read_component i w f tail buf1 (j + bytes.length) := by
  cases bytes with
  | nil => simp at hl1
  | cons v vs =>
    have h128 : ¬ (v :: vs).length > 128 := by omega
    have hov : ¬ j + (v :: vs).length > w := by omega
    have hle : (v :: vs).length ≤ (v :: (vs ++ tail)).length := by simp
    have htake : List.take (v :: vs).length (v :: (vs ++ tail)) = v :: vs := by
      simp
    have hdrop : List.drop (v :: vs).length (v :: (vs ++ tail)) = tail := by
      simp
    show rle_read_component i w (f + 1) ((v :: vs).length :: v :: (vs ++ tail)) buf j = _
    rw [rle_read_component]
    simp only [if_pos hj, decide_eq_true_eq, h128, if_false, hov, hle,
      if_true, htake, hdrop]

/-- One run read by the decoder. -/
theorem read_run_step (i w f cnt v : Nat) (tail : List Nat) (buf : List COLR) (j : Nat)
    (hj : j < w) (h1 : 1 ≤ cnt) (h2 : cnt ≤ 127) (hw : j + cnt ≤ w) :
    rle_read_component i w (f + 1) ((128 + cnt) :: v :: tail) buf j =
      match fill_run i v cnt j buf with
      | .error e => .error e
      | .ok buf1 => rle_read_component i w f tail buf1 (j + cnt) := by
  have hrun : 128 + cnt > 128 := by omega
  have hand : (128 + cnt) &&& 127 = cnt := by
    have := Nat.and_pow_two_sub_one_eq_mod (128 + cnt) 7
    norm_num at this
    rw [this]
    omega
  have hov : ¬ j + cnt > w := by omega
  rw [rle_read_component]
  simp only [if_pos hj, decide_eq_true_eq, hrun, if_true, hand, hov, if_false]

theorem run_length_spec (S : List COLR) (i w beg : Nat) :
    ∀ fuel cnt, 1 ≤ cnt → cnt ≤ 127 → beg + cnt ≤ w →
      (∀ k, k < cnt → comp S (beg + k) i = comp S beg i) →
      cnt ≤ run_length S i w beg fuel cnt ∧
      run_length S i w beg fuel cnt ≤ 127 ∧
      beg + run_length S i w beg fuel cnt ≤ w ∧
      ∀ k, k < run_length S i w beg fuel cnt → comp S (beg + k) i = comp S beg i := by
  intro fuel
  induction fuel with
  | zero => intro cnt h1 h2 h3 h4; exact ⟨le_refl _, h2, h3, h4⟩
  | succ n ih =>
    intro cnt h1 h2 h3 h4
    simp only [run_length]
    split_ifs with hc
    · obtain ⟨c1, c2, c3⟩ := hc
      have := ih (cnt + 1) (by omega) (by omega) (by omega) (fun k hk => by
        by_cases hk2 : k < cnt
        · exact h4 k hk2
        · have : k = cnt := by omega
          subst this; exact c3)
      exact ⟨by omega, this.2⟩
    · exact ⟨le_refl _, h2, h3, h4⟩

theorem find_run_spec (S : List COLR) (i w : Nat) :
    ∀ fuel beg cnt, beg ≤ w → cnt < MINRUN →
      beg ≤ (find_run S i w fuel beg cnt).1 ∧
      (find_run S i w fuel beg cnt).1 ≤ w ∧
      (MINRUN ≤ (find_run S i w fuel beg cnt).2 →
        (find_run S i w fuel beg cnt).2 ≤ 127 ∧
        (find_run S i w fuel beg cnt).1 + (find_run S i w fuel beg cnt).2 ≤ w ∧
        ∀ k, k < (find_run S i w fuel beg cnt).2 →
          comp S ((find_run S i w fuel beg cnt).1 + k) i
            = comp S (find_run S i w fuel beg cnt).1 i) ∧
      (w - beg ≤ fuel → (find_run S i w fuel beg cnt).2 < MINRUN →
        (find_run S i w fuel beg cnt).1 = w) := by
  intro fuel
  induction fuel with
  | zero =>
    intro beg cnt hb hc
    simp only [find_run]
    refine ⟨le_refl _, hb, fun h => absurd h (by omega), fun h _ => by omega⟩
  | succ n ih =>
    intro beg cnt hb hc
    simp only [find_run]
    split_ifs with h1 h2
    · have hr := run_length_spec S i w beg 127 1 (le_refl _) (by omega) (by omega)
        (fun k hk => by
          have : k = 0 := by omega
          subst this; rfl)
      refine ⟨le_refl _, hb, fun _ => ⟨hr.2.1, hr.2.2.1, hr.2.2.2⟩, fun _ h => absurd h2 (by omega)⟩
    · have hr := run_length_spec S i w beg 127 1 (le_refl _) (by omega) (by omega)
        (fun k hk => by
          have : k = 0 := by omega
          subst this; rfl)
      have := ih (beg + run_length S i w beg 127 1) (run_length S i w beg 127 1)
        hr.2.2.1 (by omega)
      refine ⟨by omega, this.2.1, this.2.2.1, fun hf hm => this.2.2.2 (by omega) hm⟩
    · refine ⟨le_refl _, hb, fun h => absurd h (by omega), fun _ _ => by omega⟩

/-- The decoder reads the literal blocks written by `put_literals` and arrives
at column `beg`. -/
theorem put_literals_decode (S B : List COLR) (i w beg : Nat)
    (hb : ∀ c ∈ S, c.isByte) (hB : B.length = w) (hbeg : beg ≤ w) :
    ∀ fuel j, j ≤ beg → beg - j ≤ fuel →
      (put_literals S i beg fuel j).2 = beg ∧
      ∀ (tail : List Nat) (fuelD : Nat),
        ((put_literals S i beg fuel j).1 ++ tail).length < fuelD →
        ∃ fuelD', tail.length < fuelD' ∧
          rle_read_component i w fuelD ((put_literals S i beg fuel j).1 ++ tail)
            (decoded_upto i j S B) j
          = rle_read_component i w fuelD' tail (decoded_upto i beg S B) beg := by
  intro fuel
  induction fuel with
  | zero =>
    intro j hj hf
    have : j = beg := by omega
    subst this
    exact ⟨rfl, fun tail fuelD h => ⟨fuelD, by simpa [put_literals] using h, rfl⟩⟩
  | succ n ih =>
    intro j hj hf
    simp only [put_literals]
    split_ifs with hlt
    · have hlen1 : 1 ≤ min 128 (beg - j) := by omega
      have hlen2 : min 128 (beg - j) ≤ 128 := by omega
      have hjl : j + min 128 (beg - j) ≤ beg := by omega
      obtain ⟨ih1, ih2⟩ := ih (j + min 128 (beg - j)) hjl (by omega)
      refine ⟨ih1, ?_⟩
      intro tail fuelD hfd
      have hbytes : (List.range (min 128 (beg - j))).map (fun k => PUTC (comp S (j + k) i))
          = (List.range (min 128 (beg - j))).map (fun k => comp S (j + k) i) := by
        apply List.map_congr_left
        intro k _
        exact PUTC_comp S hb (j + k) i
      have hputc : PUTC (min 128 (beg - j)) = min 128 (beg - j) := by
        unfold PUTC
        exact Nat.mod_eq_of_lt (by omega)
      rw [hbytes, hputc] at hfd ⊢
      obtain ⟨f, rfl⟩ : ∃ f, fuelD = f + 1 := ⟨fuelD - 1, by omega⟩
      have hblen : ((List.range (min 128 (beg - j))).map (fun k => comp S (j + k) i)).length
          = min 128 (beg - j) := by simp
      have hstep := read_literal_step i w f
        ((List.range (min 128 (beg - j))).map (fun k => comp S (j + k) i))
        ((put_literals S i beg n (j + min 128 (beg - j))).1 ++ tail)
        (decoded_upto i j S B) j (by omega) (by rw [hblen]; exact hlen1)
        (by rw [hblen]; exact hlen2) (by rw [hblen]; omega)
      rw [hblen] at hstep
      have hcopy := copy_literal_decoded i S B (min 128 (beg - j)) j (by omega)
      rw [hcopy] at hstep
      simp only [List.cons_append, List.append_assoc] at hfd ⊢
      rw [hstep]
      apply ih2 tail f
      simp only [List.length_cons, List.length_append, List.length_map, List.length_range]
        at hfd ⊢
      omega
    · have : j = beg := by omega
      subst this
      exact ⟨rfl, fun tail fuelD h => ⟨fuelD, by simpa using h, rfl⟩⟩

/-- The decoder reads what `rle_write_component` writes for component `i` from
column `j` on, and stops at the end of the line with the rest of the input
unread. -/
theorem rle_write_component_decode (S B : List COLR) (i w : Nat)
    (hb : ∀ c ∈ S, c.isByte) (hB : B.length = w) :
    ∀ fuel j, j ≤ w → w - j ≤ fuel → ∀ (tail : List Nat) (fuelD : Nat),
      (rle_write_component S i w fuel j ++ tail).length < fuelD →
      rle_read_component i w fuelD (rle_write_component S i w fuel j ++ tail)
        (decoded_upto i j S B) j = .ok (decoded_upto i w S B, tail) := by
  have hdone : ∀ (tail : List Nat) (fuelD : Nat), tail.length < fuelD →
      rle_read_component i w fuelD tail (decoded_upto i w S B) w
        = .ok (decoded_upto i w S B, tail) := by
    intro tail fuelD h
    obtain ⟨f, rfl⟩ : ∃ f, fuelD = f + 1 := ⟨fuelD - 1, by omega⟩
    unfold rle_read_component
    simp
  intro fuel
  induction fuel with
  | zero =>
    intro j hj hf tail fuelD hfd
    have : j = w := by omega
    subst this
    simp only [rle_write_component, List.nil_append] at hfd ⊢
    exact hdone tail fuelD hfd
  | succ n ih =>
    intro j hj hf tail fuelD hfd
    simp only [rle_write_component] at hfd ⊢
    split_ifs at hfd ⊢ with hlt hrun
    · -- literals, then a run
      obtain ⟨f1, f2, f3, f4⟩ := find_run_spec S i w w j 1 hj (by decide)
      obtain ⟨r1, r2, r3⟩ := f3 hrun
      obtain ⟨l1, l2⟩ := put_literals_decode S B i w (find_run S i w w j 1).1 hb hB f2 w j f1
        (by omega)
      rw [l1] at hfd ⊢
      simp only [List.append_assoc] at hfd ⊢
      obtain ⟨fd', hfd', heq⟩ := l2 _ fuelD hfd
      rw [heq]
      have hputc : PUTC (128 + (find_run S i w w j 1).2) = 128 + (find_run S i w w j 1).2 := by
        unfold PUTC
        exact Nat.mod_eq_of_lt (by omega)
      rw [hputc, PUTC_comp S hb] at hfd' ⊢
      obtain ⟨f, rfl⟩ : ∃ f, fd' = f + 1 := ⟨fd' - 1, by omega⟩
      have hmin : 1 ≤ (find_run S i w w j 1).2 := by
        have : MINRUN = 4 := rfl
        omega
      simp only [List.cons_append, List.nil_append] at hfd' ⊢
      rw [read_run_step i w f _ _ _ _ _ (by omega) hmin r1 r2]
      rw [fill_run_decoded i _ S B _ _ (by omega) r3]
      apply ih _ r2 (by omega) tail f
      simp only [List.length_cons] at hfd'
      omega
    · -- literals up to the end of the line
      obtain ⟨f1, f2, _, f4⟩ := find_run_spec S i w w j 1 hj (by decide)
      have hend : (find_run S i w w j 1).1 = w := f4 (by omega) (by omega)
      obtain ⟨l1, l2⟩ := put_literals_decode S B i w (find_run S i w w j 1).1 hb hB f2 w j f1
        (by omega)
      rw [l1] at hfd ⊢
      simp only [List.append_assoc] at hfd ⊢
      obtain ⟨fd', hfd', heq⟩ := l2 _ fuelD hfd
      rw [heq, hend] at *
      exact ih w (le_refl _) (by omega) tail fd' hfd'
    · have : j = w := by omega
      subst this
      simp only [List.nil_append] at hfd ⊢
      exact hdone tail fuelD hfd

theorem and_128_of_lt : ∀ b, b < 128 → b &&& 128 = 0 := by decide

theorem rle_header_bytes (w : Nat) (hmax : w ≤ MAXELEN) :
    PUTC (w >>> 8) &&& 128 = 0 ∧ (PUTC (w >>> 8) <<< 8) ||| PUTC (w &&& 255) = w := by
  have hm : MAXELEN = 32767 := rfl
  have h1 : w >>> 8 = w / 256 := by
    rw [Nat.shiftRight_eq_div_pow]
  have h2 : w &&& 255 = w % 256 := by
    have := Nat.and_pow_two_sub_one_eq_mod w 8
    norm_num at this
    exact this
  have h3 : w / 256 < 128 := by omega
  have p1 : PUTC (w >>> 8) = w / 256 := by
    unfold PUTC
    rw [h1]
    exact Nat.mod_eq_of_lt (by omega)
  have p2 : PUTC (w &&& 255) = w % 256 := by
    unfold PUTC
    rw [h2]
    exact Nat.mod_eq_of_lt (by omega)
  rw [p1, p2]
  refine ⟨and_128_of_lt _ h3, ?_⟩
  rw [Nat.shiftLeft_eq, Nat.mul_comm]
  have := Nat.mul_add_lt_is_or (i := 8) (b := w % 256) (by omega) (w / 256)
  norm_num at this
  rw [← this]
  omega

/-- One pass of the component loop over the bytes written for component `i`. -/
theorem rle_read_components_step (S B : List COLR) (w n i : Nat) (tail : List Nat)
    (hb : ∀ c ∈ S, c.isByte) (hB : B.length = w) :
    rle_read_components w (n + 1) i (rle_write_component S i w w 0 ++ tail) B
      = rle_read_components w n (i + 1) tail (decoded_upto i w S B) := by
  have h := rle_write_component_decode S B i w hb hB w 0 (Nat.zero_le _) (by omega) tail
    ((rle_write_component S i w w 0 ++ tail).length + 1) (by omega)
  rw [decoded_upto_zero] at h
  simp only [rle_read_components, h]

/-- C2. RLE round trip: for every scanline of width `w` with `8 <= w <= 32767`
whose components are bytes, `scanline_write` emits the bytes of
`rle_scanline_write`, and `scanline_read` called with width `w` on those
bytes (followed by any further input `tail`) succeeds, consumes exactly those
bytes and returns the original scanline, whatever the array held before. -/
theorem rle_scanline_roundtrip (scanline buf : List COLR) (width : Nat) (tail : List Nat)
    (hlen : scanline.length = width) (hbuf : buf.length = width)
    (hmin : MINELEN ≤ width) (hmax : width ≤ MAXELEN)
    (hb : ∀ c ∈ scanline, c.isByte) :
    scanline_write scanline width = rle_scanline_write scanline width ∧
    scanline_read (rle_scanline_write scanline width ++ tail) buf width
      = .ok (scanline, tail) := by
  have hrange : ¬ (width < MINELEN ∨ width > MAXELEN) := by omega
  have h8 : MINELEN = 8 := rfl
  refine ⟨by simp only [scanline_write, if_neg hrange], ?_⟩
  obtain ⟨hb2, hb3⟩ := rle_header_bytes width hmax
  have hp2 : PUTC 2 = 2 := rfl
  have hput : put_colr buf 0 ⟨2, 2, PUTC (width >>> 8), PUTC (width &&& 255)⟩
      = .ok (buf.set 0 ⟨2, 2, PUTC (width >>> 8), PUTC (width &&& 255)⟩) := by
    simp only [put_colr]
    rw [if_pos (by omega)]
  have hB1 : (buf.set 0 ⟨2, 2, PUTC (width >>> 8), PUTC (width &&& 255)⟩).length = width := by
    simpa using hbuf
  simp only [scanline_read, if_neg hrange, rle_scanline_write, hp2, List.cons_append,
    List.nil_append, List.append_assoc, ne_eq, not_true_eq_false, if_false, hput, hb2, hb3,
    or_self]
  rw [rle_read_components_step scanline _ width 3 0 _ hb hB1]
  rw [rle_read_components_step scanline _ width 2 1 _ hb (by rw [decoded_upto_length]; exact hB1)]
  rw [rle_read_components_step scanline _ width 1 2 _ hb
    (by rw [decoded_upto_length, decoded_upto_length]; exact hB1)]
  rw [rle_read_components_step scanline _ width 0 3 _ hb
    (by rw [decoded_upto_length, decoded_upto_length, decoded_upto_length]; exact hB1)]
  simp only [rle_read_components]
  have hall := decoded_all scanline
    (buf.set 0 ⟨2, 2, PUTC (width >>> 8), PUTC (width &&& 255)⟩) (by rw [hlen, hB1])
  rw [hB1] at hall
  rw [hall]

/-- Witness for C2: a scanline of width 8 with runs and literals. -/
theorem rle_scanline_roundtrip_witness :
    scanline_write
      [⟨1, 2, 3, 4⟩, ⟨1, 2, 9, 4⟩, ⟨1, 2, 3, 4⟩, ⟨1, 5, 3, 4⟩, ⟨1, 2, 3, 4⟩, ⟨7, 2, 3, 4⟩,
        ⟨7, 2, 3, 4⟩, ⟨7, 2, 3, 9⟩] 8
      = rle_scanline_write
        [⟨1, 2, 3, 4⟩, ⟨1, 2, 9, 4⟩, ⟨1, 2, 3, 4⟩, ⟨1, 5, 3, 4⟩, ⟨1, 2, 3, 4⟩, ⟨7, 2, 3, 4⟩,
          ⟨7, 2, 3, 4⟩, ⟨7, 2, 3, 9⟩] 8 ∧
    scanline_read (rle_scanline_write
        [⟨1, 2, 3, 4⟩, ⟨1, 2, 9, 4⟩, ⟨1, 2, 3, 4⟩, ⟨1, 5, 3, 4⟩, ⟨1, 2, 3, 4⟩, ⟨7, 2, 3, 4⟩,
          ⟨7, 2, 3, 4⟩, ⟨7, 2, 3, 9⟩] 8 ++ [])
      (List.replicate 8 ⟨0, 0, 0, 0⟩) 8
      = .ok ([⟨1, 2, 3, 4⟩, ⟨1, 2, 9, 4⟩, ⟨1, 2, 3, 4⟩, ⟨1, 5, 3, 4⟩, ⟨1, 2, 3, 4⟩,
          ⟨7, 2, 3, 4⟩, ⟨7, 2, 3, 4⟩, ⟨7, 2, 3, 9⟩], []) :=
  rle_scanline_roundtrip
    [⟨1, 2, 3, 4⟩, ⟨1, 2, 9, 4⟩, ⟨1, 2, 3, 4⟩, ⟨1, 5, 3, 4⟩, ⟨1, 2, 3, 4⟩, ⟨7, 2, 3, 4⟩,
      ⟨7, 2, 3, 4⟩, ⟨7, 2, 3, 9⟩]
    (List.replicate 8 ⟨0, 0, 0, 0⟩) 8 [] rfl rfl (by decide) (by decide) (by decide)

/-! ## foreign/radiance.c: the new-style reader stays inside the scanline -/

theorem colr_get_set (c0 : COLR) (i v c : Nat) (hi : i < 4) (hc : c < 4) :
    (c0.set i v).get c = if c = i then v else c0.get c := by
  interval_cases i <;> interval_cases c <;> simp [COLR.get, COLR.set]

theorem put_comp_ok (b : List COLR) (j i v : Nat) (hj : j < b.length) :
    ∃ b1, put_comp b j i v = .ok b1 ∧ b1.length = b.length ∧
      (i < 4 → ∀ k c, c < 4 →
        comp b1 k c = if c = i ∧ k = j then v else comp b k c) := by
  have hb : b[j]? = some b[j] := List.getElem?_eq_getElem hj
  refine ⟨b.set j (b[j].set i v), by simp only [put_comp, hb], by simp, ?_⟩
  intro hi k c hc
  simp only [comp, List.getElem?_set]
  by_cases hk : j = k
  · subst hk
    simp only [if_pos hj, hb, colr_get_set _ i v c hi hc, if_true, and_true]
  · have hk' : ¬ k = j := fun h => hk h.symm
    simp only [if_neg hk, hk', and_false, if_false]

theorem copy_literal_ok (i : Nat) (vs : List Nat) :
    ∀ (j : Nat) (b : List COLR), j + vs.length ≤ b.length →
      ∃ b1, copy_literal i vs j b = .ok b1 ∧ b1.length = b.length ∧
        (i < 4 → ∀ k c, c < 4 →
          comp b1 k c = if c = i ∧ j ≤ k ∧ k < j + vs.length then vs.getD (k - j) 0
            else comp b k c) := by
  induction vs with
  | nil =>
    intro j b _
    refine ⟨b, rfl, rfl, ?_⟩
    intro _ k c _
    have : ¬ (c = i ∧ j ≤ k ∧ k < j + ([] : List Nat).length) := by
      simp only [List.length_nil]; omega
    rw [if_neg this]
  | cons v vs ih =>
    intro j b hj
    simp only [List.length_cons] at hj
    obtain ⟨b1, h1, l1, c1⟩ := put_comp_ok b j i v (by omega)
    obtain ⟨b2, h2, l2, c2⟩ := ih (j + 1) b1 (by omega)
    refine ⟨b2, by simp only [copy_literal, h1, h2], by omega, ?_⟩
    intro hi k c hc
    rw [c2 hi k c hc, c1 hi k c hc]
    simp only [List.length_cons]
    by_cases hci : c = i
    · by_cases hkj : k = j
      · subst hkj
        have : ¬ (c = i ∧ k + 1 ≤ k ∧ k < k + 1 + vs.length) := by omega
        simp [hci]
      · by_cases hr : j + 1 ≤ k ∧ k < j + 1 + vs.length
        · have hr' : j ≤ k ∧ k < j + (vs.length + 1) := by omega
          have hkj' : k - j = (k - (j + 1)) + 1 := by omega
          simp only [hci, hr, hr', and_self, if_true, true_and]
          rw [hkj']
          simp
        · have hr' : ¬ (j ≤ k ∧ k < j + (vs.length + 1)) := by omega
          simp only [hci, hr, hr', hkj, and_false, if_false, true_and]
    · simp [hci]

theorem fill_run_ok (i v : Nat) (len : Nat) :
    ∀ (j : Nat) (b : List COLR), j + len ≤ b.length →
      ∃ b1, fill_run i v len j b = .ok b1 ∧ b1.length = b.length ∧
        (i < 4 → ∀ k c, c < 4 →
          comp b1 k c = if c = i ∧ j ≤ k ∧ k < j + len then v else comp b k c) := by
  induction len with
  | zero =>
    intro j b _
    refine ⟨b, rfl, rfl, ?_⟩
    intro _ k c _
    have : ¬ (c = i ∧ j ≤ k ∧ k < j + 0) := by omega
    rw [if_neg this]
  | succ n ih =>
    intro j b hj
    obtain ⟨b1, h1, l1, c1⟩ := put_comp_ok b j i v (by omega)
    obtain ⟨b2, h2, l2, c2⟩ := ih (j + 1) b1 (by omega)
    refine ⟨b2, by simp only [fill_run, h1, h2], by omega, ?_⟩
    intro hi k c hc
    rw [c2 hi k c hc, c1 hi k c hc]
    by_cases hci : c = i
    · by_cases hr : j + 1 ≤ k ∧ k < j + 1 + n
      · have hr' : j ≤ k ∧ k < j + (n + 1) := by omega
        simp only [hci, hr, hr', and_self, if_true]
      · by_cases hkj : k = j
        · have hr' : j ≤ k ∧ k < j + (n + 1) := by omega
          simp only [hci, hr, hr', hkj, and_self, and_false, if_true, if_false]
          simp
        · have hr' : ¬ (j ≤ k ∧ k < j + (n + 1)) := by omega
          simp only [hci, hr, hr', hkj, and_false, if_false]
    · simp [hci]

/-- The component loop never stores outside an array of `width` pixels, never
exhausts its fuel when given more fuel than input, and returns an array of the
same length. -/
theorem rle_read_component_safe (i w : Nat) :
    ∀ (fuel : Nat) (inp : List Nat) (b : List COLR) (j : Nat), b.length = w →
      rle_read_component i w fuel inp b j ≠ .error .oob ∧
      (inp.length < fuel → rle_read_component i w fuel inp b j ≠ .error .fuel) ∧
      (∀ o r, rle_read_component i w fuel inp b j = .ok (o, r) → o.length = w) := by
  intro fuel
  induction fuel with
  | zero =>
    intro inp b j _
    simp [rle_read_component]
  | succ n ih =>
    intro inp b j hb
    by_cases hj : j < w
    · match inp with
      | [] => simp [rle_read_component, hj]
      | [_] => simp [rle_read_component, hj]
      | code :: val :: rest =>
        simp only [rle_read_component, if_pos hj, decide_eq_true_eq]
        by_cases hov : j + (if code > 128 then code &&& 127 else code) > w
        · simp [hov]
        · simp only [hov, if_false]
          by_cases hrun : code > 128
          · simp only [hrun, if_true] at hov ⊢
            obtain ⟨b1, h1, l1, _⟩ := fill_run_ok i val (code &&& 127) j b (by omega)
            simp only [h1]
            have := ih rest b1 (j + (code &&& 127)) (by omega)
            refine ⟨this.1, fun hf => this.2.1 ?_, this.2.2⟩
            simp only [List.length_cons] at hf
            omega
          · simp only [hrun, if_false] at hov ⊢
            by_cases hreq : code ≤ (val :: rest).length
            · simp only [hreq, if_true]
              obtain ⟨b1, h1, l1, _⟩ := copy_literal_ok i ((val :: rest).take code) j b
                (by rw [List.length_take]; omega)
              simp only [h1]
              have := ih ((val :: rest).drop code) b1 (j + code) (by omega)
              refine ⟨this.1, fun hf => this.2.1 ?_, this.2.2⟩
              simp only [List.length_cons, List.length_drop] at hf ⊢
              omega
            · simp only [hreq, if_false]
              simp
    · simp only [rle_read_component, if_neg hj]
      refine ⟨by simp, fun _ => by simp, ?_⟩
      intro o r h
      simp only [Except.ok.injEq, Prod.mk.injEq] at h
      rw [← h.1]; exact hb

/-- The component loop assigns component `i` of every pixel from column `j`
on: run on two arrays of `width` pixels it takes the same path, and the two
results hold the same values there; it leaves everything else as it was. -/
theorem rle_read_component_assigns (i w : Nat) (hi : i < 4) :
    ∀ (fuel : Nat) (inp : List Nat) (b b' : List COLR) (j : Nat) (o : List COLR)
      (r : List Nat), b.length = w → b'.length = w →
      rle_read_component i w fuel inp b j = .ok (o, r) →
      ∃ o', rle_read_component i w fuel inp b' j = .ok (o', r) ∧
        o.length = w ∧ o'.length = w ∧
        (∀ k, j ≤ k → k < w → comp o k i = comp o' k i) ∧
        (∀ k c, c < 4 → comp b k c = comp b' k c → comp o k c = comp o' k c) := by
  intro fuel
  induction fuel with
  | zero =>
    intro inp b b' j o r _ _ h
    simp [rle_read_component] at h
  | succ n ih =>
    intro inp b b' j o r hb hb' h
    by_cases hj : j < w
    · match inp with
      | [] => simp [rle_read_component, hj] at h
      | [_] => simp [rle_read_component, hj] at h
      | code :: val :: rest =>
        simp only [rle_read_component, if_pos hj, decide_eq_true_eq] at h ⊢
        by_cases hov : j + (if code > 128 then code &&& 127 else code) > w
        · simp [hov] at h
        · simp only [hov, if_false] at h ⊢
          by_cases hrun : code > 128
          · simp only [hrun, if_true] at hov h ⊢
            obtain ⟨b1, h1, l1, c1⟩ := fill_run_ok i val (code &&& 127) j b (by omega)
            obtain ⟨b1', h1', l1', c1'⟩ := fill_run_ok i val (code &&& 127) j b' (by omega)
            simp only [h1] at h
            simp only [h1']
            obtain ⟨o', e1, e2, e3, e4, e5⟩ :=
              ih rest b1 b1' (j + (code &&& 127)) o r (by omega) (by omega) h
            refine ⟨o', e1, e2, e3, ?_, ?_⟩
            · intro k hk1 hk2
              by_cases hk : j + (code &&& 127) ≤ k
              · exact e4 k hk hk2
              · apply e5 k i hi
                rw [c1 hi k i hi, c1' hi k i hi]
                have : i = i ∧ j ≤ k ∧ k < j + (code &&& 127) := ⟨rfl, hk1, by omega⟩
                simp only [this, and_self, if_true]
            · intro k c hc hkc
              apply e5 k c hc
              rw [c1 hi k c hc, c1' hi k c hc, hkc]
          · simp only [hrun, if_false] at hov h ⊢
            by_cases hreq : code ≤ (val :: rest).length
            · simp only [hreq, if_true] at h ⊢
              obtain ⟨b1, h1, l1, c1⟩ := copy_literal_ok i ((val :: rest).take code) j b
                (by rw [List.length_take]; omega)
              obtain ⟨b1', h1', l1', c1'⟩ := copy_literal_ok i ((val :: rest).take code) j b'
                (by rw [List.length_take]; omega)
              simp only [h1] at h
              simp only [h1']
              obtain ⟨o', e1, e2, e3, e4, e5⟩ :=
                ih ((val :: rest).drop code) b1 b1' (j + code) o r (by omega) (by omega) h
              have hlen : ((val :: rest).take code).length = code := by
                rw [List.length_take]; omega
              refine ⟨o', e1, e2, e3, ?_, ?_⟩
              · intro k hk1 hk2
                by_cases hk : j + code ≤ k
                · exact e4 k hk hk2
                · apply e5 k i hi
                  rw [c1 hi k i hi, c1' hi k i hi]
                  have : i = i ∧ j ≤ k ∧ k < j + ((val :: rest).take code).length :=
                    ⟨rfl, hk1, by omega⟩
                  simp only [this, and_self, if_true]
              · intro k c hc hkc
                apply e5 k c hc
                rw [c1 hi k c hc, c1' hi k c hc, hkc]
            · simp only [hreq, if_false] at h
              simp at h
    · simp only [rle_read_component, if_neg hj, Except.ok.injEq, Prod.mk.injEq] at h ⊢
      obtain ⟨h1, h2⟩ := h
      subst h1; subst h2
      refine ⟨b', ⟨rfl, rfl⟩, hb, hb', ?_, ?_⟩
      · intro k hk1 hk2; omega
      · intro k c _ hkc; exact hkc

theorem rle_read_components_safe (w : Nat) :
    ∀ (n i : Nat) (inp : List Nat) (b : List COLR), b.length = w →
      rle_read_components w n i inp b ≠ .error .oob ∧
      rle_read_components w n i inp b ≠ .error .fuel ∧
      (∀ o r, rle_read_components w n i inp b = .ok (o, r) → o.length = w) := by
  intro n
  induction n with
  | zero =>
    intro i inp b hb
    simp only [rle_read_components]
    refine ⟨by simp, by simp, ?_⟩
    intro o r h
    simp only [Except.ok.injEq, Prod.mk.injEq] at h
    rw [← h.1]; exact hb
  | succ m ih =>
    intro i inp b hb
    obtain ⟨s1, s2, s3⟩ := rle_read_component_safe i w (inp.length + 1) inp b 0 hb
    simp only [rle_read_components]
    cases hc : rle_read_component i w (inp.length + 1) inp b 0 with
    | error e =>
      refine ⟨?_, ?_, by simp⟩
      · intro h
        simp only [Except.error.injEq] at h
        exact s1 (by rw [hc, h])
      · intro h
        simp only [Except.error.injEq] at h
        exact s2 (by omega) (by rw [hc, h])
    | ok v =>
      obtain ⟨b1, inp1⟩ := v
      exact ih (i + 1) inp1 b1 (s3 b1 inp1 hc)

theorem comp_of_length_le (b : List COLR) (k c : Nat) (h : b.length ≤ k) : comp b k c = 0 := by
  simp [comp, List.getElem?_eq_none h]

theorem eq_of_comp_eq (o o' : List COLR) (hl : o.length = o'.length)
    (h : ∀ k c, c < 4 → comp o k c = comp o' k c) : o = o' := by
  apply List.ext_getElem hl
  intro n h1 h2
  have hc : ∀ c, c < 4 → o[n].get c = o'[n].get c := by
    intro c hc
    have := h n c hc
    simpa [comp, List.getElem?_eq_getElem h1, List.getElem?_eq_getElem h2] using this
  have e0 := hc 0 (by decide)
  have e1 := hc 1 (by decide)
  have e2 := hc 2 (by decide)
  have e3 := hc 3 (by decide)
  simp only [COLR.get] at e0 e1 e2 e3
  cases ho : o[n] with
  | mk r g bl e =>
    cases ho' : o'[n] with
    | mk r' g' bl' e' =>
      rw [ho, ho'] at e0 e1 e2 e3
      simp only at e0 e1 e2 e3
      rw [e0, e1, e2, e3]

/-- The loop over the four components assigns every component of every pixel:
run on two arrays of `width` pixels that already agree on the components
before `i`, it takes the same path and ends with the same array. -/
theorem rle_read_components_assigns (w : Nat) :
    ∀ (n i : Nat) (inp : List Nat) (b b' : List COLR) (o : List COLR) (r : List Nat),
      i + n = 4 → b.length = w → b'.length = w →
      (∀ k c, c < i → comp b k c = comp b' k c) →
      rle_read_components w n i inp b = .ok (o, r) →
      rle_read_components w n i inp b' = .ok (o, r) ∧ o.length = w := by
  intro n
  induction n with
  | zero =>
    intro i inp b b' o r hi hb hb' hag h
    simp only [rle_read_components, Except.ok.injEq, Prod.mk.injEq] at h ⊢
    obtain ⟨h1, h2⟩ := h
    subst h1; subst h2
    have : b' = b := eq_of_comp_eq b' b (by omega)
      (fun k c hc => (hag k c (by omega)).symm)
    exact ⟨⟨this, rfl⟩, hb⟩
  | succ m ih =>
    intro i inp b b' o r hi hb hb' hag h
    simp only [rle_read_components] at h ⊢
    cases hc : rle_read_component i w (inp.length + 1) inp b 0 with
    | error e => simp [hc] at h
    | ok v =>
      obtain ⟨b1, inp1⟩ := v
      simp only [hc] at h
      obtain ⟨b1', e1, e2, e3, e4, e5⟩ :=
        rle_read_component_assigns i w (by omega) (inp.length + 1) inp b b' 0 b1 inp1 hb hb' hc
      simp only [e1]
      apply ih (i + 1) inp1 b1 b1' o r (by omega) e2 e3 _ h
      intro k c hc'
      by_cases hci : c = i
      · subst hci
        by_cases hk : k < w
        · exact e4 k (Nat.zero_le _) hk
        · rw [comp_of_length_le b1 k c (by omega), comp_of_length_le b1' k c (by omega)]
      · exact e5 k c (by omega) (hag k c (by omega))

/-- C10. The new-style path of `scanline_read` (input starting with the magic
bytes 2, 2 and a high length byte below 128) on an array of exactly `width`
pixels, `8 <= width <= 32767`, for every input stream:
* never stores outside the array (no `oob` outcome), and the iteration budget
  of the model always suffices;
* fails with "scanline length mismatch" when the 15-bit length differs from
  `width`;
* at any point of the component loop, a run or literal block whose count would
  pass the end of the line fails with "overrun";
* running out of input fails, before the header (fewer than 4 bytes) and at
  any point of the component loop;
* on success the array has `width` pixels and every component of every pixel
  has been assigned: the result is the same whatever array it started from. -/
theorem scanline_read_new_style_safe (width b2 b3 : Nat) (rest : List Nat) (buf : List COLR)
    (hmin : MINELEN ≤ width) (hmax : width ≤ MAXELEN) (hbuf : buf.length = width)
    (hb2 : b2 &&& 128 = 0) :
    scanline_read (2 :: 2 :: b2 :: b3 :: rest) buf width ≠ .error .oob ∧
    scanline_read (2 :: 2 :: b2 :: b3 :: rest) buf width ≠ .error .fuel ∧
    ((b2 <<< 8) ||| b3 ≠ width →
      scanline_read (2 :: 2 :: b2 :: b3 :: rest) buf width = .error .mismatch) ∧
    (∀ (i fuel code val : Nat) (inp : List Nat) (b : List COLR) (j : Nat), j < width →
      j + (if code > 128 then code &&& 127 else code) > width →
      rle_read_component i width (fuel + 1) (code :: val :: inp) b j = .error .overrun) ∧
    (∀ inp : List Nat, inp.length < 4 → scanline_read inp buf width = .error .eof) ∧
    (∀ (i fuel : Nat) (inp : List Nat) (b : List COLR) (j : Nat), j < width →
      inp.length < 2 →
      rle_read_component i width (fuel + 1) inp b j = .error .eof) ∧
    (∀ (i fuel code val : Nat) (inp : List Nat) (b : List COLR) (j : Nat), j < width →
      code ≤ 128 → j + code ≤ width → (val :: inp).length < code →
      rle_read_component i width (fuel + 1) (code :: val :: inp) b j = .error .eof) ∧
    (∀ (out : List COLR) (left : List Nat),
      scanline_read (2 :: 2 :: b2 :: b3 :: rest) buf width = .ok (out, left) →
      out.length = width ∧
      ∀ buf' : List COLR, buf'.length = width →
        scanline_read (2 :: 2 :: b2 :: b3 :: rest) buf' width = .ok (out, left)) := by
  have hrange : ¬ (width < MINELEN ∨ width > MAXELEN) := by omega
  have h8 : MINELEN = 8 := rfl
  have hput : ∀ b : List COLR, b.length = width →
      put_colr b 0 ⟨2, 2, b2, b3⟩ = .ok (b.set 0 ⟨2, 2, b2, b3⟩) := by
    intro b hb
    simp only [put_colr]
    rw [if_pos (by omega)]
  have hread : ∀ b : List COLR, b.length = width →
      scanline_read (2 :: 2 :: b2 :: b3 :: rest) b width =
        if (b2 <<< 8) ||| b3 ≠ width then .error .mismatch
        else rle_read_components width 4 0 rest (b.set 0 ⟨2, 2, b2, b3⟩) := by
    intro b hb
    simp only [scanline_read, if_neg hrange, ne_eq, not_true_eq_false, if_false, hput b hb,
      hb2, or_self]
  have hset : ∀ b : List COLR, b.length = width →
      (b.set 0 (⟨2, 2, b2, b3⟩ : COLR)).length = width := by
    intro b hb
    simpa using hb
  obtain ⟨s1, s2, s3⟩ := rle_read_components_safe width 4 0 rest
    (buf.set 0 ⟨2, 2, b2, b3⟩) (hset buf hbuf)
  refine ⟨?_, ?_, ?_, ?_, ?_, ?_, ?_, ?_⟩
  · rw [hread buf hbuf]
    split_ifs
    · simp
    · exact s1
  · rw [hread buf hbuf]
    split_ifs
    · simp
    · exact s2
  · intro hm
    rw [hread buf hbuf, if_pos hm]
  · intro i fuel code val inp b j hj hov
    simp only [rle_read_component, if_pos hj, decide_eq_true_eq, hov, if_true]
  · intro inp hlen
    match inp with
    | [] => simp only [scanline_read, if_neg hrange]
    | [_] => simp only [scanline_read, if_neg hrange]
    | [_, _] => simp only [scanline_read, if_neg hrange]
    | [_, _, _] => simp only [scanline_read, if_neg hrange]
    | _ :: _ :: _ :: _ :: _ =>
      simp only [List.length_cons] at hlen
      omega
  · intro i fuel inp b j hj hlen
    match inp with
    | [] => simp [rle_read_component, hj]
    | [_] => simp [rle_read_component, hj]
    | _ :: _ :: _ =>
      simp only [List.length_cons] at hlen
      omega
  · intro i fuel code val inp b j hj hc hjc hreq
    have h1 : ¬ code > 128 := by omega
    have h2 : ¬ j + code > width := by omega
    have h3 : ¬ code ≤ (val :: inp).length := by omega
    simp only [rle_read_component, if_pos hj, decide_eq_true_eq, h1, if_false, h2, h3]
  · intro out left h
    rw [hread buf hbuf] at h
    split_ifs at h with hm
    have hA := rle_read_components_assigns width 4 0 rest (buf.set 0 ⟨2, 2, b2, b3⟩)
    refine ⟨s3 out left h, ?_⟩
    intro buf' hbuf'
    rw [hread buf' hbuf', if_neg hm]
    exact (hA (buf'.set 0 ⟨2, 2, b2, b3⟩) out left rfl (hset buf hbuf) (hset buf' hbuf')
      (fun k c hc => absurd hc (by omega)) h).1

/-- Witness for C10: width 8, header `2 2 0 8`, then a run of 8, a literal
block that overruns and nothing more. -/
theorem scanline_read_new_style_safe_witness :
    scanline_read (2 :: 2 :: 0 :: 8 :: [136, 5, 9, 1, 1]) (List.replicate 8 ⟨0, 0, 0, 0⟩) 8
      ≠ .error .oob ∧
    scanline_read (2 :: 2 :: 0 :: 8 :: [136, 5, 9, 1, 1]) (List.replicate 8 ⟨0, 0, 0, 0⟩) 8
      ≠ .error .fuel :=
  have h := scanline_read_new_style_safe 8 0 8 [136, 5, 9, 1, 1]
    (List.replicate 8 ⟨0, 0, 0, 0⟩) (by decide) (by decide) rfl (by decide)
  ⟨h.1, h.2.1⟩

/-! ## arithmetic/subtract.c: tiling -/

theorem subtract_sz_add (fmt : VipsBandFormat) (bands w1 w2 : Nat) :
    subtract_sz fmt bands (w1 + w2) = subtract_sz fmt bands w1 + subtract_sz fmt bands w2 := by
  simp only [subtract_sz]
  ring

/-- The line kernel is `LOOP` with one operation per format: below `sz` the
output element is that operation on the two input elements, from `sz` on the
output memory is unchanged. -/
theorem subtract_buffer_pointwise (M : FloatOps) (bands : Nat) (fmt : VipsBandFormat) :
    ∃ op : InT M fmt → InT M fmt → OutT M fmt,
      ∀ (width : Nat) (out : Nat → OutT M fmt) (in0 in1 : Nat → InT M fmt) (x : Nat),
        vips_subtract_buffer M bands width fmt out in0 in1 x
          = if x < subtract_sz fmt bands width then op (in0 x) (in1 x) else out x := by
  cases fmt
  case UCHAR => exact ⟨fun l r : Int => wrapS 16 (l - r), fun _ _ _ _ _ => LOOP_apply _ _ _ _ _ _⟩
  case CHAR => exact ⟨fun l r : Int => wrapS 16 (l - r), fun _ _ _ _ _ => LOOP_apply _ _ _ _ _ _⟩
  case USHORT => exact ⟨fun l r : Int => wrapS 32 (l - r), fun _ _ _ _ _ => LOOP_apply _ _ _ _ _ _⟩
  case SHORT => exact ⟨fun l r : Int => wrapS 32 (l - r), fun _ _ _ _ _ => LOOP_apply _ _ _ _ _ _⟩
  case UINT =>
    exact ⟨fun l r : Int => wrapS 32 ((l - r) % 2 ^ 32), fun _ _ _ _ _ => LOOP_apply _ _ _ _ _ _⟩
  case INT => exact ⟨fun l r : Int => wrapS 32 (l - r), fun _ _ _ _ _ => LOOP_apply _ _ _ _ _ _⟩
  case FLOAT => exact ⟨M.fsub, fun _ _ _ _ _ => LOOP_apply _ _ _ _ _ _⟩
  case COMPLEX => exact ⟨M.fsub, fun _ _ _ _ _ => LOOP_apply _ _ _ _ _ _⟩
  case DOUBLE => exact ⟨M.dsub, fun _ _ _ _ _ => LOOP_apply _ _ _ _ _ _⟩
  case DPCOMPLEX => exact ⟨M.dsub, fun _ _ _ _ _ => LOOP_apply _ _ _ _ _ _⟩

/-- C16. Tiling is invisible for the subtract line kernel: for every format
and widths `w1`, `w2`, the elements written by `vips_subtract_buffer` on a
line of `w1 + w2` pixels are the elements it writes on the first `w1` pixels
followed by the elements it writes on the remaining `w2` pixels (the call
with all three pointers advanced by the `sz` of the first part); element by
element, and as a concatenation of lists. -/
theorem subtract_buffer_tiling (M : FloatOps) (bands w1 w2 : Nat) (fmt : VipsBandFormat)
    (out : Nat → OutT M fmt) (in0 in1 : Nat → InT M fmt) :
    (∀ x : Nat,
      vips_subtract_buffer M bands (w1 + w2) fmt out in0 in1 x =
        if x < subtract_sz fmt bands w1 then
          vips_subtract_buffer M bands w1 fmt out in0 in1 x
        else
          vips_subtract_buffer M bands w2 fmt
            (fun k => out (subtract_sz fmt bands w1 + k))
            (fun k => in0 (subtract_sz fmt bands w1 + k))
            (fun k => in1 (subtract_sz fmt bands w1 + k))
            (x - subtract_sz fmt bands w1)) ∧
    (List.range (subtract_sz fmt bands (w1 + w2))).map
        (vips_subtract_buffer M bands (w1 + w2) fmt out in0 in1) =
      (List.range (subtract_sz fmt bands w1)).map
          (vips_subtract_buffer M bands w1 fmt out in0 in1) ++
        (List.range (subtract_sz fmt bands w2)).map
          (vips_subtract_buffer M bands w2 fmt
            (fun k => out (subtract_sz fmt bands w1 + k))
            (fun k => in0 (subtract_sz fmt bands w1 + k))
            (fun k => in1 (subtract_sz fmt bands w1 + k))) := by
  obtain ⟨op, hop⟩ := subtract_buffer_pointwise M bands fmt
  have hsz := subtract_sz_add fmt bands w1 w2
  have hpt : ∀ x : Nat,
      vips_subtract_buffer M bands (w1 + w2) fmt out in0 in1 x =
        if x < subtract_sz fmt bands w1 then
          vips_subtract_buffer M bands w1 fmt out in0 in1 x
        else
          vips_subtract_buffer M bands w2 fmt
            (fun k => out (subtract_sz fmt bands w1 + k))
            (fun k => in0 (subtract_sz fmt bands w1 + k))
            (fun k => in1 (subtract_sz fmt bands w1 + k))
            (x - subtract_sz fmt bands w1) := by
    intro x
    simp only [hop, hsz]
    by_cases h1 : x < subtract_sz fmt bands w1
    · have h2 : x < subtract_sz fmt bands w1 + subtract_sz fmt bands w2 := by omega
      simp only [h1, h2, if_true]
    · have he : subtract_sz fmt bands w1 + (x - subtract_sz fmt bands w1) = x := by omega
      simp only [h1, if_false, he]
      by_cases h2 : x < subtract_sz fmt bands w1 + subtract_sz fmt bands w2
      · have h3 : x - subtract_sz fmt bands w1 < subtract_sz fmt bands w2 := by omega
        simp only [h2, h3, if_true]
      · have h3 : ¬ x - subtract_sz fmt bands w1 < subtract_sz fmt bands w2 := by omega
        simp only [h2, h3, if_false]
  refine ⟨hpt, ?_⟩
  rw [hsz, List.range_add, List.map_append, List.map_map]
  congr 1
  · apply List.map_congr_left
    intro x hx
    rw [hpt x, if_pos (List.mem_range.mp hx)]
  · apply List.map_congr_left
    intro x _
    simp only [Function.comp]
    rw [hpt, if_neg (by omega)]
    congr 1
    omega

/-! ## foreign/radiance.c: size of an encoded scanline -/

/-- The literal loop ends at `beg`; it writes `len + 1` bytes for each block of
`len <= 128` pixels, all blocks but the last being full. -/
theorem put_literals_spec (S : List COLR) (i beg : Nat) :
    ∀ fuel j, j ≤ beg → beg - j ≤ fuel →
      (put_literals S i beg fuel j).2 = beg ∧
      128 * (put_literals S i beg fuel j).1.length ≤ 129 * (beg - j) + 127 ∧
      (j = beg → (put_literals S i beg fuel j).1 = []) := by
  intro fuel
  induction fuel with
  | zero =>
    intro j hj hf
    have : j = beg := by omega
    subst this
    simp [put_literals]
  | succ n ih =>
    intro j hj hf
    simp only [put_literals]
    split_ifs with hlt
    · obtain ⟨h1, h2, h3⟩ := ih (j + min 128 (beg - j)) (by omega) (by omega)
      refine ⟨h1, ?_, fun h => by omega⟩
      simp only [List.cons_append, List.length_cons, List.length_append, List.length_map,
        List.length_range]
      by_cases hfull : 128 ≤ beg - j
      · have hm : min 128 (beg - j) = 128 := by omega
        rw [hm] at h2 ⊢
        omega
      · have hm : min 128 (beg - j) = beg - j := by omega
        have hend := h3 (by omega)
        rw [hend]
        simp only [List.length_nil]
        omega
    · have : j = beg := by omega
      subst this
      simp

theorem rle_write_component_end (S : List COLR) (i w fuel : Nat) :
    rle_write_component S i w fuel w = [] := by
  cases fuel with
  | zero => rfl
  | succ n => simp [rle_write_component]

/-- Size of one encoded component: at most 129 bytes for every 128 pixels,
rounded up. -/
theorem rle_write_component_length (S : List COLR) (i w : Nat) :
    ∀ fuel j, j ≤ w →
      128 * (rle_write_component S i w fuel j).length ≤ 129 * (w - j) + 127 := by
  intro fuel
  induction fuel with
  | zero => intro j _; simp [rle_write_component]
  | succ n ih =>
    intro j hj
    simp only [rle_write_component]
    split_ifs with hlt hrun
    · obtain ⟨f1, f2, f3, _⟩ := find_run_spec S i w w j 1 hj (by decide)
      obtain ⟨r1, r2, _⟩ := f3 hrun
      obtain ⟨l1, l2, _⟩ := put_literals_spec S i (find_run S i w w j 1).1 w j f1 (by omega)
      have hih := ih ((find_run S i w w j 1).1 + (find_run S i w w j 1).2) r2
      rw [l1]
      simp only [List.length_append, List.length_cons, List.length_nil]
      have hmin : MINRUN = 4 := rfl
      omega
    · obtain ⟨f1, f2, _, f4⟩ := find_run_spec S i w w j 1 hj (by decide)
      have hend : (find_run S i w w j 1).1 = w := f4 (by omega) (by omega)
      obtain ⟨l1, l2, _⟩ := put_literals_spec S i (find_run S i w w j 1).1 w j f1 (by omega)
      rw [l1, hend, rle_write_component_end] at *
      simp only [List.append_nil]
      rw [hend] at l2
      exact l2
    · simp

/-- The loop over the columns has enough iterations: with at least `width - j`
of them the bytes written do not depend on their number. -/
theorem rle_write_component_fuel (S : List COLR) (i w : Nat) :
    ∀ fuel1 fuel2 j, j ≤ w → w - j ≤ fuel1 → w - j ≤ fuel2 →
      rle_write_component S i w fuel1 j = rle_write_component S i w fuel2 j := by
  intro fuel1
  induction fuel1 with
  | zero =>
    intro fuel2 j hj h1 _
    have : j = w := by omega
    subst this
    rw [rle_write_component_end, rle_write_component_end]
  | succ n ih =>
    intro fuel2 j hj h1 h2
    by_cases hlt : j < w
    · obtain ⟨m, rfl⟩ : ∃ m, fuel2 = m + 1 := ⟨fuel2 - 1, by omega⟩
      obtain ⟨f1, f2, f3, f4⟩ := find_run_spec S i w w j 1 hj (by decide)
      obtain ⟨l1, _, _⟩ := put_literals_spec S i (find_run S i w w j 1).1 w j f1 (by omega)
      simp only [rle_write_component, if_pos hlt, l1]
      split_ifs with hrun
      · obtain ⟨r1, r2, _⟩ := f3 hrun
        have hmin : MINRUN = 4 := rfl
        rw [ih m _ r2 (by omega) (by omega)]
      · have hend : (find_run S i w w j 1).1 = w := f4 (by omega) (by omega)
        rw [hend, rle_write_component_end, rle_write_component_end]
    · have : j = w := by omega
      subst this
      rw [rle_write_component_end, rle_write_component_end]

/-- C11. An encoded scanline can't be larger than `MAX_LINE`: for every
scanline and every width up to `MAXELEN = 32767`, `rle_scanline_write` emits
at most `MAX_LINE = 2 * MAXELEN * 4 = 262136` bytes, so `*length` never
exceeds `MAX_LINE` (the `g_assert` of `PUTC` holds after every store) and
every byte is stored inside the line buffer, at an index below `MAX_LINE`. -/
theorem rle_scanline_write_length (scanline : List COLR) (width : Nat)
    (hmax : width ≤ MAXELEN) :
    MAX_LINE = 262136 ∧
    (rle_scanline_write scanline width).length ≤ MAX_LINE ∧
    (∀ n, n ≤ (rle_scanline_write scanline width).length → n ≤ MAX_LINE) ∧
    (∀ k, k < (rle_scanline_write scanline width).length → k < MAX_LINE) := by
  have hM : MAX_LINE = 262136 := rfl
  have hE : MAXELEN = 32767 := rfl
  have h0 := rle_write_component_length scanline 0 width width 0 (Nat.zero_le _)
  have h1 := rle_write_component_length scanline 1 width width 0 (Nat.zero_le _)
  have h2 := rle_write_component_length scanline 2 width width 0 (Nat.zero_le _)
  have h3 := rle_write_component_length scanline 3 width width 0 (Nat.zero_le _)
  have hlen : (rle_scanline_write scanline width).length ≤ MAX_LINE := by
    simp only [rle_scanline_write, List.length_append, List.length_cons, List.length_nil]
    omega
  exact ⟨hM, hlen, fun n hn => by omega, fun k hk => by omega⟩

/-- Witness for C11: a scanline of width 8. -/
theorem rle_scanline_write_length_witness :
    MAX_LINE = 262136 ∧
    (rle_scanline_write (List.replicate 8 ⟨1, 2, 3, 4⟩) 8).length ≤ MAX_LINE :=
  have h := rle_scanline_write_length (List.replicate 8 ⟨1, 2, 3, 4⟩) 8 (by decide)
  ⟨h.1, h.2.1⟩

/-! ## foreign/radiance.c: header failures -/

theorem getheader_no_blank {σ : Type} (f : List Char → σ → Option σ) :
    ∀ (lines : List (List Char)) (p : σ), (∀ l ∈ lines, l ≠ []) →
      getheader f lines p = none := by
  intro lines
  induction lines with
  | nil => intro p _; rfl
  | cons line rest ih =>
    intro p h
    have h0 : line ≠ [] := h line (List.mem_cons_self _ _)
    simp only [getheader, if_neg h0]
    cases hf : f line p with
    | none => rfl
    | some p1 => exact ih p1 (fun l hl => h l (List.mem_cons_of_mem _ hl))

theorem scan_XY_no_X :
    ∀ (line : List Char) (k : Nat) (x y : Option Nat),
      'X' ∉ line → (scan_XY line k x y).1 = x := by
  intro line
  induction line with
  | nil => intro k x y _; rfl
  | cons c cs ih =>
    intro k x y h
    have hc : c ≠ 'X' := fun e => h (by rw [e]; exact List.mem_cons_self _ _)
    have hcs : 'X' ∉ cs := fun e => h (List.mem_cons_of_mem _ e)
    simp only [scan_XY, if_neg hc]
    split_ifs
    · exact ih _ _ _ hcs
    · exact ih _ _ _ hcs

theorem scan_XY_no_Y :
    ∀ (line : List Char) (k : Nat) (x y : Option Nat),
      'Y' ∉ line → (scan_XY line k x y).2 = y := by
  intro line
  induction line with
  | nil => intro k x y _; rfl
  | cons c cs ih =>
    intro k x y h
    have hc : c ≠ 'Y' := fun e => h (by rw [e]; exact List.mem_cons_self _ _)
    have hcs : 'Y' ∉ cs := fun e => h (List.mem_cons_of_mem _ e)
    simp only [scan_XY]
    split_ifs
    · exact ih _ _ _ hcs
    · exact ih _ _ _ hcs

theorem str2resolu_some (pre : Char) (line : List Char) (rs : RESOLU)
    (h : str2resolu pre line = some rs) :
    ∃ xndx yndx, scan_XY line 0 none none = (some xndx, some yndx) ∧
      rs.xr = atoi (line.drop (xndx + 1)) ∧ rs.yr = atoi (line.drop (yndx + 1)) ∧
      0 < rs.xr ∧ 0 < rs.yr ∧ (rs.rt &&& YMAJOR ≠ 0 ↔ xndx > yndx) := by
  unfold str2resolu at h
  cases hs : scan_XY line 0 none none with
  | mk ox oy =>
    cases ox with
    | none => simp [hs] at h
    | some xndx =>
      cases oy with
      | none => simp [hs] at h
      | some yndx =>
        simp only [hs] at h
        by_cases h1 : atoi (line.drop (xndx + 1)) ≤ 0
        · simp [h1] at h
        by_cases h2 : atoi (line.drop (yndx + 1)) ≤ 0
        · simp [h1, h2] at h
        simp only [h1, h2, if_false, Option.some.injEq] at h
        subst h
        refine ⟨xndx, yndx, rfl, rfl, rfl, by simpa using h1, by simpa using h2, ?_⟩
        simp only []
        by_cases g : xndx > yndx <;> simp only [g, if_true, if_false] <;>
          split_ifs <;> simp [YMAJOR, XDECR, YDECR] <;> decide

/-- C13. `rad2vips_get_header` fails, declaring nothing, whenever
* the stream ends before the blank line that closes the header,
* the resolution line is missing,
* the resolution line lacks an `X` or a `Y` field,
* either resolution value is `<= 0`,
* the resulting width or height is `>= VIPS_MAX_COORD`;
and when it succeeds the width is the X resolution and the height the Y
resolution for a Y-major line (the reverse otherwise), both in
`1 .. VIPS_MAX_COORD - 1`, the resolutions being the numbers `atoi` reads into
an `int` after the last `X` and the last `Y` of the line that follows the
blank line. -/
theorem get_header_failures (E : RadFloat) (pre : Char) (lines : List (List Char))
    (read : Read E) :
    ((∀ l ∈ lines, l ≠ []) → rad2vips_get_header E pre lines read = none) ∧
    (∀ r, getheader (rad2vips_process_line E) lines read = some (r, []) →
      rad2vips_get_header E pre lines read = none) ∧
    (∀ r line rest, getheader (rad2vips_process_line E) lines read = some (r, line :: rest) →
      ('X' ∉ line ∨ 'Y' ∉ line) → rad2vips_get_header E pre lines read = none) ∧
    (∀ r line rest xndx yndx,
      getheader (rad2vips_process_line E) lines read = some (r, line :: rest) →
      scan_XY line 0 none none = (some xndx, some yndx) →
      (atoi (line.drop (xndx + 1)) ≤ 0 ∨ atoi (line.drop (yndx + 1)) ≤ 0) →
      rad2vips_get_header E pre lines read = none) ∧
    (∀ r line rest rs,
      getheader (rad2vips_process_line E) lines read = some (r, line :: rest) →
      str2resolu pre line = some rs →
      (scanlen rs ≥ VIPS_MAX_COORD ∨ numscans rs ≥ VIPS_MAX_COORD) →
      rad2vips_get_header E pre lines read = none) ∧
    (∀ r img rest, rad2vips_get_header E pre lines read = some (r, img, rest) →
      ∃ r0 line xndx yndx,
        getheader (rad2vips_process_line E) lines read = some (r0, line :: rest) ∧
        scan_XY line 0 none none = (some xndx, some yndx) ∧
        r.rs.xr = atoi (line.drop (xndx + 1)) ∧ r.rs.yr = atoi (line.drop (yndx + 1)) ∧
        (xndx > yndx → img.Xsize = r.rs.xr ∧ img.Ysize = r.rs.yr) ∧
        (¬ xndx > yndx → img.Xsize = r.rs.yr ∧ img.Ysize = r.rs.xr) ∧
        1 ≤ img.Xsize ∧ img.Xsize ≤ VIPS_MAX_COORD - 1 ∧
        1 ≤ img.Ysize ∧ img.Ysize ≤ VIPS_MAX_COORD - 1) := by
  refine ⟨?_, ?_, ?_, ?_, ?_, ?_⟩
  · intro h
    simp only [rad2vips_get_header, getheader_no_blank _ lines read h]
  · intro r h
    simp only [rad2vips_get_header, h]
  · intro r line rest h hxy
    have hs : str2resolu pre line = none := by
      unfold str2resolu
      rcases hxy with hx | hy
      · have := scan_XY_no_X line 0 none none hx
        cases hsc : scan_XY line 0 none none with
        | mk ox oy =>
          rw [hsc] at this
          simp only at this
          subst this
          rfl
      · have := scan_XY_no_Y line 0 none none hy
        cases hsc : scan_XY line 0 none none with
        | mk ox oy =>
          rw [hsc] at this
          simp only at this
          subst this
          cases ox <;> rfl
    simp only [rad2vips_get_header, h, hs]
  · intro r line rest xndx yndx h hsc hv
    have hs : str2resolu pre line = none := by
      simp only [str2resolu, hsc]
      rcases hv with hx | hy
      · simp [hx]
      · split_ifs <;> simp_all
    simp only [rad2vips_get_header, h, hs]
  · intro r line rest rs h hs hbig
    simp only [rad2vips_get_header, h, hs]
    rw [if_pos]
    rcases hbig with hb | hb
    · exact Or.inr (Or.inl hb)
    · exact Or.inr (Or.inr (Or.inr hb))
  · intro r img rest h
    unfold rad2vips_get_header at h
    cases hg : getheader (rad2vips_process_line E) lines read with
    | none => simp [hg] at h
    | some v =>
      obtain ⟨read1, rest0⟩ := v
      simp only [hg] at h
      cases rest0 with
      | nil => simp at h
      | cons line rest1 =>
        simp only [] at h
        cases hs : str2resolu pre line with
        | none => simp [hs] at h
        | some rs =>
          simp only [hs] at h
          obtain ⟨xndx, yndx, s1, s2, s3, s4, s5, s6⟩ := str2resolu_some pre line rs hs
          by_cases hbad : scanlen rs ≤ 0 ∨ scanlen rs ≥ VIPS_MAX_COORD ∨
              numscans rs ≤ 0 ∨ numscans rs ≥ VIPS_MAX_COORD
          · simp [hbad] at h
          simp only [hbad, if_false, Option.some.injEq, Prod.mk.injEq] at h
          obtain ⟨h1, h2, h3⟩ := h
          subst h1; subst h2; subst h3
          simp only [not_or, not_le, ge_iff_le] at hbad
          obtain ⟨b1, b2, b3, b4⟩ := hbad
          refine ⟨read1, line, xndx, yndx, rfl, s1, s2, s3, ?_, ?_, ?_⟩
          · intro hgt
            have := s6.mpr hgt
            show scanlen rs = rs.xr ∧ numscans rs = rs.yr
            unfold scanlen numscans
            rw [if_pos this, if_pos this]
            exact ⟨rfl, rfl⟩
          · intro hgt
            have : ¬ (rs.rt &&& YMAJOR ≠ 0) := fun hh => hgt (s6.mp hh)
            show scanlen rs = rs.yr ∧ numscans rs = rs.xr
            unfold scanlen numscans
            rw [if_neg this, if_neg this]
            exact ⟨rfl, rfl⟩
          · show 1 ≤ scanlen rs ∧ scanlen rs ≤ VIPS_MAX_COORD - 1 ∧
              1 ≤ numscans rs ∧ numscans rs ≤ VIPS_MAX_COORD - 1
            have hM : VIPS_MAX_COORD = 10000000 := rfl
            refine ⟨by omega, by omega, by omega, by omega⟩

/-- Instances of C13 on concrete streams: a stream without blank line, a
resolution line without `X`, a zero resolution, a width of `VIPS_MAX_COORD`
all fail; `-Y 3 +X 5` gives a 5 x 3 image, and so does `-Y 3 +X 4294967301`,
whose X resolution is 5 once stored in an `int`. -/
theorem get_header_failures_witness :
    rad2vips_get_header RadFloat.unit ' ' [String.toList "#?RADIANCE"]
      (read_new RadFloat.unit) = none ∧
    rad2vips_get_header RadFloat.unit ' ' [String.toList "#?RADIANCE", [], String.toList "-Y 3"]
      (read_new RadFloat.unit) = none ∧
    rad2vips_get_header RadFloat.unit ' '
      [String.toList "#?RADIANCE", [], String.toList "-Y 0 +X 5"]
      (read_new RadFloat.unit) = none ∧
    rad2vips_get_header RadFloat.unit ' '
      [String.toList "#?RADIANCE", [], String.toList "-Y 3 +X 10000000"]
      (read_new RadFloat.unit) = none ∧
    ∃ r img rest, rad2vips_get_header RadFloat.unit ' '
      [String.toList "#?RADIANCE", [], String.toList "-Y 3 +X 5"]
      (read_new RadFloat.unit) = some (r, img, rest) ∧
      img.Xsize = 5 ∧ img.Ysize = 3 ∧ 1 ≤ img.Xsize ∧ img.Xsize ≤ VIPS_MAX_COORD - 1 ∧
    ∃ r2 img2 rest2, rad2vips_get_header RadFloat.unit ' '
      [String.toList "#?RADIANCE", [], String.toList "-Y 3 +X 4294967301"]
      (read_new RadFloat.unit) = some (r2, img2, rest2) ∧
      img2.Xsize = 5 ∧ img2.Ysize = 3 :=
  ⟨(get_header_failures RadFloat.unit ' ' [String.toList "#?RADIANCE"]
      (read_new RadFloat.unit)).1 (by decide),
   (get_header_failures RadFloat.unit ' ' [String.toList "#?RADIANCE", [], String.toList "-Y 3"]
      (read_new RadFloat.unit)).2.2.1 (read_new RadFloat.unit) (String.toList "-Y 3") [] rfl
      (Or.inl (by decide)),
   (get_header_failures RadFloat.unit ' '
      [String.toList "#?RADIANCE", [], String.toList "-Y 0 +X 5"]
      (read_new RadFloat.unit)).2.2.2.1 (read_new RadFloat.unit) (String.toList "-Y 0 +X 5") []
      6 1 rfl (by decide) (Or.inr (by decide)),
   (get_header_failures RadFloat.unit ' '
      [String.toList "#?RADIANCE", [], String.toList "-Y 3 +X 10000000"]
      (read_new RadFloat.unit)).2.2.2.2.1 (read_new RadFloat.unit)
      (String.toList "-Y 3 +X 10000000") [] ⟨6, 10000000, 3⟩ rfl (by decide)
      (Or.inl (by decide)),
   _, _, _, rfl, by
    obtain ⟨_, _, _, _, _, _, _, _, _, _, h1, h2, _, _⟩ :=
      (get_header_failures RadFloat.unit ' '
        [String.toList "#?RADIANCE", [], String.toList "-Y 3 +X 5"]
        (read_new RadFloat.unit)).2.2.2.2.2 _ _ _ rfl
    exact ⟨by decide, by decide, h1, h2, _, _, _, rfl, by decide, by decide⟩⟩

/-! ## foreign/radiance.c: lines of a stream and the magic string -/

theorem sbuf_lines_from_line : ∀ (l cur rest : List Char), '\n' ∉ l →
    sbuf_lines_from (l ++ '\n' :: rest) cur
      = sbuf_line (cur.reverse ++ l) :: sbuf_lines_from rest []
  | [], cur, rest, _ => by simp [sbuf_lines_from]
  | c :: l, cur, rest, h => by
    have hc : c ≠ '\n' := fun e => h (by simp [e])
    have hl : '\n' ∉ l := fun e => h (by simp [e])
    have ih := sbuf_lines_from_line l (c :: cur) rest hl
    simp only [List.cons_append, sbuf_lines_from, hc, if_false]
    simpa using ih

theorem sbuf_lines_from_head : ∀ (s cur : List Char), (s ≠ [] ∨ cur ≠ []) →
    (sbuf_lines_from s cur).head?
      = some (sbuf_line (cur.reverse ++ s.takeWhile (fun c => c ≠ '\n')))
  | [], cur, h => by
    have hc : cur ≠ [] := by rcases h with h | h; exact absurd rfl h; exact h
    simp [sbuf_lines_from, hc]
  | c :: s, cur, _ => by
    by_cases hc : c = '\n'
    · simp [sbuf_lines_from, hc]
    · simp only [sbuf_lines_from, hc, if_false]
      rw [sbuf_lines_from_head s (c :: cur) (Or.inr (by simp))]
      simp [List.takeWhile, hc]

theorem take_eq_of_length_lt (l : List Char) (n : Nat) (h : (l.take n).length < n) :
    l.take n = l := by
  apply List.take_of_length_le
  rw [List.length_take] at h
  omega

theorem sbuf_buffer_magic (l : List Char) :
    sbuf_buffer l = String.toList "#?RADIANCE" ↔
      (l = String.toList "#?RADIANCE" ∨ l = String.toList "#?RADIANCE\r") := by
  constructor
  · intro h
    unfold sbuf_buffer at h
    simp only at h
    split_ifs at h with hr
    · right
      have e : l.take VIPS_SBUF_BUFFER_SIZE
          = (l.take VIPS_SBUF_BUFFER_SIZE).dropLast ++ ['\r'] := by
        rw [List.getLast?_eq_some_iff] at hr
        obtain ⟨ys, hys⟩ := hr
        rw [hys]; simp
      rw [h] at e
      have hl : (l.take VIPS_SBUF_BUFFER_SIZE).length < VIPS_SBUF_BUFFER_SIZE := by
        rw [e]; decide
      rw [take_eq_of_length_lt l _ hl] at e
      rw [e]; rfl
    · left
      have hl : (l.take VIPS_SBUF_BUFFER_SIZE).length < VIPS_SBUF_BUFFER_SIZE := by
        rw [h]; decide
      rw [take_eq_of_length_lt l _ hl] at h
      exact h
  · rintro (h | h) <;> subst h <;> decide

theorem sbuf_buffer_id (l : List Char) (h : l.length ≤ VIPS_SBUF_BUFFER_SIZE)
    (hr : l.getLast? ≠ some '\r') : sbuf_buffer l = l := by
  unfold sbuf_buffer
  simp only [List.take_of_length_le h, hr, if_false]

theorem sbuf_buffer_append (p l : List Char) (h : p.length < VIPS_SBUF_BUFFER_SIZE)
    (hr : p.getLast? ≠ some '\r') : ∃ t, sbuf_buffer (p ++ l) = p ++ t := by
  unfold sbuf_buffer
  have e : (p ++ l).take VIPS_SBUF_BUFFER_SIZE
      = p ++ l.take (VIPS_SBUF_BUFFER_SIZE - p.length) := by
    rw [List.take_append_eq_append_take, List.take_of_length_le (by omega)]
  simp only [e]
  cases hl : l.take (VIPS_SBUF_BUFFER_SIZE - p.length) with
  | nil => simp only [List.append_nil, hr, if_false]; exact ⟨[], by simp⟩
  | cons c cs =>
    split_ifs
    · rw [List.dropLast_append_of_ne_nil _ (by simp)]
      exact ⟨_, rfl⟩
    · exact ⟨_, rfl⟩

theorem sbuf_buffer_start (l : List Char) : ∃ t, l = sbuf_buffer l ++ t := by
  unfold sbuf_buffer
  simp only
  split_ifs
  · refine ⟨(l.take VIPS_SBUF_BUFFER_SIZE).drop ((l.take VIPS_SBUF_BUFFER_SIZE).length - 1) ++
      l.drop VIPS_SBUF_BUFFER_SIZE, ?_⟩
    rw [List.dropLast_eq_take, ← List.append_assoc, List.take_append_drop,
      List.take_append_drop]
  · exact ⟨l.drop VIPS_SBUF_BUFFER_SIZE, (List.take_append_drop _ _).symm⟩

theorem c_string_id : ∀ (l : List Char), Char.ofNat 0 ∉ l → c_string l = l
  | [], _ => rfl
  | c :: l, h => by
    have hc : c ≠ Char.ofNat 0 := fun e => h (by simp [e])
    have hl : Char.ofNat 0 ∉ l := fun e => h (by simp [e])
    have ih := c_string_id l hl
    unfold c_string at ih ⊢
    simp only [List.takeWhile_cons, ne_eq, hc, not_false_eq_true, decide_True, if_true, ih]

theorem c_string_append : ∀ (p t : List Char), Char.ofNat 0 ∉ p →
    c_string (p ++ t) = p ++ c_string t
  | [], _, _ => rfl
  | c :: p, t, h => by
    have hc : c ≠ Char.ofNat 0 := fun e => h (by simp [e])
    have hl : Char.ofNat 0 ∉ p := fun e => h (by simp [e])
    have ih := c_string_append p t hl
    unfold c_string at ih ⊢
    simp only [List.cons_append, List.takeWhile_cons, ne_eq, hc, not_false_eq_true,
      decide_True, if_true, ih]

theorem c_string_nul (t : List Char) : c_string (Char.ofNat 0 :: t) = [] := by
  simp [c_string]

/-- A C string is the whole buffer, or it is followed by a NUL. -/
theorem c_string_eq : ∀ (b m : List Char), c_string b = m →
    b = m ∨ ∃ t, b = m ++ Char.ofNat 0 :: t
  | [], m, h => by
    left
    rw [← h]; rfl
  | c :: b, m, h => by
    by_cases hc : c = Char.ofNat 0
    · subst hc
      rw [c_string_nul] at h
      subst h
      exact Or.inr ⟨b, rfl⟩
    · have e : c_string (c :: b) = c :: c_string b := by
        unfold c_string
        simp only [List.takeWhile_cons, ne_eq, hc, not_false_eq_true, decide_True, if_true]
      rw [e] at h
      subst h
      rcases c_string_eq b (c_string b) rfl with h1 | ⟨t, h1⟩
      · left
        rw [← h1]
      · right
        exact ⟨t, by rw [List.cons_append, ← h1]⟩

theorem sbuf_line_magic (l : List Char) :
    sbuf_line l = String.toList "#?RADIANCE" ↔
      (l = String.toList "#?RADIANCE" ∨ l = String.toList "#?RADIANCE\r" ∨
        ∃ t, l = String.toList "#?RADIANCE" ++ Char.ofNat 0 :: t) := by
  constructor
  · intro h
    rcases c_string_eq _ _ h with h1 | ⟨t, h1⟩
    · rcases (sbuf_buffer_magic l).mp h1 with h2 | h2
      · exact Or.inl h2
      · exact Or.inr (Or.inl h2)
    · obtain ⟨u, hu⟩ := sbuf_buffer_start l
      rw [h1] at hu
      exact Or.inr (Or.inr ⟨t ++ u, by rw [hu]; simp⟩)
  · rintro (h | h | ⟨t, h⟩)
    · subst h; decide
    · subst h; decide
    · subst h
      obtain ⟨u, hu⟩ := sbuf_buffer_append (String.toList "#?RADIANCE" ++ [Char.ofNat 0]) t
        (by decide) (by decide)
      have e : String.toList "#?RADIANCE" ++ Char.ofNat 0 :: t
          = (String.toList "#?RADIANCE" ++ [Char.ofNat 0]) ++ t := by simp
      unfold sbuf_line
      rw [e, hu, List.append_assoc, c_string_append _ _ (by decide)]
      simp [c_string_nul]

/-- C18, as written, fails: the source `#?RADIANCE`, NUL, `junk`, line feed.
Its first line is not the magic string, yet `vips__rad_israd` is true: the
line is compared as a C string, which ends at the NUL. -/
theorem rad_israd_nul :
    vips__rad_israd (String.toList "#?RADIANCE" ++ Char.ofNat 0 :: String.toList "junk\n")
      = true ∧
    (String.toList "#?RADIANCE" ++ Char.ofNat 0 :: String.toList "junk\n").takeWhile
      (fun c => c ≠ '\n') ≠ String.toList "#?RADIANCE" := by
  decide

/-- C18, amended. `vips__rad_israd` returns true iff the first line of the
source, the characters before the first line feed (or before the end of the
source), is the magic string `#?RADIANCE` alone, or followed by a carriage
return (which `vips_sbuf_get_line` removes), or followed by a NUL and any
other characters (`strcmp` stops at the NUL). It is true for every stream
written by `vips2rad_put_header`, whatever the image. -/
theorem rad_israd_magic :
    (∀ s : List Char, vips__rad_israd s = true ↔
      (s.takeWhile (fun c => c ≠ '\n') = String.toList "#?RADIANCE" ∨
       s.takeWhile (fun c => c ≠ '\n') = String.toList "#?RADIANCE\r" ∨
       ∃ t, s.takeWhile (fun c => c ≠ '\n')
         = String.toList "#?RADIANCE" ++ Char.ofNat 0 :: t)) ∧
    (∀ (P : RadPrint) (img : SaveImage P) (write : Write P),
      vips__rad_israd (vips2rad_put_header P img write) = true) := by
  have key : ∀ s : List Char, vips__rad_israd s = true ↔
      (s.takeWhile (fun c => c ≠ '\n') = String.toList "#?RADIANCE" ∨
       s.takeWhile (fun c => c ≠ '\n') = String.toList "#?RADIANCE\r" ∨
       ∃ t, s.takeWhile (fun c => c ≠ '\n')
         = String.toList "#?RADIANCE" ++ Char.ofNat 0 :: t) := by
    intro s
    by_cases hs : s = []
    · subst hs
      constructor
      · intro h; exact absurd h (by decide)
      · rintro (h | h | ⟨t, h⟩)
        · exact absurd h (by decide)
        · exact absurd h (by decide)
        · simp at h
    · have hh := sbuf_lines_from_head s [] (Or.inl hs)
      rw [← sbuf_line_magic]
      unfold vips__rad_israd sbuf_lines
      cases hl : sbuf_lines_from s [] with
      | nil => rw [hl] at hh; simp at hh
      | cons line rest =>
        rw [hl] at hh
        simp only [List.head?_cons, Option.some.injEq, List.reverse_nil, List.nil_append] at hh
        simp [hh]
  refine ⟨key, ?_⟩
  intro P img write
  rw [key]
  left
  simp only [vips2rad_put_header]
  rfl

/-! ## foreign/radiance.c: printing and reading back a number -/

theorem digit_char_isDigit (d : Nat) (h : d < 10) :
    (digit_char d).isDigit = true ∧ ((digit_char d).toNat : Int) - 48 = d ∧
      digit_char d ≠ ' ' ∧ digit_char d ≠ '-' ∧ digit_char d ≠ '+' ∧
      digit_char d ≠ 'X' ∧ digit_char d ≠ 'Y' ∧ digit_char d ≠ '\r' ∧
      c_isspace (digit_char d) = false := by
  interval_cases d <;> decide

theorem printf_u_digits_ne_nil : ∀ (fuel n : Nat), n < fuel → printf_u_digits fuel n ≠ []
  | 0, n, h => by omega
  | fuel + 1, n, _ => by
    unfold printf_u_digits
    split_ifs <;> simp

theorem printf_u_digits_digits : ∀ (fuel n : Nat), ∀ c ∈ printf_u_digits fuel n,
    ∃ d, d < 10 ∧ c = digit_char d
  | 0, n, c, hc => by simp [printf_u_digits] at hc
  | fuel + 1, n, c, hc => by
    unfold printf_u_digits at hc
    split_ifs at hc with h
    · simp only [List.mem_singleton] at hc
      exact ⟨n, h, hc⟩
    · rw [List.mem_append] at hc
      rcases hc with hc | hc
      · exact printf_u_digits_digits fuel (n / 10) c hc
      · simp only [List.mem_singleton] at hc
        exact ⟨n % 10, Nat.mod_lt _ (by decide), hc⟩

theorem printf_u_digits_length : ∀ (fuel n k : Nat), n < 10 ^ (k + 1) →
    (printf_u_digits fuel n).length ≤ k + 1
  | 0, n, k, _ => by simp [printf_u_digits]
  | fuel + 1, n, k, h => by
    unfold printf_u_digits
    split_ifs with h10
    · simp
    · cases k with
      | zero => simp at h; omega
      | succ k =>
        have : n / 10 < 10 ^ (k + 1) := by
          rw [Nat.div_lt_iff_lt_mul (by decide)]
          rw [pow_succ] at h
          exact h
        have := printf_u_digits_length fuel (n / 10) k this
        simp only [List.length_append, List.length_singleton]
        omega

theorem atoi_digits_printf : ∀ (fuel n : Nat) (acc : Int) (rest : List Char), n < fuel →
    atoi_digits (printf_u_digits fuel n ++ rest) acc
      = atoi_digits rest (acc * 10 ^ (printf_u_digits fuel n).length + n)
  | 0, n, _, _, h => by omega
  | fuel + 1, n, acc, rest, h => by
    unfold printf_u_digits
    split_ifs with h10
    · have hd := digit_char_isDigit n h10
      simp only [List.singleton_append, atoi_digits, hd.1, if_true, List.length_singleton,
        pow_one]
      rw [hd.2.1]
      rfl
    · have hlt : n / 10 < fuel := by omega
      have hd := digit_char_isDigit (n % 10) (Nat.mod_lt _ (by decide))
      rw [List.append_assoc, atoi_digits_printf fuel (n / 10) acc _ hlt]
      simp only [List.singleton_append, atoi_digits, hd.1, if_true, List.length_append,
        List.length_singleton]
      rw [hd.2.1]
      show atoi_digits rest _ = atoi_digits rest _
      congr 1
      have : (n : Int) = (n / 10 : Nat) * 10 + (n % 10 : Nat) := by
        have := Nat.div_add_mod n 10
        omega
      rw [pow_succ]
      push_cast at this ⊢
      linarith

theorem dropWhile_isspace_spaces : ∀ (k : Nat) (l : List Char),
    (List.replicate k ' ' ++ l).dropWhile c_isspace = l.dropWhile c_isspace
  | 0, l => by simp
  | k + 1, l => by
    have : c_isspace ' ' = true := by decide
    simp only [List.replicate_succ, List.cons_append, List.dropWhile_cons, this, if_true]
    exact dropWhile_isspace_spaces k l

/-- Reading back with `strtol` a number printed in decimal after any number
of spaces and followed by a space or by the end of the string. -/
theorem strtol_printf (k n : Nat) (rest : List Char) (h : rest = [] ∨ ∃ t, rest = ' ' :: t)
    (hn : n < 2 ^ 63) :
    strtol (List.replicate k ' ' ++ printf_u_digits (n + 1) n ++ rest) = n := by
  have hne := printf_u_digits_ne_nil (n + 1) n (by omega)
  have hdig := printf_u_digits_digits (n + 1) n
  have hrest : ∀ acc, atoi_digits rest acc = acc := by
    intro acc
    rcases h with h | ⟨t, h⟩ <;> subst h
    · rfl
    · have : (' ' : Char).isDigit = false := by decide
      simp [atoi_digits, this]
  have hv : (match (List.replicate k ' ' ++ printf_u_digits (n + 1) n ++ rest).dropWhile
        c_isspace with
      | '-' :: r => - atoi_digits r 0
      | '+' :: r => atoi_digits r 0
      | r => atoi_digits r 0) = (n : Int) := by
    rw [List.append_assoc, dropWhile_isspace_spaces]
    cases hp : printf_u_digits (n + 1) n with
    | nil => exact absurd hp hne
    | cons c cs =>
      obtain ⟨d, hd, hc⟩ := hdig c (by rw [hp]; simp)
      have hd' := digit_char_isDigit d hd
      rw [← hc] at hd'
      have e : atoi_digits (c :: cs ++ rest) 0 = n := by
        rw [← hp, atoi_digits_printf (n + 1) n 0 rest (by omega), hrest]
        simp
      simp only [List.cons_append, List.dropWhile_cons, hd'.2.2.2.2.2.2.2.2]
      split
      · next heq => simp at heq; exact absurd heq.1 hd'.2.2.2.1
      · next heq => simp at heq; exact absurd heq.1 hd'.2.2.2.2.1
      · next r h1 h2 =>
        simpa using e
  unfold strtol
  simp only [hv]
  have h63 : (n : Int) < 2 ^ 63 := by exact_mod_cast hn
  rw [if_neg (by omega), if_neg (by omega)]

/-- Reading back with `atoi` a number below `2 ^ 31` printed in decimal after
any number of spaces and followed by a space or by the end of the string. -/
theorem atoi_printf (k n : Nat) (rest : List Char) (h : rest = [] ∨ ∃ t, rest = ' ' :: t)
    (hn : n < 2 ^ 31) :
    atoi (List.replicate k ' ' ++ printf_u_digits (n + 1) n ++ rest) = n := by
  have h63 : n < 2 ^ 63 := lt_of_lt_of_le hn (by norm_num)
  unfold atoi
  rw [strtol_printf k n rest h h63]
  have h31 : (n : Int) < 2 ^ 31 := by exact_mod_cast hn
  unfold wrapS
  norm_num at h31 ⊢
  omega

theorem scan_XY_none : ∀ (line : List Char) (k : Nat) (x y : Option Nat),
    'X' ∉ line → 'Y' ∉ line → scan_XY line k x y = (x, y) := by
  intro line k x y hx hy
  have h1 := scan_XY_no_X line k x y hx
  have h2 := scan_XY_no_Y line k x y hy
  exact Prod.ext h1 h2

theorem scan_XY_skip : ∀ (s t : List Char) (k : Nat) (x y : Option Nat),
    'X' ∉ s → 'Y' ∉ s → scan_XY (s ++ t) k x y = scan_XY t (k + s.length) x y
  | [], t, k, x, y, _, _ => by simp
  | c :: s, t, k, x, y, hx, hy => by
    have c1 : c ≠ 'X' := fun e => hx (by simp [e])
    have c2 : c ≠ 'Y' := fun e => hy (by simp [e])
    have s1 : 'X' ∉ s := fun e => hx (by simp [e])
    have s2 : 'Y' ∉ s := fun e => hy (by simp [e])
    have ih := scan_XY_skip s t (k + 1) x y s1 s2
    have e : k + (c :: s).length = k + 1 + s.length := by simp; omega
    rw [e, ← ih]
    simp only [List.cons_append, scan_XY, c1, c2, if_false]
    rfl

theorem scan_XY_dash_Y (rest : List Char) :
    scan_XY ('-' :: 'Y' :: rest) 0 none none = scan_XY rest 2 none (some 1) := by
  have e1 : ('-' : Char) ≠ 'X' := by decide
  have e2 : ('-' : Char) ≠ 'Y' := by decide
  have e3 : ('Y' : Char) ≠ 'X' := by decide
  rw [scan_XY, if_neg e1, if_neg e2, scan_XY, if_neg e3, if_pos rfl]

theorem scan_XY_X (rest : List Char) (k : Nat) (x y : Option Nat) :
    scan_XY ('X' :: rest) k x y = scan_XY rest (k + 1) (some k) y := by
  rw [scan_XY, if_pos rfl]

theorem getD_append_mid (a b : List Char) (c pre : Char) :
    (a ++ c :: b).getD a.length pre = c := by
  induction a with
  | nil => rfl
  | cons x a ih => simpa using ih

/-- The resolution line `-Y h +X w`, `h` and `w` standing for texts without
`X` and `Y` that `atoi` reads as `H > 0` and `W > 0`, converts to the
Y-major, Y-decreasing resolution `W` by `H`. -/
theorem str2resolu_line (pre : Char) (pH pW : List Char) (W H : Int)
    (hH : ∀ c ∈ pH, c ≠ 'X' ∧ c ≠ 'Y') (hW : ∀ c ∈ pW, c ≠ 'X' ∧ c ≠ 'Y')
    (aH : atoi (' ' :: pH ++ String.toList " +X " ++ pW) = H) (aW : atoi (' ' :: pW) = W)
    (h0 : 0 < W) (h1 : 0 < H) :
    str2resolu pre (String.toList "-Y " ++ pH ++ String.toList " +X " ++ pW)
      = some ⟨YDECR ||| YMAJOR, W, H⟩ := by
  have hline : String.toList "-Y " ++ pH ++ String.toList " +X " ++ pW
      = ('-' :: 'Y' :: (' ' :: pH ++ [' ', '+'])) ++ 'X' :: (' ' :: pW) := by
    show ['-', 'Y', ' '] ++ pH ++ [' ', '+', 'X', ' '] ++ pW = _
    simp
  have hS1 : 'X' ∉ (' ' :: pH ++ [' ', '+']) := by
    intro h
    simp only [List.cons_append, List.mem_cons, List.mem_append] at h
    rcases h with h | h | h | h | h
    · exact absurd h (by decide)
    · exact (hH _ h).1 rfl
    · exact absurd h (by decide)
    · exact absurd h (by decide)
    · simp at h
  have hS2 : 'Y' ∉ (' ' :: pH ++ [' ', '+']) := by
    intro h
    simp only [List.cons_append, List.mem_cons, List.mem_append] at h
    rcases h with h | h | h | h | h
    · exact absurd h (by decide)
    · exact (hH _ h).2 rfl
    · exact absurd h (by decide)
    · exact absurd h (by decide)
    · simp at h
  have hT1 : 'X' ∉ (' ' :: pW) := by
    intro h
    simp only [List.mem_cons] at h
    rcases h with h | h
    · exact absurd h (by decide)
    · exact (hW _ h).1 rfl
  have hT2 : 'Y' ∉ (' ' :: pW) := by
    intro h
    simp only [List.mem_cons] at h
    rcases h with h | h
    · exact absurd h (by decide)
    · exact (hW _ h).2 rfl
  have hscan : scan_XY (('-' :: 'Y' :: (' ' :: pH ++ [' ', '+'])) ++ 'X' :: (' ' :: pW))
      0 none none = (some (pH.length + 5), some 1) := by
    have e : ('-' :: 'Y' :: (' ' :: pH ++ [' ', '+'])) ++ 'X' :: (' ' :: pW)
        = '-' :: 'Y' :: ((' ' :: pH ++ [' ', '+']) ++ 'X' :: (' ' :: pW)) := rfl
    rw [e, scan_XY_dash_Y, scan_XY_skip _ _ _ _ _ hS1 hS2, scan_XY_X,
      scan_XY_none _ _ _ _ hT1 hT2]
    simp
    omega
  have hcx : char_before pre (('-' :: 'Y' :: (' ' :: pH ++ [' ', '+'])) ++ 'X' :: (' ' :: pW))
      (pH.length + 5) = '+' := by
    have e : ('-' :: 'Y' :: (' ' :: pH ++ [' ', '+'])) ++ 'X' :: (' ' :: pW)
        = ('-' :: 'Y' :: ' ' :: pH ++ [' ']) ++ '+' :: ('X' :: ' ' :: pW) := by simp
    have l : pH.length + 5 - 1 = ('-' :: 'Y' :: ' ' :: pH ++ [' ']).length := by simp
    unfold char_before
    rw [if_neg (by omega), l, e, getD_append_mid]
  have hcy : char_before pre (('-' :: 'Y' :: (' ' :: pH ++ [' ', '+'])) ++ 'X' :: (' ' :: pW))
      1 = '-' := by
    simp [char_before]
  have hdx : List.drop (pH.length + 5 + 1)
      (('-' :: 'Y' :: (' ' :: pH ++ [' ', '+'])) ++ 'X' :: (' ' :: pW)) = ' ' :: pW := by
    have : (pH.length + 5 + 1) = ('-' :: 'Y' :: (' ' :: pH ++ [' ', '+']) ++ ['X']).length := by
      simp
    have e : ('-' :: 'Y' :: (' ' :: pH ++ [' ', '+'])) ++ 'X' :: (' ' :: pW)
        = ('-' :: 'Y' :: (' ' :: pH ++ [' ', '+']) ++ ['X']) ++ (' ' :: pW) := by simp
    rw [this, e, List.drop_left]
  have hdy : List.drop (1 + 1)
      (('-' :: 'Y' :: (' ' :: pH ++ [' ', '+'])) ++ 'X' :: (' ' :: pW))
      = ' ' :: pH ++ String.toList " +X " ++ pW := by
    show _ = ' ' :: pH ++ [' ', '+', 'X', ' '] ++ pW
    simp
  have hgt : pH.length + 5 > 1 := by omega
  have n1 : ¬ (('+' : Char) = '-') := by decide
  have n0 : ¬ W ≤ 0 := by omega
  have n2 : ¬ H ≤ 0 := by omega
  rw [hline]
  unfold str2resolu
  simp only [hscan, hcx, hcy, hdx, hdy, aH, aW, hgt, n1, n0, n2, if_true, if_false]
  rfl

/-! ## foreign/radiance.c: header round trip -/

theorem sbuf_line_id (l : List Char) (h : l.length ≤ VIPS_SBUF_BUFFER_SIZE)
    (hr : l.getLast? ≠ some '\r') (h0 : Char.ofNat 0 ∉ l) : sbuf_line l = l := by
  unfold sbuf_line
  rw [sbuf_buffer_id l h hr, c_string_id l h0]

theorem sbuf_line_append (p l : List Char) (h : p.length < VIPS_SBUF_BUFFER_SIZE)
    (hr : p.getLast? ≠ some '\r') (h0 : Char.ofNat 0 ∉ p) :
    ∃ t, sbuf_line (p ++ l) = p ++ t := by
  obtain ⟨t, ht⟩ := sbuf_buffer_append p l h hr
  unfold sbuf_line
  rw [ht, c_string_append p t h0]
  exact ⟨_, rfl⟩

theorem getheader_cons_ok {σ : Type} (f : List Char → σ → Option σ) (line : List Char)
    (rest : List (List Char)) (p p1 : σ) (h0 : line ≠ []) (h : f line p = some p1) :
    getheader f (line :: rest) p = getheader f rest p1 := by
  simp only [getheader, h0, if_false, h]

theorem process_line_ok (E : RadFloat) (line : List Char) (read : Read E)
    (hf : read.format = COLRFMT)
    (hc : iscolcor line = true → E.scan_colcor (line.drop 10) ≠ none)
    (hp : isprims line = true → E.scan_prims (line.drop 10) ≠ none) :
    ∃ r, rad2vips_process_line E line read = some r ∧ r.format = COLRFMT := by
  have hfv : (formatval true COLRFMT).1 = false := by decide
  have key : ∃ r, rad2vips_process_line E line read = some r := by
    unfold rad2vips_process_line
    by_cases h1 : isformat line = true
    · simp [h1, hf, hfv]
    by_cases h2 : isexpos line = true
    · simp [h1, h2]
    by_cases h3 : iscolcor line = true
    · cases hs : E.scan_colcor (line.drop 10) with
      | none => exact absurd hs (hc h3)
      | some v => obtain ⟨a, b, c⟩ := v; simp [h1, h2, h3, hs]
    by_cases h4 : isaspect line = true
    · simp [h1, h2, h3, h4]
    by_cases h5 : isprims line = true
    · cases hs : E.scan_prims (line.drop 10) with
      | none => exact absurd hs (hp h5)
      | some v => simp [h1, h2, h3, h4, h5, hs]
    · simp [h1, h2, h3, h4, h5]
  obtain ⟨r, hr⟩ := key
  exact ⟨r, hr, by rw [process_line_format E line read r hr, hf]⟩

theorem isPrefixOf_head_ne (a b : Char) (p q : List Char) (h : a ≠ b) :
    (a :: p).isPrefixOf (b :: q) = false := by
  simp [List.isPrefixOf, h]

/-- A header line that starts with none of `C` and `PR` is passed over, or
read without failure, by `rad2vips_process_line`. -/
theorem process_line_plain (E : RadFloat) (c d : Char) (t : List Char) (read : Read E)
    (hf : read.format = COLRFMT) (h1 : c ≠ 'C') (h2 : c ≠ 'P' ∨ d ≠ 'R') :
    ∃ r, rad2vips_process_line E (c :: d :: t) read = some r ∧ r.format = COLRFMT := by
  apply process_line_ok E _ read hf
  · intro h
    have : iscolcor (c :: d :: t) = false :=
      isPrefixOf_head_ne 'C' c _ _ (Ne.symm h1)
    rw [this] at h; cases h
  · intro h
    have : isprims (c :: d :: t) = false := by
      show List.isPrefixOf ('P' :: 'R' :: String.toList "IMARIES=") (c :: d :: t) = false
      rcases h2 with h2 | h2
      · exact isPrefixOf_head_ne 'P' c _ _ (Ne.symm h2)
      · simp [List.isPrefixOf, Ne.symm h2]
    rw [this] at h; cases h

theorem printf_8d_eq (n : Int) (h : 0 < n) :
    printf_8d n = List.replicate (8 - (printf_u_digits (n.natAbs + 1) n.natAbs).length) ' '
      ++ printf_u_digits (n.natAbs + 1) n.natAbs := by
  have : ¬ n < 0 := by omega
  simp only [printf_8d, printf_d, this, if_false]

theorem printf_8d_chars (n : Int) (h : 0 < n) :
    ∀ c ∈ printf_8d n, c ≠ 'X' ∧ c ≠ 'Y' ∧ c ≠ '\n' ∧ c ≠ '\r' := by
  intro c hc
  rw [printf_8d_eq n h, List.mem_append] at hc
  rcases hc with hc | hc
  · rw [List.mem_replicate] at hc
    rw [hc.2]; decide
  · obtain ⟨d, hd, e⟩ := printf_u_digits_digits _ _ c hc
    subst e
    have : d < 10 := hd
    interval_cases d <;> decide

theorem digit_char_plain (d : Nat) (h : d < 10) :
    digit_char d ≠ '\n' ∧ digit_char d ≠ '\r' ∧ digit_char d ≠ Char.ofNat 0 := by
  interval_cases d <;> decide

theorem printf_u_digits_plain (fuel n : Nat) :
    ∀ c ∈ printf_u_digits fuel n, c ≠ '\n' ∧ c ≠ '\r' ∧ c ≠ Char.ofNat 0 := by
  intro c hc
  obtain ⟨d, hd, e⟩ := printf_u_digits_digits _ _ c hc
  subst e
  exact digit_char_plain d hd

theorem printf_8d_nul (n : Int) (h : 0 < n) : ∀ c ∈ printf_8d n, c ≠ Char.ofNat 0 := by
  intro c hc
  rw [printf_8d_eq n h, List.mem_append] at hc
  rcases hc with hc | hc
  · rw [List.mem_replicate] at hc
    rw [hc.2]; decide
  · exact (printf_u_digits_plain _ _ c hc).2.2

theorem printf_8d_length (n : Int) (h : 0 < n) (h7 : n < 10000000) :
    (printf_8d n).length = 8 := by
  have hl := printf_u_digits_length (n.natAbs + 1) n.natAbs 6 (by omega)
  rw [printf_8d_eq n h, List.length_append, List.length_replicate]
  omega

theorem atoi_printf_8d (n : Int) (h : 0 < n) (h7 : n < 10000000) (rest : List Char)
    (hr : rest = [] ∨ ∃ t, rest = ' ' :: t) : atoi (' ' :: printf_8d n ++ rest) = n := by
  rw [printf_8d_eq n h]
  have := atoi_printf (8 - (printf_u_digits (n.natAbs + 1) n.natAbs).length + 1) n.natAbs rest hr
    (by norm_num; omega)
  rw [List.replicate_succ] at this
  simp only [List.cons_append, List.append_assoc] at this ⊢
  rw [this]
  omega

theorem sbuf_line_id_of_no_cr (l : List Char) (h : l.length ≤ VIPS_SBUF_BUFFER_SIZE)
    (hr : '\r' ∉ l) (h0 : Char.ofNat 0 ∉ l) : sbuf_line l = l := by
  refine sbuf_line_id l h ?_ h0
  intro hl
  rw [List.getLast?_eq_some_iff] at hl
  obtain ⟨ys, hys⟩ := hl
  exact hr (by rw [hys]; simp)

theorem getheader_step (E : RadFloat) (line : List Char) (rest : List (List Char))
    (read : Read E) (h0 : line ≠ [])
    (hok : ∃ r, rad2vips_process_line E line read = some r ∧ r.format = COLRFMT) :
    ∃ r, getheader (rad2vips_process_line E) (line :: rest) read
        = getheader (rad2vips_process_line E) rest r ∧ r.format = COLRFMT := by
  obtain ⟨r, h1, h2⟩ := hok
  exact ⟨r, getheader_cons_ok _ line rest read r h0 h1, h2⟩

theorem resolu2str_written (W H : Int) :
    resolu2str ⟨YDECR ||| YMAJOR, W, H⟩
      = (String.toList "-Y " ++ printf_8d H ++ String.toList " +X " ++ printf_8d W) ++ ['\n'] := by
  have h1 : (YDECR ||| YMAJOR) &&& YMAJOR ≠ 0 := by decide
  have h2 : (YDECR ||| YMAJOR) &&& YDECR ≠ 0 := by decide
  have h3 : ¬ ((YDECR ||| YMAJOR) &&& XDECR ≠ 0) := by decide
  unfold resolu2str
  rw [if_pos h1, if_pos h2, if_neg h3]
  rfl

/-- The lines that the reader gets from the header written by
`vips2rad_put_header`, when none of the printed texts holds a line feed. -/
theorem put_header_lines (P : RadPrint) (img : SaveImage P) (write0 : Write P)
    (hW : 0 < img.Xsize) (hH : 0 < img.Ysize)
    (hnl : ∀ t ∈ header_texts P (vips2rad_make_header P img write0), '\n' ∉ t) :
    sbuf_lines (vips2rad_put_header P img write0) =
      [sbuf_line (String.toList "#?RADIANCE"),
       sbuf_line (FMTSTR ++ (vips2rad_make_header P img write0).format),
       sbuf_line (EXPOSSTR ++ P.fmt_e (vips2rad_make_header P img write0).expos),
       sbuf_line (colcor_line P (vips2rad_make_header P img write0)),
       sbuf_line (String.toList "SOFTWARE=vips " ++ P.version),
       sbuf_line (ASPECTSTR ++ P.fmt_f (vips2rad_make_header P img write0).aspect),
       sbuf_line (prims_line P (vips2rad_make_header P img write0)),
       [],
       sbuf_line (String.toList "-Y " ++ printf_8d img.Ysize ++ String.toList " +X " ++
         printf_8d img.Xsize)] := by
  have hrs : (vips2rad_make_header P img write0).rs = ⟨YDECR ||| YMAJOR, img.Xsize, img.Ysize⟩ :=
    rfl
  generalize hw : vips2rad_make_header P img write0 = w at hnl hrs
  have mem : ∀ t, t ∈ header_texts P w → '\n' ∉ t := hnl
  simp only [header_texts, List.cons_append, List.nil_append, List.mem_cons, List.mem_map,
    forall_eq_or_imp] at mem
  obtain ⟨m1, m2, m3, m4, m5, m6, m7, m8⟩ := mem
  have n0 : '\n' ∉ String.toList "#?RADIANCE" := by decide
  have n1 : '\n' ∉ FMTSTR ++ w.format := by
    rw [List.mem_append]; rintro (h | h)
    · exact absurd h (by decide)
    · exact m1 h
  have n2 : '\n' ∉ EXPOSSTR ++ P.fmt_e w.expos := by
    rw [List.mem_append]; rintro (h | h)
    · exact absurd h (by decide)
    · exact m2 h
  have n3 : '\n' ∉ colcor_line P w := by
    have h0 : '\n' ∉ COLCORSTR := by decide
    have hsp : ¬ ('\n' = ' ') := by decide
    simp [colcor_line, h0, hsp, m3, m4, m5]
  have n4 : '\n' ∉ String.toList "SOFTWARE=vips " ++ P.version := by
    rw [List.mem_append]; rintro (h | h)
    · exact absurd h (by decide)
    · exact m6 h
  have n5 : '\n' ∉ ASPECTSTR ++ P.fmt_f w.aspect := by
    rw [List.mem_append]; rintro (h | h)
    · exact absurd h (by decide)
    · exact m7 h
  have n6 : '\n' ∉ prims_line P w := by
    unfold prims_line
    simp only [List.mem_append, List.mem_flatten, List.mem_map]
    rintro (h | ⟨l, ⟨p, hp, rfl⟩, h⟩)
    · exact absurd h (by decide)
    · simp only [List.mem_cons] at h
      rcases h with h | h
      · exact absurd h (by decide)
      · exact m8 _ ⟨p, hp, rfl⟩ h
  have n7 : '\n' ∉ String.toList "-Y " ++ printf_8d img.Ysize ++ String.toList " +X " ++
      printf_8d img.Xsize := by
    simp only [List.mem_append]
    rintro (((h | h) | h) | h)
    · exact absurd h (by decide)
    · exact (printf_8d_chars _ hH _ h).2.2.1 rfl
    · exact absurd h (by decide)
    · exact (printf_8d_chars _ hW _ h).2.2.1 rfl
  have e : vips2rad_put_header P img write0
      = String.toList "#?RADIANCE" ++ '\n' :: ((FMTSTR ++ w.format) ++ '\n' ::
        ((EXPOSSTR ++ P.fmt_e w.expos) ++ '\n' :: (colcor_line P w ++ '\n' ::
        ((String.toList "SOFTWARE=vips " ++ P.version) ++ '\n' ::
        ((ASPECTSTR ++ P.fmt_f w.aspect) ++ '\n' :: (prims_line P w ++ '\n' ::
        ([] ++ '\n' :: ((String.toList "-Y " ++ printf_8d img.Ysize ++ String.toList " +X " ++
          printf_8d img.Xsize) ++ '\n' :: [])))))))) := by
    have e0 : String.toList "#?RADIANCE\n" = String.toList "#?RADIANCE" ++ ['\n'] := by decide
    unfold vips2rad_put_header
    simp only [hw, hrs, resolu2str_written, e0]
    simp only [List.append_assoc, List.singleton_append, List.nil_append, List.cons_append]
  unfold sbuf_lines
  rw [e, sbuf_lines_from_line _ _ _ n0, sbuf_lines_from_line _ _ _ n1,
    sbuf_lines_from_line _ _ _ n2, sbuf_lines_from_line _ _ _ n3,
    sbuf_lines_from_line _ _ _ n4, sbuf_lines_from_line _ _ _ n5,
    sbuf_lines_from_line _ _ _ n6, sbuf_lines_from_line _ _ _ (by simp),
    sbuf_lines_from_line _ _ _ n7]
  simp only [List.reverse_nil, List.nil_append, sbuf_lines_from, if_true]
  rfl

/-- C12, as written, fails: a 1 x 1 image of interpretation MULTIBAND whose
rad-format metadata is a line feed. The header written starts with the lines
`#?RADIANCE`, `FORMAT=`, a blank line and `EXPOSURE=1.000000e+00`; the reader
takes the blank line as the end of the header and the exposure line, which has
no `Y`, as the resolution line, so the header read fails. -/
theorem header_roundtrip_line_feed :
    (0 : Int) < 1 ∧ (1 : Int) < VIPS_MAX_COORD ∧
    (sbuf_lines (vips2rad_put_header RadPrint.text
      ⟨1, 1, VipsInterpretation.MULTIBAND, none, none, some ['\n'], (none, none, none), []⟩
      (write_new RadPrint.text))).take 4
      = [String.toList "#?RADIANCE", String.toList "FORMAT=", [],
          String.toList "EXPOSURE=1.000000e+00"] ∧
    (rad2vips_get_header RadFloat.unit ' ' (sbuf_lines (vips2rad_put_header RadPrint.text
      ⟨1, 1, VipsInterpretation.MULTIBAND, none, none, some ['\n'], (none, none, none), []⟩
      (write_new RadPrint.text))) (read_new RadFloat.unit)).isNone = true := by
  refine ⟨by decide, by decide, by decide, by decide⟩

/-- Reading back the header written by `vips2rad_put_header`, for any
writer interface: when no printed text holds a line feed and the colour
correction and primaries lines are scanned, the header read succeeds and
declares the dimensions of the image written. -/
theorem header_read_back (E : RadFloat) (P : RadPrint) (pre : Char) (img : SaveImage P)
    (hW : 0 < img.Xsize ∧ img.Xsize < VIPS_MAX_COORD)
    (hH : 0 < img.Ysize ∧ img.Ysize < VIPS_MAX_COORD)
    (hnl : ∀ t ∈ header_texts P (vips2rad_make_header P img (write_new P)), '\n' ∉ t)
    (hc : E.scan_colcor
      ((sbuf_line (colcor_line P (vips2rad_make_header P img (write_new P)))).drop 10) ≠ none)
    (hp : E.scan_prims
      ((sbuf_line (prims_line P (vips2rad_make_header P img (write_new P)))).drop 10) ≠ none) :
    ∃ r out, rad2vips_get_header E pre
        (sbuf_lines (vips2rad_put_header P img (write_new P))) (read_new E) = some (r, out, []) ∧
      out.Xsize = img.Xsize ∧ out.Ysize = img.Ysize ∧ out.Bands = 4 ∧
      out.BandFmt = VipsBandFormat.UCHAR ∧ out.Coding = VipsCoding.RAD := by
  have hM : VIPS_MAX_COORD = 10000000 := rfl
  rw [put_header_lines P img (write_new P) hW.1 hH.1 hnl]
  generalize vips2rad_make_header P img (write_new P) = w at hc hp
  -- the seven header lines
  have l1 : sbuf_line (String.toList "#?RADIANCE") = '#' :: '?' :: String.toList "RADIANCE" := by
    decide
  obtain ⟨t2, l2⟩ := sbuf_line_append FMTSTR w.format (by decide) (by decide) (by decide)
  obtain ⟨t3, l3⟩ := sbuf_line_append EXPOSSTR (P.fmt_e w.expos) (by decide) (by decide) (by decide)
  obtain ⟨t4, l4⟩ := sbuf_line_append COLCORSTR
    (' ' :: P.fmt_f w.colcor.1 ++ ' ' :: P.fmt_f w.colcor.2.1 ++ ' ' :: P.fmt_f w.colcor.2.2)
    (by decide) (by decide) (by decide)
  obtain ⟨t5, l5⟩ := sbuf_line_append (String.toList "SOFTWARE=vips ") P.version
    (by decide) (by decide) (by decide)
  obtain ⟨t6, l6⟩ := sbuf_line_append ASPECTSTR (P.fmt_f w.aspect) (by decide) (by decide) (by decide)
  obtain ⟨t7, l7⟩ := sbuf_line_append PRIMARYSTR
    ((w.prims.map (fun p => ' ' :: P.fmt_4f p)).flatten) (by decide) (by decide) (by decide)
  have l4' : sbuf_line (colcor_line P w) = COLCORSTR ++ t4 := by
    rw [← l4]; unfold colcor_line; simp only [List.append_assoc]
  have l7' : sbuf_line (prims_line P w) = PRIMARYSTR ++ t7 := l7
  have c2 : FMTSTR ++ t2 = 'F' :: 'O' :: (String.toList "RMAT=" ++ t2) := rfl
  have c3 : EXPOSSTR ++ t3 = 'E' :: 'X' :: (String.toList "POSURE=" ++ t3) := rfl
  have c4 : COLCORSTR ++ t4 = 'C' :: 'O' :: (String.toList "LORCORR=" ++ t4) := rfl
  have c5 : String.toList "SOFTWARE=vips " ++ t5
      = 'S' :: 'O' :: (String.toList "FTWARE=vips " ++ t5) := rfl
  have c6 : ASPECTSTR ++ t6 = 'P' :: 'I' :: (String.toList "XASPECT=" ++ t6) := rfl
  have c7 : PRIMARYSTR ++ t7 = 'P' :: 'R' :: (String.toList "IMARIES=" ++ t7) := rfl
  have hc' : E.scan_colcor ((COLCORSTR ++ t4).drop 10) ≠ none := by rw [← l4']; exact hc
  have hp' : E.scan_prims ((PRIMARYSTR ++ t7).drop 10) ≠ none := by rw [← l7']; exact hp
  rw [l1, l2, l3, l4', l5, l6, l7']
  -- the resolution line
  have hres : sbuf_line (String.toList "-Y " ++ printf_8d img.Ysize ++ String.toList " +X " ++
      printf_8d img.Xsize)
      = String.toList "-Y " ++ printf_8d img.Ysize ++ String.toList " +X " ++
        printf_8d img.Xsize := by
    apply sbuf_line_id_of_no_cr
    · have a := printf_8d_length img.Xsize hW.1 (by omega)
      have b := printf_8d_length img.Ysize hH.1 (by omega)
      simp only [List.length_append, a, b]
      decide
    · simp only [List.mem_append]
      rintro (((h | h) | h) | h)
      · exact absurd h (by decide)
      · exact (printf_8d_chars _ hH.1 _ h).2.2.2 rfl
      · exact absurd h (by decide)
      · exact (printf_8d_chars _ hW.1 _ h).2.2.2 rfl
    · simp only [List.mem_append]
      rintro (((h | h) | h) | h)
      · exact absurd h (by decide)
      · exact printf_8d_nul _ hH.1 _ h rfl
      · exact absurd h (by decide)
      · exact printf_8d_nul _ hW.1 _ h rfl
  have hstr := str2resolu_line pre (printf_8d img.Ysize) (printf_8d img.Xsize)
    img.Xsize img.Ysize
    (fun c h => ⟨(printf_8d_chars _ hH.1 c h).1, (printf_8d_chars _ hH.1 c h).2.1⟩)
    (fun c h => ⟨(printf_8d_chars _ hW.1 c h).1, (printf_8d_chars _ hW.1 c h).2.1⟩)
    (by
      have := atoi_printf_8d img.Ysize hH.1 (by omega) (String.toList " +X " ++ printf_8d img.Xsize)
        (Or.inr ⟨String.toList "+X " ++ printf_8d img.Xsize, rfl⟩)
      simpa [List.append_assoc] using this)
    (by simpa using atoi_printf_8d img.Xsize hW.1 (by omega) [] (Or.inl rfl))
    hW.1 hH.1
  rw [hres]
  -- the header loop
  have f0 : (read_new E).format = COLRFMT := rfl
  obtain ⟨r1, g1, f1⟩ := getheader_step E _ ([FMTSTR ++ t2, EXPOSSTR ++ t3, COLCORSTR ++ t4,
      String.toList "SOFTWARE=vips " ++ t5, ASPECTSTR ++ t6, PRIMARYSTR ++ t7, [],
      String.toList "-Y " ++ printf_8d img.Ysize ++ String.toList " +X " ++ printf_8d img.Xsize])
    (read_new E) (by simp)
    (process_line_plain E '#' '?' _ _ f0 (by decide) (Or.inl (by decide)))
  obtain ⟨r2, g2, f2⟩ := getheader_step E (FMTSTR ++ t2) ([EXPOSSTR ++ t3, COLCORSTR ++ t4,
      String.toList "SOFTWARE=vips " ++ t5, ASPECTSTR ++ t6, PRIMARYSTR ++ t7, [],
      String.toList "-Y " ++ printf_8d img.Ysize ++ String.toList " +X " ++ printf_8d img.Xsize])
    r1 (by rw [c2]; simp)
    (by rw [c2]; exact process_line_plain E 'F' 'O' _ _ f1 (by decide) (Or.inl (by decide)))
  obtain ⟨r3, g3, f3⟩ := getheader_step E (EXPOSSTR ++ t3) ([COLCORSTR ++ t4,
      String.toList "SOFTWARE=vips " ++ t5, ASPECTSTR ++ t6, PRIMARYSTR ++ t7, [],
      String.toList "-Y " ++ printf_8d img.Ysize ++ String.toList " +X " ++ printf_8d img.Xsize])
    r2 (by rw [c3]; simp)
    (by rw [c3]; exact process_line_plain E 'E' 'X' _ _ f2 (by decide) (Or.inl (by decide)))
  obtain ⟨r4, g4, f4⟩ := getheader_step E (COLCORSTR ++ t4) ([
      String.toList "SOFTWARE=vips " ++ t5, ASPECTSTR ++ t6, PRIMARYSTR ++ t7, [],
      String.toList "-Y " ++ printf_8d img.Ysize ++ String.toList " +X " ++ printf_8d img.Xsize])
    r3 (by rw [c4]; simp)
    (process_line_ok E _ r3 f3 (fun _ => hc') (fun h => by
      rw [c4] at h
      have : isprims ('C' :: 'O' :: (String.toList "LORCORR=" ++ t4)) = false :=
        isPrefixOf_head_ne 'P' 'C' _ _ (by decide)
      rw [this] at h; cases h))
  obtain ⟨r5, g5, f5⟩ := getheader_step E (String.toList "SOFTWARE=vips " ++ t5)
    ([ASPECTSTR ++ t6, PRIMARYSTR ++ t7, [],
      String.toList "-Y " ++ printf_8d img.Ysize ++ String.toList " +X " ++ printf_8d img.Xsize])
    r4 (by rw [c5]; simp)
    (by rw [c5]; exact process_line_plain E 'S' 'O' _ _ f4 (by decide) (Or.inl (by decide)))
  obtain ⟨r6, g6, f6⟩ := getheader_step E (ASPECTSTR ++ t6) ([PRIMARYSTR ++ t7, [],
      String.toList "-Y " ++ printf_8d img.Ysize ++ String.toList " +X " ++ printf_8d img.Xsize])
    r5 (by rw [c6]; simp)
    (by rw [c6]; exact process_line_plain E 'P' 'I' _ _ f5 (by decide) (Or.inr (by decide)))
  obtain ⟨r7, g7, f7⟩ := getheader_step E (PRIMARYSTR ++ t7) ([[],
      String.toList "-Y " ++ printf_8d img.Ysize ++ String.toList " +X " ++ printf_8d img.Xsize])
    r6 (by rw [c7]; simp)
    (process_line_ok E _ r6 f6 (fun h => by
      rw [c7] at h
      have : iscolcor ('P' :: 'R' :: (String.toList "IMARIES=" ++ t7)) = false :=
        isPrefixOf_head_ne 'C' 'P' _ _ (by decide)
      rw [this] at h; cases h) (fun _ => hp'))
  have hget : getheader (rad2vips_process_line E)
      ['#' :: '?' :: String.toList "RADIANCE", FMTSTR ++ t2, EXPOSSTR ++ t3, COLCORSTR ++ t4,
        String.toList "SOFTWARE=vips " ++ t5, ASPECTSTR ++ t6, PRIMARYSTR ++ t7, [],
        String.toList "-Y " ++ printf_8d img.Ysize ++ String.toList " +X " ++
          printf_8d img.Xsize] (read_new E)
      = some (r7, [String.toList "-Y " ++ printf_8d img.Ysize ++ String.toList " +X " ++
          printf_8d img.Xsize]) := by
    rw [g1, g2, g3, g4, g5, g6, g7]
    simp [getheader]
  have s1 : scanlen ⟨YDECR ||| YMAJOR, img.Xsize, img.Ysize⟩ = img.Xsize := by
    have : (YDECR ||| YMAJOR) &&& YMAJOR ≠ 0 := by decide
    unfold scanlen; rw [if_pos this]
  have s2 : numscans ⟨YDECR ||| YMAJOR, img.Xsize, img.Ysize⟩ = img.Ysize := by
    have : (YDECR ||| YMAJOR) &&& YMAJOR ≠ 0 := by decide
    unfold numscans; rw [if_pos this]
  have hb : ¬ (img.Xsize ≤ 0 ∨ img.Xsize ≥ VIPS_MAX_COORD ∨ img.Ysize ≤ 0 ∨
      img.Ysize ≥ VIPS_MAX_COORD) := by omega
  unfold rad2vips_get_header
  simp only [hget, hstr, s1, s2, hb, if_false]
  exact ⟨_, _, rfl, rfl, rfl, rfl, rfl, rfl⟩

/-! ## foreign/radiance.c: stores of the scanline generator -/

theorem put_colr_ok (buf : List COLR) (j : Nat) (c : COLR) (h : j < buf.length) :
    put_colr buf j c = .ok (buf.set j c) := by
  simp only [put_colr, if_pos h]

theorem copy_previous_safe : ∀ (i width pos : Nat) (buf : List COLR),
    pos + width ≤ buf.length →
    copy_previous i width pos buf ≠ .error .oob ∧
    copy_previous i width pos buf ≠ .error .fuel ∧
    (∀ b p w, copy_previous i width pos buf = .ok (b, p, w) →
      b.length = buf.length ∧ p + w ≤ b.length)
  | 0, width, pos, buf, h => by
    simp only [copy_previous]
    refine ⟨by simp, by simp, ?_⟩
    intro b p w e
    simp only [Except.ok.injEq, Prod.mk.injEq] at e
    obtain ⟨e1, e2, e3⟩ := e
    subst e1; subst e2; subst e3
    exact ⟨rfl, h⟩
  | i + 1, width, pos, buf, h => by
    unfold copy_previous
    by_cases hw : width > 0
    · rw [if_pos hw]
      by_cases hp : pos = 0
      · rw [if_pos hp]
        refine ⟨by simp, by simp, ?_⟩
        intro b p w e; simp at e
      · rw [if_neg hp]
        have hlt : pos - 1 < buf.length := by omega
        rw [List.getElem?_eq_getElem hlt]
        simp only []
        rw [put_colr_ok buf pos _ (by omega)]
        simp only []
        have ih := copy_previous_safe i (width - 1) (pos + 1) (buf.set pos buf[pos - 1])
          (by simp; omega)
        refine ⟨ih.1, ih.2.1, ?_⟩
        intro b p w e
        have := ih.2.2 b p w e
        simpa using this
    · rw [if_neg hw]
      refine ⟨by simp, by simp, ?_⟩
      intro b p w e
      simp only [Except.ok.injEq, Prod.mk.injEq] at e
      obtain ⟨e1, e2, e3⟩ := e
      subst e1; subst e2; subst e3
      exact ⟨rfl, h⟩

theorem scanline_read_old_safe : ∀ (n : Nat) (inp : List Nat) (buf : List COLR)
    (pos width rshift : Nat), inp.length ≤ n → pos + width ≤ buf.length →
    scanline_read_old inp buf pos width rshift ≠ .error .oob ∧
    scanline_read_old inp buf pos width rshift ≠ .error .fuel ∧
    (∀ o r, scanline_read_old inp buf pos width rshift = .ok (o, r) →
      o.length = buf.length) := by
  intro n
  induction n with
  | zero =>
    intro inp buf pos width rshift hn _
    have : inp = [] := List.length_eq_zero.mp (by omega)
    subst this
    cases width with
    | zero =>
      simp only [scanline_read_old]
      refine ⟨by simp, by simp, ?_⟩
      intro o r e
      simp only [Except.ok.injEq, Prod.mk.injEq] at e
      rw [← e.1]
    | succ w =>
      simp only [scanline_read_old]
      refine ⟨by simp, by simp, ?_⟩
      intro o r e; simp at e
  | succ n ih =>
    intro inp buf pos width rshift hn hb
    cases width with
    | zero =>
      simp only [scanline_read_old]
      refine ⟨by simp, by simp, ?_⟩
      intro o r e
      simp only [Except.ok.injEq, Prod.mk.injEq] at e
      rw [← e.1]
    | succ w =>
      match inp, hn with
      | [], _ | [_], _ | [_, _], _ | [_, _, _], _ =>
        simp only [scanline_read_old]
        refine ⟨by simp, by simp, ?_⟩
        intro o r e; simp at e
      | r0 :: g0 :: b0 :: e0 :: rest, hn =>
        simp only [List.length_cons] at hn
        simp only [scanline_read_old]
        rw [put_colr_ok buf pos _ (by omega)]
        simp only []
        have hl : (buf.set pos ⟨r0, g0, b0, e0⟩).length = buf.length := by simp
        by_cases hm : r0 = 1 ∧ g0 = 1 ∧ b0 = 1
        · rw [if_pos hm]
          have hc := copy_previous_safe ((e0 <<< rshift) % 2 ^ 32) (w + 1) pos
            (buf.set pos ⟨r0, g0, b0, e0⟩) (by rw [hl]; exact hb)
          cases hcp : copy_previous ((e0 <<< rshift) % 2 ^ 32) (w + 1) pos
              (buf.set pos ⟨r0, g0, b0, e0⟩) with
          | error x =>
            simp only []
            refine ⟨?_, ?_, ?_⟩
            · intro h; rw [hcp] at hc
              simp only [Except.error.injEq] at h
              exact hc.1 (by rw [h])
            · intro h; rw [hcp] at hc
              simp only [Except.error.injEq] at h
              exact hc.2.1 (by rw [h])
            · intro o r e; simp at e
          | ok v =>
            obtain ⟨b2, p2, w2⟩ := v
            simp only []
            have h2 := hc.2.2 b2 p2 w2 hcp
            by_cases hs : rshift + 8 > 24
            · rw [if_pos hs]
              refine ⟨by simp, by simp, ?_⟩
              intro o r e; simp at e
            · rw [if_neg hs]
              have := ih rest b2 p2 w2 (rshift + 8) (by omega) h2.2
              rw [h2.1, hl] at this
              exact this
        · rw [if_neg hm]
          have := ih rest (buf.set pos ⟨r0, g0, b0, e0⟩) (pos + 1) w 0 (by omega)
            (by rw [hl]; omega)
          rw [hl] at this
          exact this

/-- On an array of exactly `width` pixels `scanline_read` never stores outside
the array, whatever the input, and leaves an array of `width` pixels. -/
theorem scanline_read_safe (inp : List Nat) (buf : List COLR) (width : Nat)
    (hbuf : buf.length = width) :
    scanline_read inp buf width ≠ .error .oob ∧
    scanline_read inp buf width ≠ .error .fuel ∧
    (∀ o r, scanline_read inp buf width = .ok (o, r) → o.length = width) := by
  have hold : ∀ (inp : List Nat) (b : List COLR) (pos w : Nat), b.length = width →
      pos + w ≤ width →
      scanline_read_old inp b pos w 0 ≠ .error .oob ∧
      scanline_read_old inp b pos w 0 ≠ .error .fuel ∧
      (∀ o r, scanline_read_old inp b pos w 0 = .ok (o, r) → o.length = width) := by
    intro inp b pos w hb hp
    have := scanline_read_old_safe inp.length inp b pos w 0 (le_refl _) (by omega)
    rw [hb] at this
    exact this
  unfold scanline_read
  by_cases h1 : width < MINELEN ∨ width > MAXELEN
  · rw [if_pos h1]
    exact hold inp buf 0 width hbuf (by omega)
  · rw [if_neg h1]
    have hmin : MINELEN ≤ width := by omega
    have h8 : MINELEN = 8 := rfl
    match inp with
    | [] | [_] | [_, _] | [_, _, _] =>
      refine ⟨by simp, by simp, ?_⟩
      intro o r e; simp at e
    | b0 :: b1 :: b2 :: b3 :: rest =>
      simp only []
      by_cases h2 : b0 ≠ 2
      · rw [if_pos h2]
        exact hold _ buf 0 width hbuf (by omega)
      · rw [if_neg h2]
        rw [put_colr_ok buf 0 _ (by omega)]
        simp only []
        have hl : (buf.set 0 ⟨b0, b1, b2, b3⟩).length = width := by simp [hbuf]
        by_cases h3 : b1 ≠ 2 ∨ b2 &&& 128 ≠ 0
        · rw [if_pos h3]
          exact hold _ _ 1 (width - 1) hl (by omega)
        · rw [if_neg h3]
          by_cases h4 : (b2 <<< 8) ||| b3 ≠ width
          · rw [if_pos h4]
            refine ⟨by simp, by simp, ?_⟩
            intro o r e; simp at e
          · rw [if_neg h4]
            exact rle_read_components_safe width 4 0 rest _ hl

theorem generate_rows_safe : ∀ (n y : Nat) (inp : List Nat) (reg : RadRegion),
    reg.valid.left = 0 → (∀ row ∈ reg.rows, row.length = reg.Xsize) →
    y + n ≤ reg.rows.length →
    rad2vips_generate_rows n y inp reg ≠ .error .oob ∧
    rad2vips_generate_rows n y inp reg ≠ .error .fuel ∧
    (∀ out rest, rad2vips_generate_rows n y inp reg = .ok (out, rest) →
      out.valid = reg.valid ∧ out.Xsize = reg.Xsize ∧ out.rows.length = reg.rows.length ∧
      (∀ row ∈ out.rows, row.length = reg.Xsize) ∧
      (∀ k, k < y ∨ y + n ≤ k → out.rows[k]? = reg.rows[k]?))
  | 0, y, inp, reg, _, hrows, _ => by
    simp only [rad2vips_generate_rows]
    refine ⟨by simp, by simp, ?_⟩
    intro out rest e
    simp only [Except.ok.injEq, Prod.mk.injEq] at e
    obtain ⟨e1, _⟩ := e
    subst e1
    exact ⟨rfl, rfl, rfl, hrows, fun _ _ => rfl⟩
  | n + 1, y, inp, reg, hleft, hrows, hy => by
    have hlt : y < reg.rows.length := by omega
    have hview : region_scanline reg y = reg.rows[y] := by
      simp [region_scanline, hleft, List.getD_eq_getElem?_getD, List.getElem?_eq_getElem hlt]
    have hlen : (region_scanline reg y).length = reg.Xsize := by
      rw [hview]; exact hrows _ (List.getElem_mem _)
    have hs := scanline_read_safe inp (region_scanline reg y) reg.Xsize hlen
    unfold rad2vips_generate_rows
    cases hr : scanline_read inp (region_scanline reg y) reg.Xsize with
    | error x =>
      simp only []
      rw [hr] at hs
      refine ⟨?_, ?_, ?_⟩
      · intro h
        simp only [Except.error.injEq] at h
        exact hs.1 (by rw [h])
      · intro h
        simp only [Except.error.injEq] at h
        exact hs.2.1 (by rw [h])
      · intro o r e; simp at e
    | ok v =>
      obtain ⟨buf, rest⟩ := v
      simp only [hleft, if_true]
      have hb : buf.length = reg.Xsize := hs.2.2 buf rest hr
      have hrows2 : ∀ row ∈ (reg.rows.set y buf), row.length = reg.Xsize := by
        intro row hrow
        rcases List.mem_or_eq_of_mem_set hrow with h | h
        · exact hrows row h
        · rw [h]; exact hb
      have ih := generate_rows_safe n (y + 1) rest { reg with rows := reg.rows.set y buf }
        hleft hrows2 (by simp; omega)
      refine ⟨ih.1, ih.2.1, ?_⟩
      intro out rest2 e
      obtain ⟨a1, a2, a3, a4, a5⟩ := ih.2.2 out rest2 e
      refine ⟨a1, a2, by simpa using a3, a4, ?_⟩
      intro k hk
      rw [a5 k (by omega)]
      simp only [List.getElem?_set]
      have : ¬ y = k := by omega
      simp [this]

/-! ## Determinism -/

theorem XYZ2Lab_line_loop_apply (M : LabFloat) (tbl : Nat → M.F) (X0 Y0 Z0 : M.D)
    (p q : Nat → M.F) : ∀ (n k : Nat),
    XYZ2Lab_line_loop M tbl X0 Y0 Z0 p n q k =
      if k < 3 * n then
        (let r := vips_col_XYZ2Lab_helper M tbl X0 Y0 Z0 (p (3 * (k / 3)))
          (p (3 * (k / 3) + 1)) (p (3 * (k / 3) + 2))
         if k % 3 = 0 then r.1 else if k % 3 = 1 then r.2.1 else r.2.2)
      else q k
  | 0, k => by simp [XYZ2Lab_line_loop]
  | n + 1, k => by
    have ih := XYZ2Lab_line_loop_apply M tbl X0 Y0 Z0 p q n k
    simp only [XYZ2Lab_line_loop, Function.update_apply]
    by_cases h2 : k = 3 * n + 2
    · subst h2
      have d : (3 * n + 2) / 3 = n := by omega
      have m : (3 * n + 2) % 3 = 2 := by omega
      have hk : 3 * n + 2 < 3 * (n + 1) := by omega
      simp [d, m, hk]
    · by_cases h1 : k = 3 * n + 1
      · subst h1
        have d : (3 * n + 1) / 3 = n := by omega
        have m : (3 * n + 1) % 3 = 1 := by omega
        have hk : 3 * n + 1 < 3 * (n + 1) := by omega
        simp [d, m, hk]
      · by_cases h0 : k = 3 * n
        · subst h0
          have d : (3 * n) / 3 = n := by omega
          have m : (3 * n) % 3 = 0 := by omega
          have hk : 3 * n < 3 * (n + 1) := by omega
          simp [d, m, hk]
        · rw [if_neg h2, if_neg h1, if_neg h0, ih]
          by_cases hk : k < 3 * n
          · have hk' : k < 3 * (n + 1) := by omega
            rw [if_pos hk, if_pos hk']
          · have hk' : ¬ k < 3 * (n + 1) := by omega
            rw [if_neg hk, if_neg hk']

theorem VIPS_ONCE_idem (M : LabFloat) (s : XYZ2LabStatics M) :
    VIPS_ONCE_table_init M (VIPS_ONCE_table_init M s) = VIPS_ONCE_table_init M s := by
  by_cases h : s.table_init_once = true
  · simp only [VIPS_ONCE_table_init, h, if_true]
  · have h' : s.table_init_once = false := by simpa using h
    simp [VIPS_ONCE_table_init, h']

theorem XYZ2Lab_after_cases (M : LabFloat) (calls : List (XYZ2LabCall M)) :
    XYZ2Lab_after M calls = XYZ2LabStatics.start M ∨
    XYZ2Lab_after M calls = VIPS_ONCE_table_init M (XYZ2LabStatics.start M) := by
  unfold XYZ2Lab_after
  induction calls using List.reverseRecOn with
  | nil => left; rfl
  | append_singleton cs c ih =>
    right
    rw [List.foldl_append]
    show (vips_XYZ2Lab_line M
      (List.foldl (fun s c => (vips_XYZ2Lab_line M s c).1) (XYZ2LabStatics.start M) cs) c).1 = _
    show VIPS_ONCE_table_init M _ = _
    rcases ih with ih | ih <;> rw [ih]
    exact VIPS_ONCE_idem M _

theorem VIPS_ONCE_after (M : LabFloat) (calls : List (XYZ2LabCall M)) :
    VIPS_ONCE_table_init M (XYZ2Lab_after M calls)
      = VIPS_ONCE_table_init M (XYZ2LabStatics.start M) := by
  rcases XYZ2Lab_after_cases M calls with h | h <;> rw [h]
  exact VIPS_ONCE_idem M _

/-- C17. Determinism of the three kernels.

* `vips_subtract_buffer`: the elements written do not depend on what the
  output memory held, and a second run on the output memory of the first
  leaves it as it is.
* `vips_XYZ2Lab_line`: after any sequence of earlier calls (with any
  arguments) a call gives the output that it gives as the first call of the
  program, which builds the cube-root table; a second run on the output memory
  of the first leaves it as it is.
* `vips_quadratic_gen`: two runs with the same parameters give the same rows
  of pels (the function has no state). -/
theorem runs_deterministic :
    (∀ (M : FloatOps) (bands width : Nat) (fmt : VipsBandFormat)
      (out out2 : Nat → OutT M fmt) (in0 in1 : Nat → InT M fmt),
      vips_subtract_buffer M bands width fmt
          (vips_subtract_buffer M bands width fmt out in0 in1) in0 in1
        = vips_subtract_buffer M bands width fmt out in0 in1 ∧
      ∀ x, x < subtract_sz fmt bands width →
        vips_subtract_buffer M bands width fmt out in0 in1 x
          = vips_subtract_buffer M bands width fmt out2 in0 in1 x) ∧
    (∀ (L : LabFloat) (calls : List (XYZ2LabCall L)) (c : XYZ2LabCall L),
      (vips_XYZ2Lab_line L (XYZ2Lab_after L calls) c).2
        = (vips_XYZ2Lab_line L (XYZ2LabStatics.start L) c).2 ∧
      (vips_XYZ2Lab_line L (vips_XYZ2Lab_line L (XYZ2Lab_after L calls) c).1
          { c with out := (vips_XYZ2Lab_line L (XYZ2Lab_after L calls) c).2 }).2
        = (vips_XYZ2Lab_line L (XYZ2Lab_after L calls) c).2) ∧
    (∀ (region_image_fails : Bool) (vec : List ℚ) (order clip_width clip_height : Int)
      (valid : VipsRect) (r1 r2 : Except GenFault (List (List Pel))),
      vips_quadratic_gen region_image_fails vec order clip_width clip_height valid = r1 →
      vips_quadratic_gen region_image_fails vec order clip_width clip_height valid = r2 →
      r1 = r2) := by
  refine ⟨?_, ?_, ?_⟩
  · intro M bands width fmt out out2 in0 in1
    obtain ⟨op, h⟩ := subtract_buffer_pointwise M bands fmt
    constructor
    · funext x
      simp only [h]
      split_ifs <;> rfl
    · intro x hx
      simp only [h, if_pos hx]
  · intro L calls c
    have h1 : (vips_XYZ2Lab_line L (XYZ2Lab_after L calls) c).2
        = (vips_XYZ2Lab_line L (XYZ2LabStatics.start L) c).2 := by
      simp only [vips_XYZ2Lab_line, VIPS_ONCE_after]
    refine ⟨h1, ?_⟩
    funext k
    simp only [vips_XYZ2Lab_line, VIPS_ONCE_idem, XYZ2Lab_line_loop_apply]
    split_ifs <;> rfl
  · intro f vec order cw ch valid r1 r2 e1 e2
    rw [← e1, ← e2]

/-- An instance of C17: the first output element of a subtract run does not
depend on the output memory before the run. -/
theorem runs_deterministic_witness :
    vips_subtract_buffer FloatOps.exact 1 1 UCHAR (fun _ => 0) (fun _ => 200) (fun _ => 50) 0
      = vips_subtract_buffer FloatOps.exact 1 1 UCHAR (fun _ => 7) (fun _ => 200)
          (fun _ => 50) 0 :=
  (runs_deterministic.1 FloatOps.exact 1 1 UCHAR (fun _ => 0) (fun _ => 7) (fun _ => 200)
    (fun _ => 50)).2 0 (by decide)

/-! ## foreign/radiance.c: order of requests in the sequential pipeline -/

theorem seq_request_ok (Xsize Ysize keep : Nat) (s : SeqBuffer) (top height : Nat)
    (rows : List (List COLR)) (s1 : SeqBuffer)
    (h : seq_request Xsize Ysize keep s top height = .ok (rows, s1)) :
    top + height ≤ Ysize ∧ s.y_pos - s.window.length ≤ top ∧
    ∃ reg rest, rad2vips_generate s.inp
        ⟨⟨0, s.y_pos, Xsize, (top + height - s.y_pos : Nat)⟩, Xsize,
          List.replicate (top + height - s.y_pos) (List.replicate Xsize ⟨0, 0, 0, 0⟩)⟩
        = .ok (reg, rest) ∧
      reg.rows.length = top + height - s.y_pos ∧
      rows = ((s.window ++ reg.rows).drop (top - (s.y_pos - s.window.length))).take height ∧
      s1 = { y_pos := s.y_pos + (top + height - s.y_pos),
             window := (s.window ++ reg.rows).drop ((s.window ++ reg.rows).length - keep),
             inp := rest } := by
  unfold seq_request at h
  by_cases h1 : top + height > Ysize
  · simp [h1] at h
  rw [if_neg h1] at h
  by_cases h2 : top < s.y_pos - s.window.length
  · simp [h2] at h
  rw [if_neg h2] at h
  refine ⟨by omega, by omega, ?_⟩
  cases hg : rad2vips_generate s.inp
      ⟨⟨0, s.y_pos, Xsize, (top + height - s.y_pos : Nat)⟩, Xsize,
        List.replicate (top + height - s.y_pos) (List.replicate Xsize ⟨0, 0, 0, 0⟩)⟩ with
  | error e => simp [hg] at h
  | ok v =>
    obtain ⟨reg, rest⟩ := v
    simp only [hg, Except.ok.injEq, Prod.mk.injEq] at h
    have hf := generate_rows_safe (top + height - s.y_pos) 0 s.inp
      ⟨⟨0, s.y_pos, Xsize, (top + height - s.y_pos : Nat)⟩, Xsize,
        List.replicate (top + height - s.y_pos) (List.replicate Xsize ⟨0, 0, 0, 0⟩)⟩
      rfl (by
        intro row hr
        rw [List.mem_replicate] at hr
        rw [hr.2]; simp) (by simp)
    have hg2 : rad2vips_generate_rows (top + height - s.y_pos) 0 s.inp
        ⟨⟨0, s.y_pos, Xsize, (top + height - s.y_pos : Nat)⟩, Xsize,
          List.replicate (top + height - s.y_pos) (List.replicate Xsize ⟨0, 0, 0, 0⟩)⟩
        = .ok (reg, rest) := by
      rw [← hg]; unfold rad2vips_generate; simp
    have hl := (hf.2.2 reg rest hg2).2.2.1
    simp only [List.length_replicate] at hl
    exact ⟨reg, rest, rfl, hl, h.1.symm, h.2.symm⟩

/-- C19. The sequential Radiance load pipeline, the scanline generator behind
a sequential stage that keeps at most `keep` trailing rows.

* Requests in increasing order succeed: the first request, and every request
  that starts at or after the end of the request served before it, is never a
  sequential-order violation; inside the image it returns the `height` rows
  asked for whenever the scanlines to be generated decode, and otherwise fails
  with the error of the generator.
* A request for a row that lies before the buffered window, which is the case
  for every row more than `keep` rows before the cursor, fails with a
  sequential-order violation and returns no pixels.
* The window stays bounded. -/
theorem sequential_order (Xsize Ysize keep : Nat) :
    (∀ inp, SeqBuffer.inv keep (SeqBuffer.start inp)) ∧
    (∀ s top height rows s1, SeqBuffer.inv keep s →
      seq_request Xsize Ysize keep s top height = .ok (rows, s1) →
      SeqBuffer.inv keep s1 ∧ rows.length = height) ∧
    (∀ inp top height e,
      seq_request Xsize Ysize keep (SeqBuffer.start inp) top height = .error e →
      e = .out_of_range ∧ top + height > Ysize ∨ ∃ g, e = .generate g) ∧
    (∀ s top height rows s1 top2 height2 e, SeqBuffer.inv keep s →
      seq_request Xsize Ysize keep s top height = .ok (rows, s1) →
      top + height ≤ top2 →
      seq_request Xsize Ysize keep s1 top2 height2 = .error e →
      e = .out_of_range ∧ top2 + height2 > Ysize ∨ ∃ g, e = .generate g) ∧
    (∀ s top height reg rest, SeqBuffer.inv keep s →
      top + height ≤ Ysize → s.y_pos - s.window.length ≤ top →
      rad2vips_generate s.inp
        ⟨⟨0, s.y_pos, Xsize, (top + height - s.y_pos : Nat)⟩, Xsize,
          List.replicate (top + height - s.y_pos) (List.replicate Xsize ⟨0, 0, 0, 0⟩)⟩
        = .ok (reg, rest) →
      ∃ rows s1, seq_request Xsize Ysize keep s top height = .ok (rows, s1)) ∧
    (∀ s t h, SeqBuffer.inv keep s → t + h ≤ Ysize → t + keep < s.y_pos →
      seq_request Xsize Ysize keep s t h = .error .order_violation) := by
  have errs : ∀ (s : SeqBuffer) (top height : Nat) (e : SeqErr),
      s.y_pos - s.window.length ≤ top →
      seq_request Xsize Ysize keep s top height = .error e →
      e = .out_of_range ∧ top + height > Ysize ∨ ∃ g, e = .generate g := by
    intro s top height e hw h
    unfold seq_request at h
    by_cases h1 : top + height > Ysize
    · rw [if_pos h1] at h
      simp only [Except.error.injEq] at h
      exact Or.inl ⟨h.symm, h1⟩
    rw [if_neg h1] at h
    have h2 : ¬ top < s.y_pos - s.window.length := by omega
    rw [if_neg h2] at h
    cases hg : rad2vips_generate s.inp
        ⟨⟨0, s.y_pos, Xsize, (top + height - s.y_pos : Nat)⟩, Xsize,
          List.replicate (top + height - s.y_pos) (List.replicate Xsize ⟨0, 0, 0, 0⟩)⟩ with
    | error g =>
      simp only [hg, Except.error.injEq] at h
      exact Or.inr ⟨g, h.symm⟩
    | ok v => simp [hg] at h
  refine ⟨?_, ?_, ?_, ?_, ?_, ?_⟩
  · intro inp
    simp [SeqBuffer.inv, SeqBuffer.start]
  · intro s top height rows s1 hinv h
    obtain ⟨b1, b2, reg, rest, hg, hl, hrows, hs1⟩ :=
      seq_request_ok Xsize Ysize keep s top height rows s1 h
    obtain ⟨i1, i2⟩ := hinv
    subst hs1
    subst hrows
    refine ⟨⟨?_, ?_⟩, ?_⟩
    · simp only [List.length_drop, List.length_append]; omega
    · simp only [List.length_drop, List.length_append]; omega
    · simp only [List.length_take, List.length_drop, List.length_append]; omega
  · intro inp top height e h
    exact errs _ top height e (by simp [SeqBuffer.start]) h
  · intro s top height rows s1 top2 height2 e hinv h hinc h2
    obtain ⟨b1, b2, reg, rest, hg, hl, hrows, hs1⟩ :=
      seq_request_ok Xsize Ysize keep s top height rows s1 h
    obtain ⟨i1, i2⟩ := hinv
    apply errs s1 top2 height2 e _ h2
    subst hs1
    simp only [List.length_drop, List.length_append]
    omega
  · intro s top height reg rest hinv hb hw hg
    unfold seq_request
    have h1 : ¬ top + height > Ysize := by omega
    have h2 : ¬ top < s.y_pos - s.window.length := by omega
    rw [if_neg h1, if_neg h2]
    simp only [hg]
    exact ⟨_, _, rfl⟩
  · intro s t h hinv hb hk
    obtain ⟨i1, i2⟩ := hinv
    unfold seq_request
    have h1 : ¬ t + h > Ysize := by omega
    have h2 : t < s.y_pos - s.window.length := by omega
    rw [if_neg h1, if_pos h2]

/-- An instance of C19: an image 2 by 3 behind a stage that keeps one row.
After rows 0 and 1 were served the window holds row 1; a request for row 0
is a sequential-order violation. -/
theorem sequential_order_witness :
    seq_request 2 3 1 (SeqBuffer.start
        [5, 5, 5, 5, 6, 6, 6, 6, 7, 7, 7, 7, 8, 8, 8, 8, 9, 9, 9, 9, 3, 3, 3, 3]) 0 2
      = .ok ([[⟨5, 5, 5, 5⟩, ⟨6, 6, 6, 6⟩], [⟨7, 7, 7, 7⟩, ⟨8, 8, 8, 8⟩]],
          ⟨2, [[⟨7, 7, 7, 7⟩, ⟨8, 8, 8, 8⟩]], [9, 9, 9, 9, 3, 3, 3, 3]⟩) ∧
    seq_request 2 3 1 ⟨2, [[⟨7, 7, 7, 7⟩, ⟨8, 8, 8, 8⟩]], [9, 9, 9, 9, 3, 3, 3, 3]⟩ 0 1
      = .error .order_violation :=
  ⟨by decide,
   (sequential_order 2 3 1).2.2.2.2.2 ⟨2, [[⟨7, 7, 7, 7⟩, ⟨8, 8, 8, 8⟩]],
     [9, 9, 9, 9, 3, 3, 3, 3]⟩ 0 1 (by decide) (by decide) (by decide)⟩

/-! ## arithmetic/subtract.c: footprint -/

/-- C27. `vips_subtract_buffer` is a point operation with a bounded footprint:
with `sz = width * bands * (2 if the format is complex, else 1)`,
* no output element with index `>= sz` is modified;
* every output element `x < sz` is written, with a value that depends only on
  `left[x]` and `right[x]`: two runs whose inputs agree at `x` give the same
  element `x`, whatever the other input elements and the previous content of
  the output memory are. -/
theorem subtract_buffer_footprint (M : FloatOps) (bands width : Nat) (fmt : VipsBandFormat) :
    subtract_sz fmt bands width
      = width * bands * (if fmt = COMPLEX ∨ fmt = DPCOMPLEX then 2 else 1) ∧
    (∀ (out : Nat → OutT M fmt) (in0 in1 : Nat → InT M fmt) (x : Nat),
      subtract_sz fmt bands width ≤ x →
      vips_subtract_buffer M bands width fmt out in0 in1 x = out x) ∧
    (∀ (out out2 : Nat → OutT M fmt) (in0 in1 left right : Nat → InT M fmt) (x : Nat),
      x < subtract_sz fmt bands width → in0 x = left x → in1 x = right x →
      vips_subtract_buffer M bands width fmt out in0 in1 x
        = vips_subtract_buffer M bands width fmt out2 left right x) := by
  obtain ⟨op, h⟩ := subtract_buffer_pointwise M bands fmt
  refine ⟨?_, ?_, ?_⟩
  · cases fmt <;> simp [subtract_sz, vips_band_format_iscomplex]
  · intro out in0 in1 x hx
    rw [h, if_neg (by omega)]
  · intro out out2 in0 in1 left right x hx h0 h1
    rw [h, h, if_pos hx, if_pos hx, h0, h1]

/-- An instance of C27: one uchar pixel; element 1 is left as it was. -/
theorem subtract_buffer_footprint_witness :
    vips_subtract_buffer FloatOps.exact 1 1 UCHAR (fun _ => 7) (fun _ => 200) (fun _ => 50) 1
      = (7 : Int) :=
  (subtract_buffer_footprint FloatOps.exact 1 1 UCHAR).2.1 (fun _ => 7) (fun _ => 200)
    (fun _ => 50) 1 (by decide)

/-! ## resample/quadratic.c: coefficient reads -/

theorem vec_read_lt (vec : List ℚ) (i : Nat) (v : ℚ) (h : vec_read vec i = .ok v) :
    i < vec.length := by
  unfold vec_read at h
  by_contra hn
  rw [List.getElem?_eq_none (by omega)] at h
  simp at h

theorem quadratic_case0_reads (vec : List ℚ) (xlow yo : Int) (s : Step)
    (h : quadratic_case0 vec xlow yo = .ok s) : 1 < vec.length := by
  simp only [quadratic_case0, bind, Except.bind, pure, Except.pure] at h
  cases h0 : vec_read vec 0 with
  | error e => simp [h0] at h
  | ok v0 =>
    cases h1 : vec_read vec 1 with
    | error e => simp [h0, h1] at h
    | ok v1 => exact vec_read_lt vec 1 v1 h1

theorem quadratic_case1_reads (vec : List ℚ) (xlow yo : Int) (s t : Step)
    (h : quadratic_case1 vec xlow yo s = .ok t) : 5 < vec.length := by
  simp only [quadratic_case1, bind, Except.bind, pure, Except.pure] at h
  cases h4 : vec_read vec 4 with
  | error e => simp [h4] at h
  | ok v4 =>
    cases h2 : vec_read vec 2 with
    | error e => simp [h4, h2] at h
    | ok v2 =>
      cases h5 : vec_read vec 5 with
      | error e => simp [h4, h2, h5] at h
      | ok v5 => exact vec_read_lt vec 5 v5 h5

theorem quadratic_case2_reads (vec : List ℚ) (xlow yo : Int) (s t : Step)
    (h : quadratic_case2 vec xlow yo s = .ok t) : 7 < vec.length := by
  simp only [quadratic_case2, bind, Except.bind, pure, Except.pure] at h
  cases h6 : vec_read vec 6 with
  | error e => simp [h6] at h
  | ok v6 =>
    cases h7 : vec_read vec 7 with
    | error e => simp [h6, h7] at h
    | ok v7 => exact vec_read_lt vec 7 v7 h7

theorem quadratic_case3_reads (vec : List ℚ) (xlow yo : Int) (s t : Step)
    (h : quadratic_case3 vec xlow yo s = .ok t) : 11 < vec.length := by
  simp only [quadratic_case3, bind, Except.bind, pure, Except.pure] at h
  cases h10 : vec_read vec 10 with
  | error e => simp [h10] at h
  | ok v10 =>
    cases h8 : vec_read vec 8 with
    | error e => simp [h10, h8] at h
    | ok v8 =>
      cases h11 : vec_read vec 11 with
      | error e => simp [h10, h8, h11] at h
      | ok v11 => exact vec_read_lt vec 11 v11 h11

/-- What the row start reads: when it succeeds for the order set for a matrix
of height `h`, the array holds at least `2 * h` coefficients. -/
theorem quadratic_row_start_reads (vec : List ℚ) (h order xlow yo : Int) (s : Step)
    (hord : quadratic_order_of_height h = some order)
    (hs : quadratic_row_start vec order xlow yo = .ok s) : 2 * h ≤ vec.length := by
  simp only [quadratic_row_start, bind, Except.bind, pure, Except.pure] at hs
  cases h0 : quadratic_case0 vec xlow yo with
  | error e => simp [h0] at hs
  | ok s0 =>
    have r0 := quadratic_case0_reads vec xlow yo s0 h0
    simp only [h0] at hs
    unfold quadratic_order_of_height at hord
    by_cases c1 : h = 1
    · omega
    by_cases c3 : h = 3
    · simp only [c3] at hord
      have : order = 1 := by simpa using hord.symm
      subst this
      simp only [show ¬ ((1 : Int) = 3) by decide, show ¬ ((1 : Int) = 2) by decide, if_false,
        if_true] at hs
      have := quadratic_case1_reads vec xlow yo s0 s hs
      omega
    by_cases c4 : h = 4
    · simp only [c4] at hord
      have : order = 2 := by simpa using hord.symm
      subst this
      simp only [show ¬ ((2 : Int) = 3) by decide, if_false, if_true] at hs
      cases h2 : quadratic_case2 vec xlow yo s0 with
      | error e => simp [h2] at hs
      | ok s2 =>
        have := quadratic_case2_reads vec xlow yo s0 s2 h2
        omega
    by_cases c6 : h = 6
    · simp only [c6] at hord
      have : order = 3 := by simpa using hord.symm
      subst this
      simp only [if_true] at hs
      cases h3 : quadratic_case3 vec xlow yo s0 with
      | error e => simp [h3] at hs
      | ok s3 =>
        have := quadratic_case3_reads vec xlow yo s0 s3 h3
        omega
    · simp [c1, c3, c4, c6] at hord

/-- With the coefficients of its order in place the row start succeeds, and
the values it sets are these. -/
theorem quadratic_row_start_ok (vec : List ℚ) (order xlow yo : Int)
    (ho : (order = 0 ∧ 2 ≤ vec.length) ∨ (order = 1 ∧ 6 ≤ vec.length) ∨
      (order = 2 ∧ 8 ≤ vec.length) ∨ (order = 3 ∧ 12 ≤ vec.length)) :
    ∃ s, quadratic_row_start vec order xlow yo = .ok s := by
  rcases ho with ⟨h, hv⟩ | ⟨h, hv⟩ | ⟨h, hv⟩ | ⟨h, hv⟩ <;> subst h
  · have r0 := vec_read_ok vec 0 (by omega)
    have r1 := vec_read_ok vec 1 (by omega)
    simp [quadratic_row_start, quadratic_case0, r0, r1, bind, Except.bind, pure, Except.pure]
  · have r0 := vec_read_ok vec 0 (by omega)
    have r1 := vec_read_ok vec 1 (by omega)
    have r2 := vec_read_ok vec 2 (by omega)
    have r3 := vec_read_ok vec 3 (by omega)
    have r4 := vec_read_ok vec 4 (by omega)
    have r5 := vec_read_ok vec 5 (by omega)
    simp [quadratic_row_start, quadratic_case0, quadratic_case1, r0, r1, r2, r3, r4, r5,
      bind, Except.bind, pure, Except.pure]
  · have r0 := vec_read_ok vec 0 (by omega)
    have r1 := vec_read_ok vec 1 (by omega)
    have r2 := vec_read_ok vec 2 (by omega)
    have r3 := vec_read_ok vec 3 (by omega)
    have r4 := vec_read_ok vec 4 (by omega)
    have r5 := vec_read_ok vec 5 (by omega)
    have r6 := vec_read_ok vec 6 (by omega)
    have r7 := vec_read_ok vec 7 (by omega)
    simp [quadratic_row_start, quadratic_case0, quadratic_case1, quadratic_case2, r0, r1,
      r2, r3, r4, r5, r6, r7, bind, Except.bind, pure, Except.pure]
  · have r0 := vec_read_ok vec 0 (by omega)
    have r1 := vec_read_ok vec 1 (by omega)
    have r2 := vec_read_ok vec 2 (by omega)
    have r3 := vec_read_ok vec 3 (by omega)
    have r4 := vec_read_ok vec 4 (by omega)
    have r5 := vec_read_ok vec 5 (by omega)
    have r6 := vec_read_ok vec 6 (by omega)
    have r7 := vec_read_ok vec 7 (by omega)
    have r8 := vec_read_ok vec 8 (by omega)
    have r9 := vec_read_ok vec 9 (by omega)
    have r10 := vec_read_ok vec 10 (by omega)
    have r11 := vec_read_ok vec 11 (by omega)
    simp [quadratic_row_start, quadratic_case0, quadratic_case1, quadratic_case2,
      quadratic_case3, r0, r1, r2, r3, r4, r5, r6, r7, r8, r9, r10, r11, bind, Except.bind,
      pure, Except.pure]

theorem quadratic_rows_ok (vec : List ℚ) (order cw ch xlow xhigh : Int)
    (ho : (order = 0 ∧ 2 ≤ vec.length) ∨ (order = 1 ∧ 6 ≤ vec.length) ∨
      (order = 2 ∧ 8 ≤ vec.length) ∨ (order = 3 ∧ 12 ≤ vec.length)) :
    ∀ (n : Nat) (yo : Int), ∃ rows, quadratic_rows vec order cw ch xlow xhigh n yo = .ok rows := by
  intro n
  induction n with
  | zero => intro yo; exact ⟨[], rfl⟩
  | succ m ih =>
    intro yo
    obtain ⟨s, hs⟩ := quadratic_row_start_ok vec order xlow yo ho
    obtain ⟨rest, hr⟩ := ih (yo + 1)
    simp only [quadratic_rows, bind, Except.bind, pure, Except.pure, hs, hr]
    exact ⟨_, rfl⟩

/-- C24. Coefficient reads are in bounds. For a matrix accepted by
`vips_quadratic_build`, of width 2 and height `h` in {1, 3, 4, 6}, with the
order 0, 1, 2, 3 set for it:
* with the `2 * h` coefficients of the matrix in `vec`, no read of `vec` by
  `vips_quadratic_gen` is out of bounds, for every rectangle and input size,
  and the rows are produced;
* the row start reads up to index `2 * h - 1` (1, 5, 7, 11): it succeeds only
  on an array of at least `2 * h` coefficients. -/
theorem quadratic_coefficient_reads (vec : List ℚ) (h order : Int)
    (hord : quadratic_order_of_height h = some order) :
    ((h = 1 ∧ order = 0) ∨ (h = 3 ∧ order = 1) ∨ (h = 4 ∧ order = 2) ∨ (h = 6 ∧ order = 3)) ∧
    ((vec.length : Int) = 2 * h →
      ∀ (region_image_fails : Bool) (clip_width clip_height : Int) (valid : VipsRect),
        vips_quadratic_gen region_image_fails vec order clip_width clip_height valid
          ≠ .error .oob ∧
        (region_image_fails = false →
          ∃ rows, vips_quadratic_gen region_image_fails vec order clip_width clip_height valid
            = .ok rows)) ∧
    (∀ (xlow yo : Int) (s : Step), quadratic_row_start vec order xlow yo = .ok s →
      2 * h ≤ vec.length) := by
  have hcases : (h = 1 ∧ order = 0) ∨ (h = 3 ∧ order = 1) ∨ (h = 4 ∧ order = 2) ∨
      (h = 6 ∧ order = 3) := by
    unfold quadratic_order_of_height at hord
    by_cases c1 : h = 1
    · left; simp only [c1, if_true, Option.some.injEq] at hord; exact ⟨c1, hord.symm⟩
    by_cases c3 : h = 3
    · right; left
      simp only [c3, show ¬ ((3 : Int) = 1) by decide, if_true, if_false,
        Option.some.injEq] at hord
      exact ⟨c3, hord.symm⟩
    by_cases c4 : h = 4
    · right; right; left
      simp only [c4, show ¬ ((4 : Int) = 1) by decide, show ¬ ((4 : Int) = 3) by decide,
        if_true, if_false, Option.some.injEq] at hord
      exact ⟨c4, hord.symm⟩
    by_cases c6 : h = 6
    · right; right; right
      simp only [c6, show ¬ ((6 : Int) = 1) by decide, show ¬ ((6 : Int) = 3) by decide,
        show ¬ ((6 : Int) = 4) by decide, if_true, if_false, Option.some.injEq] at hord
      exact ⟨c6, hord.symm⟩
    · simp [c1, c3, c4, c6] at hord
  refine ⟨hcases, ?_, ?_⟩
  · intro hlen rif cw ch valid
    have ho : (order = 0 ∧ 2 ≤ vec.length) ∨ (order = 1 ∧ 6 ≤ vec.length) ∨
        (order = 2 ∧ 8 ≤ vec.length) ∨ (order = 3 ∧ 12 ≤ vec.length) := by
      rcases hcases with ⟨a, b⟩ | ⟨a, b⟩ | ⟨a, b⟩ | ⟨a, b⟩
      · left; exact ⟨b, by omega⟩
      · right; left; exact ⟨b, by omega⟩
      · right; right; left; exact ⟨b, by omega⟩
      · right; right; right; exact ⟨b, by omega⟩
    obtain ⟨rows, hr⟩ := quadratic_rows_ok vec order cw ch valid.left (VIPS_RECT_RIGHT valid) ho
      (VIPS_RECT_BOTTOM valid - valid.top).toNat valid.top
    unfold vips_quadratic_gen
    cases rif with
    | true => simp
    | false =>
      simp only [Bool.false_eq_true, if_false, hr]
      exact ⟨by simp, fun _ => ⟨rows, rfl⟩⟩
  · intro xlow yo s hs
    exact quadratic_row_start_reads vec h order xlow yo s hord hs

/-- An instance of C24: the 2 x 1 matrix (0 0), order 0. -/
theorem quadratic_coefficient_reads_witness :
    vips_quadratic_gen false [0, 0] 0 5 5 ⟨0, 0, 1, 1⟩ ≠ .error .oob :=
  ((quadratic_coefficient_reads [0, 0] 1 0 (by decide)).2.1 (by decide) false 5 5
    ⟨0, 0, 1, 1⟩).1

/-! ## resample/quadratic.c: clipping -/

theorem trunc_between (q : ℚ) (h1 : -1 < q) (h2 : q < 1) : trunc q = 0 := by
  unfold trunc
  have hd : (0 : Int) < q.den := by exact_mod_cast q.den_pos
  have hq : q = (q.num : ℚ) / (q.den : ℚ) := (Rat.num_div_den q).symm
  have hdq : (0 : ℚ) < (q.den : ℚ) := by exact_mod_cast q.den_pos
  have a1 : -(q.den : ℚ) < (q.num : ℚ) := by
    rw [hq, lt_div_iff₀ hdq] at h1
    linarith
  have a2 : (q.num : ℚ) < (q.den : ℚ) := by
    rw [hq, div_lt_iff₀ hdq] at h2
    linarith
  have b1 : -(q.den : Int) < q.num := by exact_mod_cast a1
  have b2 : q.num < (q.den : Int) := by exact_mod_cast a2
  rcases le_or_lt 0 q.num with hn | hn
  · exact Int.tdiv_eq_zero_of_lt hn b2
  · have : (-q.num).tdiv (q.den : Int) = 0 := Int.tdiv_eq_zero_of_lt (by omega) (by omega)
    rw [Int.neg_tdiv] at this
    omega

theorem quadratic_pel_zero_iff (cw ch : Int) (s : Step) :
    quadratic_pel cw ch s = Pel.zero ↔
      (trunc s.fxi < 0 ∨ trunc s.fyi < 0 ∨ trunc s.fxi ≥ cw ∨ trunc s.fyi ≥ ch) := by
  by_cases h : trunc s.fxi < 0 ∨ trunc s.fyi < 0 ∨ trunc s.fxi ≥ cw ∨ trunc s.fyi ≥ ch
  · have e : quadratic_pel cw ch s = Pel.zero := by
      unfold quadratic_pel
      simp only []
      rw [if_pos h]
    exact ⟨fun _ => h, fun _ => e⟩
  · have e : quadratic_pel cw ch s = Pel.interpolate s.fxi s.fyi := by
      unfold quadratic_pel
      simp only []
      rw [if_neg h]
    rw [e]
    exact ⟨fun e => Pel.noConfusion e, fun e => absurd e h⟩

theorem quadratic_pel_interpolate (cw ch : Int) (s : Step)
    (h : ¬ (trunc s.fxi < 0 ∨ trunc s.fyi < 0 ∨ trunc s.fxi ≥ cw ∨ trunc s.fyi ≥ ch)) :
    quadratic_pel cw ch s = Pel.interpolate s.fxi s.fyi := by
  unfold quadratic_pel
  simp only []
  rw [if_neg h]

/-- Every pel of the rows of `vips_quadratic_gen` is the outcome of the
clipping test at the position that the stepping has reached: in row `r`,
column `k` it is `quadratic_pel` of the row start of row `top + r` advanced
`k` times. -/
theorem quadratic_gen_pel (rif : Bool) (vec : List ℚ) (order cw ch : Int) (valid : VipsRect)
    (rows : List (List Pel)) (h : vips_quadratic_gen rif vec order cw ch valid = .ok rows)
    (r k : Nat) (row : List Pel) (p : Pel) (hr : rows[r]? = some row) (hk : row[k]? = some p) :
    ∃ s0, quadratic_row_start vec order valid.left (valid.top + r) = .ok s0 ∧
      p = quadratic_pel cw ch ((quadratic_advance order)^[k] s0) := by
  unfold vips_quadratic_gen at h
  cases rif with
  | true => simp at h
  | false =>
    simp only [Bool.false_eq_true, if_false] at h
    obtain ⟨hl, hrow⟩ := quadratic_rows_getElem vec order cw ch valid.left
      (VIPS_RECT_RIGHT valid) _ valid.top rows h
    have hrl : r < rows.length := by
      by_contra hn
      rw [List.getElem?_eq_none (by omega)] at hr
      cases hr
    obtain ⟨s0, hs0, hrow'⟩ := hrow r (by omega)
    rw [hr, Option.some.injEq] at hrow'
    have hkl : k < row.length := by
      by_contra hn
      rw [List.getElem?_eq_none (by omega)] at hk
      cases hk
    rw [hrow', quadratic_row_length] at hkl
    have := quadratic_row_getElem order cw ch _ s0 k hkl
    rw [← hrow', hk, Option.some.injEq] at this
    exact ⟨s0, hs0, this⟩

/-! ## resample/quadratic.c: stepping and closed form -/

/-- The position reached by stepping is the closed form: at column `xlow + k`
of row `yo`, for orders 0, 1 and 2 and any left edge, and for order 3 when
the left edge is 0. -/
theorem quadratic_step_closed (vec : List ℚ) (order xlow yo : Int) (s : Step) (k : Nat)
    (ho : (order = 0 ∧ 2 ≤ vec.length) ∨ (order = 1 ∧ 6 ≤ vec.length) ∨
      (order = 2 ∧ 8 ≤ vec.length) ∨ (order = 3 ∧ 12 ≤ vec.length ∧ xlow = 0))
    (hs : quadratic_row_start vec order xlow yo = .ok s) :
    (((quadratic_advance order)^[k] s).fxi, ((quadratic_advance order)^[k] s).fyi)
      = quadratic_closed_form vec order ((xlow + k : Int) : ℚ) (yo : ℚ) := by
  rcases ho with ⟨h, hv⟩ | ⟨h, hv⟩ | ⟨h, hv⟩ | ⟨h, hv, hx⟩
  · subst h
    rw [quadratic_advance_iterate_low 0 (by decide)]
    have r0 := vec_read_ok vec 0 (by omega)
    have r1 := vec_read_ok vec 1 (by omega)
    simp only [quadratic_row_start, quadratic_case0, r0, r1, bind, Except.bind, pure,
      Except.pure] at hs
    norm_num at hs
    subst hs
    simp only [quadratic_closed_form, Prod.mk.injEq]
    constructor
    · norm_num; ring
    · norm_num
  · subst h
    rw [quadratic_advance_iterate_low 1 (by decide)]
    have r0 := vec_read_ok vec 0 (by omega)
    have r1 := vec_read_ok vec 1 (by omega)
    have r2 := vec_read_ok vec 2 (by omega)
    have r3 := vec_read_ok vec 3 (by omega)
    have r4 := vec_read_ok vec 4 (by omega)
    have r5 := vec_read_ok vec 5 (by omega)
    simp only [quadratic_row_start, quadratic_case0, quadratic_case1, r0, r1, r2, r3, r4, r5,
      bind, Except.bind, pure, Except.pure] at hs
    norm_num at hs
    subst hs
    simp only [quadratic_closed_form, Prod.mk.injEq]
    constructor <;> (norm_num; ring)
  · subst h
    rw [quadratic_advance_iterate_low 2 (by decide)]
    have r0 := vec_read_ok vec 0 (by omega)
    have r1 := vec_read_ok vec 1 (by omega)
    have r2 := vec_read_ok vec 2 (by omega)
    have r3 := vec_read_ok vec 3 (by omega)
    have r4 := vec_read_ok vec 4 (by omega)
    have r5 := vec_read_ok vec 5 (by omega)
    have r6 := vec_read_ok vec 6 (by omega)
    have r7 := vec_read_ok vec 7 (by omega)
    simp only [quadratic_row_start, quadratic_case0, quadratic_case1, quadratic_case2, r0, r1,
      r2, r3, r4, r5, r6, r7, bind, Except.bind, pure, Except.pure] at hs
    norm_num at hs
    subst hs
    simp only [quadratic_closed_form, Prod.mk.injEq]
    constructor <;> (norm_num; ring)
  · subst h
    subst hx
    rw [quadratic_advance_iterate_high 3 (by decide)]
    have r0 := vec_read_ok vec 0 (by omega)
    have r1 := vec_read_ok vec 1 (by omega)
    have r2 := vec_read_ok vec 2 (by omega)
    have r3 := vec_read_ok vec 3 (by omega)
    have r4 := vec_read_ok vec 4 (by omega)
    have r5 := vec_read_ok vec 5 (by omega)
    have r6 := vec_read_ok vec 6 (by omega)
    have r7 := vec_read_ok vec 7 (by omega)
    have r8 := vec_read_ok vec 8 (by omega)
    have r9 := vec_read_ok vec 9 (by omega)
    have r10 := vec_read_ok vec 10 (by omega)
    have r11 := vec_read_ok vec 11 (by omega)
    simp only [quadratic_row_start, quadratic_case0, quadratic_case1, quadratic_case2,
      quadratic_case3, r0, r1, r2, r3, r4, r5, r6, r7, r8, r9, r10, r11, bind, Except.bind,
      pure, Except.pure] at hs
    norm_num at hs
    subst hs
    simp only [quadratic_closed_form, Prod.mk.injEq]
    constructor <;> (norm_num; ring)

/-- C22. Incremental stepping equals direct evaluation, in exact arithmetic:
for orders 0, 1 and 2 and every rectangle, and for order 3 whenever the left
edge of the rectangle is `x = 0` (with the coefficients of the order in
`vec`), `vips_quadratic_gen` produces one row for each row of the rectangle
and one pel for each of its columns, and the pel in row `r`, column `k` of
the rectangle is made from the position `(fxi, fyi)` reached by stepping `k`
times from the row start, which is the closed-form polynomial at
`(xo, yo) = (left + k, top + r)`. -/
theorem quadratic_stepping_closed_form (vec : List ℚ) (order clip_width clip_height : Int)
    (valid : VipsRect)
    (ho : (order = 0 ∧ 2 ≤ vec.length) ∨ (order = 1 ∧ 6 ≤ vec.length) ∨
      (order = 2 ∧ 8 ≤ vec.length) ∨ (order = 3 ∧ 12 ≤ vec.length ∧ valid.left = 0)) :
    ∃ rows, vips_quadratic_gen false vec order clip_width clip_height valid = .ok rows ∧
      rows.length = valid.height.toNat ∧
      ∀ r : Nat, r < valid.height.toNat →
        ∃ row s0, rows[r]? = some row ∧ row.length = valid.width.toNat ∧
          quadratic_row_start vec order valid.left (valid.top + r) = .ok s0 ∧
          ∀ k : Nat, k < valid.width.toNat →
            row[k]? = some (quadratic_pel clip_width clip_height
              ((quadratic_advance order)^[k] s0)) ∧
            (((quadratic_advance order)^[k] s0).fxi, ((quadratic_advance order)^[k] s0).fyi)
              = quadratic_closed_form vec order ((valid.left + k : Int) : ℚ)
                  ((valid.top + r : Int) : ℚ) := by
  have ho2 : (order = 0 ∧ 2 ≤ vec.length) ∨ (order = 1 ∧ 6 ≤ vec.length) ∨
      (order = 2 ∧ 8 ≤ vec.length) ∨ (order = 3 ∧ 12 ≤ vec.length) := by
    rcases ho with h | h | h | h
    · exact Or.inl h
    · exact Or.inr (Or.inl h)
    · exact Or.inr (Or.inr (Or.inl h))
    · exact Or.inr (Or.inr (Or.inr ⟨h.1, h.2.1⟩))
  have eh : (VIPS_RECT_BOTTOM valid - valid.top).toNat = valid.height.toNat := by
    unfold VIPS_RECT_BOTTOM
    rw [add_sub_cancel_left]
  have ew : (VIPS_RECT_RIGHT valid - valid.left).toNat = valid.width.toNat := by
    unfold VIPS_RECT_RIGHT
    rw [add_sub_cancel_left]
  obtain ⟨rows, hr⟩ := quadratic_rows_ok vec order clip_width clip_height valid.left
    (VIPS_RECT_RIGHT valid) ho2 (VIPS_RECT_BOTTOM valid - valid.top).toNat valid.top
  have hgen : vips_quadratic_gen false vec order clip_width clip_height valid = .ok rows := by
    unfold vips_quadratic_gen
    simp only [Bool.false_eq_true, if_false, hr]
  obtain ⟨hl, hrow⟩ := quadratic_rows_getElem vec order clip_width clip_height valid.left
    (VIPS_RECT_RIGHT valid) _ valid.top rows hr
  rw [eh] at hl hrow
  refine ⟨rows, hgen, hl, ?_⟩
  intro r hr'
  obtain ⟨s0, hs0, hget⟩ := hrow r hr'
  rw [ew] at hget
  refine ⟨_, s0, hget, quadratic_row_length _ _ _ _ _, hs0, ?_⟩
  intro k hk
  exact ⟨quadratic_row_getElem order clip_width clip_height _ s0 k hk,
    quadratic_step_closed vec order valid.left (valid.top + r) s0 k ho hs0⟩

/-- An instance of C22: order 1 with the coefficients 1 .. 6 and the rectangle
left=1 top=2 width=2 height=1. The two pels of the row are interpolated at
(15, 20) and (19, 24), the closed form at (1, 2) and (2, 2). -/
theorem quadratic_stepping_closed_form_witness :
    (∃ rows, vips_quadratic_gen false [1, 2, 3, 4, 5, 6] 1 100 100 ⟨1, 2, 2, 1⟩ = .ok rows ∧
      rows.length = (1 : Int).toNat ∧
      ∀ r : Nat, r < (1 : Int).toNat →
        ∃ row s0, rows[r]? = some row ∧ row.length = (2 : Int).toNat ∧
          quadratic_row_start [1, 2, 3, 4, 5, 6] 1 (1 : Int) ((2 : Int) + r) = .ok s0 ∧
          ∀ k : Nat, k < (2 : Int).toNat →
            row[k]? = some (quadratic_pel 100 100 ((quadratic_advance 1)^[k] s0)) ∧
            (((quadratic_advance 1)^[k] s0).fxi, ((quadratic_advance 1)^[k] s0).fyi)
              = quadratic_closed_form [1, 2, 3, 4, 5, 6] 1 (((1 : Int) + k : Int) : ℚ)
                  (((2 : Int) + r : Int) : ℚ)) ∧
    vips_quadratic_gen false [1, 2, 3, 4, 5, 6] 1 100 100 ⟨1, 2, 2, 1⟩
      = .ok [[Pel.interpolate 15 20, Pel.interpolate 19 24]] ∧
    quadratic_closed_form [1, 2, 3, 4, 5, 6] 1 1 2 = (15, 20) ∧
    quadratic_closed_form [1, 2, 3, 4, 5, 6] 1 2 2 = (19, 24) :=
  ⟨quadratic_stepping_closed_form [1, 2, 3, 4, 5, 6] 1 100 100 ⟨1, 2, 2, 1⟩
    (Or.inr (Or.inl ⟨rfl, by decide⟩)),
   by
    have t15 : trunc (15 : ℚ) = 15 := by simpa using trunc_intCast 15
    have t20 : trunc (20 : ℚ) = 20 := by simpa using trunc_intCast 20
    have t19 : trunc (19 : ℚ) = 19 := by simpa using trunc_intCast 19
    have t24 : trunc (24 : ℚ) = 24 := by simpa using trunc_intCast 24
    simp [vips_quadratic_gen, VIPS_RECT_RIGHT, VIPS_RECT_BOTTOM, quadratic_rows,
      quadratic_row_start, quadratic_case0, quadratic_case1, vec_read, quadratic_row,
      quadratic_pel, quadratic_advance, bind, Except.bind, pure, Except.pure]
    norm_num [t15, t20, t19, t24],
   by simp [quadratic_closed_form]; norm_num,
   by simp [quadratic_closed_form]; norm_num⟩

/-! ## resample/quadratic.c: the interpolation window -/

/-- With `window_offset = 0` (the default bilinear interpolator) every window
read lies inside the enlarged image: a pel that is not clipped has
`0 <= xi < Xsize` and `0 <= yi < Ysize`, and its window spans
`xi .. xi + window_size - 1`. -/
theorem quadratic_window_inside_offset0 (rif : Bool) (vec : List ℚ) (order Xsize Ysize : Int)
    (valid : VipsRect) (window_size : Int) (rows : List (List Pel))
    (h : vips_quadratic_gen rif vec order Xsize Ysize valid = .ok rows) :
    ∀ w ∈ quadratic_windows window_size 0 rows,
      vips_rect_includesrect (quadratic_embedded_image Xsize Ysize window_size) w = true := by
  intro w hw
  unfold quadratic_windows at hw
  rw [List.mem_filterMap] at hw
  obtain ⟨p, hp, hpw⟩ := hw
  rw [List.mem_flatten] at hp
  obtain ⟨row, hrow, hprow⟩ := hp
  obtain ⟨r, hr⟩ := List.getElem?_of_mem hrow
  obtain ⟨k, hk⟩ := List.getElem?_of_mem hprow
  obtain ⟨s0, _, hpel⟩ := quadratic_gen_pel rif vec order Xsize Ysize valid rows h r k row p hr hk
  cases p with
  | zero => simp at hpw
  | interpolate fxi fyi =>
    simp only [Option.some.injEq] at hpw
    subst hpw
    generalize (quadratic_advance order)^[k] s0 = s at hpel
    have hz : ¬ (quadratic_pel Xsize Ysize s = Pel.zero) := by
      rw [← hpel]; exact fun e => Pel.noConfusion e
    rw [quadratic_pel_zero_iff] at hz
    have he := quadratic_pel_interpolate Xsize Ysize s hz
    rw [← hpel] at he
    simp only [Pel.interpolate.injEq] at he
    obtain ⟨e1, e2⟩ := he
    subst e1; subst e2
    simp only [not_or, not_lt, ge_iff_le, not_le] at hz
    obtain ⟨z1, z2, z3, z4⟩ := hz
    simp only [vips_rect_includesrect, quadratic_embedded_image, interpolate_window,
      VIPS_RECT_RIGHT, VIPS_RECT_BOTTOM, Bool.and_eq_true, decide_eq_true_eq]
    refine ⟨⟨⟨by omega, by omega⟩, by omega⟩, by omega⟩

/-- C21. The window read lies outside the enlarged image for an interpolator
with `window_offset >= 1`. Input 5 x 5, the identity transform (order 0,
coefficients 0 0), output pel (0, 0), bicubic interpolation
(`window_size = 4`, `window_offset = 1`): the pel is not clipped, the
interpolator is called at (0, 0), its window is the 4 x 4 block at (-1, -1),
and the enlarged image is the 9 x 9 block at (0, 0). With the bilinear
interpolator (`window_size = 2`, `window_offset = 0`) the window is the 2 x 2
block at (0, 0), inside the 7 x 7 enlarged image. -/
theorem quadratic_window_outside_embedded :
    vips_quadratic_gen false [0, 0] 0 5 5 ⟨0, 0, 1, 1⟩ = .ok [[Pel.interpolate 0 0]] ∧
    quadratic_windows 4 1 [[Pel.interpolate 0 0]] = [⟨-1, -1, 4, 4⟩] ∧
    quadratic_embedded_image 5 5 4 = ⟨0, 0, 9, 9⟩ ∧
    vips_rect_includesrect (quadratic_embedded_image 5 5 4) ⟨-1, -1, 4, 4⟩ = false ∧
    quadratic_windows 2 0 [[Pel.interpolate 0 0]] = [⟨0, 0, 2, 2⟩] ∧
    vips_rect_includesrect (quadratic_embedded_image 5 5 2) ⟨0, 0, 2, 2⟩ = true := by
  have h0 : trunc 0 = 0 := by simpa using trunc_intCast 0
  refine ⟨?_, ?_, by decide, by decide, ?_, by decide⟩
  · simp [vips_quadratic_gen, VIPS_RECT_RIGHT, VIPS_RECT_BOTTOM, quadratic_rows,
      quadratic_row_start, quadratic_case0, vec_read, quadratic_row, quadratic_pel,
      quadratic_advance, bind, Except.bind, pure, Except.pure]
    norm_num [h0]
  · simp [quadratic_windows, interpolate_window, h0]
  · simp [quadratic_windows, interpolate_window, h0]

/-! ## foreign/radiance.c: the repeat marker at the start of a scanline -/

/-- C25. `scanline_read_old` reads the pixel before the start of the buffer
when the first pixel of the scanline is a repeat marker. Stream `1 1 1 1`,
buffer of one pixel, width 1: the four bytes are stored in `scanline[0]`, they
are a marker with count 1, and `copycolr (scanline[0], scanline[-1])` loads
`scanline[-1]`. The same happens through `scanline_read` for a width below
`MINELEN` and for any width when the first byte is not 2, and in
`rad2vips_generate`. A marker after the first pixel copies a pixel of the
buffer, and no store goes past pixel `width - 1`. -/
theorem scanline_read_old_marker_first :
    scanline_read_old [1, 1, 1, 1] [⟨0, 0, 0, 0⟩] 0 1 0 = .error .oob_load ∧
    scanline_read [1, 1, 1, 1] [⟨0, 0, 0, 0⟩] 1 = .error .oob_load ∧
    scanline_read [1, 1, 1, 1] (List.replicate 8 ⟨0, 0, 0, 0⟩) 8 = .error .oob_load ∧
    rad2vips_generate [1, 1, 1, 1] ⟨⟨0, 0, 1, 1⟩, 1, [[⟨0, 0, 0, 0⟩]]⟩ = .error .oob_load ∧
    scanline_read_old [5, 6, 7, 8, 1, 1, 1, 1] [⟨0, 0, 0, 0⟩, ⟨0, 0, 0, 0⟩] 0 2 0
      = .ok ([⟨5, 6, 7, 8⟩, ⟨5, 6, 7, 8⟩], []) ∧
    scanline_read_old [5, 6, 7, 8, 1, 1, 1, 200] [⟨0, 0, 0, 0⟩, ⟨0, 0, 0, 0⟩] 0 2 0
      = .ok ([⟨5, 6, 7, 8⟩, ⟨5, 6, 7, 8⟩], []) := by
  decide

/-! ## foreign/radiance.c: a decoded scanline depends on the stream only -/

theorem rle_read_component_error (i w : Nat) :
    ∀ (fuel : Nat) (inp : List Nat) (b b' : List COLR) (j : Nat) (e : RadErr),
      b.length = w → b'.length = w →
      rle_read_component i w fuel inp b j = .error e →
      rle_read_component i w fuel inp b' j = .error e := by
  intro fuel
  induction fuel with
  | zero =>
    intro inp b b' j e _ _ h
    simpa [rle_read_component] using h
  | succ n ih =>
    intro inp b b' j e hb hb' h
    by_cases hj : j < w
    · match inp with
      | [] => simpa [rle_read_component, hj] using h
      | [_] => simpa [rle_read_component, hj] using h
      | code :: val :: rest =>
        simp only [rle_read_component, if_pos hj, decide_eq_true_eq] at h ⊢
        by_cases hov : j + (if code > 128 then code &&& 127 else code) > w
        · simpa [hov] using h
        · simp only [hov, if_false] at h ⊢
          by_cases hrun : code > 128
          · simp only [hrun, if_true] at hov h ⊢
            obtain ⟨b1, h1, l1, _⟩ := fill_run_ok i val (code &&& 127) j b (by omega)
            obtain ⟨b1', h1', l1', _⟩ := fill_run_ok i val (code &&& 127) j b' (by omega)
            simp only [h1] at h
            simp only [h1']
            exact ih rest b1 b1' _ e (by omega) (by omega) h
          · simp only [hrun, if_false] at hov h ⊢
            by_cases hreq : code ≤ (val :: rest).length
            · simp only [hreq, if_true] at h ⊢
              obtain ⟨b1, h1, l1, _⟩ := copy_literal_ok i ((val :: rest).take code) j b
                (by rw [List.length_take]; omega)
              obtain ⟨b1', h1', l1', _⟩ := copy_literal_ok i ((val :: rest).take code) j b'
                (by rw [List.length_take]; omega)
              simp only [h1] at h
              simp only [h1']
              exact ih _ b1 b1' _ e (by omega) (by omega) h
            · simp only [hreq, if_false] at h ⊢
              exact h
    · simp [rle_read_component, if_neg hj] at h

theorem rle_read_components_error (w : Nat) :
    ∀ (n i : Nat) (inp : List Nat) (b b' : List COLR) (e : RadErr),
      i + n = 4 → b.length = w → b'.length = w →
      rle_read_components w n i inp b = .error e →
      rle_read_components w n i inp b' = .error e := by
  intro n
  induction n with
  | zero =>
    intro i inp b b' e _ _ _ h
    simp [rle_read_components] at h
  | succ m ih =>
    intro i inp b b' e hi hb hb' h
    simp only [rle_read_components] at h ⊢
    cases hc : rle_read_component i w (inp.length + 1) inp b 0 with
    | error x =>
      simp only [hc] at h
      rw [rle_read_component_error i w _ inp b b' 0 x hb hb' hc]
      exact h
    | ok v =>
      obtain ⟨b1, inp1⟩ := v
      simp only [hc] at h
      obtain ⟨b1', e1, e2, e3, _, _⟩ :=
        rle_read_component_assigns i w (by omega) (inp.length + 1) inp b b' 0 b1 inp1 hb hb' hc
      simp only [e1]
      exact ih (i + 1) inp1 b1 b1' e (by omega) e2 e3 h

/-- The new-style component loops give the same outcome on any two arrays of
`width` pixels. -/
theorem rle_read_components_indep (w : Nat) (inp : List Nat) (b b' : List COLR)
    (hb : b.length = w) (hb' : b'.length = w) :
    rle_read_components w 4 0 inp b = rle_read_components w 4 0 inp b' := by
  cases h : rle_read_components w 4 0 inp b with
  | error e => exact (rle_read_components_error w 4 0 inp b b' e rfl hb hb' h).symm
  | ok v =>
    obtain ⟨o, r⟩ := v
    exact ((rle_read_components_assigns w 4 0 inp b b' o r rfl hb hb'
      (fun k c hc => absurd hc (Nat.not_lt_zero c)) h).1).symm

theorem copy_previous_indep : ∀ (i width pos : Nat) (b b' : List COLR),
    b.length = b'.length → pos + width ≤ b.length → (∀ k, k < pos → b[k]? = b'[k]?) →
    (∀ e, copy_previous i width pos b = .error e → copy_previous i width pos b' = .error e) ∧
    (∀ o p w, copy_previous i width pos b = .ok (o, p, w) →
      ∃ o', copy_previous i width pos b' = .ok (o', p, w) ∧ o.length = o'.length ∧
        o.length = b.length ∧ p + w = pos + width ∧ (∀ k, k < p → o[k]? = o'[k]?))
  | 0, width, pos, b, b', hl, _, hag => by
    simp only [copy_previous]
    refine ⟨fun e h => by simp at h, ?_⟩
    intro o p w h
    simp only [Except.ok.injEq, Prod.mk.injEq] at h
    obtain ⟨h1, h2, h3⟩ := h
    subst h1; subst h2; subst h3
    exact ⟨b', rfl, hl, rfl, rfl, hag⟩
  | i + 1, width, pos, b, b', hl, hp, hag => by
    unfold copy_previous
    by_cases hw : width > 0
    · rw [if_pos hw, if_pos hw]
      by_cases hz : pos = 0
      · rw [if_pos hz, if_pos hz]
        exact ⟨fun e h => h, fun o p w h => by simp at h⟩
      · rw [if_neg hz, if_neg hz]
        have hlt : pos - 1 < b.length := by omega
        have hlt' : pos - 1 < b'.length := by omega
        have hsame : b[pos - 1]? = b'[pos - 1]? := hag (pos - 1) (by omega)
        rw [List.getElem?_eq_getElem hlt] at hsame ⊢
        rw [← hsame]
        simp only []
        rw [put_colr_ok b pos _ (by omega), put_colr_ok b' pos _ (by omega)]
        simp only []
        have ih := copy_previous_indep i (width - 1) (pos + 1) (b.set pos b[pos - 1])
          (b'.set pos b[pos - 1]) (by simp [hl]) (by simp; omega) (by
            intro k hk
            simp only [List.getElem?_set]
            by_cases hkp : pos = k
            · simp [hkp, ← hl]
            · simp only [hkp, if_false]
              exact hag k (by omega))
        refine ⟨ih.1, ?_⟩
        intro o p w h
        obtain ⟨o', a1, a2, a3, a4, a5⟩ := ih.2 o p w h
        refine ⟨o', a1, a2, by simpa using a3, by omega, a5⟩
    · rw [if_neg hw, if_neg hw]
      refine ⟨fun e h => by simp at h, ?_⟩
      intro o p w h
      simp only [Except.ok.injEq, Prod.mk.injEq] at h
      obtain ⟨h1, h2, h3⟩ := h
      subst h1; subst h2; subst h3
      exact ⟨b', rfl, hl, rfl, rfl, hag⟩

theorem scanline_read_old_indep : ∀ (n : Nat) (inp : List Nat) (b b' : List COLR)
    (pos width rshift : Nat), inp.length ≤ n → b.length = b'.length →
    pos + width = b.length → (∀ k, k < pos → b[k]? = b'[k]?) →
    scanline_read_old inp b pos width rshift = scanline_read_old inp b' pos width rshift := by
  have hzero : ∀ (inp : List Nat) (b b' : List COLR) (pos rshift : Nat),
      b.length = b'.length → pos + 0 = b.length → (∀ k, k < pos → b[k]? = b'[k]?) →
      scanline_read_old inp b pos 0 rshift = scanline_read_old inp b' pos 0 rshift := by
    intro inp b b' pos rshift hl hp hag
    have : b = b' := by
      apply List.ext_getElem?
      intro k
      by_cases hk : k < pos
      · exact hag k hk
      · rw [List.getElem?_eq_none (by omega), List.getElem?_eq_none (by omega)]
    subst this
    rfl
  intro n
  induction n with
  | zero =>
    intro inp b b' pos width rshift hn hl hp hag
    have : inp = [] := List.length_eq_zero.mp (by omega)
    subst this
    cases width with
    | zero => exact hzero [] b b' pos rshift hl hp hag
    | succ w => simp only [scanline_read_old]
  | succ n ih =>
    intro inp b b' pos width rshift hn hl hp hag
    cases width with
    | zero => exact hzero inp b b' pos rshift hl hp hag
    | succ w =>
      match inp, hn with
      | [], _ | [_], _ | [_, _], _ | [_, _, _], _ => simp only [scanline_read_old]
      | r0 :: g0 :: b0 :: e0 :: rest, hn =>
        simp only [List.length_cons] at hn
        simp only [scanline_read_old]
        rw [put_colr_ok b pos _ (by omega), put_colr_ok b' pos _ (by omega)]
        simp only []
        have hl1 : (b.set pos ⟨r0, g0, b0, e0⟩).length = (b'.set pos ⟨r0, g0, b0, e0⟩).length := by
          simp [hl]
        have hag1 : ∀ k, k < pos + 1 →
            (b.set pos ⟨r0, g0, b0, e0⟩)[k]? = (b'.set pos ⟨r0, g0, b0, e0⟩)[k]? := by
          intro k hk
          simp only [List.getElem?_set]
          by_cases hkp : pos = k
          · simp [hkp, ← hl]
          · simp only [hkp, if_false]
            exact hag k (by omega)
        by_cases hm : r0 = 1 ∧ g0 = 1 ∧ b0 = 1
        · rw [if_pos hm, if_pos hm]
          have hc := copy_previous_indep ((e0 <<< rshift) % 2 ^ 32) (w + 1) pos
            (b.set pos ⟨r0, g0, b0, e0⟩) (b'.set pos ⟨r0, g0, b0, e0⟩) hl1
            (by simp; omega) (fun k hk => hag1 k (by omega))
          cases hcp : copy_previous ((e0 <<< rshift) % 2 ^ 32) (w + 1) pos
              (b.set pos ⟨r0, g0, b0, e0⟩) with
          | error x =>
            rw [hc.1 x hcp]
          | ok v =>
            obtain ⟨b2, p2, w2⟩ := v
            obtain ⟨b2', c1, c2, c3, c4, c5⟩ := hc.2 b2 p2 w2 hcp
            rw [c1]
            simp only []
            by_cases hs : rshift + 8 > 24
            · rw [if_pos hs, if_pos hs]
            · rw [if_neg hs, if_neg hs]
              exact ih rest b2 b2' p2 w2 (rshift + 8) (by omega) c2
                (by simp at c3; omega) c5
        · rw [if_neg hm, if_neg hm]
          exact ih rest _ _ (pos + 1) w 0 (by omega) hl1 (by simp; omega) hag1

/-- The outcome of `scanline_read` on an array of `width` pixels, the array
left and the unread input or the error, does not depend on what the array
held: a decoded scanline is a function of the stream. -/
theorem scanline_read_indep (inp : List Nat) (b b' : List COLR) (width : Nat)
    (hb : b.length = width) (hb' : b'.length = width) :
    scanline_read inp b width = scanline_read inp b' width := by
  have hold : ∀ (inp : List Nat) (u u' : List COLR) (pos w : Nat), u.length = width →
      u'.length = width → pos + w = width → (∀ k, k < pos → u[k]? = u'[k]?) →
      scanline_read_old inp u pos w 0 = scanline_read_old inp u' pos w 0 := by
    intro inp u u' pos w hu hu' hp hag
    exact scanline_read_old_indep inp.length inp u u' pos w 0 (le_refl _) (by omega)
      (by omega) hag
  unfold scanline_read
  by_cases h1 : width < MINELEN ∨ width > MAXELEN
  · rw [if_pos h1, if_pos h1]
    exact hold inp b b' 0 width hb hb' (by omega) (fun k hk => absurd hk (Nat.not_lt_zero k))
  · rw [if_neg h1, if_neg h1]
    have h8 : MINELEN = 8 := rfl
    have hmin : MINELEN ≤ width := by omega
    match inp with
    | [] | [_] | [_, _] | [_, _, _] => rfl
    | b0 :: b1 :: b2 :: b3 :: rest =>
      simp only []
      by_cases h2 : b0 ≠ 2
      · rw [if_pos h2, if_pos h2]
        exact hold _ b b' 0 width hb hb' (by omega)
          (fun k hk => absurd hk (Nat.not_lt_zero k))
      · rw [if_neg h2, if_neg h2]
        rw [put_colr_ok b 0 _ (by omega), put_colr_ok b' 0 _ (by omega)]
        simp only []
        have hl : (b.set 0 ⟨b0, b1, b2, b3⟩).length = width := by simp [hb]
        have hl' : (b'.set 0 ⟨b0, b1, b2, b3⟩).length = width := by simp [hb']
        by_cases h3 : b1 ≠ 2 ∨ b2 &&& 128 ≠ 0
        · rw [if_pos h3, if_pos h3]
          apply hold _ _ _ 1 (width - 1) hl hl' (by omega)
          intro k hk
          have : k = 0 := by omega
          subst this
          simp only [List.getElem?_set]
          simp [hb, hb']
        · rw [if_neg h3, if_neg h3]
          by_cases h4 : (b2 <<< 8) ||| b3 ≠ width
          · rw [if_pos h4, if_pos h4]
          · rw [if_neg h4, if_neg h4]
            exact rle_read_components_indep width rest _ _ hl hl'

/-! ## foreign/radiance.c: sequential scanline filling -/

theorem decode_scanlines_length (w : Nat) : ∀ (n : Nat) (inp : List Nat)
    (rows : List (List COLR)) (rest : List Nat),
    decode_scanlines w n inp = .ok (rows, rest) → rows.length = n
  | 0, inp, rows, rest, h => by
    simp only [decode_scanlines, Except.ok.injEq, Prod.mk.injEq] at h
    rw [← h.1]; rfl
  | n + 1, inp, rows, rest, h => by
    simp only [decode_scanlines] at h
    cases h1 : scanline_read inp (List.replicate w ⟨0, 0, 0, 0⟩) w with
    | error e => simp [h1] at h
    | ok v =>
      obtain ⟨row, r1⟩ := v
      simp only [h1] at h
      cases h2 : decode_scanlines w n r1 with
      | error e => simp [h2] at h
      | ok v2 =>
        obtain ⟨rows2, r2⟩ := v2
        simp only [h2, Except.ok.injEq, Prod.mk.injEq] at h
        rw [← h.1, List.length_cons, decode_scanlines_length w n r1 rows2 r2 h2]

/-- Decoding `n + m` scanlines is decoding `n` scanlines and then `m` more
from where the first `n` ended. -/
theorem decode_scanlines_add (w : Nat) : ∀ (n m : Nat) (inp : List Nat),
    decode_scanlines w (n + m) inp =
      match decode_scanlines w n inp with
      | .error e => .error e
      | .ok (rows, rest) =>
        match decode_scanlines w m rest with
        | .error e => .error e
        | .ok (rows2, rest2) => .ok (rows ++ rows2, rest2)
  | 0, m, inp => by
    simp only [Nat.zero_add, decode_scanlines]
    cases decode_scanlines w m inp with
    | error e => rfl
    | ok v => rfl
  | n + 1, m, inp => by
    rw [show n + 1 + m = (n + m) + 1 by omega]
    simp only [decode_scanlines]
    cases h1 : scanline_read inp (List.replicate w ⟨0, 0, 0, 0⟩) w with
    | error e => rfl
    | ok v =>
      obtain ⟨row, r1⟩ := v
      simp only []
      rw [decode_scanlines_add w n m r1]
      cases h2 : decode_scanlines w n r1 with
      | error e => rfl
      | ok v2 =>
        obtain ⟨rows2, r2⟩ := v2
        simp only []
        cases h3 : decode_scanlines w m r2 with
        | error e => rfl
        | ok v3 => rfl

theorem take_succ_set {α : Type} : ∀ (l : List α) (y : Nat) (a : α), y < l.length →
    (l.set y a).take (y + 1) = l.take y ++ [a]
  | [], y, a, h => by simp at h
  | x :: l, 0, a, _ => by simp
  | x :: l, y + 1, a, h => by
    simp only [List.set_cons_succ, List.take_succ_cons, List.cons_append, List.cons.injEq,
      true_and]
    exact take_succ_set l y a (by simpa using h)

theorem drop_set_lt {α : Type} : ∀ (l : List α) (y k : Nat) (a : α), y < k →
    (l.set y a).drop k = l.drop k
  | [], y, k, a, _ => by simp
  | x :: l, 0, k + 1, a, _ => by simp
  | x :: l, y + 1, k + 1, a, h => by
    simp only [List.set_cons_succ, List.drop_succ_cons]
    exact drop_set_lt l y k a (by omega)
  | x :: l, y, 0, a, h => by omega

/-- The row loop of `rad2vips_generate` on a full-width region fills rows
`y .. y + n - 1` with the next `n` scanlines of the stream and leaves the
other rows. -/
theorem generate_rows_decode : ∀ (n y : Nat) (inp : List Nat) (reg : RadRegion),
    reg.valid.left = 0 → (∀ row ∈ reg.rows, row.length = reg.Xsize) →
    y + n ≤ reg.rows.length →
    (rad2vips_generate_rows n y inp reg).map (fun x => (x.1.rows, x.2))
      = (decode_scanlines reg.Xsize n inp).map
          (fun x => (reg.rows.take y ++ x.1 ++ reg.rows.drop (y + n), x.2))
  | 0, y, inp, reg, _, _, _ => by
    simp [rad2vips_generate_rows, decode_scanlines, Except.map]
  | n + 1, y, inp, reg, hleft, hrows, hy => by
    have hlt : y < reg.rows.length := by omega
    have hview : region_scanline reg y = reg.rows[y] := by
      simp [region_scanline, hleft, List.getD_eq_getElem?_getD, List.getElem?_eq_getElem hlt]
    have hlen : (region_scanline reg y).length = reg.Xsize := by
      rw [hview]; exact hrows _ (List.getElem_mem _)
    have hind := scanline_read_indep inp (region_scanline reg y)
      (List.replicate reg.Xsize ⟨0, 0, 0, 0⟩) reg.Xsize hlen (by simp)
    have hs := scanline_read_safe inp (region_scanline reg y) reg.Xsize hlen
    unfold rad2vips_generate_rows decode_scanlines
    rw [← hind]
    cases hr : scanline_read inp (region_scanline reg y) reg.Xsize with
    | error e => simp [Except.map]
    | ok v =>
      obtain ⟨buf, rest⟩ := v
      simp only [hleft, if_true]
      have hb : buf.length = reg.Xsize := hs.2.2 buf rest hr
      have hrows2 : ∀ row ∈ (reg.rows.set y buf), row.length = reg.Xsize := by
        intro row hrow
        rcases List.mem_or_eq_of_mem_set hrow with h | h
        · exact hrows row h
        · rw [h]; exact hb
      have ih := generate_rows_decode n (y + 1) rest { reg with rows := reg.rows.set y buf }
        hleft hrows2 (by simp; omega)
      rw [ih]
      have e1 : (reg.rows.set y buf).take (y + 1) = reg.rows.take y ++ [buf] :=
        take_succ_set reg.rows y buf hlt
      have e2 : (reg.rows.set y buf).drop (y + 1 + n) = reg.rows.drop (y + (n + 1)) := by
        rw [drop_set_lt reg.rows y (y + 1 + n) buf (by omega)]
        congr 1
        omega
      cases hd : decode_scanlines reg.Xsize n rest with
      | error e => simp [Except.map]
      | ok v2 =>
        obtain ⟨rows2, r2⟩ := v2
        simp only [Except.map, e1, e2]
        simp

theorem generate_decode (inp : List Nat) (reg : RadRegion) (hleft : reg.valid.left = 0)
    (hrows : reg.rows.length = reg.valid.height.toNat)
    (hrow : ∀ row ∈ reg.rows, row.length = reg.Xsize) :
    (rad2vips_generate inp reg).map (fun x => (x.1.rows, x.2))
      = decode_scanlines reg.Xsize reg.valid.height.toNat inp := by
  have h := generate_rows_decode reg.valid.height.toNat 0 inp reg hleft hrow (by omega)
  unfold rad2vips_generate
  rw [h]
  have e : reg.rows.drop reg.valid.height.toNat = [] := by
    rw [List.drop_eq_nil_iff]
    omega
  cases decode_scanlines reg.Xsize reg.valid.height.toNat inp with
  | error x => rfl
  | ok v =>
    simp only [Except.map, List.take_zero, List.nil_append, Nat.zero_add, e, List.append_nil]

theorem generate_strips_decode (Xsize : Nat) : ∀ (heights : List Nat) (top : Nat)
    (inp : List Nat),
    rad2vips_generate_strips Xsize heights top inp
      = decode_scanlines Xsize heights.sum inp
  | [], top, inp => rfl
  | h :: hs, top, inp => by
    have hg := generate_decode inp
      ⟨⟨0, top, Xsize, h⟩, Xsize, List.replicate h (List.replicate Xsize ⟨0, 0, 0, 0⟩)⟩
      rfl (by simp) (by
        intro row hr
        rw [List.mem_replicate] at hr
        rw [hr.2]; simp)
    simp only [Int.toNat_ofNat] at hg
    rw [List.sum_cons, decode_scanlines_add, ← hg]
    unfold rad2vips_generate_strips
    cases rad2vips_generate inp
        ⟨⟨0, top, Xsize, h⟩, Xsize, List.replicate h (List.replicate Xsize ⟨0, 0, 0, 0⟩)⟩ with
    | error e => rfl
    | ok v =>
      obtain ⟨reg, rest⟩ := v
      simp only [Except.map]
      rw [generate_strips_decode Xsize hs (top + h) rest]

/-! ## foreign/radiance.c: the numbers printed in the header -/

theorem printf_0digits_plain : ∀ (k n : Nat), ∀ c ∈ printf_0digits k n,
    c ≠ '\n' ∧ c ≠ '\r' ∧ c ≠ Char.ofNat 0
  | 0, n, c, hc => by simp [printf_0digits] at hc
  | k + 1, n, c, hc => by
    unfold printf_0digits at hc
    rw [List.mem_append] at hc
    rcases hc with hc | hc
    · exact printf_0digits_plain k _ c hc
    · rw [List.mem_singleton] at hc
      rw [hc]
      exact digit_char_plain _ (Nat.mod_lt _ (by decide))

theorem printf_0digits_length : ∀ (k n : Nat), (printf_0digits k n).length = k
  | 0, n => rfl
  | k + 1, n => by
    unfold printf_0digits
    rw [List.length_append, printf_0digits_length k]
    rfl

/-- A number printed by `%f` or `%.4f` holds no line feed, carriage return or
NUL. -/
theorem printf_f_plain (prec : Nat) (x : PrintfFixed) :
    ∀ c ∈ printf_f prec x, c ≠ '\n' ∧ c ≠ '\r' ∧ c ≠ Char.ofNat 0 := by
  intro c hc
  unfold printf_f at hc
  rw [List.mem_append] at hc
  rcases hc with hc | hc
  · split_ifs at hc
    · rw [List.mem_singleton] at hc
      rw [hc]; decide
    · simp at hc
  · cases hx : x.cls <;> rw [hx] at hc <;> simp only at hc
    · rw [List.mem_append] at hc
      rcases hc with hc | hc
      · exact printf_u_digits_plain _ _ c hc
      · rw [List.mem_cons] at hc
        rcases hc with hc | hc
        · rw [hc]; decide
        · exact printf_0digits_plain _ _ c hc
    · have : c = 'i' ∨ c = 'n' ∨ c = 'f' := by simpa using hc
      rcases this with h | h | h <;> rw [h] <;> decide
    · have : c = 'n' ∨ c = 'a' ∨ c = 'n' := by simpa using hc
      rcases this with h | h | h <;> rw [h] <;> decide

set_option exponentiation.threshold 400 in
theorem printf_f_length (prec : Nat) (x : PrintfFixed) :
    (printf_f prec x).length ≤ 311 + prec := by
  have h1 : (if x.neg then ['-'] else ([] : List Char)).length ≤ 1 := by
    split_ifs <;> simp
  have h2 := printf_u_digits_length (x.ipart.val + 1) x.ipart.val 308 x.ipart.isLt
  have h3 := printf_0digits_length prec x.frac
  unfold printf_f
  rw [List.length_append]
  cases hx : x.cls <;> simp only [List.length_append, List.length_cons, h3]
  · omega
  · have : (String.toList "inf").length = 3 := rfl
    omega
  · have : (String.toList "nan").length = 3 := rfl
    omega

/-- A number printed by `%e` holds no line feed, carriage return or NUL. -/
theorem printf_e_plain (x : PrintfExp) :
    ∀ c ∈ printf_e x, c ≠ '\n' ∧ c ≠ '\r' ∧ c ≠ Char.ofNat 0 := by
  intro c hc
  unfold printf_e at hc
  rw [List.mem_append] at hc
  rcases hc with hc | hc
  · split_ifs at hc
    · rw [List.mem_singleton] at hc
      rw [hc]; decide
    · simp at hc
  · cases hx : x.cls <;> rw [hx] at hc <;> simp only at hc
    · simp only [List.mem_cons, List.mem_append] at hc
      rcases hc with (hc | hc | hc) | hc | hc | hc
      · rw [hc]; exact digit_char_plain _ x.lead.isLt
      · rw [hc]; decide
      · exact printf_0digits_plain _ _ c hc
      · rw [hc]; decide
      · rw [hc]; split_ifs <;> decide
      · split_ifs at hc with h10
        · simp only [List.mem_cons, List.mem_singleton, List.not_mem_nil, or_false] at hc
          rcases hc with hc | hc
          · rw [hc]; decide
          · rw [hc]; exact digit_char_plain _ h10
        · exact printf_u_digits_plain _ _ c hc
    · have : c = 'i' ∨ c = 'n' ∨ c = 'f' := by simpa using hc
      rcases this with h | h | h <;> rw [h] <;> decide
    · have : c = 'n' ∨ c = 'a' ∨ c = 'n' := by simpa using hc
      rcases this with h | h | h <;> rw [h] <;> decide

theorem printf_d_nat_plain (n : Nat) :
    ∀ c ∈ printf_d (n : Int), c ≠ '\n' ∧ c ≠ '\r' ∧ c ≠ Char.ofNat 0 := by
  intro c hc
  have : ¬ ((n : Int) < 0) := by omega
  simp only [printf_d, this, if_false] at hc
  exact printf_u_digits_plain _ _ c hc

theorem vips_version_string_plain (v : Nat × Nat × Nat) :
    ∀ c ∈ vips_version_string v, c ≠ '\n' ∧ c ≠ '\r' ∧ c ≠ Char.ofNat 0 := by
  intro c hc
  unfold vips_version_string at hc
  simp only [List.mem_append, List.mem_cons] at hc
  rcases hc with (hc | hc | hc) | hc | hc
  · exact printf_d_nat_plain _ c hc
  · rw [hc]; decide
  · exact printf_d_nat_plain _ c hc
  · rw [hc]; decide
  · exact printf_d_nat_plain _ c hc

theorem flatten_map_length_le {α : Type} (f : α → List Char) (B : Nat) : ∀ (l : List α),
    (∀ a ∈ l, (f a).length ≤ B) → ((l.map f).flatten).length ≤ l.length * B
  | [], _ => by simp
  | a :: l, h => by
    have h1 := h a (by simp)
    have h2 := flatten_map_length_le f B l (fun b hb => h b (by simp [hb]))
    simp only [List.map_cons, List.flatten_cons, List.length_append, List.length_cons]
    rw [Nat.add_mul]
    omega

theorem colcor_line_plain (V : RadDecimal) (w : Write (RadPrint.decimal V)) :
    ∀ c ∈ colcor_line (RadPrint.decimal V) w, c ≠ '\n' ∧ c ≠ '\r' ∧ c ≠ Char.ofNat 0 := by
  intro c hc
  unfold colcor_line at hc
  simp only [List.mem_append, List.mem_cons] at hc
  rcases hc with ((hc | hc | hc) | hc | hc) | hc | hc
  · revert hc; revert c; decide
  · rw [hc]; decide
  · exact printf_f_plain _ _ c hc
  · rw [hc]; decide
  · exact printf_f_plain _ _ c hc
  · rw [hc]; decide
  · exact printf_f_plain _ _ c hc

theorem prims_line_plain (V : RadDecimal) (w : Write (RadPrint.decimal V)) :
    ∀ c ∈ prims_line (RadPrint.decimal V) w, c ≠ '\n' ∧ c ≠ '\r' ∧ c ≠ Char.ofNat 0 := by
  intro c hc
  unfold prims_line at hc
  simp only [List.mem_append, List.mem_flatten, List.mem_map] at hc
  rcases hc with hc | ⟨l, ⟨p, _, rfl⟩, hc⟩
  · revert hc; revert c; decide
  · rw [List.mem_cons] at hc
    rcases hc with hc | hc
    · rw [hc]; decide
    · exact printf_f_plain _ _ c hc

/-- The colour correction line written with decimal numbers is scanned by an
`sscanf` that reads what `printf` prints. -/
theorem colcor_line_scanned (E : RadFloat) (V : RadDecimal) (w : Write (RadPrint.decimal V))
    (hscan : sscanf_reads_printf E) :
    E.scan_colcor ((sbuf_line (colcor_line (RadPrint.decimal V) w)).drop 10) ≠ none := by
  have hid : sbuf_line (colcor_line (RadPrint.decimal V) w)
      = colcor_line (RadPrint.decimal V) w := by
    apply sbuf_line_id_of_no_cr
    · have l1 := printf_f_length 6 (V.dec_f w.colcor.1)
      have l2 := printf_f_length 6 (V.dec_f w.colcor.2.1)
      have l3 := printf_f_length 6 (V.dec_f w.colcor.2.2)
      have l0 : COLCORSTR.length = 10 := rfl
      have l4 : VIPS_SBUF_BUFFER_SIZE = 4096 := rfl
      unfold colcor_line
      simp only [List.length_append, List.length_cons, RadPrint.decimal]
      omega
    · exact fun h => (colcor_line_plain V w _ h).2.1 rfl
    · exact fun h => (colcor_line_plain V w _ h).2.2 rfl
  rw [hid]
  have e : (colcor_line (RadPrint.decimal V) w).drop 10
      = ' ' :: printf_f 6 (V.dec_f w.colcor.1) ++ ' ' :: printf_f 6 (V.dec_f w.colcor.2.1) ++
        ' ' :: printf_f 6 (V.dec_f w.colcor.2.2) := by
    unfold colcor_line
    simp only [List.append_assoc]
    rfl
  rw [e]
  exact hscan.1 _ _ _

/-- The primaries line written with decimal numbers is scanned by an `sscanf`
that reads what `printf` prints. -/
theorem prims_line_scanned (E : RadFloat) (V : RadDecimal) (w : Write (RadPrint.decimal V))
    (h8 : w.prims.length = 8) (hscan : sscanf_reads_printf E) :
    E.scan_prims ((sbuf_line (prims_line (RadPrint.decimal V) w)).drop 10) ≠ none := by
  have hid : sbuf_line (prims_line (RadPrint.decimal V) w)
      = prims_line (RadPrint.decimal V) w := by
    apply sbuf_line_id_of_no_cr
    · have l1 := flatten_map_length_le
        (fun p => ' ' :: (RadPrint.decimal V).fmt_4f p) 316 w.prims
        (fun a _ => by
          have := printf_f_length 4 (V.dec_4f a)
          simp only [List.length_cons, RadPrint.decimal]
          omega)
      have l0 : PRIMARYSTR.length = 10 := rfl
      have l4 : VIPS_SBUF_BUFFER_SIZE = 4096 := rfl
      unfold prims_line
      rw [List.length_append]
      rw [h8] at l1
      omega
    · exact fun h => (prims_line_plain V w _ h).2.1 rfl
    · exact fun h => (prims_line_plain V w _ h).2.2 rfl
  rw [hid]
  have e : (prims_line (RadPrint.decimal V) w).drop 10
      = ((w.prims.map V.dec_4f).map (fun p => ' ' :: printf_f 4 p)).flatten := by
    unfold prims_line
    rw [List.map_map]
    rfl
  rw [e]
  exact hscan.2 _ (by rw [List.length_map]; exact h8)

/-- Reading back the header written with decimal numbers, for any reader
whose `sscanf` converts the numbers that `printf` prints: when the format
string holds no line feed the header read succeeds and declares the
dimensions of the image written. -/
theorem header_read_back_decimal (E : RadFloat) (V : RadDecimal) (pre : Char)
    (img : SaveImage (RadPrint.decimal V))
    (hW : 0 < img.Xsize ∧ img.Xsize < VIPS_MAX_COORD)
    (hH : 0 < img.Ysize ∧ img.Ysize < VIPS_MAX_COORD)
    (hfmt : '\n' ∉ (vips2rad_make_header (RadPrint.decimal V) img
      (write_new (RadPrint.decimal V))).format)
    (hscan : sscanf_reads_printf E) :
    ∃ r out, rad2vips_get_header E pre
        (sbuf_lines (vips2rad_put_header (RadPrint.decimal V) img
          (write_new (RadPrint.decimal V)))) (read_new E) = some (r, out, []) ∧
      out.Xsize = img.Xsize ∧ out.Ysize = img.Ysize ∧ out.Bands = 4 ∧
      out.BandFmt = VipsBandFormat.UCHAR ∧ out.Coding = VipsCoding.RAD := by
  have h8 : (vips2rad_make_header (RadPrint.decimal V) img
      (write_new (RadPrint.decimal V))).prims.length = 8 := by
    simp [vips2rad_make_header, write_new, RadPrint.decimal]
  refine header_read_back E (RadPrint.decimal V) pre img hW hH ?_
    (colcor_line_scanned E V _ hscan) (prims_line_scanned E V _ h8 hscan)
  intro t ht
  simp only [header_texts, List.cons_append, List.nil_append, List.mem_cons, List.mem_map] at ht
  rcases ht with h | h | h | h | h | h | h | ⟨p, _, h⟩
  · rw [h]; exact hfmt
  · rw [h]; exact fun hc => (printf_e_plain _ _ hc).1 rfl
  · rw [h]; exact fun hc => (printf_f_plain _ _ _ hc).1 rfl
  · rw [h]; exact fun hc => (printf_f_plain _ _ _ hc).1 rfl
  · rw [h]; exact fun hc => (printf_f_plain _ _ _ hc).1 rfl
  · rw [h]; exact fun hc => (vips_version_string_plain _ _ hc).1 rfl
  · rw [h]; exact fun hc => (printf_f_plain _ _ _ hc).1 rfl
  · rw [← h]; exact fun hc => (printf_f_plain _ _ _ hc).1 rfl

set_option exponentiation.threshold 400 in
/-- The header that the decimal writer prints for a 5 x 3 scRGB image without
metadata. -/
theorem put_header_decimal_text :
    vips2rad_put_header (RadPrint.decimal RadDecimal.digits)
      ⟨5, 3, VipsInterpretation.scRGB, none, none, none, (none, none, none), []⟩
      (write_new (RadPrint.decimal RadDecimal.digits))
    = String.toList ("#?RADIANCE\nFORMAT=32-bit_rle_rgbe\nEXPOSURE=1.000000e+00\n" ++
        "COLORCORR= 1.000000 1.000000 1.000000\nSOFTWARE=vips 8.17.0\nPIXASPECT=1.000000\n" ++
        "PRIMARIES= 0.6400 0.3300 0.2900 0.6000 0.1500 0.0600 0.3333 0.3333\n\n" ++
        "-Y        3 +X        5\n") := by
  set_option maxRecDepth 100000 in
  decide

/-! ## foreign/radiance.c: the scanline generator in the memory of a region -/

theorem scanline_read_at_zero (inp : List Nat) (buf : List COLR) (width : Nat) :
    scanline_read_at inp buf 0 width = scanline_read inp buf width := by
  unfold scanline_read_at scanline_read
  by_cases h1 : width < MINELEN ∨ width > MAXELEN
  · rw [if_pos h1, if_pos h1]
  · rw [if_neg h1, if_neg h1]
    match inp with
    | [] | [_] | [_, _] | [_, _, _] => rfl
    | b0 :: b1 :: b2 :: b3 :: rest =>
      simp only [List.drop_zero, List.take_zero, List.nil_append]
      by_cases h2 : b0 ≠ 2
      · rw [if_pos h2, if_pos h2]
      · rw [if_neg h2, if_neg h2]
        cases put_colr buf 0 ⟨b0, b1, b2, b3⟩ with
        | error x => rfl
        | ok m =>
          simp only []
          by_cases h3 : b1 ≠ 2 ∨ b2 &&& 128 ≠ 0
          · rw [if_pos h3, if_pos h3]
          · rw [if_neg h3, if_neg h3]
            by_cases h4 : (b2 <<< 8) ||| b3 ≠ width
            · rw [if_pos h4, if_pos h4]
            · rw [if_neg h4, if_neg h4]
              cases rle_read_components width 4 0 rest m with
              | error x => rfl
              | ok v => rfl

theorem put_comp_no_load (b : List COLR) (j i v : Nat) : put_comp b j i v ≠ .error .oob_load := by
  unfold put_comp
  cases b[j]? <;> simp

theorem fill_run_no_load (i v : Nat) : ∀ (len j : Nat) (b : List COLR),
    fill_run i v len j b ≠ .error .oob_load
  | 0, j, b => by simp [fill_run]
  | len + 1, j, b => by
    unfold fill_run
    cases h : put_comp b j i v with
    | error e =>
      simp only []
      intro he
      simp only [Except.error.injEq] at he
      exact put_comp_no_load b j i v (by rw [h, he])
    | ok b1 => exact fill_run_no_load i v len (j + 1) b1

theorem copy_literal_no_load (i : Nat) : ∀ (vs : List Nat) (j : Nat) (b : List COLR),
    copy_literal i vs j b ≠ .error .oob_load
  | [], j, b => by simp [copy_literal]
  | v :: vs, j, b => by
    unfold copy_literal
    cases h : put_comp b j i v with
    | error e =>
      simp only []
      intro he
      simp only [Except.error.injEq] at he
      exact put_comp_no_load b j i v (by rw [h, he])
    | ok b1 => exact copy_literal_no_load i vs (j + 1) b1

theorem rle_read_component_no_load (i w : Nat) : ∀ (fuel : Nat) (inp : List Nat)
    (b : List COLR) (j : Nat), rle_read_component i w fuel inp b j ≠ .error .oob_load
  | 0, inp, b, j => by simp [rle_read_component]
  | fuel + 1, inp, b, j => by
    by_cases hj : j < w
    · match inp with
      | [] => simp [rle_read_component, hj]
      | [_] => simp [rle_read_component, hj]
      | code :: val :: rest =>
        simp only [rle_read_component, if_pos hj, decide_eq_true_eq]
        by_cases hov : j + (if code > 128 then code &&& 127 else code) > w
        · simp [hov]
        · simp only [hov, if_false]
          by_cases hrun : code > 128
          · simp only [hrun, if_true]
            cases h : fill_run i val (code &&& 127) j b with
            | error e =>
              have := fill_run_no_load i val (code &&& 127) j b
              rw [h] at this
              simpa using this
            | ok b1 => exact rle_read_component_no_load i w fuel rest b1 _
          · simp only [hrun, if_false]
            by_cases hreq : code ≤ (val :: rest).length
            · simp only [hreq, if_true]
              cases h : copy_literal i ((val :: rest).take code) j b with
              | error e =>
                have := copy_literal_no_load i ((val :: rest).take code) j b
                rw [h] at this
                simpa using this
              | ok b1 => exact rle_read_component_no_load i w fuel _ b1 _
            · simp only [hreq, if_false]
              simp
    · simp [rle_read_component, if_neg hj]

theorem rle_read_components_no_load (w : Nat) : ∀ (n i : Nat) (inp : List Nat)
    (b : List COLR), rle_read_components w n i inp b ≠ .error .oob_load
  | 0, i, inp, b => by simp [rle_read_components]
  | n + 1, i, inp, b => by
    unfold rle_read_components
    cases h : rle_read_component i w (inp.length + 1) inp b 0 with
    | error e =>
      have := rle_read_component_no_load i w (inp.length + 1) inp b 0
      rw [h] at this
      simpa using this
    | ok v =>
      obtain ⟨b1, inp1⟩ := v
      exact rle_read_components_no_load w n (i + 1) inp1 b1

/-- With a pixel in front of the pointer, the copy loop of a repeat never
loads outside the array, and it leaves what stands before the pointer. -/
theorem copy_previous_loads : ∀ (i width pos : Nat) (buf : List COLR),
    1 ≤ pos → pos + width ≤ buf.length →
    copy_previous i width pos buf ≠ .error .oob_load ∧
    (∀ b p w, copy_previous i width pos buf = .ok (b, p, w) →
      pos ≤ p ∧ ∀ k, k < pos → b[k]? = buf[k]?)
  | 0, width, pos, buf, _, _ => by
    simp only [copy_previous]
    refine ⟨by simp, ?_⟩
    intro b p w e
    simp only [Except.ok.injEq, Prod.mk.injEq] at e
    obtain ⟨e1, e2, _⟩ := e
    subst e1; subst e2
    exact ⟨le_refl _, fun _ _ => rfl⟩
  | i + 1, width, pos, buf, hp, h => by
    unfold copy_previous
    by_cases hw : width > 0
    · rw [if_pos hw]
      have hp0 : ¬ pos = 0 := by omega
      rw [if_neg hp0]
      have hlt : pos - 1 < buf.length := by omega
      rw [List.getElem?_eq_getElem hlt]
      simp only []
      rw [put_colr_ok buf pos _ (by omega)]
      simp only []
      have ih := copy_previous_loads i (width - 1) (pos + 1) (buf.set pos buf[pos - 1])
        (by omega) (by simp; omega)
      refine ⟨ih.1, ?_⟩
      intro b p w e
      obtain ⟨a1, a2⟩ := ih.2 b p w e
      refine ⟨by omega, ?_⟩
      intro k hk
      rw [a2 k (by omega), List.getElem?_set]
      have : ¬ pos = k := by omega
      simp [this]
    · rw [if_neg hw]
      refine ⟨by simp, ?_⟩
      intro b p w e
      simp only [Except.ok.injEq, Prod.mk.injEq] at e
      obtain ⟨e1, e2, _⟩ := e
      subst e1; subst e2
      exact ⟨le_refl _, fun _ _ => rfl⟩

/-- With a pixel in front of the pointer, `scanline_read_old` never loads
outside the array, and it leaves what stands before the pointer. -/
theorem scanline_read_old_loads : ∀ (n : Nat) (inp : List Nat) (buf : List COLR)
    (pos width rshift : Nat), inp.length ≤ n → 1 ≤ pos → pos + width ≤ buf.length →
    scanline_read_old inp buf pos width rshift ≠ .error .oob_load ∧
    (∀ o r, scanline_read_old inp buf pos width rshift = .ok (o, r) →
      ∀ k, k < pos → o[k]? = buf[k]?) := by
  intro n
  induction n with
  | zero =>
    intro inp buf pos width rshift hn _ _
    have : inp = [] := List.length_eq_zero.mp (by omega)
    subst this
    cases width with
    | zero =>
      simp only [scanline_read_old]
      refine ⟨by simp, ?_⟩
      intro o r e
      simp only [Except.ok.injEq, Prod.mk.injEq] at e
      rw [← e.1]
      exact fun _ _ => rfl
    | succ w =>
      simp only [scanline_read_old]
      refine ⟨by simp, ?_⟩
      intro o r e; simp at e
  | succ n ih =>
    intro inp buf pos width rshift hn hp hb
    cases width with
    | zero =>
      simp only [scanline_read_old]
      refine ⟨by simp, ?_⟩
      intro o r e
      simp only [Except.ok.injEq, Prod.mk.injEq] at e
      rw [← e.1]
      exact fun _ _ => rfl
    | succ w =>
      match inp, hn with
      | [], _ | [_], _ | [_, _], _ | [_, _, _], _ =>
        simp only [scanline_read_old]
        refine ⟨by simp, ?_⟩
        intro o r e; simp at e
      | r0 :: g0 :: b0 :: e0 :: rest, hn =>
        simp only [List.length_cons] at hn
        simp only [scanline_read_old]
        rw [put_colr_ok buf pos _ (by omega)]
        simp only []
        have hl : (buf.set pos ⟨r0, g0, b0, e0⟩).length = buf.length := by simp
        have hset : ∀ k, k < pos → (buf.set pos ⟨r0, g0, b0, e0⟩)[k]? = buf[k]? := by
          intro k hk
          rw [List.getElem?_set]
          have : ¬ pos = k := by omega
          simp [this]
        by_cases hm : r0 = 1 ∧ g0 = 1 ∧ b0 = 1
        · rw [if_pos hm]
          have hc := copy_previous_loads ((e0 <<< rshift) % 2 ^ 32) (w + 1) pos
            (buf.set pos ⟨r0, g0, b0, e0⟩) hp (by rw [hl]; exact hb)
          have hs := copy_previous_safe ((e0 <<< rshift) % 2 ^ 32) (w + 1) pos
            (buf.set pos ⟨r0, g0, b0, e0⟩) (by rw [hl]; exact hb)
          cases hcp : copy_previous ((e0 <<< rshift) % 2 ^ 32) (w + 1) pos
              (buf.set pos ⟨r0, g0, b0, e0⟩) with
          | error x =>
            simp only []
            refine ⟨?_, ?_⟩
            · intro h; rw [hcp] at hc
              simp only [Except.error.injEq] at h
              exact hc.1 (by rw [h])
            · intro o r e; simp at e
          | ok v =>
            obtain ⟨b2, p2, w2⟩ := v
            simp only []
            obtain ⟨c1, c2⟩ := hc.2 b2 p2 w2 hcp
            have h2 := hs.2.2 b2 p2 w2 hcp
            by_cases hsh : rshift + 8 > 24
            · rw [if_pos hsh]
              refine ⟨by simp, ?_⟩
              intro o r e; simp at e
            · rw [if_neg hsh]
              have := ih rest b2 p2 w2 (rshift + 8) (by omega) (by omega) h2.2
              refine ⟨this.1, ?_⟩
              intro o r e k hk
              rw [this.2 o r e k (by omega), c2 k hk, hset k hk]
        · rw [if_neg hm]
          have := ih rest (buf.set pos ⟨r0, g0, b0, e0⟩) (pos + 1) w 0 (by omega) (by omega)
            (by rw [hl]; omega)
          refine ⟨this.1, ?_⟩
          intro o r e k hk
          rw [this.2 o r e k (by omega), hset k hk]

/-- On an array that holds `pos >= 1` pixels in front of the pointer and
`width` pixels from it, `scanline_read` stores inside the array and loads
inside it, whatever the input; it leaves an array of the same length, with
the pixels in front of the pointer as they were. -/
theorem scanline_read_at_safe (inp : List Nat) (mem : List COLR) (pos width : Nat)
    (hp : 1 ≤ pos) (hl : mem.length = pos + width) :
    scanline_read_at inp mem pos width ≠ .error .oob ∧
    scanline_read_at inp mem pos width ≠ .error .oob_load ∧
    scanline_read_at inp mem pos width ≠ .error .fuel ∧
    (∀ o r, scanline_read_at inp mem pos width = .ok (o, r) →
      o.length = mem.length ∧ ∀ k, k < pos → o[k]? = mem[k]?) := by
  have hold : ∀ (inp : List Nat) (b : List COLR) (p w : Nat), b.length = mem.length →
      1 ≤ p → p + w ≤ mem.length →
      scanline_read_old inp b p w 0 ≠ .error .oob ∧
      scanline_read_old inp b p w 0 ≠ .error .oob_load ∧
      scanline_read_old inp b p w 0 ≠ .error .fuel ∧
      (∀ o r, scanline_read_old inp b p w 0 = .ok (o, r) →
        o.length = mem.length ∧ ∀ k, k < p → o[k]? = b[k]?) := by
    intro inp b p w hb h1 h2
    have s := scanline_read_old_safe inp.length inp b p w 0 (le_refl _) (by omega)
    have l := scanline_read_old_loads inp.length inp b p w 0 (le_refl _) h1 (by omega)
    refine ⟨s.1, l.1, s.2.1, ?_⟩
    intro o r e
    exact ⟨by rw [s.2.2 o r e, hb], l.2 o r e⟩
  unfold scanline_read_at
  by_cases h1 : width < MINELEN ∨ width > MAXELEN
  · rw [if_pos h1]
    exact hold inp mem pos width rfl hp (by omega)
  · rw [if_neg h1]
    have hmin : MINELEN ≤ width := by omega
    have h8 : MINELEN = 8 := rfl
    match inp with
    | [] | [_] | [_, _] | [_, _, _] =>
      refine ⟨by simp, by simp, by simp, ?_⟩
      intro o r e; simp at e
    | b0 :: b1 :: b2 :: b3 :: rest =>
      simp only []
      by_cases h2 : b0 ≠ 2
      · rw [if_pos h2]
        exact hold _ mem pos width rfl hp (by omega)
      · rw [if_neg h2]
        rw [put_colr_ok mem pos _ (by omega)]
        simp only []
        have hl1 : (mem.set pos ⟨b0, b1, b2, b3⟩).length = mem.length := by simp
        have hset : ∀ k, k < pos → (mem.set pos ⟨b0, b1, b2, b3⟩)[k]? = mem[k]? := by
          intro k hk
          rw [List.getElem?_set]
          have : ¬ pos = k := by omega
          simp [this]
        by_cases h3 : b1 ≠ 2 ∨ b2 &&& 128 ≠ 0
        · rw [if_pos h3]
          have := hold rest _ (pos + 1) (width - 1) hl1 (by omega) (by omega)
          refine ⟨this.1, this.2.1, this.2.2.1, ?_⟩
          intro o r e
          obtain ⟨a1, a2⟩ := this.2.2.2 o r e
          exact ⟨a1, fun k hk => by rw [a2 k (by omega), hset k hk]⟩
        · rw [if_neg h3]
          by_cases h4 : (b2 <<< 8) ||| b3 ≠ width
          · rw [if_pos h4]
            refine ⟨by simp, by simp, by simp, ?_⟩
            intro o r e; simp at e
          · rw [if_neg h4]
            have hd : ((mem.set pos ⟨b0, b1, b2, b3⟩).drop pos).length = width := by
              rw [List.length_drop, hl1]; omega
            have s := rle_read_components_safe width 4 0 rest _ hd
            have l := rle_read_components_no_load width 4 0 rest
              ((mem.set pos ⟨b0, b1, b2, b3⟩).drop pos)
            cases hr : rle_read_components width 4 0 rest
                ((mem.set pos ⟨b0, b1, b2, b3⟩).drop pos) with
            | error x =>
              rw [hr] at s l
              simp only []
              refine ⟨?_, ?_, ?_, ?_⟩
              · intro h
                simp only [Except.error.injEq] at h
                exact s.1 (by rw [h])
              · intro h
                simp only [Except.error.injEq] at h
                exact l (by rw [h])
              · intro h
                simp only [Except.error.injEq] at h
                exact s.2.1 (by rw [h])
              · intro o r e; simp at e
            | ok v =>
              obtain ⟨line, rest1⟩ := v
              simp only []
              have hline := s.2.2 line rest1 hr
              refine ⟨by simp, by simp, by simp, ?_⟩
              intro o r e
              simp only [Except.ok.injEq, Prod.mk.injEq] at e
              obtain ⟨e1, _⟩ := e
              subst e1
              have ht : ((mem.set pos ⟨b0, b1, b2, b3⟩).take pos).length = pos := by
                rw [List.length_take, hl1]; omega
              refine ⟨by rw [List.length_append, ht, hline, hl], ?_⟩
              intro k hk
              rw [List.getElem?_append_left (by rw [ht]; exact hk), List.getElem?_take_of_lt hk,
                hset k hk]

theorem generate_rows_mem_safe (before : COLR) : ∀ (n y : Nat) (inp : List Nat)
    (reg : RadRegion),
    reg.valid.left = 0 → (∀ row ∈ reg.rows, row.length = reg.Xsize) →
    y + n ≤ reg.rows.length →
    rad2vips_generate_rows_mem before n y inp reg ≠ .error .oob ∧
    rad2vips_generate_rows_mem before n y inp reg ≠ .error .oob_load ∧
    rad2vips_generate_rows_mem before n y inp reg ≠ .error .fuel ∧
    (∀ out rest, rad2vips_generate_rows_mem before n y inp reg = .ok (out, rest) →
      out.valid = reg.valid ∧ out.Xsize = reg.Xsize ∧ out.rows.length = reg.rows.length ∧
      (∀ row ∈ out.rows, row.length = reg.Xsize) ∧
      (∀ k, k < y ∨ y + n ≤ k → out.rows[k]? = reg.rows[k]?))
  | 0, y, inp, reg, _, hrows, _ => by
    simp only [rad2vips_generate_rows_mem]
    refine ⟨by simp, by simp, by simp, ?_⟩
    intro out rest e
    simp only [Except.ok.injEq, Prod.mk.injEq] at e
    obtain ⟨e1, _⟩ := e
    subst e1
    exact ⟨rfl, rfl, rfl, hrows, fun _ _ => rfl⟩
  | n + 1, y, inp, reg, hleft, hrows, hy => by
    have hlt : y < reg.rows.length := by omega
    have hview : region_scanline reg y = reg.rows[y] := by
      simp [region_scanline, hleft, List.getD_eq_getElem?_getD, List.getElem?_eq_getElem hlt]
    have hlen : (region_before before reg y :: region_scanline reg y).length
        = 1 + reg.Xsize := by
      rw [List.length_cons, hview, hrows _ (List.getElem_mem _)]
      omega
    have hs := scanline_read_at_safe inp (region_before before reg y :: region_scanline reg y)
      1 reg.Xsize (le_refl _) hlen
    unfold rad2vips_generate_rows_mem
    cases hr : scanline_read_at inp (region_before before reg y :: region_scanline reg y)
        1 reg.Xsize with
    | error x =>
      simp only []
      rw [hr] at hs
      refine ⟨?_, ?_, ?_, ?_⟩
      · intro h
        simp only [Except.error.injEq] at h
        exact hs.1 (by rw [h])
      · intro h
        simp only [Except.error.injEq] at h
        exact hs.2.1 (by rw [h])
      · intro h
        simp only [Except.error.injEq] at h
        exact hs.2.2.1 (by rw [h])
      · intro o r e; simp at e
    | ok v =>
      obtain ⟨mem, rest⟩ := v
      simp only [hleft, if_true]
      have hb : mem.tail.length = reg.Xsize := by
        have := (hs.2.2.2 mem rest hr).1
        rw [List.length_tail, this, hlen]
        omega
      have hrows2 : ∀ row ∈ (reg.rows.set y mem.tail), row.length = reg.Xsize := by
        intro row hrow
        rcases List.mem_or_eq_of_mem_set hrow with h | h
        · exact hrows row h
        · rw [h]; exact hb
      have ih := generate_rows_mem_safe before n (y + 1) rest
        { reg with rows := reg.rows.set y mem.tail } hleft hrows2 (by simp; omega)
      refine ⟨ih.1, ih.2.1, ih.2.2.1, ?_⟩
      intro out rest2 e
      obtain ⟨a1, a2, a3, a4, a5⟩ := ih.2.2.2 out rest2 e
      refine ⟨a1, a2, by simpa using a3, a4, ?_⟩
      intro k hk
      rw [a5 k (by omega)]
      simp only [List.getElem?_set]
      have : ¬ y = k := by omega
      simp [this]

/-- C15, as written, fails for a rectangle that does not span the width of
the image. Image 2 pixels wide, rectangle left=1 top=0 width=1 height=1,
stream `5 5 5 5 6 6 6 6`: the scanline is read from the address of column 0,
and the first pixel is stored there, to the left of the rectangle. With the
rectangle left=0 top=0 width=1 height=1 the second pixel is stored in
column 1, to the right of the rectangle. -/
theorem generate_partial_width_store :
    rad2vips_generate_mem ⟨0, 0, 0, 0⟩ [5, 5, 5, 5, 6, 6, 6, 6]
      ⟨⟨1, 0, 1, 1⟩, 2, [[⟨0, 0, 0, 0⟩]]⟩ = .error .oob ∧
    rad2vips_generate_mem ⟨0, 0, 0, 0⟩ [5, 5, 5, 5, 6, 6, 6, 6]
      ⟨⟨0, 0, 1, 1⟩, 2, [[⟨0, 0, 0, 0⟩]]⟩ = .error .oob := by
  decide

/-- C15, amended. `rad2vips_generate` does not mutate pixels outside its
output rectangle when the rectangle spans the width of the image: for every
requested rectangle `r` with `r.left = 0` and `r.width = Xsize`, whatever the
stream holds and whatever pixel stands in memory before the region, every
execution stores inside the rows of the rectangle (the outcome is never a
store out of bounds; a scanline that starts with a repeat marker loads the
pixel before the row and goes on), so the pixels written all lie in rows
`r.top .. r.top + r.height - 1` and columns `0 .. r.width - 1`; the call
returns 0 or -1, and on success the region keeps its rectangle and its
shape. -/
theorem generate_full_width_frame (before : COLR) (inp : List Nat) (reg : RadRegion)
    (hleft : reg.valid.left = 0) (hwidth : reg.valid.width = reg.Xsize)
    (hrows : reg.rows.length = reg.valid.height.toNat)
    (hrow : ∀ row ∈ reg.rows, (row.length : Int) = reg.valid.width) :
    rad2vips_generate_mem before inp reg ≠ .error .oob ∧
    rad2vips_generate_mem before inp reg ≠ .error .oob_load ∧
    rad2vips_generate_mem before inp reg ≠ .error .fuel ∧
    (∀ out rest, rad2vips_generate_mem before inp reg = .ok (out, rest) →
      out.valid = reg.valid ∧ out.rows.length = reg.rows.length ∧
      (∀ row ∈ out.rows, (row.length : Int) = reg.valid.width)) := by
  have hrow2 : ∀ row ∈ reg.rows, row.length = reg.Xsize := by
    intro row h
    have := hrow row h
    omega
  have h := generate_rows_mem_safe before reg.valid.height.toNat 0 inp reg hleft hrow2
    (by omega)
  unfold rad2vips_generate_mem
  refine ⟨h.1, h.2.1, h.2.2.1, ?_⟩
  intro out rest e
  obtain ⟨a1, _, a3, a4, _⟩ := h.2.2.2 out rest e
  refine ⟨a1, a3, ?_⟩
  intro row hr
  have := a4 row hr
  omega

/-- An instance of C15: two rows of an image 2 pixels wide, the second one a
repeat marker of count 2, which copies the last pixel of the first row; the
call returns 0 and leaves the byte 7 unread. -/
theorem generate_full_width_frame_witness :
    rad2vips_generate_mem ⟨9, 9, 9, 9⟩ [5, 5, 5, 5, 6, 6, 6, 6, 1, 1, 1, 2, 7]
      ⟨⟨0, 0, 2, 2⟩, 2, [[⟨0, 0, 0, 0⟩, ⟨0, 0, 0, 0⟩], [⟨0, 0, 0, 0⟩, ⟨0, 0, 0, 0⟩]]⟩
      ≠ .error .oob ∧
    rad2vips_generate_mem ⟨9, 9, 9, 9⟩ [5, 5, 5, 5, 6, 6, 6, 6, 1, 1, 1, 2, 7]
      ⟨⟨0, 0, 2, 2⟩, 2, [[⟨0, 0, 0, 0⟩, ⟨0, 0, 0, 0⟩], [⟨0, 0, 0, 0⟩, ⟨0, 0, 0, 0⟩]]⟩
      = .ok (⟨⟨0, 0, 2, 2⟩, 2,
          [[⟨5, 5, 5, 5⟩, ⟨6, 6, 6, 6⟩], [⟨6, 6, 6, 6⟩, ⟨6, 6, 6, 6⟩]]⟩, [7]) :=
  ⟨(generate_full_width_frame ⟨9, 9, 9, 9⟩ [5, 5, 5, 5, 6, 6, 6, 6, 1, 1, 1, 2, 7]
    ⟨⟨0, 0, 2, 2⟩, 2, [[⟨0, 0, 0, 0⟩, ⟨0, 0, 0, 0⟩], [⟨0, 0, 0, 0⟩, ⟨0, 0, 0, 0⟩]]⟩
    (by decide) (by decide) (by decide) (by decide)).1, by decide⟩

/-! ## foreign/radiance.c: a row that starts with a repeat marker -/

/-- C26 fails where a scanline starts with a repeat marker (the defect of
C25), for an image 2 pixels wide.
* Stream `1 1 1 2`, one row: the call for the strip of row 0 returns 0, and
  row 0 is two copies of the pixel that stands in memory before the region,
  `9 9 9 9` here, `7 7 7 7` with other memory.
* Stream `5 5 5 5 6 6 6 6 1 1 1 2 7`, two rows, the second one a repeat
  marker of count 2. Called once for the strip of rows 0 and 1,
  `rad2vips_generate` returns 0 and row 1 is two copies of the last pixel of
  row 0. Called for row 0 and then for row 1, it returns 0 twice and leaves
  the same stream position, and row 1 is two copies of the pixel that stands
  in memory before the second region.
So the row is not a scanline decoded from the stream: it changes with the
strips and with memory outside the image. -/
theorem generate_row_from_memory :
    rad2vips_generate_mem ⟨9, 9, 9, 9⟩ [1, 1, 1, 2]
      ⟨⟨0, 0, 2, 1⟩, 2, [[⟨0, 0, 0, 0⟩, ⟨0, 0, 0, 0⟩]]⟩
      = .ok (⟨⟨0, 0, 2, 1⟩, 2, [[⟨9, 9, 9, 9⟩, ⟨9, 9, 9, 9⟩]]⟩, []) ∧
    rad2vips_generate_mem ⟨7, 7, 7, 7⟩ [1, 1, 1, 2]
      ⟨⟨0, 0, 2, 1⟩, 2, [[⟨0, 0, 0, 0⟩, ⟨0, 0, 0, 0⟩]]⟩
      = .ok (⟨⟨0, 0, 2, 1⟩, 2, [[⟨7, 7, 7, 7⟩, ⟨7, 7, 7, 7⟩]]⟩, []) ∧
    rad2vips_generate_mem ⟨9, 9, 9, 9⟩ [5, 5, 5, 5, 6, 6, 6, 6, 1, 1, 1, 2, 7]
      ⟨⟨0, 0, 2, 2⟩, 2, [[⟨0, 0, 0, 0⟩, ⟨0, 0, 0, 0⟩], [⟨0, 0, 0, 0⟩, ⟨0, 0, 0, 0⟩]]⟩
      = .ok (⟨⟨0, 0, 2, 2⟩, 2,
          [[⟨5, 5, 5, 5⟩, ⟨6, 6, 6, 6⟩], [⟨6, 6, 6, 6⟩, ⟨6, 6, 6, 6⟩]]⟩, [7]) ∧
    rad2vips_generate_mem ⟨9, 9, 9, 9⟩ [5, 5, 5, 5, 6, 6, 6, 6, 1, 1, 1, 2, 7]
      ⟨⟨0, 0, 2, 1⟩, 2, [[⟨0, 0, 0, 0⟩, ⟨0, 0, 0, 0⟩]]⟩
      = .ok (⟨⟨0, 0, 2, 1⟩, 2, [[⟨5, 5, 5, 5⟩, ⟨6, 6, 6, 6⟩]]⟩, [1, 1, 1, 2, 7]) ∧
    rad2vips_generate_mem ⟨9, 9, 9, 9⟩ [1, 1, 1, 2, 7]
      ⟨⟨0, 1, 2, 1⟩, 2, [[⟨0, 0, 0, 0⟩, ⟨0, 0, 0, 0⟩]]⟩
      = .ok (⟨⟨0, 1, 2, 1⟩, 2, [[⟨9, 9, 9, 9⟩, ⟨9, 9, 9, 9⟩]]⟩, [7]) := by
  decide

/-! ## resample/quadratic.c: clipping, in the arithmetic of `double` -/

theorem double_vec_read_ok (A : DoubleOps) (vec : List A.D) (i : Nat) (h : i < vec.length) :
    A.vec_read vec i = .ok vec[i] := by
  simp [DoubleOps.vec_read, List.getElem?_eq_getElem h]

theorem double_row_start_ok (A : DoubleOps) (vec : List A.D) (order xlow yo : Int)
    (ho : (order = 0 ∧ 2 ≤ vec.length) ∨ (order = 1 ∧ 6 ≤ vec.length) ∨
      (order = 2 ∧ 8 ≤ vec.length) ∨ (order = 3 ∧ 12 ≤ vec.length)) :
    ∃ s, A.quadratic_row_start vec order xlow yo = .ok s := by
  rcases ho with ⟨h, hv⟩ | ⟨h, hv⟩ | ⟨h, hv⟩ | ⟨h, hv⟩ <;> subst h
  · have r0 := double_vec_read_ok A vec 0 (by omega)
    have r1 := double_vec_read_ok A vec 1 (by omega)
    simp [DoubleOps.quadratic_row_start, DoubleOps.quadratic_case0, r0, r1, bind, Except.bind,
      pure, Except.pure]
  · have r0 := double_vec_read_ok A vec 0 (by omega)
    have r1 := double_vec_read_ok A vec 1 (by omega)
    have r2 := double_vec_read_ok A vec 2 (by omega)
    have r3 := double_vec_read_ok A vec 3 (by omega)
    have r4 := double_vec_read_ok A vec 4 (by omega)
    have r5 := double_vec_read_ok A vec 5 (by omega)
    simp [DoubleOps.quadratic_row_start, DoubleOps.quadratic_case0, DoubleOps.quadratic_case1,
      r0, r1, r2, r3, r4, r5, bind, Except.bind, pure, Except.pure]
  · have r0 := double_vec_read_ok A vec 0 (by omega)
    have r1 := double_vec_read_ok A vec 1 (by omega)
    have r2 := double_vec_read_ok A vec 2 (by omega)
    have r3 := double_vec_read_ok A vec 3 (by omega)
    have r4 := double_vec_read_ok A vec 4 (by omega)
    have r5 := double_vec_read_ok A vec 5 (by omega)
    have r6 := double_vec_read_ok A vec 6 (by omega)
    have r7 := double_vec_read_ok A vec 7 (by omega)
    simp [DoubleOps.quadratic_row_start, DoubleOps.quadratic_case0, DoubleOps.quadratic_case1,
      DoubleOps.quadratic_case2, r0, r1, r2, r3, r4, r5, r6, r7, bind, Except.bind, pure,
      Except.pure]
  · have r0 := double_vec_read_ok A vec 0 (by omega)
    have r1 := double_vec_read_ok A vec 1 (by omega)
    have r2 := double_vec_read_ok A vec 2 (by omega)
    have r3 := double_vec_read_ok A vec 3 (by omega)
    have r4 := double_vec_read_ok A vec 4 (by omega)
    have r5 := double_vec_read_ok A vec 5 (by omega)
    have r6 := double_vec_read_ok A vec 6 (by omega)
    have r7 := double_vec_read_ok A vec 7 (by omega)
    have r8 := double_vec_read_ok A vec 8 (by omega)
    have r9 := double_vec_read_ok A vec 9 (by omega)
    have r10 := double_vec_read_ok A vec 10 (by omega)
    have r11 := double_vec_read_ok A vec 11 (by omega)
    simp [DoubleOps.quadratic_row_start, DoubleOps.quadratic_case0, DoubleOps.quadratic_case1,
      DoubleOps.quadratic_case2, DoubleOps.quadratic_case3, r0, r1, r2, r3, r4, r5, r6, r7,
      r8, r9, r10, r11, bind, Except.bind, pure, Except.pure]

theorem double_rows_ok (A : DoubleOps) (vec : List A.D) (order cw ch xlow xhigh : Int)
    (ho : (order = 0 ∧ 2 ≤ vec.length) ∨ (order = 1 ∧ 6 ≤ vec.length) ∨
      (order = 2 ∧ 8 ≤ vec.length) ∨ (order = 3 ∧ 12 ≤ vec.length)) :
    ∀ (n : Nat) (yo : Int),
      ∃ rows, A.quadratic_rows vec order cw ch xlow xhigh n yo = .ok rows := by
  intro n
  induction n with
  | zero => intro yo; exact ⟨[], rfl⟩
  | succ m ih =>
    intro yo
    obtain ⟨s, hs⟩ := double_row_start_ok A vec order xlow yo ho
    obtain ⟨rest, hr⟩ := ih (yo + 1)
    simp only [DoubleOps.quadratic_rows, bind, Except.bind, pure, Except.pure, hs, hr]
    exact ⟨_, rfl⟩

theorem double_row_getElem (A : DoubleOps) (order cw ch : Int) :
    ∀ (n : Nat) (s : A.Step) (k : Nat), k < n →
      (A.quadratic_row order cw ch n s)[k]?
        = some (A.quadratic_pel cw ch ((A.quadratic_advance order)^[k] s)) := by
  intro n
  induction n with
  | zero => intro s k hk; omega
  | succ m ih =>
    intro s k hk
    cases k with
    | zero => simp [DoubleOps.quadratic_row]
    | succ j =>
      simp only [DoubleOps.quadratic_row, List.getElem?_cons_succ, Function.iterate_succ_apply]
      exact ih (A.quadratic_advance order s) j (by omega)

theorem double_row_length (A : DoubleOps) (order cw ch : Int) :
    ∀ (n : Nat) (s : A.Step), (A.quadratic_row order cw ch n s).length = n := by
  intro n
  induction n with
  | zero => intro s; rfl
  | succ m ih => intro s; simp [DoubleOps.quadratic_row, ih]

theorem double_rows_getElem (A : DoubleOps) (vec : List A.D) (order cw ch xlow xhigh : Int) :
    ∀ (n : Nat) (yo : Int) (rows : List (List A.Pel)),
      A.quadratic_rows vec order cw ch xlow xhigh n yo = .ok rows →
      rows.length = n ∧
      ∀ r, r < n → ∃ s, A.quadratic_row_start vec order xlow (yo + r) = .ok s ∧
        rows[r]? = some (A.quadratic_row order cw ch (xhigh - xlow).toNat s) := by
  intro n
  induction n with
  | zero =>
    intro yo rows h
    simp only [DoubleOps.quadratic_rows, Except.ok.injEq] at h
    subst h
    exact ⟨rfl, fun r hr => by omega⟩
  | succ m ih =>
    intro yo rows h
    simp only [DoubleOps.quadratic_rows, bind, Except.bind, pure, Except.pure] at h
    cases hs : A.quadratic_row_start vec order xlow yo with
    | error e => simp [hs] at h
    | ok s =>
      simp only [hs] at h
      cases hr : A.quadratic_rows vec order cw ch xlow xhigh m (yo + 1) with
      | error e => simp [hr] at h
      | ok rest =>
        simp only [hr, Except.ok.injEq] at h
        subst h
        obtain ⟨hl, hrow⟩ := ih (yo + 1) rest hr
        refine ⟨by simp [hl], ?_⟩
        intro r hrlt
        cases r with
        | zero => exact ⟨s, by simpa using hs, by simp⟩
        | succ j =>
          obtain ⟨s', hs', hj⟩ := hrow j (by omega)
          refine ⟨s', ?_, by simpa using hj⟩
          have : yo + ((j + 1 : Nat) : Int) = yo + 1 + (j : Int) := by push_cast; ring
          rw [this]; exact hs'

/-- The conversion to `int` of a `double` in the open interval (-1, 0) is 0. -/
theorem double_to_int_between (A : DoubleOps) (x : A.D) (q : ℚ) (hv : A.value x = some q)
    (h1 : -1 < q) (h2 : q < 0) : double_to_int A x = 0 := by
  have ht := trunc_between q h1 (by linarith)
  unfold double_to_int
  rw [hv]
  simp only [ht]
  rw [if_pos (by norm_num)]

/-- C23. Clipping in `vips_quadratic_gen`, in the arithmetic of `double`
(whatever the rounding of the sums and products), for a matrix with the
coefficients of its order: the function writes one row for each row of the
rectangle and one pel for each of its columns, and the pel in row `r`, column
`k` is decided by the position `(fxi, fyi)` that the stepping has reached
there, with `xi`, `yi` the coordinates converted to `int`:
* the pel is `ps` zero bytes iff `xi < 0` or `yi < 0` or `xi >= clip_width` or
  `yi >= clip_height`, the size of the original input;
* otherwise it is the result of one call of the interpolator with the
  untruncated `(fxi, fyi)`;
* a coordinate in the open interval (-1, 0) converts to 0, so such a pel is
  interpolated, not clipped, when the other coordinate is inside. -/
theorem quadratic_clipping (A : DoubleOps) (vec : List A.D)
    (order clip_width clip_height : Int) (valid : VipsRect)
    (ho : (order = 0 ∧ 2 ≤ vec.length) ∨ (order = 1 ∧ 6 ≤ vec.length) ∨
      (order = 2 ∧ 8 ≤ vec.length) ∨ (order = 3 ∧ 12 ≤ vec.length)) :
    ∃ rows, A.vips_quadratic_gen false vec order clip_width clip_height valid = .ok rows ∧
      rows.length = valid.height.toNat ∧
      ∀ r : Nat, r < valid.height.toNat →
        ∃ row s0, rows[r]? = some row ∧ row.length = valid.width.toNat ∧
          A.quadratic_row_start vec order valid.left (valid.top + r) = .ok s0 ∧
          ∀ k : Nat, k < valid.width.toNat →
            ∃ s p, s = (A.quadratic_advance order)^[k] s0 ∧ row[k]? = some p ∧
              (p = DoubleOps.Pel.zero ↔
                (double_to_int A s.fxi < 0 ∨ double_to_int A s.fyi < 0 ∨
                  double_to_int A s.fxi ≥ clip_width ∨
                  double_to_int A s.fyi ≥ clip_height)) ∧
              (¬ (double_to_int A s.fxi < 0 ∨ double_to_int A s.fyi < 0 ∨
                  double_to_int A s.fxi ≥ clip_width ∨
                  double_to_int A s.fyi ≥ clip_height) →
                p = DoubleOps.Pel.interpolate s.fxi s.fyi) ∧
              (∀ q : ℚ, A.value s.fxi = some q → -1 < q → q < 0 → 0 < clip_width →
                0 ≤ double_to_int A s.fyi → double_to_int A s.fyi < clip_height →
                double_to_int A s.fxi = 0 ∧ p = DoubleOps.Pel.interpolate s.fxi s.fyi) ∧
              (∀ q : ℚ, A.value s.fyi = some q → -1 < q → q < 0 → 0 < clip_height →
                0 ≤ double_to_int A s.fxi → double_to_int A s.fxi < clip_width →
                double_to_int A s.fyi = 0 ∧ p = DoubleOps.Pel.interpolate s.fxi s.fyi) := by
  have eh : (VIPS_RECT_BOTTOM valid - valid.top).toNat = valid.height.toNat := by
    unfold VIPS_RECT_BOTTOM
    rw [add_sub_cancel_left]
  have ew : (VIPS_RECT_RIGHT valid - valid.left).toNat = valid.width.toNat := by
    unfold VIPS_RECT_RIGHT
    rw [add_sub_cancel_left]
  obtain ⟨rows, hr⟩ := double_rows_ok A vec order clip_width clip_height valid.left
    (VIPS_RECT_RIGHT valid) ho (VIPS_RECT_BOTTOM valid - valid.top).toNat valid.top
  have hgen : A.vips_quadratic_gen false vec order clip_width clip_height valid = .ok rows := by
    unfold DoubleOps.vips_quadratic_gen
    simp only [Bool.false_eq_true, if_false, hr]
  obtain ⟨hl, hrow⟩ := double_rows_getElem A vec order clip_width clip_height valid.left
    (VIPS_RECT_RIGHT valid) _ valid.top rows hr
  rw [eh] at hl hrow
  refine ⟨rows, hgen, hl, ?_⟩
  intro r hr'
  obtain ⟨s0, hs0, hget⟩ := hrow r hr'
  rw [ew] at hget
  refine ⟨_, s0, hget, double_row_length A _ _ _ _ _, hs0, ?_⟩
  intro k hk
  refine ⟨(A.quadratic_advance order)^[k] s0, _, rfl,
    double_row_getElem A order clip_width clip_height _ s0 k hk, ?_, ?_, ?_, ?_⟩
  · unfold DoubleOps.quadratic_pel
    simp only
    split_ifs with h
    · exact ⟨fun _ => h, fun _ => rfl⟩
    · exact ⟨fun e => absurd e (by simp), fun h' => absurd h' h⟩
  · intro h
    unfold DoubleOps.quadratic_pel
    simp only
    rw [if_neg h]
  · intro q hv h1 h2 hw h3 h4
    have ht := double_to_int_between A _ q hv h1 h2
    refine ⟨ht, ?_⟩
    unfold DoubleOps.quadratic_pel
    simp only
    rw [if_neg]
    rw [ht]
    omega
  · intro q hv h1 h2 hw h3 h4
    have ht := double_to_int_between A _ q hv h1 h2
    refine ⟨ht, ?_⟩
    unfold DoubleOps.quadratic_pel
    simp only
    rw [if_neg]
    rw [ht]
    omega

/-- An instance of C23 in exact arithmetic: order 0 with the offsets
(-1/2, 0), the rectangle left=0 top=0 width=2 height=1 and a 5 x 5 input.
The first pel has the source position (-1/2, 0), which converts to (0, 0): it
is interpolated; so is the second, at (1/2, 0). With sums rounded down to
integers the first position is (-1, 0) and the pel is clipped. -/
theorem quadratic_clipping_witness :
    (∃ rows, DoubleOps.exact.vips_quadratic_gen false ([-1 / 2, 0] : List ℚ) 0 5 5 ⟨0, 0, 2, 1⟩ = .ok rows ∧
      rows.length = (1 : Int).toNat ∧
      ∀ r : Nat, r < (1 : Int).toNat →
        ∃ row s0, rows[r]? = some row ∧ row.length = (2 : Int).toNat ∧
          DoubleOps.exact.quadratic_row_start ([-1 / 2, 0] : List ℚ) 0 (0 : Int) ((0 : Int) + r)
            = .ok s0 ∧
          ∀ k : Nat, k < (2 : Int).toNat →
            ∃ s p, s = (DoubleOps.exact.quadratic_advance 0)^[k] s0 ∧ row[k]? = some p ∧
              (p = DoubleOps.Pel.zero ↔
                (double_to_int DoubleOps.exact s.fxi < 0 ∨
                  double_to_int DoubleOps.exact s.fyi < 0 ∨
                  double_to_int DoubleOps.exact s.fxi ≥ 5 ∨
                  double_to_int DoubleOps.exact s.fyi ≥ 5)) ∧
              (¬ (double_to_int DoubleOps.exact s.fxi < 0 ∨
                  double_to_int DoubleOps.exact s.fyi < 0 ∨
                  double_to_int DoubleOps.exact s.fxi ≥ 5 ∨
                  double_to_int DoubleOps.exact s.fyi ≥ 5) →
                p = DoubleOps.Pel.interpolate s.fxi s.fyi) ∧
              (∀ q : ℚ, DoubleOps.exact.value s.fxi = some q → -1 < q → q < 0 → (0 : Int) < 5 →
                0 ≤ double_to_int DoubleOps.exact s.fyi →
                double_to_int DoubleOps.exact s.fyi < 5 →
                double_to_int DoubleOps.exact s.fxi = 0 ∧
                  p = DoubleOps.Pel.interpolate s.fxi s.fyi) ∧
              (∀ q : ℚ, DoubleOps.exact.value s.fyi = some q → -1 < q → q < 0 → (0 : Int) < 5 →
                0 ≤ double_to_int DoubleOps.exact s.fxi →
                double_to_int DoubleOps.exact s.fxi < 5 →
                double_to_int DoubleOps.exact s.fyi = 0 ∧
                  p = DoubleOps.Pel.interpolate s.fxi s.fyi)) ∧
    DoubleOps.exact.vips_quadratic_gen false ([-1 / 2, 0] : List ℚ) 0 5 5 ⟨0, 0, 2, 1⟩
      = .ok [[DoubleOps.Pel.interpolate (-1 / 2 : ℚ) (0 : ℚ),
              DoubleOps.Pel.interpolate (1 / 2 : ℚ) (0 : ℚ)]] ∧
    DoubleOps.floor_sums.vips_quadratic_gen false ([-1 / 2, 0] : List ℚ) 0 5 5 ⟨0, 0, 1, 1⟩
      = .ok [[DoubleOps.Pel.zero]] :=
  ⟨quadratic_clipping DoubleOps.exact ([-1 / 2, 0] : List ℚ) 0 5 5 ⟨0, 0, 2, 1⟩
    (Or.inl ⟨rfl, by decide⟩),
   by
    have t0 : trunc (0 : ℚ) = 0 := by simpa using trunc_intCast 0
    have t1 : trunc (-1 / 2 : ℚ) = 0 := trunc_between _ (by norm_num) (by norm_num)
    have t2 : trunc (1 / 2 : ℚ) = 0 := trunc_between _ (by norm_num) (by norm_num)
    have t3 : trunc (2⁻¹ : ℚ) = 0 := trunc_between _ (by norm_num) (by norm_num)
    have e1 : ((0 : ℚ) + -1 / 2) = -1 / 2 := by norm_num
    have e2 : ((-1 / 2 : ℚ) + 1) = 1 / 2 := by norm_num
    simp [DoubleOps.vips_quadratic_gen, VIPS_RECT_RIGHT, VIPS_RECT_BOTTOM,
      DoubleOps.quadratic_rows, DoubleOps.quadratic_row_start, DoubleOps.quadratic_case0,
      DoubleOps.vec_read, DoubleOps.quadratic_row, DoubleOps.quadratic_pel,
      DoubleOps.quadratic_advance, DoubleOps.exact, double_to_int, bind, Except.bind, pure,
      Except.pure, t0, t1, t2, t3, e1, e2],
   by
    have t0 : trunc (0 : ℚ) = 0 := by simpa using trunc_intCast 0
    have t1 : trunc (-1 : ℚ) = -1 := by simpa using trunc_intCast (-1)
    have f1 : ⌊(-1 / 2 : ℚ)⌋ = -1 := by
      rw [Int.floor_eq_iff]; norm_num
    simp [DoubleOps.vips_quadratic_gen, VIPS_RECT_RIGHT, VIPS_RECT_BOTTOM,
      DoubleOps.quadratic_rows, DoubleOps.quadratic_row_start, DoubleOps.quadratic_case0,
      DoubleOps.vec_read, DoubleOps.quadratic_row, DoubleOps.quadratic_pel,
      DoubleOps.quadratic_advance, DoubleOps.floor_sums, double_to_int, bind, Except.bind,
      pure, Except.pure, t0, t1, f1]⟩

/-! ## foreign/radiance.c: the two readings of `scanline[-1]` agree

Where the reading that counts a load before the array as a fault does not
report that fault, the execution in memory gives the same result. -/

theorem put_colr_shift (prev : COLR) (buf : List COLR) (pos : Nat) (c : COLR) :
    put_colr (prev :: buf) (pos + 1) c
      = (put_colr buf pos c).map (fun b => prev :: b) := by
  unfold put_colr
  by_cases h : pos < buf.length
  · rw [if_pos h, if_pos (by simpa using h)]
    rfl
  · rw [if_neg h, if_neg (by simpa using h)]
    rfl

theorem copy_previous_shift (prev : COLR) : ∀ (i width pos : Nat) (buf : List COLR),
    copy_previous i width pos buf ≠ .error .oob_load →
    copy_previous i width (pos + 1) (prev :: buf)
      = (copy_previous i width pos buf).map (fun x => (prev :: x.1, x.2.1 + 1, x.2.2))
  | 0, width, pos, buf, _ => by simp [copy_previous, Except.map]
  | i + 1, width, pos, buf, h => by
    by_cases hw : width > 0
    · by_cases hp : pos = 0
      · exact absurd (by simp [copy_previous, hw, hp]) h
      · have e : (prev :: buf)[pos]? = buf[pos - 1]? := by
          obtain ⟨m, rfl⟩ : ∃ m, pos = m + 1 := ⟨pos - 1, by omega⟩
          simp
        cases hb : buf[pos - 1]? with
        | none => exact absurd (by simp [copy_previous, hw, hp, hb]) h
        | some c =>
          cases hc : put_colr buf pos c with
          | error x =>
            have l : copy_previous (i + 1) width (pos + 1) (prev :: buf) = .error x := by
              simp [copy_previous, hw, e, hb, put_colr_shift, hc, Except.map]
            have r : copy_previous (i + 1) width pos buf = .error x := by
              simp [copy_previous, hw, hp, hb, hc]
            rw [l, r]
            rfl
          | ok buf1 =>
            have l : copy_previous (i + 1) width (pos + 1) (prev :: buf)
                = copy_previous i (width - 1) (pos + 1 + 1) (prev :: buf1) := by
              simp [copy_previous, hw, e, hb, put_colr_shift, hc, Except.map]
            have r : copy_previous (i + 1) width pos buf
                = copy_previous i (width - 1) (pos + 1) buf1 := by
              simp [copy_previous, hw, hp, hb, hc]
            rw [r] at h
            rw [l, r]
            exact copy_previous_shift prev i (width - 1) (pos + 1) buf1 h
    · simp [copy_previous, hw, Except.map]

theorem scanline_read_old_shift (prev : COLR) : ∀ (n : Nat) (inp : List Nat)
    (buf : List COLR) (pos width rshift : Nat), inp.length ≤ n →
    scanline_read_old inp buf pos width rshift ≠ .error .oob_load →
    scanline_read_old inp (prev :: buf) (pos + 1) width rshift
      = (scanline_read_old inp buf pos width rshift).map (fun x => (prev :: x.1, x.2)) := by
  intro n
  induction n with
  | zero =>
    intro inp buf pos width rshift hn _
    have : inp = [] := List.length_eq_zero.mp (by omega)
    subst this
    cases width <;> simp [scanline_read_old, Except.map]
  | succ n ih =>
    intro inp buf pos width rshift hn h
    cases width with
    | zero => simp [scanline_read_old, Except.map]
    | succ w =>
      match inp, hn with
      | [], _ | [_], _ | [_, _], _ | [_, _, _], _ => simp [scanline_read_old, Except.map]
      | r0 :: g0 :: b0 :: e0 :: rest, hn =>
        simp only [List.length_cons] at hn
        simp only [scanline_read_old] at h ⊢
        rw [put_colr_shift]
        cases hc : put_colr buf pos ⟨r0, g0, b0, e0⟩ with
        | error x => simp [Except.map]
        | ok buf1 =>
          rw [hc] at h
          simp only [Except.map] at h ⊢
          by_cases hm : r0 = 1 ∧ g0 = 1 ∧ b0 = 1
          · simp only [if_pos hm] at h ⊢
            have hcp : copy_previous ((e0 <<< rshift) % 2 ^ 32) (w + 1) pos buf1
                ≠ .error .oob_load := by
              intro hh
              rw [hh] at h
              exact h rfl
            rw [copy_previous_shift prev _ _ _ _ hcp]
            cases hv : copy_previous ((e0 <<< rshift) % 2 ^ 32) (w + 1) pos buf1 with
            | error x => simp [Except.map]
            | ok v =>
              obtain ⟨b2, p2, w2⟩ := v
              rw [hv] at h
              simp only [Except.map] at h ⊢
              by_cases hs : rshift + 8 > 24
              · simp only [if_pos hs]
              · simp only [if_neg hs] at h ⊢
                have := ih rest b2 p2 w2 (rshift + 8) (by omega) h
                simpa [Except.map] using this
          · simp only [if_neg hm] at h ⊢
            have := ih rest buf1 (pos + 1) w 0 (by omega) h
            simpa [Except.map] using this

/-- Where `scanline_read` on the array alone does not load before it, the
read with a pixel in front of the array gives the same scanline, and leaves
that pixel. -/
theorem scanline_read_at_shift (prev : COLR) (inp : List Nat) (buf : List COLR) (width : Nat)
    (h : scanline_read inp buf width ≠ .error .oob_load) :
    scanline_read_at inp (prev :: buf) 1 width
      = (scanline_read inp buf width).map (fun x => (prev :: x.1, x.2)) := by
  unfold scanline_read at h ⊢
  unfold scanline_read_at
  by_cases h1 : width < MINELEN ∨ width > MAXELEN
  · rw [if_pos h1] at h ⊢
    rw [if_pos h1]
    exact scanline_read_old_shift prev inp.length inp buf 0 width 0 (le_refl _) h
  · rw [if_neg h1] at h ⊢
    rw [if_neg h1]
    match inp with
    | [] | [_] | [_, _] | [_, _, _] => simp [Except.map]
    | b0 :: b1 :: b2 :: b3 :: rest =>
      simp only [] at h ⊢
      by_cases h2 : b0 ≠ 2
      · rw [if_pos h2] at h ⊢
        rw [if_pos h2]
        exact scanline_read_old_shift prev _ _ buf 0 width 0 (le_refl _) h
      · rw [if_neg h2] at h ⊢
        rw [if_neg h2]
        have e := put_colr_shift prev buf 0 ⟨b0, b1, b2, b3⟩
        simp only [Nat.zero_add] at e
        rw [e]
        cases hc : put_colr buf 0 ⟨b0, b1, b2, b3⟩ with
        | error x => simp [Except.map]
        | ok buf1 =>
          rw [hc] at h
          simp only [Except.map] at h ⊢
          by_cases h3 : b1 ≠ 2 ∨ b2 &&& 128 ≠ 0
          · rw [if_pos h3] at h ⊢
            rw [if_pos h3]
            have := scanline_read_old_shift prev rest.length rest buf1 1 (width - 1) 0
              (le_refl _) h
            simpa [Except.map] using this
          · rw [if_neg h3] at h ⊢
            rw [if_neg h3]
            by_cases h4 : (b2 <<< 8) ||| b3 ≠ width
            · rw [if_pos h4, if_pos h4]
            · rw [if_neg h4, if_neg h4]
              simp only [List.drop_succ_cons, List.drop_zero, List.take_succ_cons,
                List.take_zero]
              cases rle_read_components width 4 0 rest buf1 with
              | error x => rfl
              | ok v => rfl

theorem generate_rows_mem_eq (before : COLR) : ∀ (n y : Nat) (inp : List Nat)
    (reg : RadRegion), rad2vips_generate_rows n y inp reg ≠ .error .oob_load →
    rad2vips_generate_rows_mem before n y inp reg = rad2vips_generate_rows n y inp reg
  | 0, y, inp, reg, _ => rfl
  | n + 1, y, inp, reg, h => by
    unfold rad2vips_generate_rows at h ⊢
    unfold rad2vips_generate_rows_mem
    have hs : scanline_read inp (region_scanline reg y) reg.Xsize ≠ .error .oob_load := by
      intro hh
      rw [hh] at h
      exact h rfl
    rw [scanline_read_at_shift _ inp _ _ hs]
    cases hv : scanline_read inp (region_scanline reg y) reg.Xsize with
    | error x => rfl
    | ok v =>
      obtain ⟨buf, rest⟩ := v
      rw [hv] at h
      simp only [Except.map, List.tail_cons] at h ⊢
      exact generate_rows_mem_eq before n (y + 1) rest _ h

/-- Where `rad2vips_generate`, read with a load before the array as a fault,
does not report that fault, the execution in memory has the same outcome,
whatever stands in memory before the region: no scanline started with a
repeat that copies the pixel before the row. -/
theorem generate_mem_eq (before : COLR) (inp : List Nat) (reg : RadRegion)
    (h : rad2vips_generate inp reg ≠ .error .oob_load) :
    rad2vips_generate_mem before inp reg = rad2vips_generate inp reg :=
  generate_rows_mem_eq before _ 0 inp reg h

/-- Sequential scanline filling in memory, for a stream whose scanlines do
not start with a repeat that copies the pixel before the row: a call for a
full-width rectangle gives the rows and the stream position of decoding
`height` scanlines one after the other, whatever the region held, whatever
stands in memory before it and whatever its `top` is, and it fails with the
error of the first scanline that fails to decode. -/
theorem generate_mem_decode (before : COLR) (inp : List Nat) (reg : RadRegion)
    (hleft : reg.valid.left = 0) (hrows : reg.rows.length = reg.valid.height.toNat)
    (hrow : ∀ row ∈ reg.rows, row.length = reg.Xsize)
    (h : decode_scanlines reg.Xsize reg.valid.height.toNat inp ≠ .error .oob_load) :
    (rad2vips_generate_mem before inp reg).map (fun x => (x.1.rows, x.2))
      = decode_scanlines reg.Xsize reg.valid.height.toNat inp := by
  have hd := generate_decode inp reg hleft hrows hrow
  have hg : rad2vips_generate inp reg ≠ .error .oob_load := by
    intro hh
    rw [hh] at hd
    exact h hd.symm
  rw [generate_mem_eq before inp reg hg, hd]

/-! ## The conversion `%f` of `sscanf` reads what `printf` prints -/

theorem isDigit_not_sign (c : Char) (h : c.isDigit = true) : ¬ (c = '+' ∨ c = '-') := by
  rintro (rfl | rfl) <;> exact absurd h (by decide)

theorem scan_first_digit (c : Char) (h : c.isDigit = true) :
    scan_first c = some .zero ∨ scan_first c = some .int := by
  unfold scan_first
  by_cases h0 : c = '0'
  · left; rw [if_pos h0]
  · right; rw [if_neg h0, if_pos h]

theorem scan_item_digits_int : ∀ (ds rest : List Char), (∀ c ∈ ds, c.isDigit = true) →
    scan_item .int (ds ++ rest) = scan_item .int rest
  | [], rest, _ => rfl
  | d :: ds, rest, h => by
    have hd : d.isDigit = true := h d (by simp)
    have : ScanState.next .int d = some .int := by simp [ScanState.next, hd]
    simp only [List.cons_append, scan_item, this]
    exact scan_item_digits_int ds rest (fun c hc => h c (by simp [hc]))

theorem scan_item_digits_frac : ∀ (ds rest : List Char), (∀ c ∈ ds, c.isDigit = true) →
    scan_item .frac (ds ++ rest) = scan_item .frac rest
  | [], rest, _ => rfl
  | d :: ds, rest, h => by
    have hd : d.isDigit = true := h d (by simp)
    have : ScanState.next .frac d = some .frac := by simp [ScanState.next, hd]
    simp only [List.cons_append, scan_item, this]
    exact scan_item_digits_frac ds rest (fun c hc => h c (by simp [hc]))

/-- After the digits of an integer part the scan is in the state `zero` or
`int`. -/
theorem scan_item_digits_first (st : ScanState) (hst : st = .start ∨ st = .sign) :
    ∀ (ds rest : List Char), ds ≠ [] → (∀ c ∈ ds, c.isDigit = true) →
    ∃ st1, (st1 = ScanState.zero ∨ st1 = ScanState.int) ∧
      scan_item st (ds ++ rest) = scan_item st1 rest
  | [], _, h, _ => absurd rfl h
  | d :: ds, rest, _, h => by
    have hd : d.isDigit = true := h d (by simp)
    have hds : ∀ c ∈ ds, c.isDigit = true := fun c hc => h c (by simp [hc])
    have hn : ScanState.next st d = scan_first d := by
      rcases hst with rfl | rfl
      · simp only [ScanState.next, if_neg (isDigit_not_sign d hd)]
      · rfl
    simp only [List.cons_append, scan_item, hn]
    rcases scan_first_digit d hd with h1 | h1
    · rw [h1]
      simp only []
      cases ds with
      | nil => exact ⟨.zero, Or.inl rfl, rfl⟩
      | cons e es =>
        have he : e.isDigit = true := hds e (by simp)
        have : ScanState.next .zero e = some .int := by simp [ScanState.next, he]
        simp only [List.cons_append, scan_item, this]
        exact ⟨.int, Or.inr rfl,
          scan_item_digits_int es rest (fun c hc => hds c (by simp [hc]))⟩
    · rw [h1]
      simp only []
      exact ⟨.int, Or.inr rfl, scan_item_digits_int ds rest hds⟩

/-- Where the scan of a number stops: at the end of the string or at a
space. -/
theorem scan_item_stop (st : ScanState) (rest : List Char)
    (hr : rest = [] ∨ ∃ t, rest = ' ' :: t) : scan_item st rest = (st, rest) := by
  rcases hr with rfl | ⟨t, rfl⟩
  · rfl
  · have : ScanState.next st ' ' = none := by
      cases st <;> decide
    simp only [scan_item, this]

theorem printf_u_digits_isDigit (fuel n : Nat) :
    ∀ c ∈ printf_u_digits fuel n, c.isDigit = true := by
  intro c hc
  obtain ⟨d, hd, e⟩ := printf_u_digits_digits _ _ c hc
  rw [e]
  exact (digit_char_isDigit d hd).1

theorem printf_0digits_isDigit : ∀ (k n : Nat), ∀ c ∈ printf_0digits k n, c.isDigit = true
  | 0, n, c, hc => by simp [printf_0digits] at hc
  | k + 1, n, c, hc => by
    unfold printf_0digits at hc
    rw [List.mem_append] at hc
    rcases hc with hc | hc
    · exact printf_0digits_isDigit k _ c hc
    · rw [List.mem_singleton] at hc
      rw [hc]
      exact (digit_char_isDigit _ (Nat.mod_lt _ (by decide))).1

/-- The scan of a number printed by `%f` or `%.Nf`, its sign apart, reads the
whole number and ends in a final state. -/
theorem scan_item_printf_body (st : ScanState) (hst : st = .start ∨ st = .sign) (prec : Nat)
    (x : PrintfFixed) (rest : List Char) (hr : rest = [] ∨ ∃ t, rest = ' ' :: t) :
    ∃ st1, st1.final = true ∧
      scan_item st ((match x.cls with
        | .infinite => String.toList "inf"
        | .nan => String.toList "nan"
        | .finite =>
          printf_u_digits (x.ipart.val + 1) x.ipart.val ++ '.' :: printf_0digits prec x.frac)
        ++ rest) = (st1, rest) := by
  cases hx : x.cls with
  | finite =>
    simp only []
    obtain ⟨st1, h1, h2⟩ := scan_item_digits_first st hst
      (printf_u_digits (x.ipart.val + 1) x.ipart.val)
      ('.' :: (printf_0digits prec x.frac ++ rest))
      (printf_u_digits_ne_nil _ _ (by omega)) (printf_u_digits_isDigit _ _)
    refine ⟨.frac, rfl, ?_⟩
    rw [List.append_assoc, List.cons_append, h2]
    have hdot : ScanState.next st1 '.' = some .frac := by
      rcases h1 with rfl | rfl <;> decide
    simp only [scan_item, hdot]
    rw [scan_item_digits_frac _ _ (printf_0digits_isDigit _ _)]
    exact scan_item_stop .frac rest hr
  | infinite =>
    simp only []
    refine ⟨.inf, rfl, ?_⟩
    have e : String.toList "inf" ++ rest = 'i' :: 'n' :: 'f' :: rest := rfl
    have h1 : ScanState.next st 'i' = some .i := by
      rcases hst with rfl | rfl <;> decide
    have h2 : ScanState.next .i 'n' = some .in_ := by decide
    have h3 : ScanState.next .in_ 'f' = some .inf := by decide
    rw [e]
    simp only [scan_item, h1, h2, h3]
    exact scan_item_stop .inf rest hr
  | nan =>
    simp only []
    refine ⟨.nan, rfl, ?_⟩
    have e : String.toList "nan" ++ rest = 'n' :: 'a' :: 'n' :: rest := rfl
    have h1 : ScanState.next st 'n' = some .n := by
      rcases hst with rfl | rfl <;> decide
    have h2 : ScanState.next .n 'a' = some .na := by decide
    have h3 : ScanState.next .na 'n' = some .nan := by decide
    rw [e]
    simp only [scan_item, h1, h2, h3]
    exact scan_item_stop .nan rest hr

/-- The scan of a number printed by `%f` or `%.Nf` reads the whole number. -/
theorem scan_item_printf (prec : Nat) (x : PrintfFixed) (rest : List Char)
    (hr : rest = [] ∨ ∃ t, rest = ' ' :: t) :
    ∃ st1, st1.final = true ∧ scan_item .start (printf_f prec x ++ rest) = (st1, rest) := by
  unfold printf_f
  cases hn : x.neg with
  | false =>
    simp only [Bool.false_eq_true, if_false, List.nil_append]
    exact scan_item_printf_body .start (Or.inl rfl) prec x rest hr
  | true =>
    simp only [if_true, List.singleton_append, List.cons_append]
    have h1 : ScanState.next .start '-' = some .sign := by decide
    simp only [scan_item, h1]
    exact scan_item_printf_body .sign (Or.inr rfl) prec x rest hr

/-- A number printed by `%f` or `%.Nf` does not start with white space. -/
theorem printf_f_head (prec : Nat) (x : PrintfFixed) :
    ∃ c t, printf_f prec x = c :: t ∧ c_isspace c = false := by
  unfold printf_f
  cases hn : x.neg with
  | true => exact ⟨'-', _, rfl, by decide⟩
  | false =>
    simp only [Bool.false_eq_true, if_false, List.nil_append]
    cases hx : x.cls with
    | infinite => exact ⟨'i', _, rfl, by decide⟩
    | nan => exact ⟨'n', _, rfl, by decide⟩
    | finite =>
      simp only []
      cases hp : printf_u_digits (x.ipart.val + 1) x.ipart.val with
      | nil => exact absurd hp (printf_u_digits_ne_nil _ _ (by omega))
      | cons c cs =>
        refine ⟨c, _, rfl, ?_⟩
        obtain ⟨d, hd, e⟩ := printf_u_digits_digits _ _ c (by rw [hp]; simp)
        rw [e]
        exact (digit_char_isDigit d hd).2.2.2.2.2.2.2.2

/-- One conversion `%f` reads a number printed by `%f` or `%.Nf` after a
space, up to the next space or the end of the string. -/
theorem sscanf_f_printf (prec : Nat) (x : PrintfFixed) (rest : List Char)
    (hr : rest = [] ∨ ∃ t, rest = ' ' :: t) :
    sscanf_f (' ' :: (printf_f prec x ++ rest)) = some (printf_f prec x, rest) := by
  obtain ⟨c, t, hc, hsp⟩ := printf_f_head prec x
  obtain ⟨st1, hf, hs⟩ := scan_item_printf prec x rest hr
  have hd : (' ' :: (printf_f prec x ++ rest)).dropWhile c_isspace = printf_f prec x ++ rest := by
    have h1 : c_isspace ' ' = true := by decide
    rw [List.dropWhile_cons, if_pos h1, hc, List.cons_append, List.dropWhile_cons, hsp]
    rfl
  unfold sscanf_f
  simp only [hd, hs, hf, if_true]
  rw [List.length_append, Nat.add_sub_cancel, List.take_left]

theorem sscanf_floats_printf (prec : Nat) : ∀ (ps : List PrintfFixed),
    sscanf_floats ps.length ((ps.map (fun p => ' ' :: printf_f prec p)).flatten)
      = some (ps.map (printf_f prec))
  | [] => rfl
  | p :: ps => by
    have hr : (ps.map (fun p => ' ' :: printf_f prec p)).flatten = [] ∨
        ∃ t, (ps.map (fun p => ' ' :: printf_f prec p)).flatten = ' ' :: t := by
      cases ps with
      | nil => exact Or.inl rfl
      | cons q qs => exact Or.inr ⟨_, rfl⟩
    simp only [List.map_cons, List.flatten_cons, List.length_cons, sscanf_floats,
      List.cons_append]
    rw [sscanf_f_printf prec p _ hr]
    simp only [sscanf_floats_printf prec ps, Option.map_some']

/-- The reader whose `colcorval` and `primsval` are the calls of `sscanf`
reads back the numbers that `printf` prints. -/
theorem libc_reads_printf (M : RadArith) : sscanf_reads_printf (RadFloat.libc M) := by
  constructor
  · intro a b c
    have h := sscanf_floats_printf 6 [a, b, c]
    simp only [List.map_cons, List.map_nil, List.flatten_cons, List.flatten_nil,
      List.append_nil, List.length_cons, List.length_nil] at h
    have e : ' ' :: printf_f 6 a ++ ' ' :: printf_f 6 b ++ ' ' :: printf_f 6 c
        = (' ' :: printf_f 6 a) ++ ((' ' :: printf_f 6 b) ++ (' ' :: printf_f 6 c)) := by
      simp only [List.append_assoc]
    rw [e]
    simp only [RadFloat.libc]
    rw [h]
    simp
  · intro ps h8
    have h := sscanf_floats_printf 4 ps
    rw [h8] at h
    simp only [RadFloat.libc]
    rw [h]
    simp

/-- C12, amended. Header dimension round trip: for every image of width `W`
and height `H` with `0 < W, H < VIPS_MAX_COORD` whose header format string
holds no line feed (the format string is the rad-format metadata, a C string,
cut to 255 characters, unless the interpretation is scRGB or XYZ, where it is
the fixed identifier), parsing the header text written by
`vips2rad_put_header` succeeds and declares an image of width `W` and height
`H` with 4 bands, uchar format and RAD coding. The numbers of the header are
printed in decimal by `printf`, whatever their values, and read with the
conversions `%f` of `sscanf`, whatever the values these give. -/
theorem header_roundtrip (M : RadArith) (V : RadDecimal) (pre : Char)
    (img : SaveImage (RadPrint.decimal V))
    (hW : 0 < img.Xsize ∧ img.Xsize < VIPS_MAX_COORD)
    (hH : 0 < img.Ysize ∧ img.Ysize < VIPS_MAX_COORD)
    (hfmt : '\n' ∉ (vips2rad_make_header (RadPrint.decimal V) img
      (write_new (RadPrint.decimal V))).format) :
    ∃ r out, rad2vips_get_header (RadFloat.libc M) pre
        (sbuf_lines (vips2rad_put_header (RadPrint.decimal V) img
          (write_new (RadPrint.decimal V)))) (read_new (RadFloat.libc M)) = some (r, out, []) ∧
      out.Xsize = img.Xsize ∧ out.Ysize = img.Ysize ∧ out.Bands = 4 ∧
      out.BandFmt = VipsBandFormat.UCHAR ∧ out.Coding = VipsCoding.RAD :=
  header_read_back_decimal (RadFloat.libc M) V pre img hW hH hfmt (libc_reads_printf M)

/-- An instance of the round trip: a 5 x 3 scRGB image without metadata. -/
theorem header_roundtrip_witness :
    ∃ r out, rad2vips_get_header (RadFloat.libc RadArith.unit) ' '
        (sbuf_lines (vips2rad_put_header (RadPrint.decimal RadDecimal.digits)
          ⟨5, 3, VipsInterpretation.scRGB, none, none, none, (none, none, none), []⟩
          (write_new (RadPrint.decimal RadDecimal.digits))))
          (read_new (RadFloat.libc RadArith.unit)) = some (r, out, []) ∧
      out.Xsize = 5 ∧ out.Ysize = 3 ∧ out.Bands = 4 ∧
      out.BandFmt = VipsBandFormat.UCHAR ∧ out.Coding = VipsCoding.RAD :=
  header_roundtrip RadArith.unit RadDecimal.digits ' '
    ⟨5, 3, VipsInterpretation.scRGB, none, none, none, (none, none, none), []⟩
    (by decide) (by decide) (by decide)

/-- The header written with a line feed as rad-format metadata is refused by
this reader too, and so is a header whose colour correction line is not three
numbers; one with the numbers `1.0 2e-3 .5` is read. -/
theorem libc_reader_refuses :
    (rad2vips_get_header (RadFloat.libc RadArith.unit) ' '
      (sbuf_lines (vips2rad_put_header (RadPrint.decimal RadDecimal.digits)
        ⟨1, 1, VipsInterpretation.MULTIBAND, none, none, some ['\n'], (none, none, none), []⟩
        (write_new (RadPrint.decimal RadDecimal.digits))))
      (read_new (RadFloat.libc RadArith.unit))).isNone = true ∧
    (rad2vips_get_header (RadFloat.libc RadArith.unit) ' '
      [String.toList "#?RADIANCE", String.toList "COLORCORR= 1.0 x 1.0", [],
        String.toList "-Y 3 +X 5"]
      (read_new (RadFloat.libc RadArith.unit))).isNone = true ∧
    (rad2vips_get_header (RadFloat.libc RadArith.unit) ' '
      [String.toList "#?RADIANCE", String.toList "COLORCORR= 1.0 2e-3 .5", [],
        String.toList "-Y 3 +X 5"]
      (read_new (RadFloat.libc RadArith.unit))).isSome = true := by
  set_option maxRecDepth 100000 in
  decide

end Vips
